import Mathlib

/-!
# Buffer pool manager and join operators of the executor project

A shallow embedding of `BufMgr` (clock replacement, pin counts, dirty
write-back, hash-indexed frame lookup) together with the collaborators it
calls.  `buffer.h`, the frame hash table and the file/page library are not part
of the source tree at hand; their behaviour is taken from the specification and
every such definition says so in its doc comment.

Conventions of the embedding:
* a C++ method that mutates the manager is a function from the state to a
  result paired with the state it leaves behind; a thrown exception is
  `Except.error`, and the state is kept because the C++ code mutates in place
  before it throws;
* `FrameId`, `PageId` are `std::uint32_t`; they are `Nat` here with an explicit
  `% 2 ^ 32` wherever the source can wrap;
* a `Page *` handed to the caller is the index of the pool slot it points into.

The second part embeds `src/executor.cpp` (`split`, `createResultTableSchema`,
the one-pass and the block nested-loop join) and the tuple construction of
`src/storage.cpp`.  A join reads the pages its two file iterators yield, given
as lists of records, and its calls on the buffer manager and on the result page
are recorded in call order; a `std::string` is a `String` whose positions are
indices into its list of characters, with `none` for `string::npos`.
-/

namespace badgerdb

abbrev PageId := Nat
abbrev FrameId := Nat

/-- Modelled from the spec: the `Page` collaborator (spec section 3 and 6), an
in-memory snapshot of a disk page: its page identifier and its records. -/
structure Page where
  page_number : PageId
  records : List String
deriving DecidableEq, Repr

/-- Modelled from the spec: a `File` handle (spec section 6).  Two handles with
the same `filename` denote the same underlying file; `handle` tells distinct
handle objects apart (the address of the C++ object). -/
structure File where
  handle : Nat
  filename : String
deriving DecidableEq, Repr

/-- The exceptions that cross the buffer manager (spec section 7), with the
arguments the source passes to their constructors.  `Undefined` is not a C++
exception: it marks behaviour the C++ standard leaves undefined (a null `File *`
is dereferenced). -/
inductive Exn where
  | BufferExceeded
  | PageNotPinned (filename : String) (pageNo : PageId) (frameNo : FrameId)
  | PagePinned (filename : String) (pageNo : PageId) (frameNo : FrameId)
  | BadBuffer (frameNo : FrameId) (dirty valid refbit : Bool)
  | HashNotFound (filename : String) (pageNo : PageId)
  | InvalidPage (pageNo : PageId) (filename : String)
  | Undefined
deriving DecidableEq, Repr

/-! ## The file collaborator -/

/-- One call into the file layer, as observed from outside. -/
inductive IOEvent where
  | read (filename : String) (pageNo : PageId)
  | write (filename : String) (page : Page)
  | allocate (filename : String) (pageNo : PageId)
  | delete (filename : String) (pageNo : PageId)
deriving DecidableEq, Repr

/-- Modelled from the spec: the state behind all `File` handles (spec section
6): the page images stored per filename, and the log of the calls made so far
(oldest first). -/
structure Disk where
  stored : List (String × Page)
  log : List IOEvent
deriving DecidableEq, Repr

/-- The stored image of page `pageNo` of the file called `filename`. -/
def Disk.find (d : Disk) (filename : String) (pageNo : PageId) : Option Page :=
  (d.stored.find? (fun e => decide (e.1 = filename ∧ e.2.page_number = pageNo))).map Prod.snd

/-- Modelled from the spec: `file.read_page(page_id) → Page`; `InvalidPage` is
the file collaborator's error for a page that does not exist. -/
def File.readPage (file : File) (pageNo : PageId) (d : Disk) : Except Exn Page × Disk :=
  let d1 : Disk := { d with log := d.log ++ [IOEvent.read file.filename pageNo] }
  match d.find file.filename pageNo with
  | some pg => (.ok pg, d1)
  | none => (.error (Exn.InvalidPage pageNo file.filename), d1)

/-- Modelled from the spec: `file.write_page(Page)` stores the image under the
page's own identifier; `InvalidPage` when the file has no such page. -/
def File.writePage (file : File) (page : Page) (d : Disk) : Except Exn Unit × Disk :=
  let d1 : Disk := { d with log := d.log ++ [IOEvent.write file.filename page] }
  match d.find file.filename page.page_number with
  | some _ =>
    (.ok (), { d1 with stored := d.stored.map (fun e =>
        if e.1 = file.filename ∧ e.2.page_number = page.page_number then (e.1, page) else e) })
  | none => (.error (Exn.InvalidPage page.page_number file.filename), d1)

/-- The page identifier `allocatePage` hands out next: one more than every page
identifier the file holds (identifier `0` is the invalid page number). -/
def Disk.freshPageNo (d : Disk) (filename : String) : PageId :=
  ((d.stored.filter (fun e => decide (e.1 = filename))).map (fun e => e.2.page_number)).foldr max 0 + 1

/-- Modelled from the spec: `file.allocate_page() → Page` returns a new, empty
in-memory page with a fresh page id and records the page in the file. -/
def File.allocatePage (file : File) (d : Disk) : Page × Disk :=
  let newPage : Page := { page_number := d.freshPageNo file.filename, records := [] }
  (newPage, { stored := d.stored ++ [(file.filename, newPage)],
              log := d.log ++ [IOEvent.allocate file.filename newPage.page_number] })

/-- Modelled from the spec: `file.delete_page(page_id)`; `InvalidPage` when the
file has no such page. -/
def File.deletePage (file : File) (pageNo : PageId) (d : Disk) : Except Exn Unit × Disk :=
  let d1 : Disk := { d with log := d.log ++ [IOEvent.delete file.filename pageNo] }
  match d.find file.filename pageNo with
  | some _ =>
    (.ok (), { d1 with stored := d.stored.filter (fun e =>
        !decide (e.1 = file.filename ∧ e.2.page_number = pageNo)) })
  | none => (.error (Exn.InvalidPage pageNo file.filename), d1)

/-! ## The frame hash index -/

/-- Modelled from the spec: one entry of the frame hash index (spec section
4.B), mapping `(file, pageNo)` to `frameNo`. -/
structure hashBucket where
  file : File
  pageNo : PageId
  frameNo : FrameId
deriving DecidableEq, Repr

/-- Modelled from the spec: the frame hash index `BufHashTbl` (spec section
4.B).  The chained bucket array is flattened to one chain; the spec promises no
ordering. -/
abbrev BufHashTbl := List hashBucket

/-- Key comparison of the index: filename equality for the file and exact
equality for the page id (spec section 4.B). -/
def hashBucket.matches (b : hashBucket) (file : File) (pageNo : PageId) : Bool :=
  decide (b.file.filename = file.filename ∧ b.pageNo = pageNo)

/-- Modelled from the spec: `insert(file, page_id, frame_index)` adds a
mapping. -/
def BufHashTbl.insert (ht : BufHashTbl) (file : File) (pageNo : PageId) (frameNo : FrameId) :
    BufHashTbl :=
  { file := file, pageNo := pageNo, frameNo := frameNo } :: ht

/-- Modelled from the spec: `lookup(file, page_id) → frame_index`; `none` is
the `HashNotFound` signal. -/
def BufHashTbl.lookup (ht : BufHashTbl) (file : File) (pageNo : PageId) : Option FrameId :=
  (ht.find? (fun b => b.matches file pageNo)).map hashBucket.frameNo

/-- Modelled from the spec: `remove(file, page_id)` deletes an existing mapping;
`none` is the `HashNotFound` signal for an absent key. -/
def BufHashTbl.remove (ht : BufHashTbl) (file : File) (pageNo : PageId) : Option BufHashTbl :=
  match ht.find? (fun b => b.matches file pageNo) with
  | some _ => some (ht.eraseP (fun b => b.matches file pageNo))
  | none => none

/-! ## Frame descriptors -/

/-- Modelled from the spec: the frame descriptor `BufDesc` of `buffer.h` (spec
section 3, "Frame").  The field names are the ones `buffer.cpp` uses. -/
structure BufDesc where
  file : Option File
  pageNo : PageId
  frameNo : FrameId
  pinCnt : Nat
  dirty : Bool
  valid : Bool
  refbit : Bool
deriving DecidableEq, Repr

/-- Modelled from the spec: `BufDesc::Clear()` resets all mutable fields to the
empty state `valid=false, pin_count=0, dirty=false, ref_bit=false, file=none,
page_id=0` (spec section 4.A); the frame index stays. -/
def BufDesc.Clear (d : BufDesc) : BufDesc :=
  { d with file := none, pageNo := 0, pinCnt := 0, dirty := false, valid := false,
           refbit := false }

/-- Modelled from the spec: `BufDesc::Set(file, pageNo)`, the spec's
`seat(file, page_id)`: `valid=true, pin_count=1, dirty=false, file, page_id`.
The spec gives both values for the reference bit after seating (section 4.C:
`ref_bit=true` in the contract table, `ref_bit=false` under "Miss/hit paths"),
so the value is the parameter `seatRef`. -/
def BufDesc.Set (seatRef : Bool) (d : BufDesc) (file : File) (pageNo : PageId) : BufDesc :=
  { d with file := some file, pageNo := pageNo, pinCnt := 1, dirty := false, valid := true,
           refbit := seatRef }

/-- Modelled from the spec: a descriptor as the `BufDesc` default constructor
leaves it (empty state), with the frame index `BufMgr::BufMgr` assigns. -/
def BufDesc.init (i : FrameId) : BufDesc :=
  { file := none, pageNo := 0, frameNo := i, pinCnt := 0, dirty := false, valid := false,
    refbit := false }

/-- Modelled from the spec: a default-constructed `Page` (no page number, no
records). -/
def Page.empty : Page := { page_number := 0, records := [] }

/-! ## The buffer manager -/

/-- The state of a `BufMgr` (`buffer.h` is not in the source tree; the members
are the ones `buffer.cpp` uses): the descriptor table, the page images of the
pool, the hash index and the clock hand.  `numBufs` is the length of the
descriptor table.  `disk` is the state of the file layer the manager reaches
through its `File *` arguments. -/
structure BufMgr where
  bufDescTable : List BufDesc
  bufPool : List Page
  hashTable : BufHashTbl
  clockHand : FrameId
  disk : Disk
deriving DecidableEq, Repr

/-- The member `numBufs`: the number of frames, fixed at construction. -/
def BufMgr.numBufs (s : BufMgr) : Nat := s.bufDescTable.length

/-- The descriptor `bufDescTable[i]`. -/
def BufMgr.desc (s : BufMgr) (i : FrameId) : BufDesc := s.bufDescTable.getD i (BufDesc.init i)

/-- The page image `bufPool[i]`. -/
def BufMgr.page (s : BufMgr) (i : FrameId) : Page := s.bufPool.getD i Page.empty

/-- The constructor `BufMgr::BufMgr(bufs)`: every descriptor gets its own index
and `valid = false`, the hash table is empty, and the clock hand is `bufs - 1`
in `std::uint32_t` arithmetic. -/
def BufMgr.new (bufs : Nat) (disk : Disk) : BufMgr :=
  { bufDescTable := (List.range bufs).map BufDesc.init
    bufPool := List.replicate bufs Page.empty
    hashTable := []
    clockHand := (bufs + 2 ^ 32 - 1) % 2 ^ 32
    disk := disk }

/-- The method `BufMgr::advanceClock`: `clockHand = (clockHand + 1) % numBufs`
on `std::uint32_t`. -/
def BufMgr.advanceClock (s : BufMgr) : BufMgr :=
  { s with clockHand := (s.clockHand + 1) % 2 ^ 32 % s.numBufs }

/-- Lines 86-94 of `BufMgr::allocBuf`: the frame under the clock hand is valid,
not referenced and not pinned; write it back if dirty, remove its hash entry,
clear its descriptor and return it. -/
def BufMgr.evict (s1 : BufMgr) : Except Exn FrameId × BufMgr :=
  let tempBufDesc := s1.desc s1.clockHand
  let tempPageID := tempBufDesc.pageNo
  let tempFrameID := tempBufDesc.frameNo
  match tempBufDesc.file with
  | none => (.error Exn.Undefined, s1)
  | some tempFile =>
    match (if tempBufDesc.dirty = true then tempFile.writePage (s1.page tempFrameID) s1.disk
           else (.ok (), s1.disk)) with
    | (.error e, disk1) => (.error e, { s1 with disk := disk1 })
    | (.ok _, disk1) =>
      match s1.hashTable.remove tempFile tempPageID with
      | none =>
        (.error (Exn.HashNotFound tempFile.filename tempPageID), { s1 with disk := disk1 })
      | some ht =>
        (.ok tempFrameID,
          { s1 with
            disk := disk1
            hashTable := ht
            bufDescTable := s1.bufDescTable.set tempFrameID (s1.desc tempFrameID).Clear })

/-- The `while (true)` loop of `BufMgr::allocBuf`, one iteration per unit of
fuel; `none` means the fuel ran out before the loop returned or threw. -/
def BufMgr.allocBufLoop : Nat → BufMgr → Nat → Option (Except Exn FrameId × BufMgr)
  | 0, _, _ => none
  | fuel + 1, s, pinnedFrameCount =>
    if pinnedFrameCount = s.numBufs then
      some (.error Exn.BufferExceeded, s)
    else
      let s1 := s.advanceClock
      let tempBufDesc := s1.desc s1.clockHand
      if tempBufDesc.valid = true then
        if tempBufDesc.refbit = true then
          BufMgr.allocBufLoop fuel
            { s1 with bufDescTable :=
                s1.bufDescTable.set s1.clockHand { tempBufDesc with refbit := false } }
            pinnedFrameCount
        else if tempBufDesc.pinCnt > 0 then
          BufMgr.allocBufLoop fuel s1 (pinnedFrameCount + 1)
        else
          some s1.evict
      else
        some (.ok tempBufDesc.frameNo, s1)

/-- The method `BufMgr::allocBuf`: the clock sweep, started with
`pinnedFrameCount = 0`.  The fuel `2 * numBufs + 1` is enough for every state
(`allocBuf_isSome`). -/
def BufMgr.allocBuf (s : BufMgr) : Option (Except Exn FrameId × BufMgr) :=
  s.allocBufLoop (2 * s.numBufs + 1) 0

/-- The method `BufMgr::readPage(file, pageNo, page)`; the frame index returned
stands for the pointer `&bufPool[frameNo]`. -/
def BufMgr.readPage (seatRef : Bool) (s : BufMgr) (file : File) (pageNo : PageId) :
    Option (Except Exn FrameId × BufMgr) :=
  match s.hashTable.lookup file pageNo with
  | some frameNo =>
    let d := s.desc frameNo
    some (.ok frameNo,
      { s with bufDescTable :=
          s.bufDescTable.set frameNo { d with refbit := true, pinCnt := d.pinCnt + 1 } })
  | none =>
    match s.allocBuf with
    | none => none
    | some (.error e, s1) => some (.error e, s1)
    | some (.ok frameNo, s1) =>
      match file.readPage pageNo s1.disk with
      | (.error e, disk1) => some (.error e, { s1 with disk := disk1 })
      | (.ok tempPage, disk1) =>
        some (.ok frameNo,
          { s1 with
            disk := disk1
            hashTable := s1.hashTable.insert file pageNo frameNo
            bufDescTable :=
              s1.bufDescTable.set frameNo ((s1.desc frameNo).Set seatRef file pageNo)
            bufPool := s1.bufPool.set frameNo tempPage })

/-- The method `BufMgr::unPinPage(file, pageNo, dirty)`. -/
def BufMgr.unPinPage (s : BufMgr) (file : File) (pageNo : PageId) (dirty : Bool) :
    Except Exn Unit × BufMgr :=
  match s.hashTable.lookup file pageNo with
  | none => (.ok (), s)
  | some frameNo =>
    let tempBufDesc := s.desc frameNo
    let tempBufDesc := if dirty = true then { tempBufDesc with dirty := true } else tempBufDesc
    if tempBufDesc.pinCnt = 0 then
      (.error (Exn.PageNotPinned file.filename pageNo frameNo),
       { s with bufDescTable := s.bufDescTable.set frameNo tempBufDesc })
    else
      (.ok (),
       { s with bufDescTable :=
           s.bufDescTable.set frameNo { tempBufDesc with pinCnt := tempBufDesc.pinCnt - 1 } })

/-- The body of the `for` loop of `BufMgr::flushFile` for frame `i`. -/
def BufMgr.flushFrame (file : File) (i : Nat) (s : BufMgr) : Except Exn Unit × BufMgr :=
  let tempBufDesc := s.desc i
  let tempFrameNo := tempBufDesc.frameNo
  let tempPageNo := tempBufDesc.pageNo
  match tempBufDesc.file with
  | none => (.ok (), s)
  | some tempFile =>
    if file.filename ≠ tempFile.filename then (.ok (), s)
    else if tempBufDesc.valid = false then
      (.error (Exn.BadBuffer tempFrameNo tempBufDesc.dirty false tempBufDesc.refbit), s)
    else if tempBufDesc.pinCnt > 0 then
      (.error (Exn.PagePinned file.filename tempPageNo tempFrameNo), s)
    else
      -- step (a)
      match (if tempBufDesc.dirty = true then tempFile.writePage (s.page tempFrameNo) s.disk
             else (.ok (), s.disk)) with
      | (.error e, disk1) => (.error e, { s with disk := disk1 })
      | (.ok _, disk1) =>
        let cleanDesc : BufDesc := { tempBufDesc with dirty := false }
        -- step (b)
        match s.hashTable.remove file tempPageNo with
        | none =>
          (.error (Exn.HashNotFound file.filename tempPageNo),
           { s with disk := disk1, bufDescTable := s.bufDescTable.set i cleanDesc })
        | some ht =>
          -- step (c)
          (.ok (),
           { s with disk := disk1, hashTable := ht,
                    bufDescTable := s.bufDescTable.set i cleanDesc.Clear })

/-- The `for` loop of `BufMgr::flushFile` over the frame indices still to
visit; it stops at the first exception. -/
def BufMgr.flushFileLoop (file : File) : List Nat → BufMgr → Except Exn Unit × BufMgr
  | [], s => (.ok (), s)
  | i :: rest, s =>
    match s.flushFrame file i with
    | (.error e, s1) => (.error e, s1)
    | (.ok _, s1) => BufMgr.flushFileLoop file rest s1

/-- The method `BufMgr::flushFile(file)`: frames `0 .. numBufs - 1` in
ascending order. -/
def BufMgr.flushFile (s : BufMgr) (file : File) : Except Exn Unit × BufMgr :=
  BufMgr.flushFileLoop file (List.range s.numBufs) s

/-- The method `BufMgr::allocPage(file, pageNo, page)`; returns the new page
number and the frame index that stands for the page pointer. -/
def BufMgr.allocPage (seatRef : Bool) (s : BufMgr) (file : File) :
    Option (Except Exn (PageId × FrameId) × BufMgr) :=
  match file.allocatePage s.disk with
  | (newPage, disk0) =>
    let pageNo := newPage.page_number
    match ({ s with disk := disk0 } : BufMgr).allocBuf with
    | none => none
    | some (.error e, s1) => some (.error e, s1)
    | some (.ok frameNo, s1) =>
      some (.ok (pageNo, frameNo),
        { s1 with
          hashTable := s1.hashTable.insert file pageNo frameNo
          bufDescTable := s1.bufDescTable.set frameNo ((s1.desc frameNo).Set seatRef file pageNo)
          bufPool := s1.bufPool.set frameNo newPage })

/-- The method `BufMgr::disposePage(file, pageNo)`.  `frameNo` starts as
`numBufs + 1` (in `std::uint32_t`); a `HashNotFound` from `lookup` or `remove`
is swallowed by the `catch` block, after which the file deletes the page. -/
def BufMgr.disposePage (s : BufMgr) (file : File) (pageNo : PageId) : Except Exn Unit × BufMgr :=
  let afterTry : Option BufMgr :=
    match s.hashTable.lookup file pageNo with
    | none => some s
    | some frameNo =>
      if frameNo = (s.numBufs + 1) % 2 ^ 32 then none
      else
        let s1 : BufMgr :=
          { s with bufDescTable := s.bufDescTable.set frameNo (s.desc frameNo).Clear }
        match s1.hashTable.remove file pageNo with
        | none => some s1
        | some ht => some { s1 with hashTable := ht }
  match afterTry with
  | none => (.ok (), s)
  | some s2 =>
    match file.deletePage pageNo s2.disk with
    | (r, disk1) => (r, { s2 with disk := disk1 })

/-- A client writing through the `Page *` that `readPage` or `allocPage`
returned: the records of the image in slot `frameNo` change, its page number
does not. -/
def BufMgr.modifyPage (s : BufMgr) (frameNo : FrameId) (records : List String) : BufMgr :=
  { s with bufPool := s.bufPool.set frameNo { s.page frameNo with records := records } }

/-! ## Observations on the file log -/

/-- Whether a log entry is a `writePage` of page `pageNo` of file `filename`. -/
def IOEvent.isWriteOf (filename : String) (pageNo : PageId) : IOEvent → Bool
  | .write fn pg => decide (fn = filename ∧ pg.page_number = pageNo)
  | _ => false

/-- Whether a log entry is any `writePage`. -/
def IOEvent.isWrite : IOEvent → Bool
  | .write _ _ => true
  | _ => false

/-- Number of `writePage` calls for page `pageNo` of file `filename` so far. -/
def BufMgr.writeCount (s : BufMgr) (filename : String) (pageNo : PageId) : Nat :=
  s.disk.log.countP (IOEvent.isWriteOf filename pageNo)

/-! ## Invariants and reachable states -/

/-- Frame `i` caches page `pageNo` of a file called `filename`. -/
def BufMgr.caches (s : BufMgr) (i : FrameId) (filename : String) (pageNo : PageId) : Prop :=
  (s.desc i).valid = true ∧ (s.desc i).pageNo = pageNo ∧
    ∃ f, (s.desc i).file = some f ∧ f.filename = filename

/-- Frame `i` is owned by a file called `filename`: its descriptor holds a file
pointer that is not null and has that filename (the test of line 174 of
`flushFile`). -/
def BufMgr.ownedBy (s : BufMgr) (i : FrameId) (filename : String) : Prop :=
  ∃ g, (s.desc i).file = some g ∧ g.filename = filename

/-- The representation invariant of the manager: the frame invariants of the
spec (section 3) together with the facts that tie frames, hash index, page
images and the file layer to each other. -/
structure BufMgr.WF (s : BufMgr) : Prop where
  size_lt : s.numBufs < 2 ^ 32
  pool_len : s.bufPool.length = s.numBufs
  frameNo_eq : ∀ i, i < s.numBufs → (s.desc i).frameNo = i
  valid_hash : ∀ i, i < s.numBufs → (s.desc i).valid = true →
    ∃ f, (s.desc i).file = some f ∧ s.hashTable.lookup f (s.desc i).pageNo = some i
  invalid_clear : ∀ i, i < s.numBufs → (s.desc i).valid = false →
    (s.desc i).file = none ∧ (s.desc i).pinCnt = 0
  hash_valid : ∀ b ∈ s.hashTable, b.frameNo < s.numBufs ∧
    s.caches b.frameNo b.file.filename b.pageNo
  hash_nodup : s.hashTable.Pairwise
    (fun a b => ¬ (a.file.filename = b.file.filename ∧ a.pageNo = b.pageNo))
  on_disk : ∀ i, i < s.numBufs → ∀ fn p, s.caches i fn p → (s.disk.find fn p).isSome = true
  image_no : ∀ i, i < s.numBufs → (s.desc i).valid = true →
    (s.page i).page_number = (s.desc i).pageNo

/-- The states of a manager that a client can produce: a freshly constructed
pool over any disk, followed by any calls of the public methods (whatever their
outcome) and any writes through the page pointers handed out. -/
inductive Reachable (seatRef : Bool) : BufMgr → Prop where
  | new (bufs : Nat) (disk : Disk) (h : bufs < 2 ^ 32) : Reachable seatRef (BufMgr.new bufs disk)
  | readPage {s : BufMgr} (file : File) (pageNo : PageId) (r : Except Exn FrameId)
      (s1 : BufMgr) : Reachable seatRef s → s.readPage seatRef file pageNo = some (r, s1) →
      Reachable seatRef s1
  | allocPage {s : BufMgr} (file : File) (r : Except Exn (PageId × FrameId)) (s1 : BufMgr) :
      Reachable seatRef s → s.allocPage seatRef file = some (r, s1) → Reachable seatRef s1
  | unPinPage {s : BufMgr} (file : File) (pageNo : PageId) (dirty : Bool) :
      Reachable seatRef s → Reachable seatRef (s.unPinPage file pageNo dirty).2
  | flushFile {s : BufMgr} (file : File) :
      Reachable seatRef s → Reachable seatRef (s.flushFile file).2
  | disposePage {s : BufMgr} (file : File) (pageNo : PageId) :
      Reachable seatRef s → Reachable seatRef (s.disposePage file pageNo).2
  | modifyPage {s : BufMgr} (frameNo : FrameId) (records : List String) :
      Reachable seatRef s → Reachable seatRef (s.modifyPage frameNo records)

/-- The sweep of `allocBuf` up to its last iteration only moves the clock hand
and clears reference bits: `Sweep s t` says `t` differs from `s` in nothing
else. -/
structure Sweep (s t : BufMgr) : Prop where
  len : t.numBufs = s.numBufs
  pool : t.bufPool = s.bufPool
  hash : t.hashTable = s.hashTable
  disk : t.disk = s.disk
  desc : ∀ i, t.desc i = { s.desc i with refbit := (t.desc i).refbit }
  ref : ∀ i, (t.desc i).refbit = true → (s.desc i).refbit = true

/-! ## Concrete files, disks and pools used in the examples -/

/-- A handle on the file `r.tbl`. -/
def exFile : File := { handle := 1, filename := "r.tbl" }

/-- A disk on which `r.tbl` holds the pages 1 to 4. -/
def exDisk : Disk :=
  { stored := [("r.tbl", { page_number := 1, records := ["a"] }),
               ("r.tbl", { page_number := 2, records := ["b"] }),
               ("r.tbl", { page_number := 3, records := ["c"] }),
               ("r.tbl", { page_number := 4, records := ["d"] })]
    log := [] }

/-- A pool of two frames over `exDisk` after `readPage(1)`, `readPage(2)`,
`unPinPage(1)`, `readPage(3)`, `readPage(3)`, `unPinPage(3)`, `unPinPage(3)`:
frame 0 caches page 3, unpinned, with its reference bit set by the second
`readPage(3)`; frame 1 caches page 2, pinned once, its reference bit clear; the
clock hand is on frame 0. -/
def exTwoFrames : BufMgr :=
  { bufDescTable :=
      [{ file := some exFile, pageNo := 3, frameNo := 0, pinCnt := 0, dirty := false,
         valid := true, refbit := true },
       { file := some exFile, pageNo := 2, frameNo := 1, pinCnt := 1, dirty := false,
         valid := true, refbit := false }]
    bufPool := [{ page_number := 3, records := ["c"] }, { page_number := 2, records := ["b"] }]
    hashTable := [{ file := exFile, pageNo := 3, frameNo := 0 },
                  { file := exFile, pageNo := 2, frameNo := 1 }]
    clockHand := 0
    disk := { exDisk with log := [IOEvent.read "r.tbl" 1, IOEvent.read "r.tbl" 2,
                                  IOEvent.read "r.tbl" 3] } }

/-- A pool of two frames over `exDisk` after `readPage(1)`: frame 0 caches page
1 and is pinned once, frame 1 is empty. -/
def exOneRead (seatRef : Bool) : BufMgr :=
  { bufDescTable :=
      [{ file := some exFile, pageNo := 1, frameNo := 0, pinCnt := 1, dirty := false,
         valid := true, refbit := seatRef },
       BufDesc.init 1]
    bufPool := [{ page_number := 1, records := ["a"] }, Page.empty]
    hashTable := [{ file := exFile, pageNo := 1, frameNo := 0 }]
    clockHand := 0
    disk := { exDisk with log := [IOEvent.read "r.tbl" 1] } }

/-! ## Predicates used to state the claims -/

/-- Frame `i` of state `s` is still in place in state `s1`: it is valid, caches
the same file and page, the hash index finds it under that key, and its pin
count has not decreased. -/
def BufMgr.keptPinned (s s1 : BufMgr) (i : FrameId) : Prop :=
  (s1.desc i).valid = true ∧ (s1.desc i).file = (s.desc i).file ∧
  (s1.desc i).pageNo = (s.desc i).pageNo ∧
  (∃ f, (s1.desc i).file = some f ∧ s1.hashTable.lookup f (s1.desc i).pageNo = some i) ∧
  (s.desc i).pinCnt ≤ (s1.desc i).pinCnt

/-- The frame invariants P1, P2 and P3 of the spec (section 8): a frame is valid
exactly when the hash index maps its (file, page) to its index; no two valid
frames cache the same (filename, page); a pinned frame is valid. -/
def BufMgr.frameInvariants (s : BufMgr) : Prop :=
  (∀ i, i < s.numBufs →
    ((s.desc i).valid = true ↔
      ∃ f, (s.desc i).file = some f ∧ s.hashTable.lookup f (s.desc i).pageNo = some i)) ∧
  (∀ i j, i < s.numBufs → j < s.numBufs → (s.desc i).valid = true → (s.desc j).valid = true →
    ∀ f g, (s.desc i).file = some f → (s.desc j).file = some g → f.filename = g.filename →
      (s.desc i).pageNo = (s.desc j).pageNo → i = j) ∧
  (∀ i, i < s.numBufs → 0 < (s.desc i).pinCnt → (s.desc i).valid = true)

/-- A run of `readPage` calls, one per entry of the list, with no `unPinPage`
in between; `none` as soon as one of the calls does not return a page. -/
def BufMgr.readAll (seatRef : Bool) : BufMgr → List (File × PageId) → Option BufMgr
  | s, [] => some s
  | s, (file, pageNo) :: rest =>
    match s.readPage seatRef file pageNo with
    | some (.ok _, s1) => BufMgr.readAll seatRef s1 rest
    | _ => none

/-- The pool `exOneRead` after `unPinPage(r.tbl, 1, true)`: frame 0 caches page
1, unpinned and dirty. -/
def exDirty (seatRef : Bool) : BufMgr :=
  { bufDescTable :=
      [{ file := some exFile, pageNo := 1, frameNo := 0, pinCnt := 0, dirty := true,
         valid := true, refbit := seatRef },
       BufDesc.init 1]
    bufPool := [{ page_number := 1, records := ["a"] }, Page.empty]
    hashTable := [{ file := exFile, pageNo := 1, frameNo := 0 }]
    clockHand := 0
    disk := { exDisk with log := [IOEvent.read "r.tbl" 1] } }

/-- The pool `exDirty` after `flushFile(r.tbl)`: both frames are empty and the
log shows the write-back of page 1. -/
def exFlushed : BufMgr :=
  { bufDescTable := [BufDesc.init 0, BufDesc.init 1]
    bufPool := [{ page_number := 1, records := ["a"] }, Page.empty]
    hashTable := []
    clockHand := 0
    disk := { exDisk with
              log := [IOEvent.read "r.tbl" 1,
                      IOEvent.write "r.tbl" { page_number := 1, records := ["a"] }] } }

/-- The pool `exOneRead true` after `allocPage(r.tbl)`: the file has the new
page 5, which frame 1 caches, pinned once. -/
def exAllocated : BufMgr :=
  { bufDescTable :=
      [{ file := some exFile, pageNo := 1, frameNo := 0, pinCnt := 1, dirty := false,
         valid := true, refbit := true },
       { file := some exFile, pageNo := 5, frameNo := 1, pinCnt := 1, dirty := false,
         valid := true, refbit := true }]
    bufPool := [{ page_number := 1, records := ["a"] }, { page_number := 5, records := [] }]
    hashTable := [{ file := exFile, pageNo := 5, frameNo := 1 },
                  { file := exFile, pageNo := 1, frameNo := 0 }]
    clockHand := 1
    disk := { stored := exDisk.stored ++ [("r.tbl", { page_number := 5, records := [] })]
              log := [IOEvent.read "r.tbl" 1, IOEvent.allocate "r.tbl" 5] } }

/-! ## Running a sequence of client calls -/

/-- One call of a client on the buffer manager. -/
inductive PoolCall where
  | readPage (file : File) (pageNo : PageId)
  | unPinPage (file : File) (pageNo : PageId) (dirty : Bool)
  | allocPage (file : File)
  | flushFile (file : File)
  | disposePage (file : File) (pageNo : PageId)

/-- The state after one call that returns normally; `none` when the call
throws. -/
def BufMgr.call (seatRef : Bool) (s : BufMgr) : PoolCall → Option BufMgr
  | .readPage file pageNo =>
    match s.readPage seatRef file pageNo with
    | some (.ok _, s1) => some s1
    | _ => none
  | .unPinPage file pageNo dirty =>
    match s.unPinPage file pageNo dirty with
    | (.ok _, s1) => some s1
    | _ => none
  | .allocPage file =>
    match s.allocPage seatRef file with
    | some (.ok _, s1) => some s1
    | _ => none
  | .flushFile file =>
    match s.flushFile file with
    | (.ok _, s1) => some s1
    | _ => none
  | .disposePage file pageNo =>
    match s.disposePage file pageNo with
    | (.ok _, s1) => some s1
    | _ => none

/-- The state after a sequence of calls that all return normally. -/
def BufMgr.run (seatRef : Bool) : BufMgr → List PoolCall → Option BufMgr
  | s, [] => some s
  | s, c :: rest =>
    match s.call seatRef c with
    | some s1 => BufMgr.run seatRef s1 rest
    | none => none

/-- The calls of the scenario "fill and evict" on file `F`: three pages read
and released, then a fourth page read. -/
def fillAndEvict (F : File) : List PoolCall :=
  [.readPage F 10, .unPinPage F 10 false, .readPage F 11, .unPinPage F 11 false,
   .readPage F 12, .unPinPage F 12 false, .readPage F 13]

/-- A disk on which `r.tbl` holds the pages 10 to 13. -/
def exDiskS1 : Disk :=
  { stored := [("r.tbl", { page_number := 10, records := ["a"] }),
               ("r.tbl", { page_number := 11, records := ["b"] }),
               ("r.tbl", { page_number := 12, records := ["c"] }),
               ("r.tbl", { page_number := 13, records := ["d"] })]
    log := [] }

/-! ## Schemas -/

/-- Modelled from the spec: the attribute types `DataType` of `schema.h`, which
is not in the source tree (spec section 3, "Schema"); the constructor names are
the ones `schema.cpp` uses. -/
inductive DataType where
  | INT
  | CHAR
  | VARCHAR
deriving DecidableEq, Repr

/-- Modelled from the spec: `Attribute` of `schema.h` (spec section 3,
"Schema"); the member names are the ones `schema.cpp` uses. -/
structure Attribute where
  attrName : String
  attrType : DataType
  maxSize : Nat
  isNotNull : Bool
  isUnique : Bool
deriving DecidableEq, Repr

/-- Modelled from the spec: `TableSchema` of `schema.h`: a table name, the
attributes in order and the temp flag. -/
structure TableSchema where
  tableName : String
  attrs : List Attribute
  isTemp : Bool
deriving DecidableEq, Repr

/-- Modelled from the spec: what indexing `attrs` past its end yields in the
model (in C++ the behaviour is undefined); no loop of the code reaches it. -/
def Attribute.outOfRange : Attribute :=
  { attrName := "", attrType := DataType.INT, maxSize := 0, isNotNull := false, isUnique := false }

/-- Modelled from the spec: `TableSchema::getAttrCount`. -/
def TableSchema.getAttrCount (t : TableSchema) : Nat := t.attrs.length

/-- Modelled from the spec: `TableSchema::getAttrName(i)`. -/
def TableSchema.getAttrName (t : TableSchema) (i : Nat) : String :=
  (t.attrs.getD i Attribute.outOfRange).attrName

/-- Modelled from the spec: `TableSchema::getAttrType(i)`. -/
def TableSchema.getAttrType (t : TableSchema) (i : Nat) : DataType :=
  (t.attrs.getD i Attribute.outOfRange).attrType

/-- Modelled from the spec: `TableSchema::getAttrMaxSize(i)`. -/
def TableSchema.getAttrMaxSize (t : TableSchema) (i : Nat) : Nat :=
  (t.attrs.getD i Attribute.outOfRange).maxSize

/-- Modelled from the spec: `TableSchema::isAttrNotNull(i)`. -/
def TableSchema.isAttrNotNull (t : TableSchema) (i : Nat) : Bool :=
  (t.attrs.getD i Attribute.outOfRange).isNotNull

/-- Modelled from the spec: `TableSchema::isAttrUnique(i)`. -/
def TableSchema.isAttrUnique (t : TableSchema) (i : Nat) : Bool :=
  (t.attrs.getD i Attribute.outOfRange).isUnique

/-- Modelled from the spec: `TableSchema::hasAttr(attrName)`; names are
compared by exact string equality (spec section 4.F). -/
def TableSchema.hasAttr (t : TableSchema) (attrName : String) : Bool :=
  t.attrs.any (fun a => decide (a.attrName = attrName))

/-- The method `JoinOperator::createResultTableSchema` (executor.cpp lines
78-110): the two `for` loops push onto `attrs` in turn. -/
def JoinOperator.createResultTableSchema (leftTableSchema rightTableSchema : TableSchema) :
    TableSchema :=
  let leftAttrsNum := leftTableSchema.getAttrCount
  let rightAttrsNum := rightTableSchema.getAttrCount
  let attrs : List Attribute :=
    (List.range leftAttrsNum).foldl (fun attrs i =>
      let attrName := leftTableSchema.getAttrName i
      let attrType := leftTableSchema.getAttrType i
      let maxSize := leftTableSchema.getAttrMaxSize i
      let isNotNull := leftTableSchema.isAttrNotNull i
      let isUnique := leftTableSchema.isAttrUnique i
      let tempAttr : Attribute :=
        { attrName := attrName, attrType := attrType, maxSize := maxSize,
          isNotNull := isNotNull, isUnique := isUnique }
      let tempAttr := { tempAttr with isNotNull := isNotNull, isUnique := isUnique }
      attrs ++ [tempAttr]) []
  let attrs : List Attribute :=
    (List.range rightAttrsNum).foldl (fun attrs i =>
      let attrName := rightTableSchema.getAttrName i
      if leftTableSchema.hasAttr attrName = true then attrs
      else
        let attrType := rightTableSchema.getAttrType i
        let maxSize := rightTableSchema.getAttrMaxSize i
        let isNotNull := rightTableSchema.isAttrNotNull i
        let isUnique := rightTableSchema.isAttrUnique i
        let tempAttr : Attribute :=
          { attrName := attrName, attrType := attrType, maxSize := maxSize,
            isNotNull := isNotNull, isUnique := isUnique }
        let tempAttr := { tempAttr with isNotNull := isNotNull, isUnique := isUnique }
        attrs ++ [tempAttr]) attrs
  { tableName := "TEMP_TABLE", attrs := attrs, isTemp := true }

/-- The schema the driver builds from
`"CREATE TABLE r (a CHAR(8) NOT NULL UNIQUE, b INT);"` (main.cpp line 37). -/
def exLeftSchema : TableSchema :=
  { tableName := "r"
    attrs := [{ attrName := "a", attrType := DataType.CHAR, maxSize := 8, isNotNull := true,
                isUnique := true },
              { attrName := "b", attrType := DataType.INT, maxSize := 0, isNotNull := false,
                isUnique := false }]
    isTemp := false }

/-- The schema the driver builds from
`"CREATE TABLE s (b INT UNIQUE NOT NULL, c VARCHAR(8));"` (main.cpp line 39). -/
def exRightSchema : TableSchema :=
  { tableName := "s"
    attrs := [{ attrName := "b", attrType := DataType.INT, maxSize := 0, isNotNull := true,
                isUnique := true },
              { attrName := "c", attrType := DataType.VARCHAR, maxSize := 8, isNotNull := false,
                isUnique := false }]
    isTemp := false }

/-! ## `split` -/

/-- The index of the first character satisfying `p` in a string whose part from
index `i` on is the given list; `none` is `string::npos`. -/
def firstIdx (p : Char → Bool) : List Char → Nat → Option Nat
  | [], _ => none
  | c :: cs, i => if p c = true then some i else firstIdx p cs (i + 1)

/-- The call `str.find_first_not_of(delimiters, pos)` of `std::string`; a
position is `some i`, or `none` for `string::npos`. -/
def find_first_not_of (str delimiters : String) (pos : Option Nat) : Option Nat :=
  match pos with
  | none => none
  | some i => firstIdx (fun c => !delimiters.data.contains c) (str.data.drop i) i

/-- The call `str.find_first_of(delimiters, pos)` of `std::string`. -/
def find_first_of (str delimiters : String) (pos : Option Nat) : Option Nat :=
  match pos with
  | none => none
  | some i => firstIdx (fun c => delimiters.data.contains c) (str.data.drop i) i

/-- The call `str.substr(pos, n)` of `std::string` for `pos` within the string;
`n = none` stands for a count of `npos - pos`, which reaches the end. -/
def substr (str : String) (pos : Nat) (n : Option Nat) : String :=
  match n with
  | none => String.mk (str.data.drop pos)
  | some k => String.mk ((str.data.drop pos).take k)

/-- The `while` loop of `split` (executor.cpp lines 34-38), one iteration per
unit of fuel.  With `lastPos = npos` and `pos ≠ npos` the C++ `substr` would
throw; `find_first_of` from `npos` is `npos`, so the loop never gets there. -/
def splitLoop (tuple delimiters : String) :
    Nat → Option Nat → Option Nat → List String → List String
  | 0, _, _, tokens => tokens
  | fuel + 1, lastPos, pos, tokens =>
    match lastPos with
    | none => tokens
    | some l =>
      let tokens := tokens ++ [substr tuple l (pos.map (fun q => q - l))]
      let lastPos := find_first_not_of tuple delimiters pos
      let pos := find_first_of tuple delimiters lastPos
      splitLoop tuple delimiters fuel lastPos pos tokens

/-- The function `split(tuple, delimiters)` (executor.cpp lines 30-40).  Every
iteration but the last moves `lastPos` forward, so `length + 1` iterations
are enough (`splitLoop_enough_fuel`). -/
def split (tuple delimiters : String) : List String :=
  let lastPos := find_first_not_of tuple delimiters (some 0)
  let pos := find_first_of tuple delimiters lastPos
  splitLoop tuple delimiters (tuple.length + 1) lastPos pos []

/-- The maximal non-empty runs of characters that are not delimiters, by
`takeWhile` and `dropWhile`; `n` bounds the number of runs. -/
def tokensUpTo (isDelim : Char → Bool) : Nat → List Char → List (List Char)
  | 0, _ => []
  | n + 1, l =>
    match l.dropWhile isDelim with
    | [] => []
    | c :: cs =>
      (c :: cs).takeWhile (fun x => !isDelim x)
        :: tokensUpTo isDelim n ((c :: cs).dropWhile (fun x => !isDelim x))

/-- The maximal non-empty delimiter-free substrings of a string, in order. -/
def tokens (str delimiters : String) : List String :=
  (tokensUpTo (fun c => delimiters.data.contains c) (str.length + 1) str.data).map String.mk

/-! ## The join operators -/

/-- The members of `JoinOperator` that `execute` reads and writes (`executor.h`
is not in the source tree; the names are the ones `executor.cpp` uses).  The
two table files appear in the model as the pages their iterators yield, and
the buffer manager as the calls made on it. -/
structure JoinOperator where
  leftTableSchema : TableSchema
  rightTableSchema : TableSchema
  resultTableSchema : TableSchema
  isComplete : Bool
  numResultTuples : Nat
  numUsedBufPages : Nat
  numIOs : Nat
deriving DecidableEq, Repr

/-- The constructor `JoinOperator::JoinOperator` (executor.cpp lines 68-76). -/
def JoinOperator.new (leftTableSchema rightTableSchema : TableSchema) : JoinOperator :=
  { leftTableSchema := leftTableSchema
    rightTableSchema := rightTableSchema
    resultTableSchema := JoinOperator.createResultTableSchema leftTableSchema rightTableSchema
    isComplete := false
    numResultTuples := 0
    numUsedBufPages := 0
    numIOs := 0 }

/-- A call that `execute` makes on the buffer manager for the result file, or
on the result page the last `allocPage` returned. -/
inductive ResultCall where
  | allocPage
  | insertRecord (record : String)
  | unPinPage (dirty : Bool)
  | flushFile
deriving DecidableEq, Repr

/-- The records passed to `insertRecord`, in call order. -/
def insertedRecords (calls : List ResultCall) : List String :=
  calls.filterMap (fun c => match c with
    | .insertRecord record => some record
    | _ => none)

/-- The number of `allocPage` calls. -/
def allocPageCount (calls : List ResultCall) : Nat :=
  calls.countP (fun c => decide (c = ResultCall.allocPage))

/-- The local `map<string, vector<string>> bufferMap`: the keys with their
vectors; only `count`, `at`, `operator[]`, `insert` and `clear` are used, so the
order of the keys does not matter. -/
abbrev BufferMap := List (String × List String)

/-- The call `bufferMap.count(key)`. -/
def BufferMap.count (m : BufferMap) (key : String) : Nat :=
  if (m.find? (fun e => decide (e.1 = key))).isSome = true then 1 else 0

/-- The vector `bufferMap[key]` of a key that is present. -/
def BufferMap.get (m : BufferMap) (key : String) : List String :=
  match m.find? (fun e => decide (e.1 = key)) with
  | some e => e.2
  | none => []

/-- The call `bufferMap.at(key).push_back(record)`. -/
def BufferMap.push_back (m : BufferMap) (key record : String) : BufferMap :=
  m.map (fun e => if e.1 = key then (e.1, e.2 ++ [record]) else e)

/-- The call `bufferMap.insert(pair(key, values))` for a key that is absent. -/
def BufferMap.insert (m : BufferMap) (key : String) (values : List String) : BufferMap :=
  m ++ [(key, values)]

/-- Lines 196-202 (and 373-379): add `record` under `key`. -/
def BufferMap.add (m : BufferMap) (key record : String) : BufferMap :=
  if BufferMap.count m key > 0 then BufferMap.push_back m key record
  else BufferMap.insert m key [record]

/-- The two nested `for` loops of lines 148-164: the names and the positions
pushed onto `joinAttrs`, `joinAttrsIDLeft` and `joinAttrsIDRight`. -/
def joinAttrPairs (leftTableSchema rightTableSchema : TableSchema) : List (String × Nat × Nat) :=
  (List.range leftTableSchema.getAttrCount).foldl (fun acc i =>
    let leftAttrName := leftTableSchema.getAttrName i
    (List.range rightTableSchema.getAttrCount).foldl (fun acc j =>
      let rightAttrName := rightTableSchema.getAttrName j
      if leftAttrName = rightAttrName then acc ++ [(leftAttrName, i, j)] else acc) acc) []

/-- The vector `joinAttrs`. -/
def joinAttrs (leftTableSchema rightTableSchema : TableSchema) : List String :=
  (joinAttrPairs leftTableSchema rightTableSchema).map (fun e => e.1)

/-- The vector `joinAttrsIDLeft`. -/
def joinAttrsIDLeft (leftTableSchema rightTableSchema : TableSchema) : List Nat :=
  (joinAttrPairs leftTableSchema rightTableSchema).map (fun e => e.2.1)

/-- The vector `joinAttrsIDRight`. -/
def joinAttrsIDRight (leftTableSchema rightTableSchema : TableSchema) : List Nat :=
  (joinAttrPairs leftTableSchema rightTableSchema).map (fun e => e.2.2)

/-- The key loop of lines 188-195: `key = key + attrs[id + 1]` for every join
position.  Indexing `attrs` past its end is undefined in C++; the model reads
the empty string there. -/
def joinKey (attrs : List String) (joinAttrsID : List Nat) : String :=
  joinAttrsID.foldl (fun key id => key ++ attrs.getD (id + 1) "") ""

/-- Lines 242-264: the joined tuple of the left record `token` and the right
record `record`. -/
def joinedTuple (joinAttrsIDRight : List Nat) (token record : String) : String :=
  let leftTokens := split token "\t"
  let joinedTuple := (leftTokens.drop 1).foldl (fun jt tok => jt ++ tok ++ "\t") ""
  let rightTokens := split record "\t"
  (rightTokens.enum.drop 1).foldl (fun jt e =>
    if joinAttrsIDRight.contains (e.1 - 1) = true then jt else jt ++ e.2 ++ "\t") joinedTuple

/-- The locals and counters of a running `execute`, with the calls made so far
on the buffer manager and the result page. -/
structure JoinState where
  bufferMap : BufferMap
  blockUsedCount : Nat
  numResultTuples : Nat
  numUsedBufPages : Nat
  numIOs : Nat
  calls : List ResultCall
deriving DecidableEq, Repr

/-- The state after lines 125-127 and the declarations of the locals. -/
def JoinState.init : JoinState :=
  { bufferMap := [], blockUsedCount := 0, numResultTuples := 0, numUsedBufPages := 0,
    numIOs := 0, calls := [] }

/-- Lines 240-268: when the key of the right record is in the map, one
`insertRecord` per left record stored under it. -/
def JoinState.probe (joinAttrsIDRight : List Nat) (st : JoinState) (record : String) :
    JoinState :=
  let attrs := split record "\t"
  let key := joinKey attrs joinAttrsIDRight
  if BufferMap.count st.bufferMap key > 0 then
    (BufferMap.get st.bufferMap key).foldl (fun st token =>
      { st with
        calls := st.calls ++
          [ResultCall.insertRecord ("result\t" ++ joinedTuple joinAttrsIDRight token record)]
        numResultTuples := st.numResultTuples + 1 }) st
  else st

/-- The body of the inner `while` of the build stage of the one-pass join
(lines 183-206). -/
def OnePassJoinOperator.buildRecord (joinAttrsIDLeft : List Nat) (st : JoinState)
    (record : String) : JoinState :=
  let attrs := split record "\t"
  let key := joinKey attrs joinAttrsIDLeft
  { st with
    bufferMap := BufferMap.add st.bufferMap key record
    numIOs := st.numIOs + 1
    numUsedBufPages := st.numUsedBufPages + 1 }

/-- The body of the inner `while` of the probe stage of the one-pass join
(lines 224-275). -/
def OnePassJoinOperator.probeRecord (joinAttrsIDRight : List Nat) (st : JoinState)
    (record : String) : JoinState :=
  let st := { st with calls := st.calls ++ [ResultCall.allocPage] }
  let st := JoinState.probe joinAttrsIDRight st record
  { st with
    calls := st.calls ++ [ResultCall.unPinPage true, ResultCall.flushFile]
    numIOs := st.numIOs + 1
    numUsedBufPages := st.numUsedBufPages + 1 }

/-- The method `OnePassJoinOperator::execute` (executor.cpp lines 118-281) in
a run in which no call on the result file throws. `leftPages` and `rightPages`
are the pages the two file iterators yield, each with its records in slot
order; the result is the return value, the operator afterwards and the calls
made for the result file. The calls are listed, not run: what becomes of the
join when `allocPage`, `insertRecord`, `unPinPage` or `flushFile` throws is the
matter of `OnePassJoinOperator.executeOn` below, which runs the same method on a
buffer pool and, whenever it returns, returns what this function gives.  The
argument `numAvailableBufPages` and the vector `joinAttrsIDResult` are never
read by the code and are left out. -/
def OnePassJoinOperator.execute (op : JoinOperator) (leftPages rightPages : List (List String)) :
    Bool × JoinOperator × List ResultCall :=
  if op.isComplete = true then (true, op, [])
  else
    let idsLeft := joinAttrsIDLeft op.leftTableSchema op.rightTableSchema
    let idsRight := joinAttrsIDRight op.leftTableSchema op.rightTableSchema
    let st := leftPages.foldl (fun st page =>
      page.foldl (OnePassJoinOperator.buildRecord idsLeft) st) JoinState.init
    let st := rightPages.foldl (fun st page =>
      page.foldl (OnePassJoinOperator.probeRecord idsRight) st) st
    (true,
     { op with
       numResultTuples := st.numResultTuples
       numUsedBufPages := st.numUsedBufPages
       numIOs := st.numIOs
       isComplete := true },
     st.calls)

/-- The constant `blockSize` of the nested-loop join (line 295). -/
def blockSize : Nat := 50

/-- The body of the inner `while` over the right records (lines 392-436). -/
def NestedLoopJoinOperator.probeRecord (joinAttrsIDRight : List Nat) (st : JoinState)
    (rightRecord : String) : JoinState :=
  let st := JoinState.probe joinAttrsIDRight st rightRecord
  { st with numIOs := st.numIOs + 1 }

/-- The body of the `while` over the records of a left page (lines 358-441). -/
def NestedLoopJoinOperator.leftRecord (joinAttrsIDLeft joinAttrsIDRight : List Nat)
    (rightPages : List (List String)) (st : JoinState) (leftRecord : String) : JoinState :=
  let leftAttrs := split leftRecord "\t"
  let leftKey := joinKey leftAttrs joinAttrsIDLeft
  let st := { st with
    bufferMap := BufferMap.add st.bufferMap leftKey leftRecord
    blockUsedCount := st.blockUsedCount + 1 }
  if (decide (st.blockUsedCount % blockSize = 0) && decide (st.blockUsedCount ≠ 0)) = false then
    st
  else
    let st := { st with numIOs := st.numIOs + 1 }
    let st := rightPages.foldl (fun st rightPage =>
      rightPage.foldl (NestedLoopJoinOperator.probeRecord joinAttrsIDRight) st) st
    { st with bufferMap := [] }

/-- The body of the `while` over the left pages (lines 347-445). -/
def NestedLoopJoinOperator.leftPage (joinAttrsIDLeft joinAttrsIDRight : List Nat)
    (rightPages : List (List String)) (st : JoinState) (leftPage : List String) : JoinState :=
  let st := { st with calls := st.calls ++ [ResultCall.allocPage] }
  let st := leftPage.foldl
    (NestedLoopJoinOperator.leftRecord joinAttrsIDLeft joinAttrsIDRight rightPages) st
  { st with calls := st.calls ++ [ResultCall.unPinPage true, ResultCall.flushFile] }

/-- The method `NestedLoopJoinOperator::execute` (executor.cpp lines 283-452)
in a run in which no call on the result file throws, with the same conventions
as `OnePassJoinOperator.execute`; `NestedLoopJoinOperator.executeOn` below runs
the method on a buffer pool. -/
def NestedLoopJoinOperator.execute (op : JoinOperator)
    (leftPages rightPages : List (List String)) : Bool × JoinOperator × List ResultCall :=
  if op.isComplete = true then (true, op, [])
  else
    let idsLeft := joinAttrsIDLeft op.leftTableSchema op.rightTableSchema
    let idsRight := joinAttrsIDRight op.leftTableSchema op.rightTableSchema
    let st := leftPages.foldl
      (NestedLoopJoinOperator.leftPage idsLeft idsRight rightPages) JoinState.init
    (true,
     { op with
       numResultTuples := st.numResultTuples
       numUsedBufPages := blockSize + 1
       numIOs := st.numIOs
       isComplete := true },
     st.calls)

/-! ## Tuples from SQL statements, and the driver's tables -/

/-- The characters `[0-9a-zA-Z_]`, which is also the class `\w` of the regular
expressions. -/
def isWordChar (c : Char) : Bool := c.isAlphanum || c == '_'

/-- The class `\s` of the regular expressions. -/
def isSpaceChar (c : Char) : Bool :=
  c == ' ' || c == '\t' || c == '\n' || c == '\r' || c.toNat == 11 || c.toNat == 12

/-- The class `(\w|\'|\s|,)` of the pattern of `createTupleFromSQLStatement`. -/
def isValueChar (c : Char) : Bool :=
  isWordChar c || c.toNat == 39 || isSpaceChar c || c == ','

/-- The rest of `cs` after the literal `lit`, if `cs` starts with it. -/
def stripLit : List Char → List Char → Option (List Char)
  | [], cs => some cs
  | _ :: _, [] => none
  | l :: lit, c :: cs => if l = c then stripLit lit cs else none

/-- The rest of `cs` after one character of the class `\s`. -/
def stripSpace : List Char → Option (List Char)
  | [] => none
  | c :: cs => if isSpaceChar c = true then some cs else none

/-- The call `regex_match(sql, results, sqlRegex)` of
`createTupleFromSQLStatement` for its pattern
`INSERT\sINTO\s([0-9a-zA-Z_]+)\sVALUES\s\(((\w|\'|\s|,)+)\);` (storage.cpp line
79): the groups 1 and 2 of the match of the whole string, if there is one.  No
character of a group can also start what follows the group in the pattern, so
each group is the longest run of its class. -/
def matchInsert (sql : String) : Option (String × String) :=
  match stripLit "INSERT".data sql.data with
  | none => none
  | some r1 =>
  match stripSpace r1 with
  | none => none
  | some r2 =>
  match stripLit "INTO".data r2 with
  | none => none
  | some r3 =>
  match stripSpace r3 with
  | none => none
  | some r4 =>
  let name := r4.takeWhile isWordChar
  match stripSpace (r4.dropWhile isWordChar) with
  | none => none
  | some r5 =>
  match stripLit "VALUES".data r5 with
  | none => none
  | some r6 =>
  match stripSpace r6 with
  | none => none
  | some r7 =>
  match stripLit "(".data r7 with
  | none => none
  | some r8 =>
  let values := r8.takeWhile isValueChar
  if name.isEmpty = false ∧ values.isEmpty = false ∧ r8.dropWhile isValueChar = ");".data then
    some (String.mk name, String.mk values)
  else none

/-- The loop of lines 99-106 of storage.cpp: the parts of `attrsString` between
the occurrences of `", "`, found from left to right; `cur` is the part read
since the last occurrence. -/
def splitCommaSpace : List Char → List Char → List String
  | [], cur => [String.mk cur]
  | [c], cur => [String.mk (cur ++ [c])]
  | c :: d :: rest, cur =>
    if c = ',' ∧ d = ' ' then String.mk cur :: splitCommaSpace rest []
    else splitCommaSpace (d :: rest) (cur ++ [c])

/-- Lines 111-114 of storage.cpp: `tuple = tableName`, then
`tuple = tuple + "\t" + attrsVec[i]` for every value. -/
def composeTuple (tableName : String) (attrsVec : List String) : String :=
  attrsVec.foldl (fun tuple v => tuple ++ "\t" ++ v) tableName

/-- The method `HeapFileManager::createTupleFromSQLStatement` (storage.cpp
lines 68-117) for a statement that names a table of the catalog (the catalog is
not in the source tree; its two lookups return normally for such a table, and
what they return is not used). -/
def createTupleFromSQLStatement (sql : String) : String :=
  let groups : String × String :=
    match matchInsert sql with
    | some g => g
    | none => ("", "")
  let tableName := groups.1
  let attrsString := groups.2
  let attrsVec := splitCommaSpace attrsString.data []
  composeTuple tableName attrsVec

/-- The statement the driver builds for row `i` of `r` (main.cpp line 65). -/
def driverLeftSQL (i : Nat) : String :=
  "INSERT INTO r VALUES ('r" ++ toString i ++ "', " ++ toString (i % 100) ++ ");"

/-- The statement the driver builds for row `i` of `s` (main.cpp line 77). -/
def driverRightSQL (i : Nat) : String :=
  "INSERT INTO s VALUES (" ++ toString i ++ ", 's" ++ toString i ++ "');"

/-- The 500 tuples the driver inserts into `r.tbl`, in order. -/
def driverLeftTuples : List String :=
  (List.range 500).map (fun i => createTupleFromSQLStatement (driverLeftSQL i))

/-- The 100 tuples the driver inserts into `s.tbl`, in order. -/
def driverRightTuples : List String :=
  (List.range 100).map (fun i => createTupleFromSQLStatement (driverRightSQL i))

/-- The pages of a file filled by `insertTuple`, which puts every tuple on a
page of its own. -/
def onePerPage (tuples : List String) : List (List String) := tuples.map (fun t => [t])

/-! ## Predicates and expected outputs used to state the join claims -/

/-- The map holds the records `ls`, each under its key `keyOf`: the vector of a
key is the list of the records with that key, in order, and a key without
records is absent. -/
def BufferMap.Holds (m : BufferMap) (keyOf : String → String) (ls : List String) : Prop :=
  ∀ k, (m.find? (fun e => decide (e.1 = k))).map Prod.snd
    = if ls.filter (fun l => decide (keyOf l = k)) = [] then none
      else some (ls.filter (fun l => decide (keyOf l = k)))

/-- The key the joins compute for a record: the concatenation of the tokens at
the join positions. -/
def recordKey (joinAttrsID : List Nat) (record : String) : String :=
  joinKey (split record "\t") joinAttrsID

/-- The record the joins insert for a left record `l` and a right record `r`. -/
def joinedRecord (joinAttrsIDRight : List Nat) (l r : String) : String :=
  "result\t" ++ joinedTuple joinAttrsIDRight l r

/-- The records a probe of the right records `rs` against the left records
`ls` inserts: for every right record in order, one record per left record with
the same key, in order. -/
def probeOutput (idsLeft idsRight : List Nat) (ls rs : List String) : List String :=
  rs.flatMap (fun r =>
    (ls.filter (fun l => decide (recordKey idsLeft l = recordKey idsRight r))).map
      (fun l => joinedRecord idsRight l r))

/-- A tuple given by its parts: the table name and one value per attribute. -/
structure Row where
  tableName : String
  values : List String
deriving DecidableEq, Repr

/-- The record string of a row, composed as `createTupleFromSQLStatement`
composes it. -/
def Row.record (row : Row) : String := composeTuple row.tableName row.values

/-- A non-empty string without a tab. -/
def isField (s : String) : Bool := !s.data.isEmpty && !s.data.contains '\t'

/-- A row is well formed for a schema: a table-name token followed by one
non-empty tab-free value per attribute. -/
def Row.wellFormed (t : TableSchema) (row : Row) : Bool :=
  isField row.tableName && decide (row.values.length = t.attrs.length) && row.values.all isField

/-- The concatenation, without separator, of the values of a row at the given
attribute positions. -/
def Row.joinKey (row : Row) (positions : List Nat) : String :=
  String.join (positions.map (fun i => row.values.getD i ""))

/-- The values, each followed by a tab. -/
def tabTerminated (values : List String) : String :=
  String.join (values.map (fun v => v ++ "\t"))

/-- The values of a row at the positions that are not join positions. -/
def nonJoinValues (joinPositions : List Nat) (values : List String) : List String :=
  (values.enum.filter (fun e => !joinPositions.contains e.1)).map Prod.snd

/-- The result record for a left and a right row: `"result\t"`, every left
value, every right value at a non-join position, each value followed by a
tab. -/
def Row.joined (rightPositions : List Nat) (l r : Row) : String :=
  "result\t" ++ tabTerminated l.values ++ tabTerminated (nonJoinValues rightPositions r.values)

/-- The join of two lists of rows in the order of the one-pass join: the right
rows in order and, for each of them, the left rows with the same key in
order. -/
def expectedJoin (leftPositions rightPositions : List Nat) (leftRows rightRows : List Row) :
    List String :=
  rightRows.flatMap (fun r =>
    (leftRows.filter (fun l => decide (l.joinKey leftPositions = r.joinKey rightPositions))).map
      (fun l => Row.joined rightPositions l r))

/-- The pairs of positions of equally named attributes, by left position and
then by right position. -/
def equalNamePositions (L R : TableSchema) : List (Nat × Nat) :=
  (List.range L.attrs.length).flatMap (fun i =>
    ((List.range R.attrs.length).filter
      (fun j => decide (L.getAttrName i = R.getAttrName j))).map (fun j => (i, j)))

/-- The complete blocks of `blockSize` records of a list, in order; the
records after the last complete block belong to no block. -/
def completeBlocks (ls : List String) : List (List String) :=
  (List.range (ls.length / blockSize)).map (fun b => (ls.drop (blockSize * b)).take blockSize)

/-- The records the block nested-loop join is expected to insert: block by
block, the probe of all right records against the block. -/
def blockOutput (idsLeft idsRight : List Nat) (ls rs : List String) : List String :=
  (completeBlocks ls).flatMap (fun blk => probeOutput idsLeft idsRight blk rs)

/-- Three rows of the driver's table `r`. -/
def exLeftRows : List Row :=
  [{ tableName := "r", values := ["'r0'", "0"] },
   { tableName := "r", values := ["'r1'", "1"] },
   { tableName := "r", values := ["'r100'", "0"] }]

/-- Two rows of the driver's table `s`. -/
def exRightRows : List Row :=
  [{ tableName := "s", values := ["0", "'s0'"] },
   { tableName := "s", values := ["1", "'s1'"] }]

/-- The state of the block nested-loop join after the left records `done`
have been read, with `rs` the records of the right file: the counter, the map
(the records of the current incomplete block), the records inserted so far and
the counters. -/
structure NljInv (idsLeft idsRight : List Nat) (rs done : List String) (st : JoinState) :
    Prop where
  count : st.blockUsedCount = done.length
  holds : BufferMap.Holds st.bufferMap (recordKey idsLeft)
    (done.drop (blockSize * (done.length / blockSize)))
  inserted : insertedRecords st.calls = blockOutput idsLeft idsRight done rs
  tuples : st.numResultTuples = (blockOutput idsLeft idsRight done rs).length
  ios : st.numIOs = (done.length / blockSize) * (1 + rs.length)

/-- The rows of the driver's table `r`: row `i` has the values `'r{i}'` (with
its quotes) and `i mod 100`. -/
def driverLeftRows : List Row :=
  (List.range 500).map (fun i =>
    { tableName := "r", values := ["'r" ++ toString i ++ "'", toString (i % 100)] })

/-- The rows of the driver's table `s`: row `i` has the values `i` and `'s{i}'`
(with its quotes). -/
def driverRightRows : List Row :=
  (List.range 100).map (fun i =>
    { tableName := "s", values := [toString i, "'s" ++ toString i ++ "'"] })

/-- The number a string of decimal digits denotes. -/
def decimalValue (s : String) : Nat :=
  s.data.foldl (fun n c => 10 * n + (c.toNat - 48)) 0

/-- The pool `exDirty true` after `readPage(r.tbl, 2)`: frame 0 caches page 1,
dirty and not pinned; frame 1 caches page 2, pinned once. -/
def exDirtyPinned : BufMgr :=
  { bufDescTable :=
      [{ file := some exFile, pageNo := 1, frameNo := 0, pinCnt := 0, dirty := true,
         valid := true, refbit := true },
       { file := some exFile, pageNo := 2, frameNo := 1, pinCnt := 1, dirty := false,
         valid := true, refbit := true }]
    bufPool := [{ page_number := 1, records := ["a"] }, { page_number := 2, records := ["b"] }]
    hashTable := [{ file := exFile, pageNo := 2, frameNo := 1 },
                  { file := exFile, pageNo := 1, frameNo := 0 }]
    clockHand := 1
    disk := { exDisk with log := [IOEvent.read "r.tbl" 1, IOEvent.read "r.tbl" 2] } }

/-- The `while (true)` loop of `BufMgr::allocBuf` as in `allocBufLoop`, with a
ghost counter `advances` of the calls of `advanceClock` made so far; the
counter is returned with the result. -/
def BufMgr.allocBufCount : Nat → BufMgr → Nat → Nat → Option (Except Exn FrameId × BufMgr × Nat)
  | 0, _, _, _ => none
  | fuel + 1, s, pinnedFrameCount, advances =>
    if pinnedFrameCount = s.numBufs then
      some (.error Exn.BufferExceeded, s, advances)
    else
      let s1 := s.advanceClock
      let tempBufDesc := s1.desc s1.clockHand
      if tempBufDesc.valid = true then
        if tempBufDesc.refbit = true then
          BufMgr.allocBufCount fuel
            { s1 with bufDescTable :=
                s1.bufDescTable.set s1.clockHand { tempBufDesc with refbit := false } }
            pinnedFrameCount (advances + 1)
        else if tempBufDesc.pinCnt > 0 then
          BufMgr.allocBufCount fuel s1 (pinnedFrameCount + 1) (advances + 1)
        else
          some (s1.evict.1, s1.evict.2, advances + 1)
      else
        some (.ok tempBufDesc.frameNo, s1, advances + 1)

/-- The number of frames whose reference bit is set. -/
def BufMgr.refCount (s : BufMgr) : Nat := (s.bufDescTable.filter (fun d => d.refbit)).length

/-- A pool of one frame over `exDisk` after `readPage(r.tbl, 1)` twice: the
frame is pinned twice and the second call has set its reference bit. -/
def exOnePinned : BufMgr :=
  { bufDescTable :=
      [{ file := some exFile, pageNo := 1, frameNo := 0, pinCnt := 2, dirty := false,
         valid := true, refbit := true }]
    bufPool := [{ page_number := 1, records := ["a"] }]
    hashTable := [{ file := exFile, pageNo := 1, frameNo := 0 }]
    clockHand := 0
    disk := { exDisk with log := [IOEvent.read "r.tbl" 1] } }

/-! ## Heap-file tuple access (`storage.cpp`) -/

/-- Modelled from the spec: the record id `RecordId{page_number, slot_number}`
of section 6; the header that declares it is not part of the sources. -/
structure RecordId where
  page_number : PageId
  slot_number : Nat
deriving DecidableEq, Repr

/-- Modelled from the spec: `page.insert_record(string)` of the page
collaborator (its source is not part of the sources): the record is appended
behind the records of the page, which the iterator yields in slot order, and the
id names the page and the slot, counted from 1. The model page has room for
every record. -/
def Page.insertRecord (pg : Page) (r : String) : RecordId × Page :=
  ({ page_number := pg.page_number, slot_number := pg.records.length + 1 },
   { pg with records := pg.records ++ [r] })

/-- The `catch` clauses of `HeapFileManager::insertTuple`: the four pool
exceptions are caught, a line is printed and the method goes on to
`return recId`; any other exception leaves the method. -/
def HeapFileManager.handle (recId : RecordId) : Exn → Except Exn RecordId × List String
  | .BufferExceeded => (.ok recId, ["throws buffer exceeded exception"])
  | .PageNotPinned _ _ _ => (.ok recId, ["throws page not pinned exception"])
  | .BadBuffer _ _ _ _ => (.ok recId, ["throws bad buffer exception"])
  | .PagePinned _ _ _ => (.ok recId, ["throws page pinned exception"])
  | e => (.error e, [])

/-- The method `HeapFileManager::insertTuple(tuple, file, bufMgr)`. `recId0` is
the value of the local variable `recId` after its declaration `RecordId recId;`
(the default-constructed record id); the result is the returned record id or
the exception that leaves the method, the lines printed, and the pool. The
record is written through the page pointer that `allocPage` hands out. -/
def HeapFileManager.insertTuple (seatRef : Bool) (recId0 : RecordId) (tuple : String)
    (file : File) (s : BufMgr) : Option ((Except Exn RecordId × List String) × BufMgr) :=
  match s.allocPage seatRef file with
  | none => none
  | some (.error e, s1) => some (HeapFileManager.handle recId0 e, s1)
  | some (.ok (pageNo, frameNo), s1) =>
    let recId := ((s1.page frameNo).insertRecord tuple).1
    let s2 := s1.modifyPage frameNo ((s1.page frameNo).insertRecord tuple).2.records
    match s2.unPinPage file pageNo true with
    | (.error e, s3) => some (HeapFileManager.handle recId e, s3)
    | (.ok _, s3) =>
      match s3.flushFile file with
      | (.error e, s4) => some (HeapFileManager.handle recId e, s4)
      | (.ok _, s4) => some ((.ok recId, []), s4)

/-- The loops of `createDatabase` that insert the tuples of a table one after
the other with `insertTuple`. The record ids, which `createDatabase` drops, are
collected; an exception that leaves `insertTuple` ends the loop. -/
def HeapFileManager.insertTuples (seatRef : Bool) (recId0 : RecordId) (file : File) :
    List String → BufMgr → Option (Except Exn (List RecordId) × BufMgr)
  | [], s => some (.ok [], s)
  | tuple :: rest, s =>
    match HeapFileManager.insertTuple seatRef recId0 tuple file s with
    | none => none
    | some ((.error e, _), s1) => some (.error e, s1)
    | some ((.ok recId, _), s1) =>
      match HeapFileManager.insertTuples seatRef recId0 file rest s1 with
      | none => none
      | some (.error e, s2) => some (.error e, s2)
      | some (.ok recIds, s2) => some (.ok (recId :: recIds), s2)

/-- A second file, `s.tbl`, which `exDisk` does not hold yet. -/
def exFileS : File := { handle := 2, filename := "s.tbl" }

/-! ## Regular expressions and `TableSchema::fromSQLStatement` (`schema.cpp`) -/

/-- The regular expressions of `std::regex` as far as the patterns of
`schema.cpp` use them: character classes, sequence, alternation and repetition.
`none` matches no string; it arises in derivatives only. -/
inductive Regex where
  | none : Regex
  | eps : Regex
  | cls (p : Char → Bool) : Regex
  | seq (r1 r2 : Regex) : Regex
  | alt (r1 r2 : Regex) : Regex
  | star (r : Regex) : Regex

/-- The strings a regular expression matches as a whole. -/
inductive Regex.Matches : Regex → List Char → Prop where
  | eps : Regex.Matches .eps []
  | cls (p : Char → Bool) (c : Char) : p c = true → Regex.Matches (.cls p) [c]
  | seq {r1 r2 : Regex} {u v : List Char} :
      Regex.Matches r1 u → Regex.Matches r2 v → Regex.Matches (.seq r1 r2) (u ++ v)
  | altL {r1 r2 : Regex} {u : List Char} : Regex.Matches r1 u → Regex.Matches (.alt r1 r2) u
  | altR {r1 r2 : Regex} {u : List Char} : Regex.Matches r2 u → Regex.Matches (.alt r1 r2) u
  | starNil {r : Regex} : Regex.Matches (.star r) []
  | starCons {r : Regex} {u v : List Char} :
      Regex.Matches r u → Regex.Matches (.star r) v → Regex.Matches (.star r) (u ++ v)

/-- A literal of a pattern: its characters one after the other. -/
def Regex.lit : List Char → Regex
  | [] => .eps
  | c :: cs => .seq (.cls (fun x => x == c)) (Regex.lit cs)

/-- The repetition `r+`. -/
def Regex.plus (r : Regex) : Regex := .seq r (.star r)

/-- The option `r?`. -/
def Regex.opt (r : Regex) : Regex := .alt r .eps

/-- Whether the expression matches the empty string. -/
def Regex.nullable : Regex → Bool
  | .none => false
  | .eps => true
  | .cls _ => false
  | .seq r1 r2 => r1.nullable && r2.nullable
  | .alt r1 r2 => r1.nullable || r2.nullable
  | .star _ => true

/-- The derivative: the expression for what may follow the character `c`. -/
def Regex.deriv : Regex → Char → Regex
  | .none, _ => .none
  | .eps, _ => .none
  | .cls p, c => if p c = true then .eps else .none
  | .seq r1 r2, c =>
    if r1.nullable = true then .alt (.seq (r1.deriv c) r2) (r2.deriv c)
    else .seq (r1.deriv c) r2
  | .alt r1 r2, c => .alt (r1.deriv c) (r2.deriv c)
  | .star r, c => .seq (r.deriv c) (.star r)

/-- Whether the expression matches the whole of the characters, decided one
character at a time. -/
def Regex.matchesAll : Regex → List Char → Bool
  | r, [] => r.nullable
  | r, c :: cs => Regex.matchesAll (r.deriv c) cs

/-- The call `regex_match(s, r)`: the expression matches the whole string. -/
def regex_match (s : String) (r : Regex) : Bool := r.matchesAll s.data

/-- The call `regex_search(s, r)` as a truth value: the expression matches some
part of the string, that is, the string is any characters, a match, and any
characters. -/
def regex_search (s : String) (r : Regex) : Bool :=
  (Regex.seq (.star (.cls (fun _ => true))) (.seq r (.star (.cls (fun _ => true))))).matchesAll
    s.data

/-- The length of the longest match of the expression that starts where the
characters start; `n` characters have been read, and `best` is the longest
match among them. -/
def Regex.longest : Regex → List Char → Nat → Option Nat → Option Nat
  | r, [], n, best => if r.nullable = true then some n else best
  | r, c :: cs, n, best =>
    Regex.longest (r.deriv c) cs (n + 1) (if r.nullable = true then some n else best)

/-- The match `search_results[0]` and the rest `search_results.suffix()` that
`regex_search(s, search_results, r)` finds: the match starts at the first
position at which one starts. Of the matches that start there the longest is
taken; for the header pattern, the only one searched in this way, a position
starts at most one match. -/
def Regex.firstMatch (r : Regex) : List Char → Option (List Char × List Char)
  | [] => if r.nullable = true then some ([], []) else Option.none
  | c :: cs =>
    match Regex.longest r (c :: cs) 0 Option.none with
    | some n => some ((c :: cs).take n, (c :: cs).drop n)
    | Option.none => Regex.firstMatch r cs

/-- The class `[a-zA-Z_]`. -/
def isNameChar (c : Char) : Bool := c.isAlpha || c == '_'

/-- The exceptions that leave `fromSQLStatement`: its own `SqlInvalid`, the
`std::invalid_argument` and `std::out_of_range` of `stoi` and `substr`; and
`Undefined`, which is not an exception but marks behaviour the C++ standard
leaves undefined: the read of `vecToken[1]` in a vector of one element, and the
read of the variable `attrType` before anything was assigned to it. -/
inductive SqlExn where
  | SqlInvalid (sql : String)
  | invalid_argument
  | out_of_range
  | Undefined
deriving DecidableEq, Repr

/-- The string `headerPattern`, `CREATE\sTABLE\s([a-zA-Z_]+)\s`. -/
def TableSchema.headerPattern : Regex :=
  .seq (Regex.lit "CREATE".data) (.seq (.cls isSpaceChar) (.seq (Regex.lit "TABLE".data)
    (.seq (.cls isSpaceChar) (.seq (Regex.plus (.cls isNameChar)) (.cls isSpaceChar)))))

/-- The string `leftBracPattern`, `\(`. -/
def TableSchema.leftBracPattern : Regex := Regex.lit "(".data

/-- The string `keywordsPattern`,
`(\s(INT|NOT\sNULL|UNIQUE|(VAR)?CHAR\(\d+\)))+`. -/
def TableSchema.keywordsPattern : Regex :=
  Regex.plus (.seq (.cls isSpaceChar)
    (.alt (Regex.lit "INT".data)
      (.alt (.seq (Regex.lit "NOT".data) (.seq (.cls isSpaceChar) (Regex.lit "NULL".data)))
        (.alt (Regex.lit "UNIQUE".data)
          (.seq (Regex.opt (Regex.lit "VAR".data)) (.seq (Regex.lit "CHAR".data)
            (.seq (Regex.lit "(".data)
              (.seq (Regex.plus (.cls Char.isDigit)) (Regex.lit ")".data)))))))))

/-- The string `declarationsPattern`: `(([a-zA-Z_]+)` keywords `,\s)*`
`(([a-zA-Z_]+)` keywords `)`. -/
def TableSchema.declarationsPattern : Regex :=
  .seq
    (.star (.seq (Regex.plus (.cls isNameChar)) (.seq TableSchema.keywordsPattern
      (.seq (Regex.lit ",".data) (.cls isSpaceChar)))))
    (.seq (Regex.plus (.cls isNameChar)) TableSchema.keywordsPattern)

/-- The string `rightBracPattern`, `\);`. -/
def TableSchema.rightBracPattern : Regex := Regex.lit ");".data

/-- The string `pattern`: header, left bracket, declarations, right bracket. -/
def TableSchema.pattern : Regex :=
  .seq TableSchema.headerPattern (.seq TableSchema.leftBracPattern
    (.seq TableSchema.declarationsPattern TableSchema.rightBracPattern))

/-- The expression `tempReg`, `(INT|VARCHAR|CHAR)(\((\d+)\))?`. -/
def TableSchema.tempReg : Regex :=
  .seq (.alt (Regex.lit "INT".data) (.alt (Regex.lit "VARCHAR".data) (Regex.lit "CHAR".data)))
    (Regex.opt (.seq (Regex.lit "(".data)
      (.seq (Regex.plus (.cls Char.isDigit)) (Regex.lit ")".data))))

/-- The call `str.substr(pos, n)` of `std::string` with its exception: a
position behind the end throws `std::out_of_range`. -/
def substrAt (str : String) (pos n : Nat) : Except SqlExn String :=
  if pos > str.length then .error SqlExn.out_of_range
  else .ok (String.mk ((str.data.drop pos).take n))

/-- The call `stoi(str, 0, 10)` for a string without sign and leading blanks:
the value of the leading digits; `std::invalid_argument` when there are none
and `std::out_of_range` when the value does not fit an `int`. -/
def stoi (str : String) : Except SqlExn Nat :=
  if str.data.takeWhile Char.isDigit = [] then .error SqlExn.invalid_argument
  else if decimalValue (String.mk (str.data.takeWhile Char.isDigit)) < 2 ^ 31 then
    .ok (decimalValue (String.mk (str.data.takeWhile Char.isDigit)))
  else .error SqlExn.out_of_range

/-- The loop of lines 90-97 of schema.cpp: the parts of a declaration between
the occurrences of `" "`, found from left to right; `cur` is the part read
since the last occurrence. -/
def splitBlank : List Char → List Char → List String
  | [], cur => [String.mk cur]
  | c :: rest, cur =>
    if c = ' ' then String.mk cur :: splitBlank rest [] else splitBlank rest (cur ++ [c])

/-- One round of the loop of lines 120-129 of schema.cpp over the tokens from
the third on; the state is `isUnique`, `notnull_complete` and `isNotNull`. -/
def TableSchema.keywordStep (st : Bool × Nat × Bool) (token : String) : Bool × Nat × Bool :=
  if token = "UNIQUE" then (true, st.2.1, st.2.2)
  else if token = "NOT" ∧ st.2.1 = 0 then (st.1, 1, st.2.2)
  else if token = "NULL" ∧ st.2.1 = 1 then (st.1, st.2.1, true)
  else st

/-- Lines 100-118 of schema.cpp: the type and the size that the second token of
a declaration gives. Group 1 of the match with `tempReg` is the letters the
token starts with and group 3 the digits between its brackets, empty without
brackets. The variable `attrType` is declared inside the loop body without an
initialiser and is assigned only under a match; when the token does not match,
the constructor call of line 131 reads it uninitialised, which the C++ standard
leaves undefined (`Undefined`). -/
def TableSchema.typeOf (token : String) : Except SqlExn (DataType × Nat) :=
  if regex_match token TableSchema.tempReg = true then
    if String.mk (token.data.takeWhile Char.isAlpha) = "INT" then .ok (DataType.INT, 0)
    else if String.mk (token.data.takeWhile Char.isAlpha) = "VARCHAR" then
      match stoi (String.mk (((token.data.dropWhile Char.isAlpha).drop 1).takeWhile Char.isDigit))
        with
      | .error e => .error e
      | .ok n => .ok (DataType.VARCHAR, n)
    else if String.mk (token.data.takeWhile Char.isAlpha) = "CHAR" then
      match stoi (String.mk (((token.data.dropWhile Char.isAlpha).drop 1).takeWhile Char.isDigit))
        with
      | .error e => .error e
      | .ok n => .ok (DataType.CHAR, n)
    else .error SqlExn.Undefined
  else .error SqlExn.Undefined

/-- The body of the loop of lines 84-135 of schema.cpp: the attribute that one
declaration gives. -/
def TableSchema.attributeOf (declaration : String) : Except SqlExn Attribute :=
  match splitBlank declaration.data [] with
  | [] => .error SqlExn.Undefined
  | [_] => .error SqlExn.Undefined
  | attrName :: token :: rest =>
    match TableSchema.typeOf token with
    | .error e => .error e
    | .ok (attrType, maxSize) =>
      .ok { attrName := attrName, attrType := attrType, maxSize := maxSize,
            isNotNull := (rest.foldl TableSchema.keywordStep (false, 0, false)).2.2,
            isUnique := (rest.foldl TableSchema.keywordStep (false, 0, false)).1 }

/-- The loop of lines 84-135 of schema.cpp over the declarations, in order. -/
def TableSchema.attributesOf : List String → Except SqlExn (List Attribute)
  | [] => .ok []
  | declaration :: rest =>
    match TableSchema.attributeOf declaration with
    | .error e => .error e
    | .ok attr =>
      match TableSchema.attributesOf rest with
      | .error e => .error e
      | .ok attrs => .ok (attr :: attrs)

/-- Lines 47-56 of schema.cpp: the header and the declarations cut out of the
statement; both stay empty when the header pattern is not found. The count
`declarations.length() - 3` is computed in `size_t`. -/
def TableSchema.extract (sql : String) : String × Except SqlExn String :=
  match Regex.firstMatch TableSchema.headerPattern sql.data with
  | Option.none => ("", .ok "")
  | some (found, rest) =>
    (String.mk found, substrAt (String.mk rest) 1 ((rest.length + 2 ^ 64 - 3) % 2 ^ 64))

/-- The method `TableSchema::fromSQLStatement(sql)`. The table name is group 1
of the match of the header with the header pattern: the characters of the class
`[a-zA-Z_]` behind the 13 characters of `CREATE\sTABLE\s`. -/
def TableSchema.fromSQLStatement (sql : String) : Except SqlExn TableSchema :=
  if regex_search sql TableSchema.pattern = false then .error (SqlExn.SqlInvalid sql)
  else
    match (TableSchema.extract sql).2 with
    | .error e => .error e
    | .ok declarations =>
      match TableSchema.attributesOf (splitCommaSpace declarations.data []) with
      | .error e => .error e
      | .ok attrs =>
        .ok { tableName :=
                if regex_match (TableSchema.extract sql).1 TableSchema.headerPattern = true
                then String.mk (((TableSchema.extract sql).1.data.drop 13).takeWhile isNameChar)
                else ""
              attrs := attrs
              isTemp := false }

/-! ## Examples and expected values for the join-key and layout claims -/

/-- A row of a table `r(a, b)` whose value of `a` is empty. -/
def exEmptyRow : Row := { tableName := "r", values := ["", "x"] }

/-- A table `l(a, b)`. -/
def exKeyLeftSchema : TableSchema :=
  { tableName := "l"
    attrs := [{ attrName := "a", attrType := DataType.INT, maxSize := 0, isNotNull := false,
                isUnique := false },
              { attrName := "b", attrType := DataType.INT, maxSize := 0, isNotNull := false,
                isUnique := false }]
    isTemp := false }

/-- A table `q(a, b)`, which shares both attribute names with `l`. -/
def exKeyRightSchema : TableSchema := { exKeyLeftSchema with tableName := "q" }

/-- A row of `l` with the values `1` and `23`. -/
def exKeyLeftRow : Row := { tableName := "l", values := ["1", "23"] }

/-- A row of `q` with the values `12` and `3`. -/
def exKeyRightRow : Row := { tableName := "q", values := ["12", "3"] }

/-- The values of the result attributes for a left row and a right row: the
values of the left row, and then the values of the right row for the attributes
of `R` whose name is not in `L`. -/
def resultValues (L R : TableSchema) (l r : Row) : List String :=
  l.values ++ ((R.attrs.zip r.values).filter (fun e => !L.hasAttr e.1.attrName)).map Prod.snd

/-! ## The joins on a buffer pool (`executor.cpp`)

`OnePassJoinOperator.execute` and `NestedLoopJoinOperator.execute` above list
the calls a join makes for the result file. Here the same two methods run on a
buffer pool: every call is made on `BufMgr`, and because `execute` has no `try`
block, the first exception ends the method where it is thrown. -/

/-- What ends `execute` before its `return`: an exception of the buffer
manager, or the exception of `Page::insertRecord` for a page without room. -/
inductive JoinExn where
  | pool (e : Exn)
  | InsufficientSpace
deriving DecidableEq, Repr

/-- A join under way: the variables of `execute` and the buffer pool. -/
structure JoinRun where
  st : JoinState
  pool : BufMgr

/-- The outcome of a piece of `execute`: the run after it, or the exception
thrown together with the run at the throw; `none` stands for a clock sweep that
used up its fuel. -/
abbrev JoinStep := Option (Except (JoinExn × JoinRun) JoinRun)

/-- A `while` loop over the elements an iterator yields, with body `f`: an
exception thrown by the body ends the loop. -/
def JoinRun.foldOn {α : Type} (f : JoinRun → α → JoinStep) : JoinRun → List α → JoinStep
  | x, [] => some (.ok x)
  | x, a :: rest =>
    match f x a with
    | none => none
    | some (.error e) => some (.error e)
    | some (.ok y) => JoinRun.foldOn f y rest

/-- The call `bufMgr->allocPage(resultFilePointer, resultPageNo, resultPage)`;
the frame index stands for the pointer `resultPage`. -/
def JoinRun.allocPage (seatRef : Bool) (resultFile : File) (x : JoinRun) :
    Option (Except (JoinExn × JoinRun) (JoinRun × PageId × FrameId)) :=
  match x.pool.allocPage seatRef resultFile with
  | none => none
  | some (.error e, s1) => some (.error (JoinExn.pool e, { x with pool := s1 }))
  | some (.ok (resultPageNo, resultPage), s1) =>
    some (.ok ({ st := { x.st with calls := x.st.calls ++ [ResultCall.allocPage] }, pool := s1 },
      resultPageNo, resultPage))

/-- Modelled from the spec: the call `resultPage->insertRecord(record)` on the
page in frame `resultPage` of the pool. A page is a fixed-size container; the
page library, which decides whether a record still fits, is not part of the
sources, so the decision is the parameter `fits`. A record that fits is
appended through the page pointer; one that does not makes the call throw. -/
def JoinRun.insertRecord (fits : Page → String → Bool) (resultPage : FrameId) (x : JoinRun)
    (record : String) : JoinStep :=
  if fits (x.pool.page resultPage) record = true then
    some (.ok
      { st := { x.st with calls := x.st.calls ++ [ResultCall.insertRecord record] }
        pool := x.pool.modifyPage resultPage
          ((x.pool.page resultPage).insertRecord record).2.records })
  else some (.error (JoinExn.InsufficientSpace, x))

/-- The call `bufMgr->unPinPage(resultFilePointer, resultPageNo, true)`. -/
def JoinRun.unPinPage (resultFile : File) (resultPageNo : PageId) (x : JoinRun) : JoinStep :=
  match x.pool.unPinPage resultFile resultPageNo true with
  | (.error e, s1) => some (.error (JoinExn.pool e, { x with pool := s1 }))
  | (.ok _, s1) =>
    some (.ok { st := { x.st with calls := x.st.calls ++ [ResultCall.unPinPage true] },
                pool := s1 })

/-- The call `bufMgr->flushFile(resultFilePointer)`. -/
def JoinRun.flushFile (resultFile : File) (x : JoinRun) : JoinStep :=
  match x.pool.flushFile resultFile with
  | (.error e, s1) => some (.error (JoinExn.pool e, { x with pool := s1 }))
  | (.ok _, s1) =>
    some (.ok { st := { x.st with calls := x.st.calls ++ [ResultCall.flushFile] }, pool := s1 })

/-- Lines 240-268 (and 396-434) on the pool: when the key of the right record
is in the map, one `insertRecord` on the current result page per left record
stored under it, each followed by `numResultTuples++`. -/
def JoinRun.probe (fits : Page → String → Bool) (joinAttrsIDRight : List Nat)
    (resultPage : FrameId) (x : JoinRun) (record : String) : JoinStep :=
  let attrs := split record "\t"
  let key := joinKey attrs joinAttrsIDRight
  if BufferMap.count x.st.bufferMap key > 0 then
    JoinRun.foldOn (fun x token =>
      match x.insertRecord fits resultPage
          ("result\t" ++ joinedTuple joinAttrsIDRight token record) with
      | none => none
      | some (.error e) => some (.error e)
      | some (.ok y) =>
        some (.ok { y with st := { y.st with numResultTuples := y.st.numResultTuples + 1 } }))
      x (BufferMap.get x.st.bufferMap key)
  else some (.ok x)

/-- The body of the inner `while` of the probe stage of the one-pass join
(lines 224-275) on the pool. -/
def OnePassJoinOperator.probeRecordOn (seatRef : Bool) (fits : Page → String → Bool)
    (resultFile : File) (joinAttrsIDRight : List Nat) (x : JoinRun) (record : String) :
    JoinStep :=
  match x.allocPage seatRef resultFile with
  | none => none
  | some (.error e) => some (.error e)
  | some (.ok (x, resultPageNo, resultPage)) =>
    match x.probe fits joinAttrsIDRight resultPage record with
    | none => none
    | some (.error e) => some (.error e)
    | some (.ok x) =>
      match x.unPinPage resultFile resultPageNo with
      | none => none
      | some (.error e) => some (.error e)
      | some (.ok x) =>
        match x.flushFile resultFile with
        | none => none
        | some (.error e) => some (.error e)
        | some (.ok x) =>
          some (.ok { x with st := { x.st with
            numIOs := x.st.numIOs + 1
            numUsedBufPages := x.st.numUsedBufPages + 1 } })

/-- The method `OnePassJoinOperator::execute` (executor.cpp lines 118-281) on
the buffer pool `pool`, with the result file `resultFile`. The two tables are
read through their file iterators, which do not go through the pool, so the
build stage leaves the pool alone. The result is the value returned or the
exception that leaves the method, the operator afterwards (its three counters
are updated in place, so after an exception they hold what was counted up to
the throw, and `isComplete` is still false), the calls that returned, and the
pool. -/
def OnePassJoinOperator.executeOn (seatRef : Bool) (fits : Page → String → Bool)
    (resultFile : File) (op : JoinOperator) (leftPages rightPages : List (List String))
    (pool : BufMgr) : Option (Except JoinExn Bool × JoinOperator × List ResultCall × BufMgr) :=
  if op.isComplete = true then some (.ok true, op, [], pool)
  else
    let idsLeft := joinAttrsIDLeft op.leftTableSchema op.rightTableSchema
    let idsRight := joinAttrsIDRight op.leftTableSchema op.rightTableSchema
    let st := leftPages.foldl (fun st page =>
      page.foldl (OnePassJoinOperator.buildRecord idsLeft) st) JoinState.init
    match JoinRun.foldOn (fun x page =>
        JoinRun.foldOn (OnePassJoinOperator.probeRecordOn seatRef fits resultFile idsRight) x page)
        { st := st, pool := pool } rightPages with
    | none => none
    | some (.error (e, x)) =>
      some (.error e,
        { op with
          numResultTuples := x.st.numResultTuples
          numUsedBufPages := x.st.numUsedBufPages
          numIOs := x.st.numIOs },
        x.st.calls, x.pool)
    | some (.ok x) =>
      some (.ok true,
        { op with
          numResultTuples := x.st.numResultTuples
          numUsedBufPages := x.st.numUsedBufPages
          numIOs := x.st.numIOs
          isComplete := true },
        x.st.calls, x.pool)

/-- The body of the inner `while` over the right records (lines 392-436) on
the pool. -/
def NestedLoopJoinOperator.probeRecordOn (fits : Page → String → Bool)
    (joinAttrsIDRight : List Nat) (resultPage : FrameId) (x : JoinRun) (rightRecord : String) :
    JoinStep :=
  match x.probe fits joinAttrsIDRight resultPage rightRecord with
  | none => none
  | some (.error e) => some (.error e)
  | some (.ok x) => some (.ok { x with st := { x.st with numIOs := x.st.numIOs + 1 } })

/-- The body of the `while` over the records of a left page (lines 358-441) on
the pool. -/
def NestedLoopJoinOperator.leftRecordOn (fits : Page → String → Bool)
    (joinAttrsIDLeft joinAttrsIDRight : List Nat) (rightPages : List (List String))
    (resultPage : FrameId) (x : JoinRun) (leftRecord : String) : JoinStep :=
  let leftAttrs := split leftRecord "\t"
  let leftKey := joinKey leftAttrs joinAttrsIDLeft
  let x := { x with st := { x.st with
    bufferMap := BufferMap.add x.st.bufferMap leftKey leftRecord
    blockUsedCount := x.st.blockUsedCount + 1 } }
  if (decide (x.st.blockUsedCount % blockSize = 0) && decide (x.st.blockUsedCount ≠ 0)) = false
  then some (.ok x)
  else
    let x := { x with st := { x.st with numIOs := x.st.numIOs + 1 } }
    match JoinRun.foldOn (fun x rightPage =>
        JoinRun.foldOn (NestedLoopJoinOperator.probeRecordOn fits joinAttrsIDRight resultPage)
          x rightPage) x rightPages with
    | none => none
    | some (.error e) => some (.error e)
    | some (.ok x) => some (.ok { x with st := { x.st with bufferMap := [] } })

/-- The body of the `while` over the left pages (lines 347-445) on the pool. -/
def NestedLoopJoinOperator.leftPageOn (seatRef : Bool) (fits : Page → String → Bool)
    (resultFile : File) (joinAttrsIDLeft joinAttrsIDRight : List Nat)
    (rightPages : List (List String)) (x : JoinRun) (leftPage : List String) : JoinStep :=
  match x.allocPage seatRef resultFile with
  | none => none
  | some (.error e) => some (.error e)
  | some (.ok (x, resultPageNo, resultPage)) =>
    match JoinRun.foldOn (NestedLoopJoinOperator.leftRecordOn fits joinAttrsIDLeft
        joinAttrsIDRight rightPages resultPage) x leftPage with
    | none => none
    | some (.error e) => some (.error e)
    | some (.ok x) =>
      match x.unPinPage resultFile resultPageNo with
      | none => none
      | some (.error e) => some (.error e)
      | some (.ok x) => x.flushFile resultFile

/-- The method `NestedLoopJoinOperator::execute` (executor.cpp lines 283-452)
on the buffer pool `pool`, with the same conventions as
`OnePassJoinOperator.executeOn`. `numUsedBufPages` is assigned only behind the
loops, so after an exception it is still the 0 of line 292. -/
def NestedLoopJoinOperator.executeOn (seatRef : Bool) (fits : Page → String → Bool)
    (resultFile : File) (op : JoinOperator) (leftPages rightPages : List (List String))
    (pool : BufMgr) : Option (Except JoinExn Bool × JoinOperator × List ResultCall × BufMgr) :=
  if op.isComplete = true then some (.ok true, op, [], pool)
  else
    let idsLeft := joinAttrsIDLeft op.leftTableSchema op.rightTableSchema
    let idsRight := joinAttrsIDRight op.leftTableSchema op.rightTableSchema
    match JoinRun.foldOn
        (NestedLoopJoinOperator.leftPageOn seatRef fits resultFile idsLeft idsRight rightPages)
        { st := JoinState.init, pool := pool } leftPages with
    | none => none
    | some (.error (e, x)) =>
      some (.error e,
        { op with
          numResultTuples := x.st.numResultTuples
          numUsedBufPages := x.st.numUsedBufPages
          numIOs := x.st.numIOs },
        x.st.calls, x.pool)
    | some (.ok x) =>
      some (.ok true,
        { op with
          numResultTuples := x.st.numResultTuples
          numUsedBufPages := blockSize + 1
          numIOs := x.st.numIOs
          isComplete := true },
        x.st.calls, x.pool)

/-- A result page with room for every record. -/
def anyFits : Page → String → Bool := fun _ _ => true

/-- The pool between an `allocPage` and the `unPinPage` of the page: the
descriptors and the hash table are those the `allocPage` left. -/
def SamePins (seatRef : Bool) (s1 : BufMgr) (x : JoinRun) : Prop :=
  Reachable seatRef x.pool ∧ (∀ j, x.pool.desc j = s1.desc j) ∧
    x.pool.hashTable = s1.hashTable ∧ x.pool.numBufs = s1.numBufs

/-- The pool before an `allocPage` of the join: reachable, without a pinned
frame of the result file, and such that the `allocPage` finds a frame. -/
def ReadyPool (seatRef : Bool) (file : File) (x : JoinRun) : Prop :=
  Reachable seatRef x.pool ∧
    (∀ i, i < x.pool.numBufs → x.pool.ownedBy i file.filename → (x.pool.desc i).pinCnt = 0) ∧
    ∃ p k s1, x.pool.allocPage seatRef file = some (.ok (p, k), s1)

/-- A handle on a result file, `result.tbl`, which `exDisk` does not hold. -/
def exResultFile : File := { handle := 3, filename := "result.tbl" }

/-- A pool of two frames over `exDisk` after `allocPage(result.tbl)` twice and
`unPinPage(result.tbl, 1, false)`: frame 0 caches page 1 of the result file and
is not pinned, frame 1 caches its page 2 and is still pinned; the clock hand is
on frame 1. -/
def exResultPinned : BufMgr :=
  { bufDescTable :=
      [{ file := some exResultFile, pageNo := 1, frameNo := 0, pinCnt := 0, dirty := false,
         valid := true, refbit := true },
       { file := some exResultFile, pageNo := 2, frameNo := 1, pinCnt := 1, dirty := false,
         valid := true, refbit := true }]
    bufPool := [{ page_number := 1, records := [] }, { page_number := 2, records := [] }]
    hashTable := [{ file := exResultFile, pageNo := 2, frameNo := 1 },
                  { file := exResultFile, pageNo := 1, frameNo := 0 }]
    clockHand := 1
    disk := { stored := exDisk.stored ++
                [("result.tbl", { page_number := 1, records := [] }),
                 ("result.tbl", { page_number := 2, records := [] })]
              log := [IOEvent.allocate "result.tbl" 1, IOEvent.allocate "result.tbl" 2] } }

/-! ## Lists: reading a slot after a write -/

theorem getD_set_eq {α : Type} (l : List α) (i j : Nat) (a d : α) :
    (l.set i a).getD j d = if i = j ∧ i < l.length then a else l.getD j d := by
  simp only [List.getD_eq_getElem?_getD, List.getElem?_set]
  by_cases h : i = j
  · subst h
    by_cases h2 : i < l.length
    · simp [h2]
    · simp [h2, List.getElem?_eq_none (Nat.le_of_not_lt h2)]
  · simp [h]

theorem length_filter_set_lt {α : Type} (p : α → Bool) (l : List α) (i : Nat) (a d : α)
    (hi : i < l.length) (hp : p (l.getD i d) = true) (ha : p a = false) :
    ((l.set i a).filter p).length + 1 = (l.filter p).length := by
  induction l generalizing i with
  | nil => simp at hi
  | cons x xs ih =>
    cases i with
    | zero =>
      simp only [List.getD_cons_zero] at hp
      simp [List.set, List.filter, hp, ha]
    | succ n =>
      simp only [List.getD_cons_succ] at hp
      have hn : n < xs.length := by simpa using hi
      have := ih n hn hp
      by_cases hx : p x = true
      · simp [List.set, List.filter, hx]; omega
      · simp [List.set, List.filter, hx]; omega

/-! ## The frame hash index -/

theorem hashBucket.matches_iff (b : hashBucket) (f : File) (p : PageId) :
    b.matches f p = true ↔ b.file.filename = f.filename ∧ b.pageNo = p := by
  simp [hashBucket.matches]

theorem lookup_eq_some {ht : BufHashTbl} {f : File} {p : PageId} {k : FrameId}
    (h : ht.lookup f p = some k) :
    ∃ b ∈ ht, b.file.filename = f.filename ∧ b.pageNo = p ∧ b.frameNo = k := by
  unfold BufHashTbl.lookup at h
  cases hf : List.find? (fun b => b.matches f p) ht with
  | none => simp [hf] at h
  | some b =>
    simp [hf] at h
    have hm := List.find?_some hf
    rw [hashBucket.matches_iff] at hm
    exact ⟨b, List.mem_of_find?_eq_some hf, hm.1, hm.2, h⟩

theorem lookup_eq_none {ht : BufHashTbl} {f : File} {p : PageId}
    (h : ht.lookup f p = none) :
    ∀ b ∈ ht, ¬ (b.file.filename = f.filename ∧ b.pageNo = p) := by
  unfold BufHashTbl.lookup at h
  simp only [Option.map_eq_none', List.find?_eq_none] at h
  intro b hb hk
  exact h b hb ((hashBucket.matches_iff b f p).2 hk)

theorem lookup_of_mem {ht : BufHashTbl}
    (hnd : ht.Pairwise (fun a b => ¬ (a.file.filename = b.file.filename ∧ a.pageNo = b.pageNo)))
    {b : hashBucket} (hb : b ∈ ht) {f : File} {p : PageId}
    (hk : b.file.filename = f.filename ∧ b.pageNo = p) :
    ht.lookup f p = some b.frameNo := by
  induction ht with
  | nil => simp at hb
  | cons x xs ih =>
    rw [List.pairwise_cons] at hnd
    unfold BufHashTbl.lookup
    rw [List.find?_cons]
    rcases List.mem_cons.1 hb with rfl | hb'
    · have : b.matches f p = true := (hashBucket.matches_iff b f p).2 hk
      simp [this]
    · have hx : x.matches f p = false := by
        cases hxm : x.matches f p with
        | false => rfl
        | true =>
          rw [hashBucket.matches_iff] at hxm
          exact absurd ⟨hxm.1.trans hk.1.symm, hxm.2.trans hk.2.symm⟩ (hnd.1 b hb')
      simp only [hx]
      exact ih hnd.2 hb'

theorem lookup_insert_self (ht : BufHashTbl) (f : File) (p : PageId) (k : FrameId) :
    (ht.insert f p k).lookup f p = some k := by
  simp [BufHashTbl.insert, BufHashTbl.lookup, hashBucket.matches]

theorem lookup_insert_ne (ht : BufHashTbl) (f g : File) (p q : PageId) (k : FrameId)
    (h : ¬ (f.filename = g.filename ∧ p = q)) :
    (ht.insert f p k).lookup g q = ht.lookup g q := by
  simp [BufHashTbl.insert, BufHashTbl.lookup, hashBucket.matches, h]

theorem remove_eq_some_of_lookup {ht : BufHashTbl} {f : File} {p : PageId} {k : FrameId}
    (h : ht.lookup f p = some k) :
    ht.remove f p = some (ht.eraseP (fun b => b.matches f p)) := by
  unfold BufHashTbl.lookup at h
  unfold BufHashTbl.remove
  cases hf : List.find? (fun b => b.matches f p) ht with
  | none => simp [hf] at h
  | some b => rfl

theorem remove_eq_some {ht ht1 : BufHashTbl} {f : File} {p : PageId}
    (h : ht.remove f p = some ht1) : ht1 = ht.eraseP (fun b => b.matches f p) := by
  unfold BufHashTbl.remove at h
  cases hf : List.find? (fun b => b.matches f p) ht with
  | none => simp [hf] at h
  | some b => simp [hf] at h; exact h.symm

theorem mem_of_mem_erase {ht : BufHashTbl} {f : File} {p : PageId} {b : hashBucket}
    (hb : b ∈ ht.eraseP (fun b => b.matches f p)) : b ∈ ht :=
  (List.eraseP_sublist ht).subset hb

theorem not_key_of_mem_erase {ht : BufHashTbl}
    (hnd : ht.Pairwise (fun a b => ¬ (a.file.filename = b.file.filename ∧ a.pageNo = b.pageNo)))
    {f : File} {p : PageId} {b : hashBucket}
    (hb : b ∈ ht.eraseP (fun b => b.matches f p)) :
    ¬ (b.file.filename = f.filename ∧ b.pageNo = p) := by
  induction ht with
  | nil => simp at hb
  | cons x xs ih =>
    rw [List.pairwise_cons] at hnd
    rw [List.eraseP_cons] at hb
    by_cases hx : x.matches f p = true
    · simp only [hx, if_true] at hb
      rw [hashBucket.matches_iff] at hx
      intro hk
      exact hnd.1 b hb ⟨hx.1.trans hk.1.symm, hx.2.trans hk.2.symm⟩
    · simp only [hx] at hb
      rcases List.mem_cons.1 hb with rfl | hb'
      · rwa [hashBucket.matches_iff] at hx
      · exact ih hnd.2 hb'

theorem lookup_erase_ne (ht : BufHashTbl) (f g : File) (p q : PageId)
    (h : ¬ (f.filename = g.filename ∧ p = q)) :
    BufHashTbl.lookup (ht.eraseP (fun b => b.matches f p)) g q = ht.lookup g q := by
  induction ht with
  | nil => rfl
  | cons x xs ih =>
    rw [List.eraseP_cons]
    by_cases hx : x.matches f p = true
    · simp only [hx, if_true]
      have : x.matches g q = false := by
        cases hxm : x.matches g q with
        | false => rfl
        | true =>
          rw [hashBucket.matches_iff] at hx hxm
          exact absurd ⟨hx.1.symm.trans hxm.1, hx.2.symm.trans hxm.2⟩ h
      simp [BufHashTbl.lookup, List.find?_cons, this]
    · have hx2 : x.matches f p = false := by simpa using hx
      simp only [hx2, cond_false]
      unfold BufHashTbl.lookup at ih ⊢
      simp only [List.find?_cons]
      cases hxm : x.matches g q with
      | true => rfl
      | false => simpa using ih

theorem pairwise_erase {ht : BufHashTbl}
    (hnd : ht.Pairwise (fun a b => ¬ (a.file.filename = b.file.filename ∧ a.pageNo = b.pageNo)))
    (f : File) (p : PageId) :
    (ht.eraseP (fun b => b.matches f p)).Pairwise
      (fun a b => ¬ (a.file.filename = b.file.filename ∧ a.pageNo = b.pageNo)) :=
  hnd.sublist (List.eraseP_sublist ht)

/-! ## The file layer -/

theorem Disk.find_eq_none {d : Disk} {fn : String} {p : PageId} :
    d.find fn p = none ↔ ∀ e ∈ d.stored, ¬ (e.1 = fn ∧ e.2.page_number = p) := by
  simp [Disk.find, List.find?_eq_none]

theorem Disk.find_isSome {d : Disk} {fn : String} {p : PageId} :
    (d.find fn p).isSome = true ↔ ∃ e ∈ d.stored, e.1 = fn ∧ e.2.page_number = p := by
  rw [← not_iff_not]
  simp only [Bool.not_eq_true, Option.not_isSome, Option.isNone_iff_eq_none, not_exists, not_and]
  rw [Disk.find_eq_none]
  simp

theorem Disk.find_page_number {d : Disk} {fn : String} {p : PageId} {pg : Page}
    (h : d.find fn p = some pg) : pg.page_number = p := by
  unfold Disk.find at h
  cases hf : List.find? (fun e => decide (e.1 = fn ∧ e.2.page_number = p)) d.stored with
  | none => rw [hf] at h; simp at h
  | some e =>
    rw [hf] at h
    simp only [Option.map_some', Option.some.injEq] at h
    have := List.find?_some hf
    simp at this
    rw [← h]; exact this.2

theorem readPage_snd (f : File) (p : PageId) (d : Disk) :
    (f.readPage p d).2 = { d with log := d.log ++ [IOEvent.read f.filename p] } := by
  unfold File.readPage
  cases d.find f.filename p <;> rfl

theorem readPage_ok {f : File} {p : PageId} {d : Disk} {pg : Page}
    (h : (f.readPage p d).1 = .ok pg) : d.find f.filename p = some pg := by
  unfold File.readPage at h
  cases hf : d.find f.filename p with
  | none => simp [hf] at h
  | some q => simp [hf] at h; rw [h]

theorem writePage_log (f : File) (pg : Page) (d : Disk) :
    (f.writePage pg d).2.log = d.log ++ [IOEvent.write f.filename pg] := by
  unfold File.writePage
  cases d.find f.filename pg.page_number <;> rfl

theorem writePage_fst_of_isSome {f : File} {pg : Page} {d : Disk}
    (h : (d.find f.filename pg.page_number).isSome = true) : (f.writePage pg d).1 = .ok () := by
  unfold File.writePage
  cases hf : d.find f.filename pg.page_number with
  | none => simp [hf] at h
  | some q => rfl

theorem find?_map_of_fix {α : Type} (P : α → Bool) (g : α → α) (l : List α)
    (h1 : ∀ e, P (g e) = P e) (h2 : ∀ e, P e = true → g e = e) :
    List.find? P (l.map g) = List.find? P l := by
  induction l with
  | nil => rfl
  | cons x xs ih =>
    simp only [List.map_cons, List.find?_cons, h1]
    cases hx : P x with
    | true => simp [h2 x hx]
    | false => simpa using ih

theorem find?_map_replace (l : List (String × Page)) (fn fn1 : String) (p : PageId) (pg : Page) :
    (List.find? (fun e => decide (e.1 = fn ∧ e.2.page_number = p))
      (l.map (fun e => if e.1 = fn1 ∧ e.2.page_number = pg.page_number then (e.1, pg) else e))).isSome
    = (List.find? (fun e => decide (e.1 = fn ∧ e.2.page_number = p)) l).isSome := by
  rw [Bool.eq_iff_iff, List.find?_isSome, List.find?_isSome]
  constructor
  · rintro ⟨e, he, hk⟩
    obtain ⟨e0, he0, rfl⟩ := List.mem_map.1 he
    refine ⟨e0, he0, ?_⟩
    by_cases hx : e0.1 = fn1 ∧ e0.2.page_number = pg.page_number
    · rw [if_pos hx] at hk
      simp only [decide_eq_true_eq] at hk ⊢
      exact ⟨hk.1, hx.2.trans hk.2⟩
    · rw [if_neg hx] at hk
      exact hk
  · rintro ⟨e0, he0, hk⟩
    refine ⟨_, List.mem_map.2 ⟨e0, he0, rfl⟩, ?_⟩
    by_cases hx : e0.1 = fn1 ∧ e0.2.page_number = pg.page_number
    · rw [if_pos hx]
      simp only [decide_eq_true_eq] at hk ⊢
      exact ⟨hk.1, hx.2.symm.trans hk.2⟩
    · rw [if_neg hx]
      exact hk

theorem find?_map_replace_ne (l : List (String × Page)) (fn fn1 : String) (p : PageId) (pg : Page)
    (hne : ¬ (fn1 = fn ∧ pg.page_number = p)) :
    List.find? (fun e => decide (e.1 = fn ∧ e.2.page_number = p))
      (l.map (fun e => if e.1 = fn1 ∧ e.2.page_number = pg.page_number then (e.1, pg) else e))
    = List.find? (fun e => decide (e.1 = fn ∧ e.2.page_number = p)) l := by
  apply find?_map_of_fix
  · intro e
    by_cases hx : e.1 = fn1 ∧ e.2.page_number = pg.page_number
    · rw [if_pos hx]
      have h1 : ¬ (e.1 = fn ∧ pg.page_number = p) := fun h => hne ⟨hx.1.symm.trans h.1, h.2⟩
      have h2 : ¬ (e.1 = fn ∧ e.2.page_number = p) :=
        fun h => hne ⟨hx.1.symm.trans h.1, hx.2.symm.trans h.2⟩
      simp only [h1, h2]
    · rw [if_neg hx]
  · intro e he
    simp only [decide_eq_true_eq] at he
    have hx : ¬ (e.1 = fn1 ∧ e.2.page_number = pg.page_number) :=
      fun h => hne ⟨h.1.symm.trans he.1, h.2.symm.trans he.2⟩
    rw [if_neg hx]

theorem writePage_find_isSome (f : File) (pg : Page) (d : Disk) (fn : String) (p : PageId) :
    ((f.writePage pg d).2.find fn p).isSome = (d.find fn p).isSome := by
  unfold File.writePage
  cases hf : d.find f.filename pg.page_number with
  | none => rfl
  | some q =>
    simp only [Disk.find, Option.isSome_map']
    exact find?_map_replace d.stored fn f.filename p pg

theorem writePage_find_ne (f : File) (pg : Page) (d : Disk) (fn : String) (p : PageId)
    (hne : ¬ (f.filename = fn ∧ pg.page_number = p)) :
    (f.writePage pg d).2.find fn p = d.find fn p := by
  unfold File.writePage
  cases hf : d.find f.filename pg.page_number with
  | none => rfl
  | some q =>
    simp only [Disk.find]
    rw [find?_map_replace_ne d.stored fn f.filename p pg hne]

theorem le_foldr_max (l : List Nat) : ∀ x ∈ l, x ≤ l.foldr max 0 := by
  induction l with
  | nil => simp
  | cons y ys ih =>
    intro x hx
    simp only [List.foldr_cons]
    rcases List.mem_cons.1 hx with rfl | h
    · exact le_max_left _ _
    · exact le_trans (ih x h) (le_max_right _ _)

theorem Disk.find_fresh (d : Disk) (fn : String) : d.find fn (d.freshPageNo fn) = none := by
  rw [Disk.find_eq_none]
  intro e he hk
  have hmem : e.2.page_number ∈
      (d.stored.filter (fun e => decide (e.1 = fn))).map (fun e => e.2.page_number) := by
    apply List.mem_map.2
    exact ⟨e, List.mem_filter.2 ⟨he, by simp [hk.1]⟩, rfl⟩
  have := le_foldr_max _ _ hmem
  have hk2 : e.2.page_number = ((d.stored.filter (fun e => decide (e.1 = fn))).map
      (fun e => e.2.page_number)).foldr max 0 + 1 := hk.2
  rw [hk2] at this
  exact absurd this (Nat.not_succ_le_self _)

theorem allocatePage_fst (f : File) (d : Disk) :
    (f.allocatePage d).1 = { page_number := d.freshPageNo f.filename, records := [] } := rfl

theorem allocatePage_log (f : File) (d : Disk) :
    (f.allocatePage d).2.log = d.log ++ [IOEvent.allocate f.filename (d.freshPageNo f.filename)] :=
  rfl

theorem allocatePage_find_of_isSome (f : File) (d : Disk) (fn : String) (p : PageId)
    (h : (d.find fn p).isSome = true) : ((f.allocatePage d).2.find fn p).isSome = true := by
  rw [Disk.find_isSome] at h ⊢
  obtain ⟨e, he, hk⟩ := h
  exact ⟨e, by simp [File.allocatePage, he], hk⟩

theorem allocatePage_find_new (f : File) (d : Disk) :
    ((f.allocatePage d).2.find f.filename (d.freshPageNo f.filename)).isSome = true := by
  rw [Disk.find_isSome]
  exact ⟨(f.filename, { page_number := d.freshPageNo f.filename, records := [] }),
    by simp [File.allocatePage], rfl, rfl⟩

theorem deletePage_log (f : File) (p : PageId) (d : Disk) :
    (f.deletePage p d).2.log = d.log ++ [IOEvent.delete f.filename p] := by
  unfold File.deletePage
  cases d.find f.filename p <;> rfl

theorem deletePage_find_ne (f : File) (q : PageId) (d : Disk) (fn : String) (p : PageId)
    (hne : ¬ (fn = f.filename ∧ p = q)) (h : (d.find fn p).isSome = true) :
    ((f.deletePage q d).2.find fn p).isSome = true := by
  unfold File.deletePage
  cases hf : d.find f.filename q with
  | none => simpa [Disk.find] using h
  | some pg =>
    rw [Disk.find_isSome] at h ⊢
    obtain ⟨e, he, hk⟩ := h
    refine ⟨e, ?_, hk⟩
    simp only [List.mem_filter]
    refine ⟨he, ?_⟩
    simp only [Bool.not_eq_true', decide_eq_false_iff_not]
    intro hk2
    exact hne ⟨hk.1.symm.trans hk2.1, hk.2.symm.trans hk2.2⟩

/-! ## Reading the state after an update -/

theorem desc_of_set {s t : BufMgr} {i : Nat} {d : BufDesc}
    (h : t.bufDescTable = s.bufDescTable.set i d) (j : Nat) :
    t.desc j = if i = j ∧ i < s.numBufs then d else s.desc j := by
  unfold BufMgr.desc BufMgr.numBufs
  rw [h, getD_set_eq]

theorem desc_of_eq {s t : BufMgr} (h : t.bufDescTable = s.bufDescTable) (j : Nat) :
    t.desc j = s.desc j := by
  unfold BufMgr.desc
  rw [h]

theorem numBufs_of_set {s t : BufMgr} {i : Nat} {d : BufDesc}
    (h : t.bufDescTable = s.bufDescTable.set i d) : t.numBufs = s.numBufs := by
  unfold BufMgr.numBufs
  rw [h, List.length_set]

theorem numBufs_of_eq {s t : BufMgr} (h : t.bufDescTable = s.bufDescTable) :
    t.numBufs = s.numBufs := by
  unfold BufMgr.numBufs
  rw [h]

theorem page_of_set {s t : BufMgr} {i : Nat} {pg : Page}
    (h : t.bufPool = s.bufPool.set i pg) (j : Nat) :
    t.page j = if i = j ∧ i < s.bufPool.length then pg else s.page j := by
  unfold BufMgr.page
  rw [h, getD_set_eq]

theorem page_of_eq {s t : BufMgr} (h : t.bufPool = s.bufPool) (j : Nat) :
    t.page j = s.page j := by
  unfold BufMgr.page
  rw [h]

theorem desc_out_of_range (s : BufMgr) (i : Nat) (h : s.numBufs ≤ i) :
    s.desc i = BufDesc.init i := by
  unfold BufMgr.desc
  rw [List.getD_eq_default _ _ h]

/-! ## The sweep relation -/

theorem Sweep.refl (s : BufMgr) : Sweep s s :=
  ⟨rfl, rfl, rfl, rfl, fun _ => rfl, fun _ h => h⟩

theorem Sweep.trans {s t u : BufMgr} (h1 : Sweep s t) (h2 : Sweep t u) : Sweep s u := by
  refine ⟨h2.len.trans h1.len, h2.pool.trans h1.pool, h2.hash.trans h1.hash,
    h2.disk.trans h1.disk, ?_, fun i h => h1.ref i (h2.ref i h)⟩
  intro i
  rw [h2.desc i, h1.desc i]

theorem Sweep.advance (s : BufMgr) : Sweep s s.advanceClock :=
  ⟨rfl, rfl, rfl, rfl, fun _ => rfl, fun _ h => h⟩

theorem Sweep.clearRef (s : BufMgr) (i : Nat) :
    Sweep s { s with bufDescTable := s.bufDescTable.set i { s.desc i with refbit := false } } := by
  refine ⟨numBufs_of_set rfl, rfl, rfl, rfl, ?_, ?_⟩
  · intro j
    rw [desc_of_set rfl j]
    split
    · next h => rw [h.1]
    · rfl
  · intro j
    rw [desc_of_set rfl j]
    split
    · intro h; simp at h
    · exact id

theorem Sweep.valid {s t : BufMgr} (h : Sweep s t) (i : Nat) :
    (t.desc i).valid = (s.desc i).valid := by rw [h.desc i]

theorem Sweep.pinCnt {s t : BufMgr} (h : Sweep s t) (i : Nat) :
    (t.desc i).pinCnt = (s.desc i).pinCnt := by rw [h.desc i]

theorem Sweep.file {s t : BufMgr} (h : Sweep s t) (i : Nat) :
    (t.desc i).file = (s.desc i).file := by rw [h.desc i]

theorem Sweep.pageNo {s t : BufMgr} (h : Sweep s t) (i : Nat) :
    (t.desc i).pageNo = (s.desc i).pageNo := by rw [h.desc i]

theorem Sweep.frameNo {s t : BufMgr} (h : Sweep s t) (i : Nat) :
    (t.desc i).frameNo = (s.desc i).frameNo := by rw [h.desc i]

theorem Sweep.dirty {s t : BufMgr} (h : Sweep s t) (i : Nat) :
    (t.desc i).dirty = (s.desc i).dirty := by rw [h.desc i]

theorem Sweep.page {s t : BufMgr} (h : Sweep s t) (i : Nat) : t.page i = s.page i :=
  page_of_eq h.pool i

theorem Sweep.caches {s t : BufMgr} (h : Sweep s t) (i : Nat) (fn : String) (p : PageId) :
    t.caches i fn p ↔ s.caches i fn p := by
  unfold BufMgr.caches
  rw [h.valid, h.pageNo, h.file]

theorem Sweep.keeps_wf {s t : BufMgr} (h : Sweep s t) (w : s.WF) : t.WF := by
  refine ⟨?_, ?_, ?_, ?_, ?_, ?_, ?_, ?_, ?_⟩
  · rw [h.len]; exact w.size_lt
  · rw [h.len, h.pool]; exact w.pool_len
  · intro i hi; rw [h.len] at hi; rw [h.frameNo]; exact w.frameNo_eq i hi
  · intro i hi hv
    rw [h.len] at hi; rw [h.valid] at hv
    rw [h.file, h.pageNo, h.hash]; exact w.valid_hash i hi hv
  · intro i hi hv
    rw [h.len] at hi; rw [h.valid] at hv
    rw [h.file, h.pinCnt]; exact w.invalid_clear i hi hv
  · intro b hb
    rw [h.hash] at hb
    rw [h.len, h.caches]; exact w.hash_valid b hb
  · rw [h.hash]; exact w.hash_nodup
  · intro i hi fn p hc
    rw [h.len] at hi; rw [h.caches] at hc
    rw [h.disk]; exact w.on_disk i hi fn p hc
  · intro i hi hv
    rw [h.len] at hi; rw [h.valid] at hv
    rw [h.page, h.pageNo]; exact w.image_no i hi hv

/-! ## The shape of a clock sweep -/

theorem advanceClock_hand_lt (s : BufMgr) (h : 0 < s.numBufs) :
    s.advanceClock.clockHand < s.numBufs :=
  Nat.mod_lt _ h

/-- Whatever the sweep returns, it got there by moving the hand and clearing
reference bits only (`Sweep s sm`), and then either gave up, or took the invalid
frame under the hand, or evicted the unreferenced, unpinned frame under it. -/
theorem allocBufLoop_shape (fuel : Nat) : ∀ (s : BufMgr) (c : Nat) (r : Except Exn FrameId)
    (s1 : BufMgr), c ≤ s.numBufs → s.allocBufLoop fuel c = some (r, s1) →
    ∃ sm, Sweep s sm ∧
      ((r = .error Exn.BufferExceeded ∧ s1 = sm) ∨
       (sm.clockHand < sm.numBufs ∧ (sm.desc sm.clockHand).valid = false ∧
          r = .ok (sm.desc sm.clockHand).frameNo ∧ s1 = sm) ∨
       (sm.clockHand < sm.numBufs ∧ (sm.desc sm.clockHand).valid = true ∧
          (sm.desc sm.clockHand).refbit = false ∧ (sm.desc sm.clockHand).pinCnt = 0 ∧
          sm.evict = (r, s1))) := by
  induction fuel with
  | zero => intro s c r s1 _ h; simp [BufMgr.allocBufLoop] at h
  | succ n ih =>
    intro s c r s1 hc h
    rw [BufMgr.allocBufLoop] at h
    by_cases h0 : c = s.numBufs
    · rw [if_pos h0] at h
      simp only [Option.some.injEq, Prod.mk.injEq] at h
      exact ⟨s, Sweep.refl s, Or.inl ⟨h.1.symm, h.2.symm⟩⟩
    · rw [if_neg h0] at h
      have hN : 0 < s.numBufs := by omega
      have hhand := advanceClock_hand_lt s hN
      simp only at h
      by_cases hv : (s.advanceClock.desc s.advanceClock.clockHand).valid = true
      · rw [if_pos hv] at h
        by_cases hr : (s.advanceClock.desc s.advanceClock.clockHand).refbit = true
        · rw [if_pos hr] at h
          have hsw := (Sweep.advance s).trans
            (Sweep.clearRef s.advanceClock s.advanceClock.clockHand)
          obtain ⟨sm, hsm, hcases⟩ := ih _ c r s1 (by rw [hsw.len]; exact hc) h
          exact ⟨sm, hsw.trans hsm, hcases⟩
        · rw [if_neg hr] at h
          by_cases hp : (s.advanceClock.desc s.advanceClock.clockHand).pinCnt > 0
          · rw [if_pos hp] at h
            obtain ⟨sm, hsm, hcases⟩ := ih _ (c + 1) r s1
              (by show c + 1 ≤ s.numBufs; omega) h
            exact ⟨sm, (Sweep.advance s).trans hsm, hcases⟩
          · rw [if_neg hp] at h
            simp only [Option.some.injEq] at h
            refine ⟨s.advanceClock, Sweep.advance s, Or.inr (Or.inr ⟨hhand, hv, ?_, ?_, h⟩)⟩
            · simpa using hr
            · omega
      · rw [if_neg hv] at h
        simp only [Option.some.injEq, Prod.mk.injEq] at h
        refine ⟨s.advanceClock, Sweep.advance s, Or.inr (Or.inl ⟨hhand, ?_, h.1.symm, h.2.symm⟩)⟩
        simpa using hv

theorem numBufs_set (t : BufMgr) (i : Nat) (d : BufDesc) :
    BufMgr.numBufs { t with bufDescTable := t.bufDescTable.set i d } = t.numBufs :=
  numBufs_of_set rfl

theorem clearRef_measure (t : BufMgr) (i : Nat) (hi : i < t.numBufs)
    (hv : (t.desc i).valid = true) (hr : (t.desc i).refbit = true) :
    ((t.bufDescTable.set i { t.desc i with refbit := false }).filter
        (fun d => d.valid && d.refbit)).length + 1
      = (t.bufDescTable.filter (fun d => d.valid && d.refbit)).length := by
  apply length_filter_set_lt (fun d => d.valid && d.refbit) t.bufDescTable i _ (BufDesc.init i) hi
  · show ((t.desc i).valid && (t.desc i).refbit) = true
    rw [hv, hr]; rfl
  · simp

/-- The sweep returns: the fuel `2 * numBufs + 1` always suffices. -/
theorem allocBufLoop_isSome (fuel : Nat) : ∀ (s : BufMgr) (c : Nat), c ≤ s.numBufs →
    (s.bufDescTable.filter (fun d => d.valid && d.refbit)).length + (s.numBufs - c) < fuel →
    (s.allocBufLoop fuel c).isSome = true := by
  induction fuel with
  | zero => intro s c _ h; omega
  | succ n ih =>
    intro s c hc hf
    rw [BufMgr.allocBufLoop]
    by_cases h0 : c = s.numBufs
    · rw [if_pos h0]; rfl
    · rw [if_neg h0]
      have hN : 0 < s.numBufs := by omega
      have hhand := advanceClock_hand_lt s hN
      simp only
      by_cases hv : (s.advanceClock.desc s.advanceClock.clockHand).valid = true
      · rw [if_pos hv]
        by_cases hr : (s.advanceClock.desc s.advanceClock.clockHand).refbit = true
        · rw [if_pos hr]
          have hlen := clearRef_measure s.advanceClock _ hhand hv hr
          have hlen2 : ((s.bufDescTable.set s.advanceClock.clockHand
              { s.advanceClock.desc s.advanceClock.clockHand with refbit := false }).filter
              (fun d => d.valid && d.refbit)).length + 1
              = (s.bufDescTable.filter (fun d => d.valid && d.refbit)).length := hlen
          apply ih
          · rw [numBufs_set]; exact hc
          · rw [numBufs_set]
            show ((s.bufDescTable.set s.advanceClock.clockHand
              { s.advanceClock.desc s.advanceClock.clockHand with refbit := false }).filter
              (fun d => d.valid && d.refbit)).length + (s.numBufs - c) < n
            omega
        · rw [if_neg hr]
          by_cases hp : (s.advanceClock.desc s.advanceClock.clockHand).pinCnt > 0
          · rw [if_pos hp]
            apply ih
            · show c + 1 ≤ s.numBufs; omega
            · show (s.bufDescTable.filter _).length + (s.numBufs - (c + 1)) < n
              omega
          · rw [if_neg hp]; rfl
      · rw [if_neg hv]; rfl

theorem allocBuf_isSome (s : BufMgr) : s.allocBuf.isSome = true := by
  unfold BufMgr.allocBuf
  apply allocBufLoop_isSome _ s 0 (Nat.zero_le _)
  have : (s.bufDescTable.filter (fun d => d.valid && d.refbit)).length ≤ s.numBufs :=
    List.length_filter_le _ _
  omega

theorem allocBuf_shape {s : BufMgr} {r : Except Exn FrameId} {s1 : BufMgr}
    (h : s.allocBuf = some (r, s1)) :
    ∃ sm, Sweep s sm ∧
      ((r = .error Exn.BufferExceeded ∧ s1 = sm) ∨
       (sm.clockHand < sm.numBufs ∧ (sm.desc sm.clockHand).valid = false ∧
          r = .ok (sm.desc sm.clockHand).frameNo ∧ s1 = sm) ∨
       (sm.clockHand < sm.numBufs ∧ (sm.desc sm.clockHand).valid = true ∧
          (sm.desc sm.clockHand).refbit = false ∧ (sm.desc sm.clockHand).pinCnt = 0 ∧
          sm.evict = (r, s1))) :=
  allocBufLoop_shape _ s 0 r s1 (Nat.zero_le _) h

/-! ## Building blocks for the invariant -/

theorem lookup_congr (ht : BufHashTbl) {f g : File} (h : f.filename = g.filename) (p : PageId) :
    ht.lookup f p = ht.lookup g p := by
  unfold BufHashTbl.lookup hashBucket.matches
  rw [h]

theorem BufMgr.WF.frame_lt_of_lookup {s : BufMgr} (w : s.WF) {f : File} {p : PageId} {k : FrameId}
    (h : s.hashTable.lookup f p = some k) : k < s.numBufs ∧ s.caches k f.filename p := by
  obtain ⟨b, hb, hfn, hp, hk⟩ := lookup_eq_some h
  have := w.hash_valid b hb
  rw [hk, hfn, hp] at this
  exact this

theorem BufMgr.WF.lookup_of_caches {s : BufMgr} (w : s.WF) {i : FrameId} (hi : i < s.numBufs)
    {f : File} {p : PageId} (hc : s.caches i f.filename p) :
    s.hashTable.lookup f p = some i := by
  obtain ⟨hv, hp, g, hg, hfn⟩ := hc
  obtain ⟨g1, hg1, hl⟩ := w.valid_hash i hi hv
  rw [hg] at hg1
  cases hg1
  rw [← hp, ← lookup_congr _ hfn]
  exact hl

theorem BufMgr.WF.caches_unique {s : BufMgr} (w : s.WF) {i j : FrameId} (hi : i < s.numBufs)
    (hj : j < s.numBufs) {n : String} {p : PageId} (h1 : s.caches i n p)
    (h2 : s.caches j n p) : i = j := by
  have a := w.lookup_of_caches hi (f := ⟨0, n⟩) h1
  have b := w.lookup_of_caches hj (f := ⟨0, n⟩) h2
  rw [a] at b
  exact Option.some.inj b

theorem BufMgr.WF.valid_of_pinned {s : BufMgr} (w : s.WF) {i : FrameId} (hi : i < s.numBufs)
    (hp : 0 < (s.desc i).pinCnt) : (s.desc i).valid = true := by
  cases hv : (s.desc i).valid with
  | true => rfl
  | false =>
    have := (w.invalid_clear i hi hv).2
    omega

/-- Freeing a valid frame: its descriptor is cleared and its hash entry is
removed.  The invariant survives. -/
theorem BufMgr.WF.free {s t : BufMgr} (w : s.WF) {k : FrameId} (hk : k < s.numBufs)
    {f : File} (hc : s.caches k f.filename (s.desc k).pageNo)
    (hd : t.bufDescTable = s.bufDescTable.set k (s.desc k).Clear)
    (hh : t.hashTable = s.hashTable.eraseP (fun b => b.matches f (s.desc k).pageNo))
    (hp : t.bufPool = s.bufPool)
    (hdisk : ∀ fn p, (s.disk.find fn p).isSome = true → (t.disk.find fn p).isSome = true) :
    t.WF := by
  have hlen : t.numBufs = s.numBufs := numBufs_of_set hd
  have hdesc : ∀ j, t.desc j = if k = j ∧ k < s.numBufs then (s.desc k).Clear else s.desc j :=
    desc_of_set hd
  have hdk : t.desc k = (s.desc k).Clear := by rw [hdesc k, if_pos ⟨rfl, hk⟩]
  have hdj : ∀ j, j ≠ k → t.desc j = s.desc j := by
    intro j hj
    rw [hdesc j, if_neg (fun h => hj h.1.symm)]
  have hcach : ∀ j fn p, t.caches j fn p → j ≠ k ∧ s.caches j fn p := by
    intro j fn p hcj
    by_cases hjk : j = k
    · subst hjk
      unfold BufMgr.caches at hcj
      rw [hdk] at hcj
      simp [BufDesc.Clear] at hcj
    · refine ⟨hjk, ?_⟩
      unfold BufMgr.caches at hcj ⊢
      rwa [hdj j hjk] at hcj
  refine ⟨?_, ?_, ?_, ?_, ?_, ?_, ?_, ?_, ?_⟩
  · rw [hlen]; exact w.size_lt
  · rw [hlen, hp]; exact w.pool_len
  · intro i hi
    rw [hlen] at hi
    by_cases hik : i = k
    · subst hik; rw [hdk]; exact w.frameNo_eq i hi
    · rw [hdj i hik]; exact w.frameNo_eq i hi
  · intro i hi hv
    rw [hlen] at hi
    by_cases hik : i = k
    · subst hik; rw [hdk] at hv; simp [BufDesc.Clear] at hv
    · rw [hdj i hik] at hv ⊢
      obtain ⟨g, hg, hl⟩ := w.valid_hash i hi hv
      refine ⟨g, hg, ?_⟩
      rw [hh, lookup_erase_ne]
      · exact hl
      · intro hkey
        have hci : s.caches i f.filename (s.desc k).pageNo :=
          ⟨hv, hkey.2.symm, g, hg, hkey.1.symm⟩
        exact hik (w.caches_unique hi hk hci hc)
  · intro i hi hv
    rw [hlen] at hi
    by_cases hik : i = k
    · subst hik; rw [hdk]; simp [BufDesc.Clear]
    · rw [hdj i hik] at hv ⊢
      exact w.invalid_clear i hi hv
  · intro b hb
    rw [hh] at hb
    have hb0 := mem_of_mem_erase hb
    have hnk := not_key_of_mem_erase w.hash_nodup hb
    obtain ⟨hlt, hcb⟩ := w.hash_valid b hb0
    rw [hlen]
    refine ⟨hlt, ?_⟩
    have hbk : b.frameNo ≠ k := by
      intro hbk
      rw [hbk] at hcb
      obtain ⟨_, hp1, g, hg, hfn⟩ := hcb
      obtain ⟨_, _, g2, hg2, hfn2⟩ := hc
      rw [hg] at hg2
      cases hg2
      exact hnk ⟨hfn.symm.trans hfn2, hp1.symm⟩
    unfold BufMgr.caches at hcb ⊢
    rwa [hdj _ hbk]
  · rw [hh]; exact pairwise_erase w.hash_nodup _ _
  · intro i hi fn p hci
    rw [hlen] at hi
    obtain ⟨_, hsc⟩ := hcach i fn p hci
    exact hdisk fn p (w.on_disk i hi fn p hsc)
  · intro i hi hv
    rw [hlen] at hi
    by_cases hik : i = k
    · subst hik; rw [hdk] at hv; simp [BufDesc.Clear] at hv
    · rw [hdj i hik] at hv ⊢
      rw [page_of_eq hp]
      exact w.image_no i hi hv

/-- Seating a page in an invalid frame: descriptor set, hash entry inserted,
image stored.  The invariant survives when the page is not cached yet and
exists in its file. -/
theorem BufMgr.WF.seat {s t : BufMgr} (w : s.WF) (seatRef : Bool) {k : FrameId} (hk : k < s.numBufs)
    (hinv : (s.desc k).valid = false) {f : File} {p : PageId} {g : Page}
    (hmiss : s.hashTable.lookup f p = none)
    (hpg : g.page_number = p)
    (hd : t.bufDescTable = s.bufDescTable.set k ((s.desc k).Set seatRef f p))
    (hh : t.hashTable = s.hashTable.insert f p k)
    (hp : t.bufPool = s.bufPool.set k g)
    (hon : (t.disk.find f.filename p).isSome = true)
    (hdisk : ∀ fn p, (s.disk.find fn p).isSome = true → (t.disk.find fn p).isSome = true) :
    t.WF := by
  have hlen : t.numBufs = s.numBufs := numBufs_of_set hd
  have hdesc : ∀ j, t.desc j = if k = j ∧ k < s.numBufs then (s.desc k).Set seatRef f p
      else s.desc j := desc_of_set hd
  have hdk : t.desc k = (s.desc k).Set seatRef f p := by rw [hdesc k, if_pos ⟨rfl, hk⟩]
  have hdj : ∀ j, j ≠ k → t.desc j = s.desc j := by
    intro j hj
    rw [hdesc j, if_neg (fun h => hj h.1.symm)]
  have hpage : ∀ j, t.page j = if k = j ∧ k < s.bufPool.length then g else s.page j :=
    page_of_set hp
  have hnokey : ∀ j, j < s.numBufs → ¬ s.caches j f.filename p := by
    intro j hj hcj
    rw [w.lookup_of_caches hj hcj] at hmiss
    exact Option.noConfusion hmiss
  refine ⟨?_, ?_, ?_, ?_, ?_, ?_, ?_, ?_, ?_⟩
  · rw [hlen]; exact w.size_lt
  · rw [hlen, hp, List.length_set]; exact w.pool_len
  · intro i hi
    rw [hlen] at hi
    by_cases hik : i = k
    · subst hik; rw [hdk]; exact w.frameNo_eq i hi
    · rw [hdj i hik]; exact w.frameNo_eq i hi
  · intro i hi hv
    rw [hlen] at hi
    by_cases hik : i = k
    · subst hik
      rw [hdk, hh]
      exact ⟨f, rfl, lookup_insert_self _ _ _ _⟩
    · rw [hdj i hik] at hv ⊢
      obtain ⟨g, hg, hl⟩ := w.valid_hash i hi hv
      refine ⟨g, hg, ?_⟩
      rw [hh, lookup_insert_ne]
      · exact hl
      · intro hkey
        exact hnokey i hi ⟨hv, hkey.2.symm, g, hg, hkey.1.symm⟩
  · intro i hi hv
    rw [hlen] at hi
    by_cases hik : i = k
    · subst hik; rw [hdk] at hv; simp [BufDesc.Set] at hv
    · rw [hdj i hik] at hv ⊢
      exact w.invalid_clear i hi hv
  · intro b hb
    rw [hh] at hb
    rw [hlen]
    rcases List.mem_cons.1 hb with rfl | hb0
    · refine ⟨hk, ?_⟩
      show t.caches k f.filename p
      unfold BufMgr.caches
      rw [hdk]
      exact ⟨rfl, rfl, f, rfl, rfl⟩
    · obtain ⟨hlt, hcb⟩ := w.hash_valid b hb0
      refine ⟨hlt, ?_⟩
      have hbk : b.frameNo ≠ k := by
        intro hbk
        rw [hbk] at hcb
        rw [hcb.1] at hinv
        exact Bool.noConfusion hinv
      unfold BufMgr.caches at hcb ⊢
      rwa [hdj _ hbk]
  · rw [hh]
    show List.Pairwise _ (_ :: s.hashTable)
    rw [List.pairwise_cons]
    refine ⟨?_, w.hash_nodup⟩
    intro b hb hkey
    exact lookup_eq_none hmiss b hb ⟨hkey.1.symm, hkey.2.symm⟩
  · intro i hi fn q hci
    rw [hlen] at hi
    by_cases hik : i = k
    · subst hik
      unfold BufMgr.caches at hci
      rw [hdk] at hci
      obtain ⟨_, hq, g, hg, hfn⟩ := hci
      simp only [BufDesc.Set, Option.some.injEq] at hq hg
      rw [← hq, ← hfn, ← hg]
      exact hon
    · have : s.caches i fn q := by
        unfold BufMgr.caches at hci ⊢
        rwa [hdj i hik] at hci
      exact hdisk fn q (w.on_disk i hi fn q this)
  · intro i hi hv
    rw [hlen] at hi
    rw [hpage i]
    by_cases hik : i = k
    · subst hik
      rw [if_pos ⟨rfl, by rw [w.pool_len]; exact hi⟩, hdk]
      exact hpg
    · rw [if_neg (fun h => hik h.1.symm)]
      rw [hdj i hik] at hv ⊢
      exact w.image_no i hi hv

/-- Changing pin count, dirty flag or reference bit of a valid frame keeps the
invariant. -/
theorem BufMgr.WF.touch {s t : BufMgr} (w : s.WF) {k : FrameId} (hk : k < s.numBufs)
    (hv : (s.desc k).valid = true) {d : BufDesc}
    (hd : t.bufDescTable = s.bufDescTable.set k d)
    (hdv : d.valid = true) (hdf : d.file = (s.desc k).file) (hdp : d.pageNo = (s.desc k).pageNo)
    (hdn : d.frameNo = (s.desc k).frameNo)
    (hh : t.hashTable = s.hashTable) (hp : t.bufPool = s.bufPool) (hdisk : t.disk = s.disk) :
    t.WF := by
  have hlen : t.numBufs = s.numBufs := numBufs_of_set hd
  have hdesc : ∀ j, t.desc j = if k = j ∧ k < s.numBufs then d else s.desc j := desc_of_set hd
  have hdk : t.desc k = d := by rw [hdesc k, if_pos ⟨rfl, hk⟩]
  have hdj : ∀ j, j ≠ k → t.desc j = s.desc j := by
    intro j hj
    rw [hdesc j, if_neg (fun h => hj h.1.symm)]
  have hvalid : ∀ j, (t.desc j).valid = (s.desc j).valid := by
    intro j
    by_cases hjk : j = k
    · subst hjk; rw [hdk, hdv, hv]
    · rw [hdj j hjk]
  have hfile : ∀ j, (t.desc j).file = (s.desc j).file := by
    intro j
    by_cases hjk : j = k
    · subst hjk; rw [hdk, hdf]
    · rw [hdj j hjk]
  have hpno : ∀ j, (t.desc j).pageNo = (s.desc j).pageNo := by
    intro j
    by_cases hjk : j = k
    · subst hjk; rw [hdk, hdp]
    · rw [hdj j hjk]
  have hcach : ∀ j fn p, t.caches j fn p ↔ s.caches j fn p := by
    intro j fn p
    unfold BufMgr.caches
    rw [hvalid, hfile, hpno]
  refine ⟨?_, ?_, ?_, ?_, ?_, ?_, ?_, ?_, ?_⟩
  · rw [hlen]; exact w.size_lt
  · rw [hlen, hp]; exact w.pool_len
  · intro i hi
    rw [hlen] at hi
    by_cases hik : i = k
    · subst hik; rw [hdk, hdn]; exact w.frameNo_eq i hi
    · rw [hdj i hik]; exact w.frameNo_eq i hi
  · intro i hi hvi
    rw [hlen] at hi; rw [hvalid] at hvi
    rw [hfile, hpno, hh]; exact w.valid_hash i hi hvi
  · intro i hi hvi
    rw [hlen] at hi; rw [hvalid] at hvi
    have hik : i ≠ k := by
      intro hik; subst hik; rw [hv] at hvi; exact Bool.noConfusion hvi
    rw [hdj i hik]; exact w.invalid_clear i hi hvi
  · intro b hb
    rw [hh] at hb
    rw [hlen, hcach]; exact w.hash_valid b hb
  · rw [hh]; exact w.hash_nodup
  · intro i hi fn p hci
    rw [hlen] at hi; rw [hcach] at hci
    rw [hdisk]; exact w.on_disk i hi fn p hci
  · intro i hi hvi
    rw [hlen] at hi; rw [hvalid] at hvi
    rw [page_of_eq hp, hpno]; exact w.image_no i hi hvi

/-- A change of the file layer alone keeps the invariant when every cached page
still exists in its file. -/
theorem BufMgr.WF.disk_change {s t : BufMgr} (w : s.WF)
    (hd : t.bufDescTable = s.bufDescTable) (hh : t.hashTable = s.hashTable)
    (hp : t.bufPool = s.bufPool)
    (hdisk : ∀ i, i < s.numBufs → ∀ fn p, s.caches i fn p → (t.disk.find fn p).isSome = true) :
    t.WF := by
  have hlen : t.numBufs = s.numBufs := numBufs_of_eq hd
  have hdesc : ∀ j, t.desc j = s.desc j := desc_of_eq hd
  have hcach : ∀ j fn p, t.caches j fn p ↔ s.caches j fn p := by
    intro j fn p
    unfold BufMgr.caches
    rw [hdesc]
  refine ⟨?_, ?_, ?_, ?_, ?_, ?_, ?_, ?_, ?_⟩
  · rw [hlen]; exact w.size_lt
  · rw [hlen, hp]; exact w.pool_len
  · intro i hi; rw [hlen] at hi; rw [hdesc]; exact w.frameNo_eq i hi
  · intro i hi hv
    rw [hlen] at hi; rw [hdesc] at hv
    rw [hdesc, hh]; exact w.valid_hash i hi hv
  · intro i hi hv
    rw [hlen] at hi; rw [hdesc] at hv
    rw [hdesc]; exact w.invalid_clear i hi hv
  · intro b hb
    rw [hh] at hb
    rw [hlen, hcach]; exact w.hash_valid b hb
  · rw [hh]; exact w.hash_nodup
  · intro i hi fn p hci
    rw [hlen] at hi; rw [hcach] at hci
    exact hdisk i hi fn p hci
  · intro i hi hv
    rw [hlen] at hi; rw [hdesc] at hv
    rw [page_of_eq hp, hdesc]; exact w.image_no i hi hv

/-- A client write through a page pointer keeps the invariant: the page number
of the image does not change. -/
theorem BufMgr.WF.modifyPage {s : BufMgr} (w : s.WF) (k : FrameId) (records : List String) :
    (s.modifyPage k records).WF := by
  have hdesc : ∀ j, (s.modifyPage k records).desc j = s.desc j := fun _ => rfl
  have hcach : ∀ j fn p, (s.modifyPage k records).caches j fn p ↔ s.caches j fn p :=
    fun _ _ _ => Iff.rfl
  refine ⟨w.size_lt, ?_, w.frameNo_eq, w.valid_hash, w.invalid_clear, w.hash_valid,
    w.hash_nodup, w.on_disk, ?_⟩
  · show (s.bufPool.set k _).length = s.numBufs
    rw [List.length_set]; exact w.pool_len
  · intro i hi hv
    have hpg : (s.modifyPage k records).page i =
        if k = i ∧ k < s.bufPool.length then { s.page k with records := records }
        else s.page i := page_of_set rfl i
    rw [hpg]
    have := w.image_no i hi hv
    split
    · next h => rw [h.1]; exact this
    · exact this

theorem lookup_none_of_forall {ht : BufHashTbl} {f : File} {p : PageId}
    (h : ∀ b ∈ ht, ¬ (b.file.filename = f.filename ∧ b.pageNo = p)) : ht.lookup f p = none := by
  unfold BufHashTbl.lookup
  simp only [Option.map_eq_none', List.find?_eq_none]
  intro b hb hm
  exact h b hb ((hashBucket.matches_iff b f p).1 hm)

theorem lookup_erase_none {ht : BufHashTbl} {f g : File} {p q : PageId}
    (h : ht.lookup g q = none) :
    BufHashTbl.lookup (ht.eraseP (fun b => b.matches f p)) g q = none :=
  lookup_none_of_forall (fun b hb => lookup_eq_none h b (mem_of_mem_erase hb))

/-! ## Eviction -/

/-- The state `evict` leaves when it succeeds on the frame under the hand. -/
theorem evict_eq {sm : BufMgr} (w : sm.WF) (hh : sm.clockHand < sm.numBufs)
    (hv : (sm.desc sm.clockHand).valid = true) :
    ∃ f, (sm.desc sm.clockHand).file = some f ∧
      sm.evict = (.ok sm.clockHand,
        { sm with
          disk := if (sm.desc sm.clockHand).dirty = true
                  then (f.writePage (sm.page sm.clockHand) sm.disk).2 else sm.disk
          hashTable := sm.hashTable.eraseP (fun b => b.matches f (sm.desc sm.clockHand).pageNo)
          bufDescTable := sm.bufDescTable.set sm.clockHand (sm.desc sm.clockHand).Clear }) := by
  obtain ⟨f, hf, hl⟩ := w.valid_hash _ hh hv
  refine ⟨f, hf, ?_⟩
  have hfn := w.frameNo_eq _ hh
  have hrm := remove_eq_some_of_lookup hl
  unfold BufMgr.evict
  simp only [hf, hfn]
  by_cases hd : (sm.desc sm.clockHand).dirty = true
  · have hon : (sm.disk.find f.filename (sm.page sm.clockHand).page_number).isSome = true := by
      rw [w.image_no _ hh hv]
      exact w.on_disk _ hh _ _ ⟨hv, rfl, f, hf, rfl⟩
    have hw : f.writePage (sm.page sm.clockHand) sm.disk
        = (.ok (), (f.writePage (sm.page sm.clockHand) sm.disk).2) := by
      rw [← writePage_fst_of_isSome hon]
    simp only [hd, if_true]
    rw [hw]
    simp only [hrm]
  · simp only [hd, Bool.false_eq_true, if_false, hrm]

/-- What a clock sweep does to a well-formed state, in full. -/
theorem allocBuf_post {s : BufMgr} {r : Except Exn FrameId} {s1 : BufMgr} (w : s.WF)
    (h : s.allocBuf = some (r, s1)) :
    ∃ sm, Sweep s sm ∧
      ((r = .error Exn.BufferExceeded ∧ s1 = sm) ∨
       (∃ k, k < s.numBufs ∧ (s.desc k).valid = false ∧ r = .ok k ∧ s1 = sm) ∨
       (∃ k f, k < s.numBufs ∧ (s.desc k).valid = true ∧ (s.desc k).pinCnt = 0 ∧
          (s.desc k).file = some f ∧ r = .ok k ∧
          s1 = { sm with
                 disk := if (s.desc k).dirty = true
                         then (f.writePage (s.page k) s.disk).2 else s.disk
                 hashTable := s.hashTable.eraseP (fun b => b.matches f (s.desc k).pageNo)
                 bufDescTable := sm.bufDescTable.set k (sm.desc k).Clear })) := by
  obtain ⟨sm, hsw, hcases⟩ := allocBuf_shape h
  refine ⟨sm, hsw, ?_⟩
  have wm : sm.WF := hsw.keeps_wf w
  rcases hcases with h1 | ⟨hlt, hv, hr, hs⟩ | ⟨hlt, hv, _, hp, he⟩
  · exact Or.inl h1
  · refine Or.inr (Or.inl ⟨sm.clockHand, ?_, ?_, ?_, hs⟩)
    · rw [← hsw.len]; exact hlt
    · rw [← hsw.valid]; exact hv
    · rw [hr, wm.frameNo_eq _ hlt]
  · obtain ⟨f, hf, heq⟩ := evict_eq wm hlt hv
    rw [heq] at he
    simp only [Prod.mk.injEq] at he
    refine Or.inr (Or.inr ⟨sm.clockHand, f, ?_, ?_, ?_, ?_, he.1.symm, ?_⟩)
    · rw [← hsw.len]; exact hlt
    · rw [← hsw.valid]; exact hv
    · rw [← hsw.pinCnt]; exact hp
    · rw [← hsw.file]; exact hf
    · rw [← he.2, hsw.dirty, hsw.page, hsw.disk, hsw.hash, hsw.pageNo]

theorem allocBuf_wf {s : BufMgr} {r : Except Exn FrameId} {s1 : BufMgr} (w : s.WF)
    (h : s.allocBuf = some (r, s1)) : s1.WF := by
  obtain ⟨sm, hsw, hcases⟩ := allocBuf_post w h
  have wm : sm.WF := hsw.keeps_wf w
  rcases hcases with ⟨_, hs⟩ | ⟨k, _, _, _, hs⟩ | ⟨k, f, hk, hv, _, hf, _, hs⟩
  · rw [hs]; exact wm
  · rw [hs]; exact wm
  · rw [hs]
    have hk2 : k < sm.numBufs := by rw [hsw.len]; exact hk
    apply wm.free hk2 (f := f)
    · exact ⟨by rw [hsw.valid]; exact hv, rfl, f, by rw [hsw.file]; exact hf, rfl⟩
    · rfl
    · show s.hashTable.eraseP _ = sm.hashTable.eraseP _
      rw [hsw.hash, hsw.pageNo]
    · rfl
    · intro fn p hsome
      rw [hsw.disk] at hsome
      show (Disk.find (if (s.desc k).dirty = true then _ else s.disk) fn p).isSome = true
      split
      · rw [writePage_find_isSome]; exact hsome
      · exact hsome

/-- The frame a sweep returns is in range and invalid afterwards. -/
theorem allocBuf_ok {s : BufMgr} {k : FrameId} {s1 : BufMgr} (w : s.WF)
    (h : s.allocBuf = some (.ok k, s1)) :
    k < s1.numBufs ∧ (s1.desc k).valid = false ∧ s1.numBufs = s.numBufs := by
  obtain ⟨sm, hsw, hcases⟩ := allocBuf_post w h
  rcases hcases with ⟨hr, _⟩ | ⟨k1, hk, hv, hr, hs⟩ | ⟨k1, f, hk, hv, _, hf, hr, hs⟩
  · cases hr
  · cases hr
    rw [hs]
    exact ⟨by rw [hsw.len]; exact hk, by rw [hsw.valid]; exact hv, hsw.len⟩
  · cases hr
    have hk2 : k < sm.numBufs := by rw [hsw.len]; exact hk
    have hn : s1.numBufs = sm.numBufs := by rw [hs]; exact numBufs_set _ _ _
    refine ⟨by rw [hn]; exact hk2, ?_, hn.trans hsw.len⟩
    have : s1.desc k = (sm.desc k).Clear := by
      rw [hs, desc_of_set rfl k, if_pos ⟨rfl, hk2⟩]
    rw [this]; rfl

/-- A sweep never adds a hash entry. -/
theorem allocBuf_lookup_none {s : BufMgr} {r : Except Exn FrameId} {s1 : BufMgr} (w : s.WF)
    (h : s.allocBuf = some (r, s1)) {f : File} {p : PageId}
    (hm : s.hashTable.lookup f p = none) : s1.hashTable.lookup f p = none := by
  obtain ⟨sm, hsw, hcases⟩ := allocBuf_post w h
  rcases hcases with ⟨_, hs⟩ | ⟨k, _, _, _, hs⟩ | ⟨k, g, hk, hv, _, hf, _, hs⟩
  · rw [hs, hsw.hash]; exact hm
  · rw [hs, hsw.hash]; exact hm
  · rw [hs]
    exact lookup_erase_none hm

/-- A sweep changes the stored pages only by writing an existing page back. -/
theorem allocBuf_find_isSome {s : BufMgr} {r : Except Exn FrameId} {s1 : BufMgr} (w : s.WF)
    (h : s.allocBuf = some (r, s1)) (fn : String) (p : PageId) :
    (s1.disk.find fn p).isSome = (s.disk.find fn p).isSome := by
  obtain ⟨sm, hsw, hcases⟩ := allocBuf_post w h
  rcases hcases with ⟨_, hs⟩ | ⟨k, _, _, _, hs⟩ | ⟨k, g, hk, hv, _, hf, _, hs⟩
  · rw [hs, hsw.disk]
  · rw [hs, hsw.disk]
  · rw [hs]
    show (Disk.find (if (s.desc k).dirty = true then _ else s.disk) fn p).isSome = _
    split
    · rw [writePage_find_isSome]
    · rfl

/-! ## The public methods keep the invariant -/

theorem new_desc (bufs : Nat) (disk : Disk) (i : Nat) :
    (BufMgr.new bufs disk).desc i = BufDesc.init i := by
  unfold BufMgr.desc BufMgr.new
  simp only [List.getD_eq_getElem?_getD, List.getElem?_map]
  by_cases h : i < bufs
  · rw [List.getElem?_range h]; rfl
  · rw [List.getElem?_eq_none (by simpa using h)]; rfl

theorem new_numBufs (bufs : Nat) (disk : Disk) : (BufMgr.new bufs disk).numBufs = bufs := by
  simp [BufMgr.numBufs, BufMgr.new]

theorem new_wf (bufs : Nat) (disk : Disk) (h : bufs < 2 ^ 32) : (BufMgr.new bufs disk).WF := by
  refine ⟨?_, ?_, ?_, ?_, ?_, ?_, ?_, ?_, ?_⟩
  · rw [new_numBufs]; exact h
  · rw [new_numBufs]; simp [BufMgr.new]
  · intro i _; rw [new_desc]; rfl
  · intro i _ hv; rw [new_desc] at hv; exact Bool.noConfusion hv
  · intro i _ _; rw [new_desc]; exact ⟨rfl, rfl⟩
  · intro b hb; simp [BufMgr.new] at hb
  · simp [BufMgr.new]
  · intro i _ fn p hc
    unfold BufMgr.caches at hc
    rw [new_desc] at hc
    exact Bool.noConfusion hc.1
  · intro i _ hv; rw [new_desc] at hv; exact Bool.noConfusion hv

theorem readPage_wf {seatRef : Bool} {s : BufMgr} {file : File} {pageNo : PageId}
    {r : Except Exn FrameId} {s1 : BufMgr} (w : s.WF)
    (h : s.readPage seatRef file pageNo = some (r, s1)) : s1.WF := by
  unfold BufMgr.readPage at h
  cases hl : s.hashTable.lookup file pageNo with
  | some k =>
    simp only [hl, Option.some.injEq, Prod.mk.injEq] at h
    obtain ⟨hk, hc⟩ := w.frame_lt_of_lookup hl
    rw [← h.2]
    exact w.touch hk hc.1 rfl hc.1 rfl rfl rfl rfl rfl rfl
  | none =>
    simp only [hl] at h
    cases ha : s.allocBuf with
    | none => simp [ha] at h
    | some x =>
      obtain ⟨ra, s2⟩ := x
      have w2 := allocBuf_wf w ha
      simp only [ha] at h
      cases ra with
      | error e =>
        simp only [Option.some.injEq, Prod.mk.injEq] at h
        rw [← h.2]; exact w2
      | ok k =>
        simp only at h
        have hsnd := readPage_snd file pageNo s2.disk
        cases hrd : file.readPage pageNo s2.disk with
        | mk rr disk1 =>
          rw [hrd] at h hsnd
          simp only at hsnd
          cases rr with
          | error e =>
            simp only [Option.some.injEq, Prod.mk.injEq] at h
            rw [← h.2]
            apply BufMgr.WF.disk_change w2
            · rfl
            · rfl
            · rfl
            intro i hi fn p hc
            show (disk1.find fn p).isSome = true
            rw [hsnd]
            exact w2.on_disk i hi fn p hc
          | ok pg =>
            simp only [Option.some.injEq, Prod.mk.injEq] at h
            rw [← h.2]
            obtain ⟨hk, hinv, _⟩ := allocBuf_ok w ha
            have hfind : s2.disk.find file.filename pageNo = some pg :=
              readPage_ok (by rw [hrd])
            apply BufMgr.WF.seat w2 seatRef hk hinv (allocBuf_lookup_none w ha hl)
              (Disk.find_page_number hfind)
            · rfl
            · rfl
            · rfl
            · show (disk1.find file.filename pageNo).isSome = true
              rw [hsnd]
              show (s2.disk.find file.filename pageNo).isSome = true
              rw [hfind]; rfl
            · intro fn p hsome
              show (disk1.find fn p).isSome = true
              rw [hsnd]; exact hsome

theorem allocPage_wf {seatRef : Bool} {s : BufMgr} {file : File}
    {r : Except Exn (PageId × FrameId)} {s1 : BufMgr} (w : s.WF)
    (h : s.allocPage seatRef file = some (r, s1)) : s1.WF := by
  unfold BufMgr.allocPage at h
  simp only at h
  have w0 : ({ s with disk := (file.allocatePage s.disk).2 } : BufMgr).WF := by
    apply BufMgr.WF.disk_change w
    · rfl
    · rfl
    · rfl
    intro i hi fn p hc
    exact allocatePage_find_of_isSome file s.disk fn p (w.on_disk i hi fn p hc)
  have hmiss0 : s.hashTable.lookup file (s.disk.freshPageNo file.filename) = none := by
    cases hl : s.hashTable.lookup file (s.disk.freshPageNo file.filename) with
    | none => rfl
    | some k =>
      obtain ⟨hk, hc⟩ := w.frame_lt_of_lookup hl
      have := w.on_disk k hk _ _ hc
      rw [Disk.find_fresh] at this
      exact Bool.noConfusion this
  cases ha : ({ s with disk := (file.allocatePage s.disk).2 } : BufMgr).allocBuf with
  | none => simp [ha] at h
  | some x =>
    obtain ⟨ra, s2⟩ := x
    have w2 := allocBuf_wf w0 ha
    simp only [ha] at h
    cases ra with
    | error e =>
      simp only [Option.some.injEq, Prod.mk.injEq] at h
      rw [← h.2]; exact w2
    | ok k =>
      simp only [Option.some.injEq, Prod.mk.injEq] at h
      rw [← h.2]
      obtain ⟨hk, hinv, _⟩ := allocBuf_ok w0 ha
      apply BufMgr.WF.seat w2 seatRef hk hinv (allocBuf_lookup_none w0 ha hmiss0)
        (g := (file.allocatePage s.disk).1) rfl
      · rfl
      · rfl
      · rfl
      · show (s2.disk.find file.filename (s.disk.freshPageNo file.filename)).isSome = true
        rw [allocBuf_find_isSome w0 ha]
        exact allocatePage_find_new file s.disk
      · intro fn p hsome; exact hsome

theorem unPinPage_wf {s : BufMgr} (w : s.WF) (file : File) (pageNo : PageId) (dirty : Bool) :
    (s.unPinPage file pageNo dirty).2.WF := by
  unfold BufMgr.unPinPage
  cases hl : s.hashTable.lookup file pageNo with
  | none => exact w
  | some k =>
    obtain ⟨hk, hc⟩ := w.frame_lt_of_lookup hl
    cases dirty with
    | false =>
      simp only [Bool.false_eq_true, if_false]
      split
      · apply BufMgr.WF.touch w hk hc.1 (d := s.desc k) <;> first | rfl | exact hc.1
      · apply BufMgr.WF.touch w hk hc.1
          (d := { s.desc k with pinCnt := (s.desc k).pinCnt - 1 }) <;> first | rfl | exact hc.1
    | true =>
      simp only [if_true]
      split
      · apply BufMgr.WF.touch w hk hc.1 (d := { s.desc k with dirty := true }) <;>
          first | rfl | exact hc.1
      · apply BufMgr.WF.touch w hk hc.1
          (d := { s.desc k with dirty := true, pinCnt := (s.desc k).pinCnt - 1 }) <;>
          first | rfl | exact hc.1

/-! ## One iteration of `flushFile` -/

theorem ownedBy_lt {s : BufMgr} {i : FrameId} {fn : String} (h : s.ownedBy i fn) :
    i < s.numBufs := by
  by_contra hlt
  obtain ⟨g, hg, _⟩ := h
  rw [desc_out_of_range s i (Nat.le_of_not_lt hlt)] at hg
  exact Option.noConfusion hg

theorem BufMgr.WF.valid_of_ownedBy {s : BufMgr} (w : s.WF) {i : FrameId} {fn : String}
    (h : s.ownedBy i fn) : (s.desc i).valid = true := by
  cases hv : (s.desc i).valid with
  | true => rfl
  | false =>
    obtain ⟨g, hg, _⟩ := h
    rw [(w.invalid_clear i (ownedBy_lt ⟨g, hg, rfl⟩) hv).1] at hg
    exact Option.noConfusion hg

/-- A frame of another file (or an empty frame) is skipped. -/
theorem flushFrame_skip {s : BufMgr} {file : File} {i : FrameId}
    (h : ¬ s.ownedBy i file.filename) : s.flushFrame file i = (.ok (), s) := by
  unfold BufMgr.flushFrame
  cases hf : (s.desc i).file with
  | none => simp only [hf]
  | some g =>
    have hne : file.filename ≠ g.filename := fun he => h ⟨g, hf, he.symm⟩
    simp only [hf, hne, ne_eq, not_false_eq_true, if_true]

/-- A pinned frame of the file stops the flush with `PagePinned`. -/
theorem flushFrame_pinned {s : BufMgr} (w : s.WF) {file : File} {i : FrameId}
    (h : s.ownedBy i file.filename) (hp : 0 < (s.desc i).pinCnt) :
    s.flushFrame file i = (.error (Exn.PagePinned file.filename (s.desc i).pageNo i), s) := by
  have hv := w.valid_of_ownedBy h
  have hlt := ownedBy_lt h
  obtain ⟨g, hf, hfn⟩ := h
  unfold BufMgr.flushFrame
  simp only [hf, hfn, ne_eq, not_true_eq_false, if_false, hv, Bool.true_eq_false, gt_iff_lt, hp,
    if_true, w.frameNo_eq i hlt]

/-- An unpinned frame of the file is written back if dirty, unhashed and
cleared. -/
theorem flushFrame_flush {s : BufMgr} (w : s.WF) {file : File} {i : FrameId} {g : File}
    (hf : (s.desc i).file = some g) (hfn : g.filename = file.filename)
    (hp : (s.desc i).pinCnt = 0) :
    s.flushFrame file i = (.ok (),
      { s with
        disk := if (s.desc i).dirty = true then (g.writePage (s.page i) s.disk).2 else s.disk
        hashTable := s.hashTable.eraseP (fun b => b.matches file (s.desc i).pageNo)
        bufDescTable := s.bufDescTable.set i (s.desc i).Clear }) := by
  have h : s.ownedBy i file.filename := ⟨g, hf, hfn⟩
  have hv := w.valid_of_ownedBy h
  have hlt := ownedBy_lt h
  obtain ⟨g1, hg1, hl⟩ := w.valid_hash i hlt hv
  rw [hf] at hg1
  cases hg1
  rw [lookup_congr _ hfn] at hl
  have hrm := remove_eq_some_of_lookup hl
  unfold BufMgr.flushFrame
  simp only [hf, hfn, ne_eq, not_true_eq_false, if_false, hv, Bool.true_eq_false, gt_iff_lt, hp,
    Nat.lt_irrefl, w.frameNo_eq i hlt]
  by_cases hd : (s.desc i).dirty = true
  · have hon : (s.disk.find g.filename (s.page i).page_number).isSome = true := by
      rw [w.image_no i hlt hv]
      exact w.on_disk i hlt _ _ ⟨hv, rfl, g, hf, rfl⟩
    have hw : g.writePage (s.page i) s.disk = (.ok (), (g.writePage (s.page i) s.disk).2) := by
      rw [← writePage_fst_of_isSome hon]
    simp only [hd, if_true]
    rw [hw]
    simp only [hrm, BufDesc.Clear, w.frameNo_eq i hlt]
  · simp only [hd, Bool.false_eq_true, if_false, hrm, BufDesc.Clear, w.frameNo_eq i hlt]

theorem flushFrame_cases {s : BufMgr} (w : s.WF) (file : File) (i : FrameId) :
    (¬ s.ownedBy i file.filename ∧ s.flushFrame file i = (.ok (), s)) ∨
    (s.ownedBy i file.filename ∧ 0 < (s.desc i).pinCnt ∧
      s.flushFrame file i = (.error (Exn.PagePinned file.filename (s.desc i).pageNo i), s)) ∨
    (∃ g, (s.desc i).file = some g ∧ g.filename = file.filename ∧ (s.desc i).pinCnt = 0 ∧
      s.flushFrame file i = (.ok (),
        { s with
          disk := if (s.desc i).dirty = true then (g.writePage (s.page i) s.disk).2 else s.disk
          hashTable := s.hashTable.eraseP (fun b => b.matches file (s.desc i).pageNo)
          bufDescTable := s.bufDescTable.set i (s.desc i).Clear })) := by
  by_cases h : s.ownedBy i file.filename
  · by_cases hp : 0 < (s.desc i).pinCnt
    · exact Or.inr (Or.inl ⟨h, hp, flushFrame_pinned w h hp⟩)
    · obtain ⟨g, hf, hfn⟩ := h
      have hp0 : (s.desc i).pinCnt = 0 := by omega
      exact Or.inr (Or.inr ⟨g, hf, hfn, hp0, flushFrame_flush w hf hfn hp0⟩)
  · exact Or.inl ⟨h, flushFrame_skip h⟩

theorem flushFrame_wf {s : BufMgr} (w : s.WF) (file : File) (i : FrameId) :
    (s.flushFrame file i).2.WF := by
  rcases flushFrame_cases w file i with ⟨_, he⟩ | ⟨_, _, he⟩ | ⟨g, hf, hfn, hp, he⟩
  · rw [he]; exact w
  · rw [he]; exact w
  · rw [he]
    have h : s.ownedBy i file.filename := ⟨g, hf, hfn⟩
    apply BufMgr.WF.free w (ownedBy_lt h) (f := file)
    · exact ⟨w.valid_of_ownedBy h, rfl, g, hf, hfn⟩
    · rfl
    · rfl
    · rfl
    · intro fn p hsome
      show (Disk.find (if (s.desc i).dirty = true then _ else s.disk) fn p).isSome = true
      split
      · rw [writePage_find_isSome]; exact hsome
      · exact hsome

theorem flushFileLoop_wf (file : File) (l : List Nat) : ∀ {s : BufMgr}, s.WF →
    (BufMgr.flushFileLoop file l s).2.WF := by
  induction l with
  | nil => intro s w; exact w
  | cons i rest ih =>
    intro s w
    have w1 := flushFrame_wf w file i
    unfold BufMgr.flushFileLoop
    cases hfr : s.flushFrame file i with
    | mk r s1 =>
      rw [hfr] at w1
      cases r with
      | error e => exact w1
      | ok u => exact ih w1

theorem flushFile_wf {s : BufMgr} (w : s.WF) (file : File) : (s.flushFile file).2.WF :=
  flushFileLoop_wf file _ w

/-! ## `disposePage` -/

theorem disposePage_wf {s : BufMgr} (w : s.WF) (file : File) (pageNo : PageId) :
    (s.disposePage file pageNo).2.WF := by
  have key : ∀ s2 : BufMgr, s2.WF → s2.hashTable.lookup file pageNo = none →
      ({ s2 with disk := (file.deletePage pageNo s2.disk).2 } : BufMgr).WF := by
    intro s2 w2 hnone
    apply BufMgr.WF.disk_change w2
    · rfl
    · rfl
    · rfl
    · intro i hi fn p hc
      apply deletePage_find_ne _ _ _ _ _ _ (w2.on_disk i hi fn p hc)
      rintro ⟨rfl, rfl⟩
      rw [w2.lookup_of_caches hi hc] at hnone
      exact Option.noConfusion hnone
  unfold BufMgr.disposePage
  cases hl : s.hashTable.lookup file pageNo with
  | none => exact key s w hl
  | some k =>
    simp only
    by_cases hs : k = (s.numBufs + 1) % 2 ^ 32
    · rw [if_pos hs]; exact w
    · rw [if_neg hs]
      obtain ⟨hk, hc⟩ := w.frame_lt_of_lookup hl
      have hrm : BufHashTbl.remove s.hashTable file pageNo
          = some (s.hashTable.eraseP (fun b => b.matches file pageNo)) :=
        remove_eq_some_of_lookup hl
      simp only [hrm]
      apply key { s with
        bufDescTable := s.bufDescTable.set k (s.desc k).Clear
        hashTable := s.hashTable.eraseP (fun b => b.matches file pageNo) }
      · apply BufMgr.WF.free w hk (f := file)
        · exact ⟨hc.1, rfl, hc.2.2⟩
        · rfl
        · show s.hashTable.eraseP _ = s.hashTable.eraseP _
          rw [hc.2.1]
        · rfl
        · intro fn p hsome; exact hsome
      · exact lookup_none_of_forall (fun b hb => not_key_of_mem_erase w.hash_nodup hb)

/-! ## Every reachable state is well formed -/

theorem Reachable.well_formed {seatRef : Bool} {s : BufMgr} (h : Reachable seatRef s) : s.WF := by
  induction h with
  | new bufs disk hb => exact new_wf bufs disk hb
  | readPage file pageNo r s1 _ hstep ih => exact readPage_wf ih hstep
  | allocPage file r s1 _ hstep ih => exact allocPage_wf ih hstep
  | unPinPage file pageNo dirty _ ih => exact unPinPage_wf ih file pageNo dirty
  | flushFile file _ ih => exact flushFile_wf ih file
  | disposePage file pageNo _ ih => exact disposePage_wf ih file pageNo
  | modifyPage frameNo records _ ih => exact ih.modifyPage frameNo records

/-! ## Reachability of the example pools -/

theorem exOneRead_reachable (seatRef : Bool) : Reachable seatRef (exOneRead seatRef) := by
  have h0 : Reachable seatRef (BufMgr.new 2 exDisk) := Reachable.new 2 exDisk (by norm_num)
  cases seatRef
  · exact Reachable.readPage exFile 1 (.ok 0) _ h0 rfl
  · exact Reachable.readPage exFile 1 (.ok 0) _ h0 rfl

theorem exTwoFrames_reachable (seatRef : Bool) : Reachable seatRef exTwoFrames := by
  have h0 : Reachable seatRef (BufMgr.new 2 exDisk) := Reachable.new 2 exDisk (by norm_num)
  cases seatRef
  · have h1 := Reachable.readPage exFile 1 (.ok 0) _ h0 rfl
    have h2 := Reachable.readPage exFile 2 (.ok 1) _ h1 rfl
    have h3 := Reachable.unPinPage exFile 1 false h2
    have h4 := Reachable.readPage exFile 3 (.ok 0) _ h3 rfl
    have h5 := Reachable.readPage exFile 3 (.ok 0) _ h4 rfl
    have h6 := Reachable.unPinPage exFile 3 false h5
    have h7 := Reachable.unPinPage exFile 3 false h6
    exact h7
  · have h1 := Reachable.readPage exFile 1 (.ok 0) _ h0 rfl
    have h2 := Reachable.readPage exFile 2 (.ok 1) _ h1 rfl
    have h3 := Reachable.unPinPage exFile 1 false h2
    have h4 := Reachable.readPage exFile 3 (.ok 0) _ h3 rfl
    have h5 := Reachable.readPage exFile 3 (.ok 0) _ h4 rfl
    have h6 := Reachable.unPinPage exFile 3 false h5
    have h7 := Reachable.unPinPage exFile 3 false h6
    exact h7

/-! ## Pinned frames across a sweep -/

theorem allocBuf_pinned {s : BufMgr} {r : Except Exn FrameId} {s2 : BufMgr} (w : s.WF)
    (h : s.allocBuf = some (r, s2)) {i : FrameId} (hi : i < s.numBufs)
    (hp : 0 < (s.desc i).pinCnt) :
    s2.desc i = { s.desc i with refbit := (s2.desc i).refbit } ∧ ∀ k, r = .ok k → k ≠ i := by
  obtain ⟨sm, hsw, hcases⟩ := allocBuf_post w h
  have hvi := w.valid_of_pinned hi hp
  rcases hcases with ⟨hr, hs⟩ | ⟨k, hk, hv, hr, hs⟩ | ⟨k, f, hk, hv, hpk, hf, hr, hs⟩
  · refine ⟨by rw [hs]; exact hsw.desc i, ?_⟩
    intro k hk; rw [hr] at hk; cases hk
  · refine ⟨by rw [hs]; exact hsw.desc i, ?_⟩
    intro k1 hk1
    rw [hr] at hk1
    cases hk1
    intro hki
    rw [hki, hvi] at hv
    exact Bool.noConfusion hv
  · have hki : k ≠ i := by
      intro hki
      rw [hki] at hpk
      omega
    refine ⟨?_, ?_⟩
    · have : s2.desc i = sm.desc i := by
        rw [hs, desc_of_set rfl i, if_neg (fun h => hki h.1)]
      rw [this]; exact hsw.desc i
    · intro k1 hk1
      rw [hr] at hk1
      cases hk1
      exact hki

/-- What `readPage` may do to the descriptor of a pinned frame. -/
theorem readPage_pinned {seatRef : Bool} {s : BufMgr} {file : File} {pageNo : PageId}
    {r : Except Exn FrameId} {s1 : BufMgr} (w : s.WF)
    (h : s.readPage seatRef file pageNo = some (r, s1)) {i : FrameId} (hi : i < s.numBufs)
    (hp : 0 < (s.desc i).pinCnt) :
    (s1.desc i).valid = true ∧ (s1.desc i).file = (s.desc i).file ∧
      (s1.desc i).pageNo = (s.desc i).pageNo ∧ (s.desc i).pinCnt ≤ (s1.desc i).pinCnt := by
  have hvi := w.valid_of_pinned hi hp
  unfold BufMgr.readPage at h
  cases hl : s.hashTable.lookup file pageNo with
  | some k =>
    simp only [hl, Option.some.injEq, Prod.mk.injEq] at h
    rw [← h.2, desc_of_set rfl i]
    split
    · next hk => rw [hk.1]; exact ⟨hvi, rfl, rfl, Nat.le_succ _⟩
    · exact ⟨hvi, rfl, rfl, le_refl _⟩
  | none =>
    simp only [hl] at h
    cases ha : s.allocBuf with
    | none => simp [ha] at h
    | some x =>
      obtain ⟨ra, s2⟩ := x
      obtain ⟨hd2, hne⟩ := allocBuf_pinned w ha hi hp
      have hfacts : (s2.desc i).valid = true ∧ (s2.desc i).file = (s.desc i).file ∧
          (s2.desc i).pageNo = (s.desc i).pageNo ∧ (s.desc i).pinCnt ≤ (s2.desc i).pinCnt := by
        rw [hd2]; exact ⟨hvi, rfl, rfl, le_refl _⟩
      simp only [ha] at h
      cases ra with
      | error e =>
        simp only [Option.some.injEq, Prod.mk.injEq] at h
        rw [← h.2]; exact hfacts
      | ok k =>
        simp only at h
        cases hrd : file.readPage pageNo s2.disk with
        | mk rr disk1 =>
          rw [hrd] at h
          cases rr with
          | error e =>
            simp only [Option.some.injEq, Prod.mk.injEq] at h
            rw [← h.2]; exact hfacts
          | ok pg =>
            simp only [Option.some.injEq, Prod.mk.injEq] at h
            rw [← h.2, desc_of_set rfl i, if_neg (fun hk => hne k rfl hk.1)]
            exact hfacts

/-- What `allocPage` may do to the descriptor of a pinned frame. -/
theorem allocPage_pinned {seatRef : Bool} {s : BufMgr} {file : File}
    {r : Except Exn (PageId × FrameId)} {s1 : BufMgr} (w : s.WF)
    (h : s.allocPage seatRef file = some (r, s1)) {i : FrameId} (hi : i < s.numBufs)
    (hp : 0 < (s.desc i).pinCnt) :
    (s1.desc i).valid = true ∧ (s1.desc i).file = (s.desc i).file ∧
      (s1.desc i).pageNo = (s.desc i).pageNo ∧ (s.desc i).pinCnt ≤ (s1.desc i).pinCnt := by
  have hvi := w.valid_of_pinned hi hp
  unfold BufMgr.allocPage at h
  simp only at h
  have w0 : ({ s with disk := (file.allocatePage s.disk).2 } : BufMgr).WF := by
    apply BufMgr.WF.disk_change w
    · rfl
    · rfl
    · rfl
    intro j hj fn p hc
    exact allocatePage_find_of_isSome file s.disk fn p (w.on_disk j hj fn p hc)
  cases ha : ({ s with disk := (file.allocatePage s.disk).2 } : BufMgr).allocBuf with
  | none => simp [ha] at h
  | some x =>
    obtain ⟨ra, s2⟩ := x
    obtain ⟨hd2, hne⟩ := allocBuf_pinned w0 ha (i := i) hi hp
    have hfacts : (s2.desc i).valid = true ∧ (s2.desc i).file = (s.desc i).file ∧
        (s2.desc i).pageNo = (s.desc i).pageNo ∧ (s.desc i).pinCnt ≤ (s2.desc i).pinCnt := by
      rw [hd2]; exact ⟨hvi, rfl, rfl, le_refl _⟩
    simp only [ha] at h
    cases ra with
    | error e =>
      simp only [Option.some.injEq, Prod.mk.injEq] at h
      rw [← h.2]; exact hfacts
    | ok k =>
      simp only [Option.some.injEq, Prod.mk.injEq] at h
      rw [← h.2, desc_of_set rfl i, if_neg (fun hk => hne k rfl hk.1)]
      exact hfacts

theorem readPage_isSome (seatRef : Bool) (s : BufMgr) (file : File) (pageNo : PageId) :
    (s.readPage seatRef file pageNo).isSome = true := by
  unfold BufMgr.readPage
  cases hl : s.hashTable.lookup file pageNo with
  | some k => rfl
  | none =>
    simp only
    have := allocBuf_isSome s
    cases ha : s.allocBuf with
    | none => rw [ha] at this; exact Bool.noConfusion this
    | some x =>
      obtain ⟨ra, s2⟩ := x
      cases ra with
      | error e => rfl
      | ok k =>
        simp only
        cases hrd : file.readPage pageNo s2.disk with
        | mk rr disk1 => cases rr <;> rfl

theorem allocPage_isSome (seatRef : Bool) (s : BufMgr) (file : File) :
    (s.allocPage seatRef file).isSome = true := by
  unfold BufMgr.allocPage
  simp only
  have := allocBuf_isSome ({ s with disk := (file.allocatePage s.disk).2 } : BufMgr)
  cases ha : ({ s with disk := (file.allocatePage s.disk).2 } : BufMgr).allocBuf with
  | none => rw [ha] at this; exact Bool.noConfusion this
  | some x =>
    obtain ⟨ra, s2⟩ := x
    cases ra <;> rfl

/-! ## The claims -/

/-- C1 (code defect): `allocBuf` can fail with `BufferExceeded` although a frame
is unpinned.  In the reachable two-frame pool `exTwoFrames` frame 0 is valid
with pin count 0 (its reference bit is set) and frame 1 is pinned; the sweep
counts frame 1, clears the reference bit of frame 0, counts frame 1 a second
time and throws, so `readPage` of an uncached page and `allocPage` fail too. -/
theorem C1_sweep_fails_with_unpinned_frame :
    (∀ seatRef, Reachable seatRef exTwoFrames) ∧
    (exTwoFrames.desc 0).valid = true ∧ (exTwoFrames.desc 0).pinCnt = 0 ∧
    exTwoFrames.allocBuf.map Prod.fst = some (.error Exn.BufferExceeded) ∧
    (∀ seatRef, (exTwoFrames.readPage seatRef exFile 4).map Prod.fst
      = some (.error Exn.BufferExceeded)) ∧
    (∀ seatRef, (exTwoFrames.allocPage seatRef exFile).map Prod.fst
      = some (.error Exn.BufferExceeded)) := by
  refine ⟨exTwoFrames_reachable, rfl, rfl, rfl, ?_, ?_⟩
  · intro b; cases b <;> rfl
  · intro b; cases b <;> rfl

/-- C2: a pinned frame is never evicted.  In every pool state that satisfies
the representation invariant (every reachable state does), `readPage` and
`allocPage` return, and whatever they return (a page, `BufferExceeded` or
another failure) each frame that was pinned before the call is still valid,
caches the same file and page, is still found by the hash index under that key,
and has a pin count that is not smaller than before. -/
theorem C2_pinned_frame_not_evicted (seatRef : Bool) (s : BufMgr) (w : s.WF) (i : FrameId)
    (hi : i < s.numBufs) (hp : 0 < (s.desc i).pinCnt) :
    (∀ file pageNo, ∃ r s1, s.readPage seatRef file pageNo = some (r, s1) ∧ s.keptPinned s1 i) ∧
    (∀ file, ∃ r s1, s.allocPage seatRef file = some (r, s1) ∧ s.keptPinned s1 i) := by
  constructor
  · intro file pageNo
    have hsome := readPage_isSome seatRef s file pageNo
    cases h : s.readPage seatRef file pageNo with
    | none => rw [h] at hsome; exact Bool.noConfusion hsome
    | some x =>
      obtain ⟨r, s1⟩ := x
      refine ⟨r, s1, rfl, ?_⟩
      have w1 := readPage_wf w h
      obtain ⟨hv, hf, hpn, hpin⟩ := readPage_pinned w h hi hp
      have hn1 : i < s1.numBufs := by
        by_contra hlt
        rw [desc_out_of_range s1 i (Nat.le_of_not_lt hlt)] at hv
        exact Bool.noConfusion hv
      exact ⟨hv, hf, hpn, w1.valid_hash i hn1 hv, hpin⟩
  · intro file
    have hsome := allocPage_isSome seatRef s file
    cases h : s.allocPage seatRef file with
    | none => rw [h] at hsome; exact Bool.noConfusion hsome
    | some x =>
      obtain ⟨r, s1⟩ := x
      refine ⟨r, s1, rfl, ?_⟩
      have w1 := allocPage_wf w h
      obtain ⟨hv, hf, hpn, hpin⟩ := allocPage_pinned w h hi hp
      have hn1 : i < s1.numBufs := by
        by_contra hlt
        rw [desc_out_of_range s1 i (Nat.le_of_not_lt hlt)] at hv
        exact Bool.noConfusion hv
      exact ⟨hv, hf, hpn, w1.valid_hash i hn1 hv, hpin⟩

/-- Witness for C2: the two-frame pool after `readPage(r.tbl, 1)`, whose frame 0
is pinned. -/
theorem C2_witness :
    (exOneRead true).WF ∧ 0 < (exOneRead true).numBufs ∧ 0 < ((exOneRead true).desc 0).pinCnt ∧
    ((∀ file pageNo, ∃ r s1, (exOneRead true).readPage true file pageNo = some (r, s1) ∧
        (exOneRead true).keptPinned s1 0) ∧
     (∀ file, ∃ r s1, (exOneRead true).allocPage true file = some (r, s1) ∧
        (exOneRead true).keptPinned s1 0)) :=
  ⟨(exOneRead_reachable true).well_formed, by decide, by decide,
    C2_pinned_frame_not_evicted true (exOneRead true) (exOneRead_reachable true).well_formed 0
      (by decide) (by decide)⟩

/-- C3: in every state reachable from a freshly constructed pool by `readPage`,
`allocPage`, `unPinPage`, `flushFile` and `disposePage` calls (failing calls
included, and client writes through page pointers as well) the frame invariants
hold: a frame is valid iff the hash index maps its (file, page) to its index; no
two valid frames cache the same (filename, page); every pinned frame is
valid. -/
theorem C3_reachable_frame_invariants (seatRef : Bool) (s : BufMgr)
    (h : Reachable seatRef s) : s.frameInvariants := by
  have w := h.well_formed
  refine ⟨?_, ?_, ?_⟩
  · intro i hi
    constructor
    · exact w.valid_hash i hi
    · rintro ⟨f, hf, _⟩
      cases hv : (s.desc i).valid with
      | true => rfl
      | false =>
        rw [(w.invalid_clear i hi hv).1] at hf
        exact Option.noConfusion hf
  · intro i j hi hj hvi hvj f g hf hg hfg hp
    exact w.caches_unique hi hj (n := f.filename) (p := (s.desc i).pageNo)
      ⟨hvi, rfl, f, hf, rfl⟩ ⟨hvj, hp.symm, g, hg, hfg.symm⟩
  · intro i hi hp
    exact w.valid_of_pinned hi hp

/-- Witness for C3: the reachable two-frame pool `exTwoFrames`. -/
theorem C3_witness : Reachable true exTwoFrames ∧ exTwoFrames.frameInvariants :=
  ⟨exTwoFrames_reachable true,
    C3_reachable_frame_invariants true exTwoFrames (exTwoFrames_reachable true)⟩

/-! ## The miss path of `readPage`, step by step -/

/-- A `readPage` that misses and returns frame `k`: the sweep returned `k`, the
file returned the stored image `g`, and the page was seated in frame `k`. -/
theorem readPage_miss_ok {seatRef : Bool} {s : BufMgr} {file : File} {pageNo : PageId}
    {k : FrameId} {s1 : BufMgr} (hl : s.hashTable.lookup file pageNo = none)
    (h : s.readPage seatRef file pageNo = some (.ok k, s1)) :
    ∃ s2 g, s.allocBuf = some (.ok k, s2) ∧ file.readPage pageNo s2.disk =
        (.ok g, { s2.disk with log := s2.disk.log ++ [IOEvent.read file.filename pageNo] }) ∧
      s2.disk.find file.filename pageNo = some g ∧
      s1 = { s2 with
             disk := { s2.disk with log := s2.disk.log ++ [IOEvent.read file.filename pageNo] }
             hashTable := s2.hashTable.insert file pageNo k
             bufDescTable := s2.bufDescTable.set k ((s2.desc k).Set seatRef file pageNo)
             bufPool := s2.bufPool.set k g } := by
  unfold BufMgr.readPage at h
  simp only [hl] at h
  cases ha : s.allocBuf with
  | none => simp [ha] at h
  | some x =>
    obtain ⟨ra, s2⟩ := x
    simp only [ha] at h
    cases ra with
    | error e => simp at h
    | ok k2 =>
      simp only at h
      have hsnd := readPage_snd file pageNo s2.disk
      cases hrd : file.readPage pageNo s2.disk with
      | mk rr disk1 =>
        rw [hrd] at h hsnd
        simp only at hsnd
        cases rr with
        | error e => simp at h
        | ok g =>
          simp only [Option.some.injEq, Prod.mk.injEq, Except.ok.injEq] at h
          obtain ⟨hk, hs⟩ := h
          subst hk
          refine ⟨s2, g, rfl, ?_, readPage_ok (by rw [hrd]), ?_⟩
          · rw [hrd, hsnd]
          · rw [← hs, hsnd]

/-- A `readPage` that misses fails exactly as the sweep does when the sweep
fails. -/
theorem readPage_miss_error {seatRef : Bool} {s : BufMgr} {file : File} {pageNo : PageId}
    {e : Exn} {s2 : BufMgr} (hl : s.hashTable.lookup file pageNo = none)
    (ha : s.allocBuf = some (.error e, s2)) :
    s.readPage seatRef file pageNo = some (.error e, s2) := by
  unfold BufMgr.readPage
  simp only [hl, ha]

theorem allocPage_error {seatRef : Bool} {s : BufMgr} {file : File} {e : Exn} {s2 : BufMgr}
    (ha : ({ s with disk := (file.allocatePage s.disk).2 } : BufMgr).allocBuf
      = some (.error e, s2)) :
    s.allocPage seatRef file = some (.error e, s2) := by
  unfold BufMgr.allocPage
  simp only [ha]

/-! ## When every frame is pinned -/

theorem allocBuf_all_pinned {s : BufMgr}
    (hall : ∀ i, i < s.numBufs → (s.desc i).valid = true ∧ 0 < (s.desc i).pinCnt) :
    ∃ s1, s.allocBuf = some (.error Exn.BufferExceeded, s1) := by
  have hsome := allocBuf_isSome s
  cases ha : s.allocBuf with
  | none => rw [ha] at hsome; exact Bool.noConfusion hsome
  | some x =>
    obtain ⟨r, s1⟩ := x
    obtain ⟨sm, hsw, hcases⟩ := allocBuf_shape ha
    rcases hcases with ⟨hr, _⟩ | ⟨hlt, hv, _, _⟩ | ⟨hlt, _, _, hp, _⟩
    · exact ⟨s1, by rw [hr]⟩
    · rw [hsw.len] at hlt
      rw [hsw.valid, (hall _ hlt).1] at hv
      exact Bool.noConfusion hv
    · rw [hsw.len] at hlt
      rw [hsw.pinCnt] at hp
      have := (hall _ hlt).2
      omega

/-- One `readPage` of an uncached page in a pool whose valid frames are all
pinned: it takes an invalid frame, so one more frame is valid afterwards, and
all valid frames are still pinned. -/
theorem readPage_fills_one {seatRef : Bool} {s : BufMgr} {file : File} {pageNo : PageId}
    {k : FrameId} {s1 : BufMgr} (w : s.WF)
    (hpin : ∀ i, i < s.numBufs → (s.desc i).valid = true → 0 < (s.desc i).pinCnt)
    (hl : s.hashTable.lookup file pageNo = none)
    (h : s.readPage seatRef file pageNo = some (.ok k, s1)) :
    s1.numBufs = s.numBufs ∧
    (∀ i, i < s1.numBufs → (s1.desc i).valid = true → 0 < (s1.desc i).pinCnt) ∧
    s1.hashTable = s.hashTable.insert file pageNo k ∧
    ((Finset.range s1.numBufs).filter (fun i => (s1.desc i).valid = true)).card
      = ((Finset.range s.numBufs).filter (fun i => (s.desc i).valid = true)).card + 1 := by
  obtain ⟨s2, g, ha, _, _, hs1⟩ := readPage_miss_ok hl h
  obtain ⟨sm, hsw, hcases⟩ := allocBuf_post w ha
  rcases hcases with ⟨hr, _⟩ | ⟨k1, hk, hv, hr, hs⟩ | ⟨k1, f, hk, hv, hp0, _, _, _⟩
  · cases hr
  · cases hr
    subst hs
    have hk2 : k < s2.numBufs := by rw [hsw.len]; exact hk
    have hlen : s1.numBufs = s.numBufs := by
      rw [hs1]; exact (numBufs_set _ _ _).trans hsw.len
    have hdesc : ∀ i, s1.desc i = if k = i ∧ k < s2.numBufs
        then (s2.desc k).Set seatRef file pageNo else s2.desc i := by
      intro i; rw [hs1]; exact desc_of_set rfl i
    have hdk : s1.desc k = (s2.desc k).Set seatRef file pageNo := by
      rw [hdesc k, if_pos ⟨rfl, hk2⟩]
    have hdi : ∀ i, i ≠ k → s1.desc i = s2.desc i := by
      intro i hi; rw [hdesc i, if_neg (fun h => hi h.1.symm)]
    refine ⟨hlen, ?_, ?_, ?_⟩
    · intro i hi hvi
      by_cases hik : i = k
      · subst hik; rw [hdk]; exact Nat.one_pos
      · rw [hdi i hik] at hvi ⊢
        rw [hsw.valid] at hvi
        rw [hsw.pinCnt]
        rw [hlen] at hi
        exact hpin i hi hvi
    · rw [hs1]
      show s2.hashTable.insert file pageNo k = _
      rw [hsw.hash]
    · have hset : (Finset.range s1.numBufs).filter (fun i => (s1.desc i).valid = true)
          = insert k ((Finset.range s.numBufs).filter (fun i => (s.desc i).valid = true)) := by
        ext i
        simp only [Finset.mem_filter, Finset.mem_range, Finset.mem_insert, hlen]
        by_cases hik : i = k
        · subst hik
          rw [hdk]
          simp [BufDesc.Set, hk]
        · rw [hdi i hik, hsw.valid]
          simp [hik]
      rw [hset, Finset.card_insert_of_not_mem]
      simp only [Finset.mem_filter, Finset.mem_range, not_and]
      intro _
      rw [hv]
      exact Bool.noConfusion
  · exfalso
    have := hpin k1 hk hv
    omega

/-- A run of `readPage` calls on pairwise distinct uncached pages, with no
unpin: each call that returns makes one more frame valid and pinned. -/
theorem readAll_fills (seatRef : Bool) : ∀ (ps done : List (File × PageId)) (s s1 : BufMgr),
    s.WF → (∀ i, i < s.numBufs → (s.desc i).valid = true → 0 < (s.desc i).pinCnt) →
    (∀ b ∈ s.hashTable, ∃ x ∈ done, x.1.filename = b.file.filename ∧ x.2 = b.pageNo) →
    (done ++ ps).Pairwise (fun a b => ¬ (a.1.filename = b.1.filename ∧ a.2 = b.2)) →
    s.readAll seatRef ps = some s1 →
    s1.numBufs = s.numBufs ∧
    (∀ i, i < s1.numBufs → (s1.desc i).valid = true → 0 < (s1.desc i).pinCnt) ∧
    (∀ b ∈ s1.hashTable, ∃ x ∈ done ++ ps, x.1.filename = b.file.filename ∧ x.2 = b.pageNo) ∧
    ((Finset.range s1.numBufs).filter (fun i => (s1.desc i).valid = true)).card
      = ((Finset.range s.numBufs).filter (fun i => (s.desc i).valid = true)).card
        + ps.length := by
  intro ps
  induction ps with
  | nil =>
    intro done s s1 _ hpin hkeys _ h
    simp only [BufMgr.readAll, Option.some.injEq] at h
    subst h
    exact ⟨rfl, hpin, by simpa using hkeys, by simp⟩
  | cons x rest ih =>
    intro done s s1 w hpin hkeys hpw h
    obtain ⟨file, pageNo⟩ := x
    have hl : s.hashTable.lookup file pageNo = none := by
      apply lookup_none_of_forall
      intro b hb hkey
      obtain ⟨y, hy, hy1, hy2⟩ := hkeys b hb
      rw [List.pairwise_append] at hpw
      exact hpw.2.2 y hy (file, pageNo) (List.mem_cons_self _ _)
        ⟨hy1.trans hkey.1, hy2.trans hkey.2⟩
    unfold BufMgr.readAll at h
    cases hr : s.readPage seatRef file pageNo with
    | none => simp [hr] at h
    | some y =>
      obtain ⟨r, s2⟩ := y
      cases r with
      | error e => simp [hr] at h
      | ok k =>
        simp only [hr] at h
        obtain ⟨hlen, hpin2, hht, hcard⟩ := readPage_fills_one w hpin hl hr
        have w2 := readPage_wf w hr
        have hkeys2 : ∀ b ∈ s2.hashTable, ∃ x ∈ done ++ [(file, pageNo)],
            x.1.filename = b.file.filename ∧ x.2 = b.pageNo := by
          intro b hb
          rw [hht] at hb
          rcases List.mem_cons.1 hb with rfl | hb0
          · exact ⟨(file, pageNo), by simp, rfl, rfl⟩
          · obtain ⟨y, hy, hy12⟩ := hkeys b hb0
            exact ⟨y, by simp [hy], hy12⟩
        have hpw2 : ((done ++ [(file, pageNo)]) ++ rest).Pairwise
            (fun a b => ¬ (a.1.filename = b.1.filename ∧ a.2 = b.2)) := by
          simpa using hpw
        obtain ⟨hlen3, hpin3, hkeys3, hcard3⟩ :=
          ih (done ++ [(file, pageNo)]) s2 s1 w2 hpin2 hkeys2 hpw2 h
        refine ⟨hlen3.trans hlen, hpin3, ?_, ?_⟩
        · intro b hb
          obtain ⟨y, hy, hy12⟩ := hkeys3 b hb
          exact ⟨y, by simpa using hy, hy12⟩
        · rw [hcard3, hcard, List.length_cons]
          omega

/-- C4: whenever every frame of the pool is valid and pinned (whatever the
reference bits and the clock hand), a `readPage` that misses and an `allocPage`
fail with `BufferExceeded`.  In particular, on a fresh pool of `N` frames, after
`N` `readPage` calls on pairwise distinct pages that all returned a page, with
no unpin in between, the `readPage` of a further distinct page fails with
`BufferExceeded`. -/
theorem C4_all_pinned_buffer_exceeded (seatRef : Bool) :
    (∀ s : BufMgr, (∀ i, i < s.numBufs → (s.desc i).valid = true ∧ 0 < (s.desc i).pinCnt) →
      (∀ file pageNo, s.hashTable.lookup file pageNo = none →
        ∃ s1, s.readPage seatRef file pageNo = some (.error Exn.BufferExceeded, s1)) ∧
      (∀ file, ∃ s1, s.allocPage seatRef file = some (.error Exn.BufferExceeded, s1))) ∧
    (∀ (N : Nat) (disk : Disk) (ps : List (File × PageId)) (s : BufMgr), N < 2 ^ 32 →
      ps.length = N →
      ps.Pairwise (fun a b => ¬ (a.1.filename = b.1.filename ∧ a.2 = b.2)) →
      (BufMgr.new N disk).readAll seatRef ps = some s →
      ∀ file pageNo, (∀ x ∈ ps, ¬ (x.1.filename = file.filename ∧ x.2 = pageNo)) →
        ∃ s1, s.readPage seatRef file pageNo = some (.error Exn.BufferExceeded, s1)) := by
  have part1 : ∀ s : BufMgr,
      (∀ i, i < s.numBufs → (s.desc i).valid = true ∧ 0 < (s.desc i).pinCnt) →
      (∀ file pageNo, s.hashTable.lookup file pageNo = none →
        ∃ s1, s.readPage seatRef file pageNo = some (.error Exn.BufferExceeded, s1)) ∧
      (∀ file, ∃ s1, s.allocPage seatRef file = some (.error Exn.BufferExceeded, s1)) := by
    intro s hall
    constructor
    · intro file pageNo hl
      obtain ⟨s1, ha⟩ := allocBuf_all_pinned hall
      exact ⟨s1, readPage_miss_error hl ha⟩
    · intro file
      obtain ⟨s1, ha⟩ := allocBuf_all_pinned
        (s := { s with disk := (file.allocatePage s.disk).2 }) hall
      exact ⟨s1, allocPage_error ha⟩
  refine ⟨part1, ?_⟩
  intro N disk ps s hN hlen hpw hrun file pageNo hnew
  have w0 := new_wf N disk hN
  have hpin0 : ∀ i, i < (BufMgr.new N disk).numBufs →
      ((BufMgr.new N disk).desc i).valid = true → 0 < ((BufMgr.new N disk).desc i).pinCnt := by
    intro i _ hv
    rw [new_desc] at hv
    exact Bool.noConfusion hv
  have hkeys0 : ∀ b ∈ (BufMgr.new N disk).hashTable,
      ∃ x ∈ ([] : List (File × PageId)), x.1.filename = b.file.filename ∧ x.2 = b.pageNo := by
    intro b hb
    simp [BufMgr.new] at hb
  obtain ⟨hn, hpin, hkeys, hcard⟩ :=
    readAll_fills seatRef ps [] (BufMgr.new N disk) s w0 hpin0 hkeys0 (by simpa using hpw) hrun
  have hzero : ((Finset.range (BufMgr.new N disk).numBufs).filter
      (fun i => ((BufMgr.new N disk).desc i).valid = true)).card = 0 := by
    rw [Finset.card_eq_zero, Finset.filter_eq_empty_iff]
    intro i _ hv
    rw [new_desc] at hv
    exact Bool.noConfusion hv
  rw [hzero] at hcard
  rw [new_numBufs] at hn
  have hfull : ((Finset.range s.numBufs).filter (fun i => (s.desc i).valid = true)).card
      = (Finset.range s.numBufs).card := by
    rw [hcard, Finset.card_range, hn, hlen]; omega
  have hvalid := Finset.card_filter_eq_iff.1 hfull
  have hall : ∀ i, i < s.numBufs → (s.desc i).valid = true ∧ 0 < (s.desc i).pinCnt := by
    intro i hi
    have hv := hvalid i (Finset.mem_range.2 hi)
    exact ⟨hv, hpin i hi hv⟩
  apply (part1 s hall).1
  apply lookup_none_of_forall
  intro b hb hkey
  obtain ⟨x, hx, hx1, hx2⟩ := hkeys b hb
  exact hnew x (by simpa using hx) ⟨hx1.trans hkey.1, hx2.trans hkey.2⟩

/-- Witness for C4: a pool of two frames, `readPage` of pages 1 and 2 of `r.tbl`,
then `readPage` of page 3 fails with `BufferExceeded`. -/
theorem C4_witness :
    ∃ s, (BufMgr.new 2 exDisk).readAll true [(exFile, 1), (exFile, 2)] = some s ∧
      ∃ s1, s.readPage true exFile 3 = some (.error Exn.BufferExceeded, s1) :=
  ⟨_, rfl, (C4_all_pinned_buffer_exceeded true).2 2 exDisk [(exFile, 1), (exFile, 2)] _
    (by norm_num) rfl (by decide) rfl exFile 3 (by decide)⟩

/-- C5: a `readPage(F, p)` that misses (the hash index has no entry for (F, p))
and returns frame `k` leaves frame `k` valid with file `F`, page `p`, pin count 1
and a clean dirty flag, the hash index maps (F, p) to `k`, and the image in pool
slot `k` is the page `F.readPage(p)` returned (read after the sweep that freed
frame `k`). -/
theorem C5_miss_seats_page (seatRef : Bool) (s : BufMgr) (w : s.WF) (file : File)
    (pageNo : PageId) (k : FrameId) (s1 : BufMgr)
    (hl : s.hashTable.lookup file pageNo = none)
    (h : s.readPage seatRef file pageNo = some (.ok k, s1)) :
    k < s1.numBufs ∧ (s1.desc k).valid = true ∧ (s1.desc k).file = some file ∧
    (s1.desc k).pageNo = pageNo ∧ (s1.desc k).pinCnt = 1 ∧ (s1.desc k).dirty = false ∧
    s1.hashTable.lookup file pageNo = some k ∧
    ∃ s2 g, s.allocBuf = some (.ok k, s2) ∧ (file.readPage pageNo s2.disk).1 = .ok g ∧
      s1.page k = g := by
  obtain ⟨s2, g, ha, hrd, _, hs1⟩ := readPage_miss_ok hl h
  obtain ⟨hk, _, _⟩ := allocBuf_ok w ha
  have w2 := allocBuf_wf w ha
  have hdk : s1.desc k = (s2.desc k).Set seatRef file pageNo := by
    rw [hs1, desc_of_set rfl k, if_pos ⟨rfl, hk⟩]
  have hpk : s1.page k = g := by
    rw [hs1, page_of_set rfl k, if_pos ⟨rfl, by rw [w2.pool_len]; exact hk⟩]
  refine ⟨?_, ?_, ?_, ?_, ?_, ?_, ?_, s2, g, ha, ?_, hpk⟩
  · rw [hs1, numBufs_of_set (s := s2) rfl]; exact hk
  · rw [hdk]; rfl
  · rw [hdk]; rfl
  · rw [hdk]; rfl
  · rw [hdk]; rfl
  · rw [hdk]; rfl
  · rw [hs1]; exact lookup_insert_self _ _ _ _
  · rw [hrd]

/-- Witness for C5: `readPage(r.tbl, 1)` on a fresh pool of two frames returns
frame 0. -/
theorem C5_witness :
    (BufMgr.new 2 exDisk).WF ∧
    (BufMgr.new 2 exDisk).hashTable.lookup exFile 1 = none ∧
    (BufMgr.new 2 exDisk).readPage true exFile 1 = some (.ok 0, exOneRead true) ∧
    0 < (exOneRead true).numBufs ∧ ((exOneRead true).desc 0).valid = true ∧
    ((exOneRead true).desc 0).file = some exFile ∧
    ((exOneRead true).desc 0).pageNo = 1 ∧ ((exOneRead true).desc 0).pinCnt = 1 ∧
    ((exOneRead true).desc 0).dirty = false ∧
    (exOneRead true).hashTable.lookup exFile 1 = some 0 ∧
    ∃ s2 g, (BufMgr.new 2 exDisk).allocBuf = some (.ok 0, s2) ∧
      (exFile.readPage 1 s2.disk).1 = .ok g ∧ (exOneRead true).page 0 = g :=
  ⟨new_wf 2 exDisk (by norm_num), rfl, rfl,
    C5_miss_seats_page true (BufMgr.new 2 exDisk) (new_wf 2 exDisk (by norm_num)) exFile 1 0
      (exOneRead true) rfl rfl⟩

/-- C6: a `readPage(F, p)` that hits (the hash index maps (F, p) to frame `k` of
the pool) returns `k`, touches no file (the file layer, its log included, is
unchanged: no read, no write-back), adds exactly one to the pin count of frame
`k` and sets its reference bit, and leaves the clock hand, the hash index, the
page images, the dirty, valid, file and page fields of frame `k` and every other
frame as they were. -/
theorem C6_hit_pins_frame (seatRef : Bool) (s : BufMgr) (file : File) (pageNo : PageId)
    (k : FrameId) (hl : s.hashTable.lookup file pageNo = some k) (hk : k < s.numBufs) :
    ∃ s1, s.readPage seatRef file pageNo = some (.ok k, s1) ∧
      s1.disk = s.disk ∧ s1.clockHand = s.clockHand ∧ s1.hashTable = s.hashTable ∧
      s1.bufPool = s.bufPool ∧ s1.numBufs = s.numBufs ∧
      (s1.desc k).pinCnt = (s.desc k).pinCnt + 1 ∧ (s1.desc k).refbit = true ∧
      (s1.desc k).dirty = (s.desc k).dirty ∧ (s1.desc k).valid = (s.desc k).valid ∧
      (s1.desc k).file = (s.desc k).file ∧ (s1.desc k).pageNo = (s.desc k).pageNo ∧
      (s1.desc k).frameNo = (s.desc k).frameNo ∧
      ∀ j, j ≠ k → s1.desc j = s.desc j := by
  refine ⟨{ s with
      bufDescTable :=
        s.bufDescTable.set k { s.desc k with refbit := true, pinCnt := (s.desc k).pinCnt + 1 } },
    ?_, rfl, rfl, rfl, rfl, numBufs_set _ _ _, ?_⟩
  · unfold BufMgr.readPage
    simp only [hl]
  · have hdk : ∀ j, BufMgr.desc { s with
          bufDescTable :=
            s.bufDescTable.set k
              { s.desc k with refbit := true, pinCnt := (s.desc k).pinCnt + 1 } } j
        = if k = j ∧ k < s.numBufs
          then { s.desc k with refbit := true, pinCnt := (s.desc k).pinCnt + 1 }
          else s.desc j := fun j => desc_of_set rfl j
    rw [hdk k, if_pos ⟨rfl, hk⟩]
    refine ⟨rfl, rfl, rfl, rfl, rfl, rfl, rfl, ?_⟩
    intro j hj
    rw [hdk j, if_neg (fun h => hj h.1.symm)]

/-- Witness for C6: `readPage(r.tbl, 3)` on `exTwoFrames` hits frame 0. -/
theorem C6_witness :
    exTwoFrames.hashTable.lookup exFile 3 = some 0 ∧ 0 < exTwoFrames.numBufs ∧
    ∃ s1, exTwoFrames.readPage true exFile 3 = some (.ok 0, s1) ∧
      s1.disk = exTwoFrames.disk ∧ s1.clockHand = exTwoFrames.clockHand ∧
      s1.hashTable = exTwoFrames.hashTable ∧
      s1.bufPool = exTwoFrames.bufPool ∧ s1.numBufs = exTwoFrames.numBufs ∧
      (s1.desc 0).pinCnt = (exTwoFrames.desc 0).pinCnt + 1 ∧ (s1.desc 0).refbit = true ∧
      (s1.desc 0).dirty = (exTwoFrames.desc 0).dirty ∧
      (s1.desc 0).valid = (exTwoFrames.desc 0).valid ∧
      (s1.desc 0).file = (exTwoFrames.desc 0).file ∧
      (s1.desc 0).pageNo = (exTwoFrames.desc 0).pageNo ∧
      (s1.desc 0).frameNo = (exTwoFrames.desc 0).frameNo ∧
      ∀ j, j ≠ 0 → s1.desc j = exTwoFrames.desc j :=
  ⟨rfl, by decide, C6_hit_pins_frame true exTwoFrames exFile 3 0 rfl (by decide)⟩

/-- C7: `unPinPage(F, p, d)` in every pool state: if (F, p) is not cached it
returns normally and changes nothing; if (F, p) is cached in a frame with pin
count 0 it fails with `PageNotPinned`; otherwise it returns normally, lowers the
pin count of that frame by exactly one, sets its dirty flag when `d` is true and
keeps the flag when `d` is false, and changes nothing else. -/
theorem C7_unPinPage_cases (s : BufMgr) (file : File) (pageNo : PageId) (d : Bool) :
    (s.hashTable.lookup file pageNo = none → s.unPinPage file pageNo d = (.ok (), s)) ∧
    (∀ k, s.hashTable.lookup file pageNo = some k → (s.desc k).pinCnt = 0 →
      (s.unPinPage file pageNo d).1 = .error (Exn.PageNotPinned file.filename pageNo k)) ∧
    (∀ k, s.hashTable.lookup file pageNo = some k → 0 < (s.desc k).pinCnt →
      k < s.numBufs ∧
      s.unPinPage file pageNo d = (.ok (),
        { s with
          bufDescTable :=
            s.bufDescTable.set k
              { s.desc k with
                dirty := if d = true then true else (s.desc k).dirty
                pinCnt := (s.desc k).pinCnt - 1 } })) := by
  refine ⟨?_, ?_, ?_⟩
  · intro hl
    unfold BufMgr.unPinPage
    simp only [hl]
  · intro k hl hp
    unfold BufMgr.unPinPage
    cases d <;> simp [hl, hp]
  · intro k hl hp
    constructor
    · by_contra hlt
      rw [desc_out_of_range s k (Nat.le_of_not_lt hlt)] at hp
      exact Nat.lt_irrefl 0 hp
    · have hne : (s.desc k).pinCnt ≠ 0 := Nat.pos_iff_ne_zero.1 hp
      unfold BufMgr.unPinPage
      cases d <;> simp [hl, hne]

/-- Witness for C7 on `exTwoFrames`: page 9 is not cached, page 3 is cached
with pin count 0, page 2 is cached and pinned. -/
theorem C7_witness :
    exTwoFrames.unPinPage exFile 9 true = (.ok (), exTwoFrames) ∧
    (exTwoFrames.unPinPage exFile 3 false).1 = .error (Exn.PageNotPinned "r.tbl" 3 0) ∧
    (1 < exTwoFrames.numBufs ∧
      exTwoFrames.unPinPage exFile 2 true = (.ok (),
        { exTwoFrames with
          bufDescTable :=
            exTwoFrames.bufDescTable.set 1
              { exTwoFrames.desc 1 with
                dirty := if true = true then true else (exTwoFrames.desc 1).dirty
                pinCnt := (exTwoFrames.desc 1).pinCnt - 1 } })) :=
  ⟨(C7_unPinPage_cases exTwoFrames exFile 9 true).1 rfl,
   (C7_unPinPage_cases exTwoFrames exFile 3 false).2.1 0 rfl rfl,
   (C7_unPinPage_cases exTwoFrames exFile 2 true).2.2 1 rfl (by decide)⟩

/-! ## The loop of `flushFile` -/

theorem ownedBy_congr {s t : BufMgr} {i : FrameId} (h : t.desc i = s.desc i) (n : String) :
    t.ownedBy i n ↔ s.ownedBy i n := by
  unfold BufMgr.ownedBy
  rw [h]

theorem not_ownedBy_of_clear {s : BufMgr} {i : FrameId} {d : BufDesc} (h : s.desc i = d.Clear)
    (n : String) : ¬ s.ownedBy i n := by
  rintro ⟨g, hg, _⟩
  rw [h] at hg
  exact Option.noConfusion hg

/-- What the loop of `flushFile` does over a duplicate-free list of frame
indices, in a well-formed state. -/
theorem flushFileLoop_spec (file : File) : ∀ (l : List Nat) (s : BufMgr), s.WF → l.Nodup →
    ((BufMgr.flushFileLoop file l s).2.clockHand = s.clockHand ∧
     (BufMgr.flushFileLoop file l s).2.bufPool = s.bufPool ∧
     (BufMgr.flushFileLoop file l s).2.numBufs = s.numBufs) ∧
    (∀ i, ¬ s.ownedBy i file.filename → (BufMgr.flushFileLoop file l s).2.desc i = s.desc i) ∧
    (∀ i, i ∉ l → (BufMgr.flushFileLoop file l s).2.desc i = s.desc i) ∧
    ((BufMgr.flushFileLoop file l s).1 = .ok () →
      ∀ i ∈ l, ¬ (BufMgr.flushFileLoop file l s).2.ownedBy i file.filename) ∧
    (∀ e, (BufMgr.flushFileLoop file l s).1 = .error e →
      ∃ i ∈ l, s.ownedBy i file.filename ∧ 0 < (s.desc i).pinCnt ∧
        e = Exn.PagePinned file.filename (s.desc i).pageNo i) ∧
    ((∃ i ∈ l, s.ownedBy i file.filename ∧ 0 < (s.desc i).pinCnt) →
      ∃ e, (BufMgr.flushFileLoop file l s).1 = .error e) ∧
    (∀ g p, g.filename ≠ file.filename →
      (BufMgr.flushFileLoop file l s).2.hashTable.lookup g p = s.hashTable.lookup g p) := by
  intro l
  induction l with
  | nil =>
    intro s _ _
    refine ⟨⟨rfl, rfl, rfl⟩, fun _ _ => rfl, fun _ _ => rfl, ?_, ?_, ?_, fun _ _ _ => rfl⟩
    · intro _ i hi; simp at hi
    · intro e he; simp [BufMgr.flushFileLoop] at he
    · rintro ⟨i, hi, _⟩; simp at hi
  | cons i rest ih =>
    intro s w hnd
    rw [List.nodup_cons] at hnd
    obtain ⟨hirest, hndrest⟩ := hnd
    rcases flushFrame_cases w file i with ⟨hown, he⟩ | ⟨hown, hpin, he⟩ | ⟨g, hf, hfn, hp0, he⟩
    · -- the frame is skipped
      have hloop : BufMgr.flushFileLoop file (i :: rest) s = BufMgr.flushFileLoop file rest s := by
        rw [BufMgr.flushFileLoop, he]
      rw [hloop]
      obtain ⟨h1, h2, h3, h4, h5, h6, h7⟩ := ih s w hndrest
      refine ⟨h1, h2, ?_, ?_, ?_, ?_, h7⟩
      · intro j hj
        exact h3 j (fun h => hj (List.mem_cons_of_mem _ h))
      · intro hok j hj
        rcases List.mem_cons.1 hj with rfl | hj'
        · rw [ownedBy_congr (h3 j hirest)]; exact hown
        · exact h4 hok j hj'
      · intro e hee
        obtain ⟨j, hj, hrest⟩ := h5 e hee
        exact ⟨j, List.mem_cons_of_mem _ hj, hrest⟩
      · rintro ⟨j, hj, hjo, hjp⟩
        rcases List.mem_cons.1 hj with rfl | hj'
        · exact absurd hjo hown
        · exact h6 ⟨j, hj', hjo, hjp⟩
    · -- the frame is pinned
      have hloop : BufMgr.flushFileLoop file (i :: rest) s
          = (.error (Exn.PagePinned file.filename (s.desc i).pageNo i), s) := by
        rw [BufMgr.flushFileLoop, he]
      rw [hloop]
      refine ⟨⟨rfl, rfl, rfl⟩, fun _ _ => rfl, fun _ _ => rfl, ?_, ?_, ?_, fun _ _ _ => rfl⟩
      · intro hok; cases hok
      · intro e hee
        simp only [Except.error.injEq] at hee
        exact ⟨i, List.mem_cons_self _ _, hown, hpin, hee.symm⟩
      · intro _; exact ⟨_, rfl⟩
    · -- the frame is flushed
      have hown : s.ownedBy i file.filename := ⟨g, hf, hfn⟩
      have hlt := ownedBy_lt hown
      have w1 : (s.flushFrame file i).2.WF := flushFrame_wf w file i
      obtain ⟨s1, hs1⟩ : ∃ s1 : BufMgr, s1 =
          { s with
            disk := if (s.desc i).dirty = true then (g.writePage (s.page i) s.disk).2
                    else s.disk
            hashTable := s.hashTable.eraseP (fun b => b.matches file (s.desc i).pageNo)
            bufDescTable := s.bufDescTable.set i (s.desc i).Clear } := ⟨_, rfl⟩
      rw [← hs1] at he
      rw [he] at w1
      simp only at w1
      have hloop : BufMgr.flushFileLoop file (i :: rest) s
          = BufMgr.flushFileLoop file rest s1 := by
        rw [BufMgr.flushFileLoop, he]
      rw [hloop]
      have hdt : s1.bufDescTable = s.bufDescTable.set i (s.desc i).Clear := by rw [hs1]
      have hht : s1.hashTable
          = s.hashTable.eraseP (fun b => b.matches file (s.desc i).pageNo) := by rw [hs1]
      have hch : s1.clockHand = s.clockHand := by rw [hs1]
      have hbp : s1.bufPool = s.bufPool := by rw [hs1]
      have hd1 : ∀ j, s1.desc j = if i = j ∧ i < s.numBufs then (s.desc i).Clear else s.desc j :=
        fun j => desc_of_set hdt j
      have hd1i : s1.desc i = (s.desc i).Clear := by
        rw [hd1 i, if_pos (And.intro rfl hlt)]
      have hd1j : ∀ j, j ≠ i → s1.desc j = s.desc j := fun j hj => by
        rw [hd1 j, if_neg (fun h => hj h.1.symm)]
      obtain ⟨h1, h2, h3, h4, h5, h6, h7⟩ := ih s1 w1 hndrest
      refine ⟨⟨h1.1.trans hch, h1.2.1.trans hbp, h1.2.2.trans (numBufs_of_set hdt)⟩,
        ?_, ?_, ?_, ?_, ?_, ?_⟩
      · intro j hj
        have hji : j ≠ i := fun h => hj (h ▸ hown)
        rw [h2 j (by rw [ownedBy_congr (hd1j j hji)]; exact hj)]
        exact hd1j j hji
      · intro j hj
        have hji : j ≠ i := fun h => hj (h ▸ List.mem_cons_self _ _)
        rw [h3 j (fun h => hj (List.mem_cons_of_mem _ h))]
        exact hd1j j hji
      · intro hok j hj
        rcases List.mem_cons.1 hj with rfl | hj'
        · exact not_ownedBy_of_clear ((h3 j hirest).trans hd1i) _
        · exact h4 hok j hj'
      · intro e hee
        obtain ⟨j, hj, hjo, hjp, hje⟩ := h5 e hee
        have hji : j ≠ i := fun h => hirest (h ▸ hj)
        rw [ownedBy_congr (hd1j j hji)] at hjo
        rw [hd1j j hji] at hjp hje
        exact ⟨j, List.mem_cons_of_mem _ hj, hjo, hjp, hje⟩
      · rintro ⟨j, hj, hjo, hjp⟩
        have hji : j ≠ i := by
          intro h; rw [h, hp0] at hjp; exact Nat.lt_irrefl 0 hjp
        rcases List.mem_cons.1 hj with rfl | hj'
        · exact absurd rfl hji
        · apply h6
          refine ⟨j, hj', ?_, ?_⟩
          · rw [ownedBy_congr (hd1j j hji)]; exact hjo
          · rw [hd1j j hji]; exact hjp
      · intro g1 p hg1
        rw [h7 g1 p hg1, hht]
        apply lookup_erase_ne
        intro hkey
        exact hg1 hkey.1.symm

theorem exDirty_reachable (seatRef : Bool) : Reachable seatRef (exDirty seatRef) := by
  have h := Reachable.unPinPage exFile 1 true (exOneRead_reachable seatRef)
  cases seatRef <;> exact h

/-- C9: in every reachable state, if `flushFile(F)` returns normally then
afterwards the hash index holds no entry for a file with F's filename, no frame
is owned by (and so no valid frame caches a page of) a file with that filename,
every frame that was not owned by a file with that filename (its descriptor and
its page image) is unchanged, hash entries of other filenames are still found,
and the clock hand has not moved. -/
theorem C9_flushFile_clears_file (seatRef : Bool) (s : BufMgr) (h : Reachable seatRef s)
    (file : File) (s1 : BufMgr) (hf : s.flushFile file = (.ok (), s1)) :
    (∀ b ∈ s1.hashTable, b.file.filename ≠ file.filename) ∧
    (∀ i, ¬ s1.ownedBy i file.filename) ∧
    (∀ i p, ¬ s1.caches i file.filename p) ∧
    (∀ i, ¬ s.ownedBy i file.filename → s1.desc i = s.desc i ∧ s1.page i = s.page i) ∧
    (∀ g p, g.filename ≠ file.filename → s1.hashTable.lookup g p = s.hashTable.lookup g p) ∧
    s1.clockHand = s.clockHand := by
  have w := h.well_formed
  have w1 : s1.WF := by
    have := flushFile_wf w file
    rwa [hf] at this
  obtain ⟨h1, h2, _, h4, _, _, h7⟩ :=
    flushFileLoop_spec file (List.range s.numBufs) s w (List.nodup_range _)
  have hf2 : BufMgr.flushFileLoop file (List.range s.numBufs) s = (.ok (), s1) := hf
  rw [hf2] at h1 h2 h4 h7
  simp only at h1 h2 h4 h7
  have hown : ∀ i, ¬ s1.ownedBy i file.filename := by
    intro i hi
    have hlt := ownedBy_lt hi
    rw [h1.2.2] at hlt
    exact h4 trivial i (List.mem_range.2 hlt) hi
  refine ⟨?_, hown, ?_, ?_, h7, h1.1⟩
  · intro b hb hfn
    obtain ⟨_, _, _, g, hg, hgf⟩ := w1.hash_valid b hb
    exact hown b.frameNo ⟨g, hg, hgf.trans hfn⟩
  · rintro i p ⟨_, _, g, hg, hgf⟩
    exact hown i ⟨g, hg, hgf⟩
  · intro i hi
    exact ⟨h2 i hi, page_of_eq h1.2.1 i⟩

/-- Witness for C9: flushing `r.tbl` in the pool `exDirty`. -/
theorem C9_witness :
    Reachable true (exDirty true) ∧ (exDirty true).flushFile exFile = (.ok (), exFlushed) ∧
    ((∀ b ∈ exFlushed.hashTable, b.file.filename ≠ exFile.filename) ∧
     (∀ i, ¬ exFlushed.ownedBy i exFile.filename) ∧
     (∀ i p, ¬ exFlushed.caches i exFile.filename p) ∧
     (∀ i, ¬ (exDirty true).ownedBy i exFile.filename →
        exFlushed.desc i = (exDirty true).desc i ∧ exFlushed.page i = (exDirty true).page i) ∧
     (∀ g p, g.filename ≠ exFile.filename →
        exFlushed.hashTable.lookup g p = (exDirty true).hashTable.lookup g p) ∧
     exFlushed.clockHand = (exDirty true).clockHand) :=
  ⟨exDirty_reachable true, rfl,
    C9_flushFile_clears_file true (exDirty true) (exDirty_reachable true) exFile exFlushed rfl⟩

/-- C10: in every reachable state, `flushFile(F)` fails with `PagePinned` if and
only if some frame owned by a file with F's filename has a pin count above 0;
and `PagePinned` is the only way it fails. -/
theorem C10_flushFile_pagePinned_iff (seatRef : Bool) (s : BufMgr) (h : Reachable seatRef s)
    (file : File) :
    ((∃ n p k, (s.flushFile file).1 = .error (Exn.PagePinned n p k)) ↔
      ∃ i, s.ownedBy i file.filename ∧ 0 < (s.desc i).pinCnt) ∧
    (∀ e, (s.flushFile file).1 = .error e → ∃ n p k, e = Exn.PagePinned n p k) := by
  have w := h.well_formed
  obtain ⟨_, _, _, _, h5, h6, _⟩ :=
    flushFileLoop_spec file (List.range s.numBufs) s w (List.nodup_range _)
  have hfl : s.flushFile file = BufMgr.flushFileLoop file (List.range s.numBufs) s := rfl
  rw [← hfl] at h5 h6
  refine ⟨⟨?_, ?_⟩, ?_⟩
  · rintro ⟨n, p, k, he⟩
    obtain ⟨i, _, hio, hip, _⟩ := h5 _ he
    exact ⟨i, hio, hip⟩
  · rintro ⟨i, hio, hip⟩
    obtain ⟨e, he⟩ := h6 ⟨i, List.mem_range.2 (ownedBy_lt hio), hio, hip⟩
    obtain ⟨j, _, _, _, hje⟩ := h5 e he
    exact ⟨_, _, _, by rw [he, hje]⟩
  · intro e he
    obtain ⟨j, _, _, _, hje⟩ := h5 e he
    exact ⟨_, _, _, hje⟩

/-- Witness for C10: in `exOneRead` frame 0 belongs to `r.tbl` and is pinned, and
`flushFile(r.tbl)` fails with `PagePinned`. -/
theorem C10_witness :
    Reachable true (exOneRead true) ∧
    (((∃ n p k, ((exOneRead true).flushFile exFile).1 = .error (Exn.PagePinned n p k)) ↔
      ∃ i, (exOneRead true).ownedBy i exFile.filename ∧ 0 < ((exOneRead true).desc i).pinCnt) ∧
    (∀ e, ((exOneRead true).flushFile exFile).1 = .error e →
      ∃ n p k, e = Exn.PagePinned n p k)) ∧
    ((exOneRead true).flushFile exFile).1 = .error (Exn.PagePinned "r.tbl" 1 0) :=
  ⟨exOneRead_reachable true,
    C10_flushFile_pagePinned_iff true (exOneRead true) (exOneRead_reachable true) exFile, rfl⟩

/-! ## Counting write-backs -/

theorem countP_append_write (log : List IOEvent) (n m : String) (p : PageId) (g : Page) :
    (log ++ [IOEvent.write m g]).countP (IOEvent.isWriteOf n p)
      = log.countP (IOEvent.isWriteOf n p) + (if m = n ∧ g.page_number = p then 1 else 0) := by
  rw [List.countP_append]
  by_cases h : m = n ∧ g.page_number = p
  · simp [IOEvent.isWriteOf, h]
  · simp only [List.countP_cons, List.countP_nil, IOEvent.isWriteOf, h, decide_False,
      Bool.false_eq_true, if_false]

theorem countP_append_other (log : List IOEvent) (n : String) (p : PageId) (e : IOEvent)
    (h : IOEvent.isWriteOf n p e = false) :
    (log ++ [e]).countP (IOEvent.isWriteOf n p) = log.countP (IOEvent.isWriteOf n p) := by
  rw [List.countP_append]
  simp [h]

theorem writeCount_of_log {s t : BufMgr} (h : t.disk.log = s.disk.log) (n : String)
    (p : PageId) : t.writeCount n p = s.writeCount n p := by
  unfold BufMgr.writeCount
  rw [h]

theorem writeCount_write {s t : BufMgr} {f : File} {g : Page}
    (h : t.disk = (f.writePage g s.disk).2) (n : String) (p : PageId) :
    t.writeCount n p = s.writeCount n p + (if f.filename = n ∧ g.page_number = p then 1 else 0) := by
  unfold BufMgr.writeCount
  rw [h, writePage_log, countP_append_write]

/-- What a sweep writes: one `writePage` of the evicted page if that frame was
dirty, and nothing else. -/
theorem allocBuf_writeCount {s : BufMgr} {r : Except Exn FrameId} {s2 : BufMgr} (w : s.WF)
    (h : s.allocBuf = some (r, s2)) (n : String) (p : PageId) :
    (s2.writeCount n p = s.writeCount n p + 1 ∧
      ∃ k, r = .ok k ∧ k < s.numBufs ∧ s.caches k n p ∧ (s.desc k).dirty = true) ∨
    (s2.writeCount n p = s.writeCount n p ∧ s2.disk.find n p = s.disk.find n p ∧
      ∀ k, r = .ok k → s.caches k n p → (s.desc k).dirty = false) := by
  obtain ⟨sm, hsw, hcases⟩ := allocBuf_post w h
  rcases hcases with ⟨hr, hs⟩ | ⟨k, hk, hv, hr, hs⟩ | ⟨k, f, hk, hv, _, hf, hr, hs⟩
  · right
    have hd : s2.disk = s.disk := by rw [hs, hsw.disk]
    refine ⟨writeCount_of_log (by rw [hd]) n p, by rw [hd], ?_⟩
    intro k hk; rw [hr] at hk; cases hk
  · right
    have hd : s2.disk = s.disk := by rw [hs, hsw.disk]
    refine ⟨writeCount_of_log (by rw [hd]) n p, by rw [hd], ?_⟩
    intro k1 hk1 hc
    rw [hr] at hk1
    cases hk1
    rw [hc.1] at hv
    exact Bool.noConfusion hv
  · have himg := w.image_no k hk hv
    by_cases hd : (s.desc k).dirty = true
    · have hdisk : s2.disk = (f.writePage (s.page k) s.disk).2 := by
        rw [hs]; simp only [hd, if_true]
      by_cases hkey : f.filename = n ∧ (s.page k).page_number = p
      · left
        refine ⟨?_, k, hr, hk, ⟨hv, himg.symm.trans hkey.2, f, hf, hkey.1⟩, hd⟩
        rw [writeCount_write hdisk, if_pos hkey]
      · right
        refine ⟨?_, ?_, ?_⟩
        · rw [writeCount_write hdisk, if_neg hkey]; rfl
        · rw [hdisk]; exact writePage_find_ne _ _ _ _ _ hkey
        · intro k1 hk1 hc
          rw [hr] at hk1
          cases hk1
          exfalso
          obtain ⟨_, hp, g, hg, hgn⟩ := hc
          rw [hf] at hg
          cases hg
          exact hkey ⟨hgn, himg.trans hp⟩
    · right
      have hd2 : (s.desc k).dirty = false := by simpa using hd
      have hdisk : s2.disk = s.disk := by
        rw [hs]; simp only [hd2, Bool.false_eq_true, if_false]
      refine ⟨writeCount_of_log (by rw [hdisk]) n p, by rw [hdisk], ?_⟩
      intro k1 hk1 _
      rw [hr] at hk1
      cases hk1
      exact hd2

/-- A sweep leaves every frame but the one it returns as it was, up to the
reference bit. -/
theorem allocBuf_other {s : BufMgr} {r : Except Exn FrameId} {s2 : BufMgr} (w : s.WF)
    (h : s.allocBuf = some (r, s2)) (i : FrameId) (hi : ∀ k, r = .ok k → k ≠ i) :
    s2.desc i = { s.desc i with refbit := (s2.desc i).refbit } := by
  obtain ⟨sm, hsw, hcases⟩ := allocBuf_post w h
  rcases hcases with ⟨_, hs⟩ | ⟨k, _, _, _, hs⟩ | ⟨k, f, hk, _, _, _, hr, hs⟩
  · rw [hs]; exact hsw.desc i
  · rw [hs]; exact hsw.desc i
  · have hki : k ≠ i := hi k hr
    have : s2.desc i = sm.desc i := by
      rw [hs, desc_of_set rfl i, if_neg (fun h => hki h.1)]
    rw [this]; exact hsw.desc i

theorem caches_congr {s t : BufMgr} {i : FrameId}
    (hv : (t.desc i).valid = (s.desc i).valid) (hp : (t.desc i).pageNo = (s.desc i).pageNo)
    (hf : (t.desc i).file = (s.desc i).file) (n : String) (p : PageId) :
    t.caches i n p ↔ s.caches i n p := by
  unfold BufMgr.caches
  rw [hv, hp, hf]

theorem not_caches_of_lookup_none {s : BufMgr} (w : s.WF) {f : File} {p : PageId}
    (h : s.hashTable.lookup f p = none) (i : FrameId) : ¬ s.caches i f.filename p := by
  intro hc
  have hi : i < s.numBufs := by
    by_contra hlt
    have := hc.1
    rw [desc_out_of_range s i (Nat.le_of_not_lt hlt)] at this
    exact Bool.noConfusion this
  rw [w.lookup_of_caches hi hc] at h
  exact Option.noConfusion h

theorem caches_lt {s : BufMgr} {i : FrameId} {n : String} {p : PageId} (hc : s.caches i n p) :
    i < s.numBufs := by
  by_contra hlt
  have := hc.1
  rw [desc_out_of_range s i (Nat.le_of_not_lt hlt)] at this
  exact Bool.noConfusion this

/-- Writing a valid frame back if it is dirty: the log gains one `writePage` of
the page the frame caches when the frame is dirty, and nothing otherwise; the
stored images of all other pages stay. -/
theorem writeback_count {s t : BufMgr} (w : s.WF) {k : FrameId} (hk : k < s.numBufs)
    (hv : (s.desc k).valid = true) {f : File} (hf : (s.desc k).file = some f)
    (hdisk : t.disk = if (s.desc k).dirty = true then (f.writePage (s.page k) s.disk).2
      else s.disk) (n : String) (p : PageId) :
    (t.writeCount n p = s.writeCount n p + 1 ∧ s.caches k n p ∧ (s.desc k).dirty = true) ∨
    (t.writeCount n p = s.writeCount n p ∧ t.disk.find n p = s.disk.find n p ∧
      (s.caches k n p → (s.desc k).dirty = false)) := by
  have himg := w.image_no k hk hv
  by_cases hd : (s.desc k).dirty = true
  · rw [if_pos hd] at hdisk
    by_cases hkey : f.filename = n ∧ (s.page k).page_number = p
    · left
      refine ⟨?_, ⟨hv, himg.symm.trans hkey.2, f, hf, hkey.1⟩, hd⟩
      rw [writeCount_write hdisk, if_pos hkey]
    · right
      refine ⟨?_, ?_, ?_⟩
      · rw [writeCount_write hdisk, if_neg hkey]; rfl
      · rw [hdisk]; exact writePage_find_ne _ _ _ _ _ hkey
      · intro hc
        exfalso
        obtain ⟨_, hp, g, hg, hgn⟩ := hc
        rw [hf] at hg
        cases hg
        exact hkey ⟨hgn, himg.trans hp⟩
  · right
    have hd2 : (s.desc k).dirty = false := by simpa using hd
    rw [if_neg hd] at hdisk
    exact ⟨writeCount_of_log (by rw [hdisk]) n p, by rw [hdisk], fun _ => hd2⟩

/-- What the loop of `flushFile` writes for a given page: nothing, and the
stored image of the page stays, unless a dirty frame on the list caches the page
for the flushed file; exactly one `writePage` if there is one and the loop runs
to its end. -/
theorem flushFileLoop_writes (file : File) : ∀ (l : List Nat) (s : BufMgr), s.WF → l.Nodup →
    ∀ (n : String) (p : PageId),
    ((¬ ∃ k ∈ l, s.caches k n p ∧ n = file.filename ∧ (s.desc k).dirty = true) →
      (BufMgr.flushFileLoop file l s).2.writeCount n p = s.writeCount n p ∧
      (BufMgr.flushFileLoop file l s).2.disk.find n p = s.disk.find n p) ∧
    ((BufMgr.flushFileLoop file l s).1 = .ok () →
      (∃ k ∈ l, s.caches k n p ∧ n = file.filename ∧ (s.desc k).dirty = true) →
      (BufMgr.flushFileLoop file l s).2.writeCount n p = s.writeCount n p + 1) := by
  intro l
  induction l with
  | nil =>
    intro s _ _ n p
    refine ⟨fun _ => ⟨rfl, rfl⟩, ?_⟩
    rintro _ ⟨k, hk, _⟩
    simp at hk
  | cons i rest ih =>
    intro s w hnd n p
    rw [List.nodup_cons] at hnd
    obtain ⟨hirest, hndrest⟩ := hnd
    rcases flushFrame_cases w file i with ⟨hown, he⟩ | ⟨hown, hpin, he⟩ | ⟨g, hf, hfn, hp0, he⟩
    · have hloop : BufMgr.flushFileLoop file (i :: rest) s = BufMgr.flushFileLoop file rest s := by
        rw [BufMgr.flushFileLoop, he]
      rw [hloop]
      obtain ⟨ih1, ih2⟩ := ih s w hndrest n p
      refine ⟨?_, ?_⟩
      · intro hno
        apply ih1
        rintro ⟨k, hk, hrest⟩
        exact hno ⟨k, List.mem_cons_of_mem _ hk, hrest⟩
      · rintro hok ⟨k, hk, hc, hn, hd⟩
        rcases List.mem_cons.1 hk with rfl | hk'
        · exfalso
          obtain ⟨_, _, g, hg, hgn⟩ := hc
          exact hown ⟨g, hg, hgn.trans hn⟩
        · exact ih2 hok ⟨k, hk', hc, hn, hd⟩
    · have hloop : BufMgr.flushFileLoop file (i :: rest) s
          = (.error (Exn.PagePinned file.filename (s.desc i).pageNo i), s) := by
        rw [BufMgr.flushFileLoop, he]
      rw [hloop]
      refine ⟨fun _ => ⟨rfl, rfl⟩, ?_⟩
      intro hok; cases hok
    · have hown : s.ownedBy i file.filename := ⟨g, hf, hfn⟩
      have hlt := ownedBy_lt hown
      have hv := w.valid_of_ownedBy hown
      have w1 : (s.flushFrame file i).2.WF := flushFrame_wf w file i
      obtain ⟨s1, hs1⟩ : ∃ s1 : BufMgr, s1 =
          { s with
            disk := if (s.desc i).dirty = true then (g.writePage (s.page i) s.disk).2
                    else s.disk
            hashTable := s.hashTable.eraseP (fun b => b.matches file (s.desc i).pageNo)
            bufDescTable := s.bufDescTable.set i (s.desc i).Clear } := ⟨_, rfl⟩
      rw [← hs1] at he
      rw [he] at w1
      simp only at w1
      have hloop : BufMgr.flushFileLoop file (i :: rest) s
          = BufMgr.flushFileLoop file rest s1 := by
        rw [BufMgr.flushFileLoop, he]
      rw [hloop]
      have hdt : s1.bufDescTable = s.bufDescTable.set i (s.desc i).Clear := by rw [hs1]
      have hdisk : s1.disk = if (s.desc i).dirty = true
          then (g.writePage (s.page i) s.disk).2 else s.disk := by rw [hs1]
      have hd1 : ∀ j, s1.desc j = if i = j ∧ i < s.numBufs then (s.desc i).Clear else s.desc j :=
        fun j => desc_of_set hdt j
      have hd1i : s1.desc i = (s.desc i).Clear := by
        rw [hd1 i, if_pos (And.intro rfl hlt)]
      have hd1j : ∀ j, j ≠ i → s1.desc j = s.desc j := fun j hj => by
        rw [hd1 j, if_neg (fun h => hj h.1.symm)]
      have hc1 : ∀ j, s1.caches j n p → j ≠ i ∧ s.caches j n p := by
        intro j hcj
        have hji : j ≠ i := by
          intro h
          have := hcj.1
          rw [h, hd1i] at this
          exact Bool.noConfusion this
        refine ⟨hji, ?_⟩
        unfold BufMgr.caches at hcj ⊢
        rwa [hd1j j hji] at hcj
      have hc2 : ∀ j, j ≠ i → s.caches j n p → s1.caches j n p := by
        intro j hji hcj
        unfold BufMgr.caches at hcj ⊢
        rwa [hd1j j hji]
      obtain ⟨ih1, ih2⟩ := ih s1 w1 hndrest n p
      rcases writeback_count w hlt hv hf hdisk n p with ⟨hcnt, hci, hdi⟩ | ⟨hcnt, hfind, hcl⟩
      · -- frame `i` is the dirty frame that caches the page
        have hnone : ¬ ∃ k ∈ rest, s1.caches k n p ∧ n = file.filename ∧
            (s1.desc k).dirty = true := by
          rintro ⟨k, hk, hck, _, _⟩
          obtain ⟨hki, hcks⟩ := hc1 k hck
          exact hki (w.caches_unique (caches_lt hcks) hlt hcks hci)
        have hn : n = file.filename := by
          obtain ⟨_, _, g1, hg1, hgn⟩ := hci
          rw [hf] at hg1
          cases hg1
          exact hgn.symm.trans hfn
        refine ⟨?_, ?_⟩
        · intro hno
          exact absurd ⟨i, List.mem_cons_self _ _, hci, hn, hdi⟩ hno
        · intro _ _
          rw [(ih1 hnone).1, hcnt]
      · -- the write-back of frame `i`, if any, is of another page
        refine ⟨?_, ?_⟩
        · intro hno
          have hnone : ¬ ∃ k ∈ rest, s1.caches k n p ∧ n = file.filename ∧
              (s1.desc k).dirty = true := by
            rintro ⟨k, hk, hck, hn, hdk⟩
            obtain ⟨hki, hcks⟩ := hc1 k hck
            rw [hd1j k hki] at hdk
            exact hno ⟨k, List.mem_cons_of_mem _ hk, hcks, hn, hdk⟩
          obtain ⟨a, b⟩ := ih1 hnone
          exact ⟨a.trans hcnt, b.trans hfind⟩
        · rintro hok ⟨k, hk, hck, hn, hdk⟩
          have hki : k ≠ i := by
            intro h
            rw [h] at hck hdk
            rw [hcl hck] at hdk
            exact Bool.noConfusion hdk
          rcases List.mem_cons.1 hk with rfl | hk'
          · exact absurd rfl hki
          · rw [ih2 hok ⟨k, hk', hc2 k hki hck, hn, by rw [hd1j k hki]; exact hdk⟩, hcnt]

/-! ## Effects of single calls, as the scenarios need them -/

theorem writeCount_read {s t : BufMgr} {n m : String} {q : PageId}
    (h : t.disk.log = s.disk.log ++ [IOEvent.read m q]) (p : PageId) :
    t.writeCount n p = s.writeCount n p := by
  unfold BufMgr.writeCount
  rw [h]
  exact countP_append_other _ _ _ _ rfl

/-- A `readPage(F, p)` that returns frame `k`: the frame caches (F, p), is
pinned, the hash index finds it, and page `p` of `F` was not written. -/
theorem readPage_ok_facts {seatRef : Bool} {s : BufMgr} {file : File} {pageNo : PageId}
    {k : FrameId} {s1 : BufMgr} (w : s.WF)
    (h : s.readPage seatRef file pageNo = some (.ok k, s1)) :
    k < s1.numBufs ∧ s1.caches k file.filename pageNo ∧
    s1.hashTable.lookup file pageNo = some k ∧ 0 < (s1.desc k).pinCnt ∧
    s1.writeCount file.filename pageNo = s.writeCount file.filename pageNo := by
  cases hl : s.hashTable.lookup file pageNo with
  | some k1 =>
    have h2 := h
    unfold BufMgr.readPage at h2
    simp only [hl, Option.some.injEq, Prod.mk.injEq, Except.ok.injEq] at h2
    obtain ⟨hk, hs1⟩ := h2
    subst hk
    obtain ⟨hlt, hc⟩ := w.frame_lt_of_lookup hl
    have hdk : s1.desc k1 = { s.desc k1 with refbit := true, pinCnt := (s.desc k1).pinCnt + 1 } := by
      rw [← hs1, desc_of_set rfl k1, if_pos (And.intro rfl hlt)]
    refine ⟨?_, ?_, ?_, ?_, ?_⟩
    · rw [← hs1, numBufs_set]; exact hlt
    · unfold BufMgr.caches at hc ⊢
      rw [hdk]; exact hc
    · rw [← hs1]; exact hl
    · rw [hdk]; exact Nat.succ_pos _
    · rw [← hs1]; rfl
  | none =>
    obtain ⟨s2, g, ha, _, _, hs1⟩ := readPage_miss_ok hl h
    obtain ⟨hk, _, _⟩ := allocBuf_ok w ha
    have hdk : s1.desc k = (s2.desc k).Set seatRef file pageNo := by
      rw [hs1, desc_of_set rfl k, if_pos (And.intro rfl hk)]
    refine ⟨?_, ?_, ?_, ?_, ?_⟩
    · rw [hs1, numBufs_of_set (s := s2) rfl]; exact hk
    · unfold BufMgr.caches
      rw [hdk]
      exact ⟨rfl, rfl, file, rfl, rfl⟩
    · rw [hs1]; exact lookup_insert_self _ _ _ _
    · rw [hdk]; exact Nat.one_pos
    · have h12 : s1.writeCount file.filename pageNo = s2.writeCount file.filename pageNo := by
        apply writeCount_read (m := file.filename) (q := pageNo)
        rw [hs1]
      rw [h12]
      rcases allocBuf_writeCount w ha file.filename pageNo with ⟨_, k1, _, _, hc, _⟩ | ⟨hcnt, _, _⟩
      · exact absurd hc (not_caches_of_lookup_none w hl k1)
      · exact hcnt

/-- A `readPage(F, p)` that misses and returns frame `k`: the frame is clean,
pinned once, and its image is the stored image of the page. -/
theorem readPage_miss_facts {seatRef : Bool} {s : BufMgr} {file : File} {pageNo : PageId}
    {k : FrameId} {s1 : BufMgr} (w : s.WF) (hl : s.hashTable.lookup file pageNo = none)
    (h : s.readPage seatRef file pageNo = some (.ok k, s1)) :
    (s1.desc k).dirty = false ∧ (s1.desc k).pinCnt = 1 ∧
    s1.disk.find file.filename pageNo = some (s1.page k) ∧
    ∃ s2, s.allocBuf = some (.ok k, s2) ∧ s1.disk.find file.filename pageNo
      = s2.disk.find file.filename pageNo := by
  obtain ⟨s2, g, ha, _, hfind, hs1⟩ := readPage_miss_ok hl h
  obtain ⟨hk, _, _⟩ := allocBuf_ok w ha
  have w2 := allocBuf_wf w ha
  have hdk : s1.desc k = (s2.desc k).Set seatRef file pageNo := by
    rw [hs1, desc_of_set rfl k, if_pos (And.intro rfl hk)]
  have hpk : s1.page k = g := by
    rw [hs1, page_of_set rfl k, if_pos ⟨rfl, by rw [w2.pool_len]; exact hk⟩]
  have hd : s1.disk.find file.filename pageNo = s2.disk.find file.filename pageNo := by
    rw [hs1]; rfl
  refine ⟨by rw [hdk]; rfl, by rw [hdk]; rfl, ?_, s2, ha, hd⟩
  rw [hd, hfind, hpk]

/-- An `unPinPage` that returns normally on a cached page. -/
theorem unPinPage_ok {s : BufMgr} {file : File} {pageNo : PageId} {d : Bool} {s1 : BufMgr}
    {k : FrameId} (h : s.unPinPage file pageNo d = (.ok (), s1))
    (hl : s.hashTable.lookup file pageNo = some k) (hk : k < s.numBufs) :
    s1.disk = s.disk ∧ s1.hashTable = s.hashTable ∧ s1.bufPool = s.bufPool ∧
    s1.numBufs = s.numBufs ∧ (∀ j, j ≠ k → s1.desc j = s.desc j) ∧
    (s1.desc k).valid = (s.desc k).valid ∧ (s1.desc k).file = (s.desc k).file ∧
    (s1.desc k).pageNo = (s.desc k).pageNo ∧
    (s1.desc k).dirty = (if d = true then true else (s.desc k).dirty) ∧
    (s1.desc k).pinCnt + 1 = (s.desc k).pinCnt := by
  by_cases hp : (s.desc k).pinCnt = 0
  · exfalso
    unfold BufMgr.unPinPage at h
    cases d <;> simp [hl, hp] at h
  · have heq : s1 = { s with
        bufDescTable :=
          s.bufDescTable.set k
            { s.desc k with
              dirty := if d = true then true else (s.desc k).dirty
              pinCnt := (s.desc k).pinCnt - 1 } } := by
      unfold BufMgr.unPinPage at h
      cases d <;> simp [hl, hp] at h <;> exact h.symm
    have hdesc : ∀ j, s1.desc j = if k = j ∧ k < s.numBufs
        then { s.desc k with
               dirty := if d = true then true else (s.desc k).dirty
               pinCnt := (s.desc k).pinCnt - 1 }
        else s.desc j := by
      intro j; rw [heq]; exact desc_of_set rfl j
    have hdk := hdesc k
    rw [if_pos (And.intro rfl hk)] at hdk
    refine ⟨by rw [heq], by rw [heq], by rw [heq], by rw [heq]; exact numBufs_set _ _ _, ?_,
      by rw [hdk], by rw [hdk], by rw [hdk], by rw [hdk], ?_⟩
    · intro j hj
      rw [hdesc j, if_neg (fun h => hj h.1.symm)]
    · rw [hdk]
      show (s.desc k).pinCnt - 1 + 1 = (s.desc k).pinCnt
      omega

/-- An `allocPage(F)` that returns page `p` in frame `k`: the frame caches
(F, p), clean and pinned once, and page `p` of `F` was not written. -/
theorem allocPage_ok_facts {seatRef : Bool} {s : BufMgr} {file : File} {p : PageId}
    {k : FrameId} {s1 : BufMgr} (w : s.WF)
    (h : s.allocPage seatRef file = some (.ok (p, k), s1)) :
    k < s1.numBufs ∧ s1.caches k file.filename p ∧ s1.hashTable.lookup file p = some k ∧
    (s1.desc k).dirty = false ∧ (s1.desc k).pinCnt = 1 ∧
    s1.writeCount file.filename p = s.writeCount file.filename p := by
  unfold BufMgr.allocPage at h
  simp only at h
  have w0 : ({ s with disk := (file.allocatePage s.disk).2 } : BufMgr).WF := by
    apply BufMgr.WF.disk_change w
    · rfl
    · rfl
    · rfl
    intro j hj fn q hc
    exact allocatePage_find_of_isSome file s.disk fn q (w.on_disk j hj fn q hc)
  cases ha : ({ s with disk := (file.allocatePage s.disk).2 } : BufMgr).allocBuf with
  | none => simp [ha] at h
  | some x =>
    obtain ⟨ra, s2⟩ := x
    simp only [ha] at h
    cases ra with
    | error e => simp at h
    | ok k2 =>
      simp only [Option.some.injEq, Prod.mk.injEq, Except.ok.injEq] at h
      obtain ⟨⟨hp, hk⟩, hs1⟩ := h
      subst hk
      obtain ⟨hlt, _, _⟩ := allocBuf_ok w0 ha
      have hdk : s1.desc k2 = (s2.desc k2).Set seatRef file p := by
        rw [← hs1, desc_of_set rfl k2, if_pos (And.intro rfl hlt), hp]
      have hpf : p = s.disk.freshPageNo file.filename := hp.symm
      refine ⟨?_, ?_, ?_, by rw [hdk]; rfl, by rw [hdk]; rfl, ?_⟩
      · rw [← hs1, numBufs_of_set (s := s2) rfl]; exact hlt
      · unfold BufMgr.caches
        rw [hdk]
        exact ⟨rfl, rfl, file, rfl, rfl⟩
      · rw [← hs1, ← hp]; exact lookup_insert_self _ _ _ _
      · have h12 : s1.writeCount file.filename p = s2.writeCount file.filename p := by
          rw [← hs1]; rfl
        have h0 : BufMgr.writeCount { s with disk := (file.allocatePage s.disk).2 }
            file.filename p = s.writeCount file.filename p := by
          unfold BufMgr.writeCount
          show ((file.allocatePage s.disk).2.log).countP _ = _
          rw [allocatePage_log]
          exact countP_append_other _ _ _ _ rfl
        rw [h12]
        rcases allocBuf_writeCount w0 ha file.filename p with
          ⟨_, k1, _, hk1, hc, _⟩ | ⟨hcnt, _, _⟩
        · exfalso
          have hon := w.on_disk k1 hk1 file.filename p hc
          rw [hpf, Disk.find_fresh] at hon
          exact Bool.noConfusion hon
        · rw [hcnt, h0]

/-- A `readPage(F, p)` that returns frame `k`, when the page is either not
cached beforehand or cached in a clean frame whose image is the stored one:
frame `k` is clean and its image is the stored image of the page. -/
theorem readPage_clean_facts {seatRef : Bool} {s : BufMgr} {file : File} {pageNo : PageId}
    {k : FrameId} {s1 : BufMgr} (w : s.WF)
    (hclean : ∀ i, s.caches i file.filename pageNo →
      (s.desc i).dirty = false ∧ s.disk.find file.filename pageNo = some (s.page i))
    (h : s.readPage seatRef file pageNo = some (.ok k, s1)) :
    (s1.desc k).dirty = false ∧ s1.disk.find file.filename pageNo = some (s1.page k) := by
  cases hl : s.hashTable.lookup file pageNo with
  | none =>
    obtain ⟨hd, _, hfind, _⟩ := readPage_miss_facts w hl h
    exact ⟨hd, hfind⟩
  | some k1 =>
    have h2 := h
    unfold BufMgr.readPage at h2
    simp only [hl, Option.some.injEq, Prod.mk.injEq, Except.ok.injEq] at h2
    obtain ⟨hk, hs1⟩ := h2
    subst hk
    obtain ⟨hlt, hc⟩ := w.frame_lt_of_lookup hl
    obtain ⟨hd, hfind⟩ := hclean k1 hc
    have hdk : s1.desc k1 = { s.desc k1 with refbit := true, pinCnt := (s.desc k1).pinCnt + 1 } := by
      rw [← hs1, desc_of_set rfl k1, if_pos (And.intro rfl hlt)]
    refine ⟨by rw [hdk]; exact hd, ?_⟩
    rw [← hs1]
    exact hfind

/-- A `flushFile(F)` that returns normally: what it writes for a page cached
for `F`, and that no page of `F` is cached afterwards. -/
theorem flushFile_ok_facts {s : BufMgr} {file : File} {s1 : BufMgr} (w : s.WF)
    (h : s.flushFile file = (.ok (), s1)) :
    s1.WF ∧ (∀ p, s1.hashTable.lookup file p = none) ∧
    (∀ k p, s.caches k file.filename p → (s.desc k).dirty = true →
      s1.writeCount file.filename p = s.writeCount file.filename p + 1) ∧
    (∀ k p, s.caches k file.filename p → (s.desc k).dirty = false →
      s1.writeCount file.filename p = s.writeCount file.filename p ∧
      s1.disk.find file.filename p = s.disk.find file.filename p) := by
  have w1 : s1.WF := by
    have := flushFile_wf w file
    rwa [h] at this
  have hf2 : BufMgr.flushFileLoop file (List.range s.numBufs) s = (.ok (), s1) := h
  obtain ⟨h1, _, _, h4, _, _, _⟩ :=
    flushFileLoop_spec file (List.range s.numBufs) s w (List.nodup_range _)
  rw [hf2] at h1 h4
  simp only at h1 h4
  refine ⟨w1, ?_, ?_, ?_⟩
  · intro p
    cases hl : s1.hashTable.lookup file p with
    | none => rfl
    | some k =>
      exfalso
      obtain ⟨hk, _, _, g, hg, hgn⟩ := w1.frame_lt_of_lookup hl
      rw [h1.2.2] at hk
      exact h4 trivial k (List.mem_range.2 hk) ⟨g, hg, hgn⟩
  · intro k p hc hd
    have := (flushFileLoop_writes file (List.range s.numBufs) s w (List.nodup_range _)
      file.filename p).2
    rw [hf2] at this
    exact this rfl ⟨k, List.mem_range.2 (caches_lt hc), hc, rfl, hd⟩
  · intro k p hc hd
    have := (flushFileLoop_writes file (List.range s.numBufs) s w (List.nodup_range _)
      file.filename p).1
    rw [hf2] at this
    apply this
    rintro ⟨k1, _, hc1, _, hd1⟩
    have hkk := w.caches_unique (caches_lt hc1) (caches_lt hc) hc1 hc
    rw [hkk, hd] at hd1
    exact Bool.noConfusion hd1

/-- A `readPage` after which a page that was cached dirty and unpinned is no
longer in the hash index has evicted that page, and wrote it exactly once. -/
theorem readPage_evict_count {seatRef : Bool} {s : BufMgr} {file g : File} {q p : PageId}
    {k k2 : FrameId} {s1 : BufMgr} (w : s.WF) (hc : s.caches k g.filename p)
    (hd : (s.desc k).dirty = true)
    (h : s.readPage seatRef file q = some (.ok k2, s1))
    (hgone : s1.hashTable.lookup g p = none) :
    s1.writeCount g.filename p = s.writeCount g.filename p + 1 := by
  have hk := caches_lt hc
  have w1 := readPage_wf w h
  cases hl : s.hashTable.lookup file q with
  | some k1 =>
    exfalso
    have h2 := h
    unfold BufMgr.readPage at h2
    simp only [hl, Option.some.injEq, Prod.mk.injEq, Except.ok.injEq] at h2
    have hht : s1.hashTable = s.hashTable := by rw [← h2.2]
    rw [hht, w.lookup_of_caches hk hc] at hgone
    exact Option.noConfusion hgone
  | none =>
    obtain ⟨s2, _, ha, _, _, hs1⟩ := readPage_miss_ok hl h
    have h12 : s1.writeCount g.filename p = s2.writeCount g.filename p := by
      apply writeCount_read (m := file.filename) (q := q)
      rw [hs1]
    rw [h12]
    rcases allocBuf_writeCount w ha g.filename p with ⟨hcnt, _⟩ | ⟨_, _, hclean⟩
    · exact hcnt
    · exfalso
      have hk2 : k2 ≠ k := by
        intro hkk
        have := hclean k2 rfl (hkk ▸ hc)
        rw [hkk, hd] at this
        exact Bool.noConfusion this
      have hd2 := allocBuf_other w ha k (fun k3 hk3 => by cases hk3; exact hk2)
      have hd1 : s1.desc k = s2.desc k := by
        rw [hs1, desc_of_set rfl k, if_neg (fun h => hk2 h.1)]
      have hc1 : s1.caches k g.filename p := by
        unfold BufMgr.caches at hc ⊢
        rw [hd1, hd2]
        exact hc
      rw [w1.lookup_of_caches (caches_lt hc1) hc1] at hgone
      exact Option.noConfusion hgone

/-- C8: a cached, unpinned page is written back exactly once when it leaves the
pool by `flushFile` or by clock eviction if its frame is dirty, and not at all if
its frame is clean.  For every well-formed state `s`:
* a `flushFile(F)` that returns normally adds one `writePage` of a page cached
  for `F` if its frame is dirty and none if it is clean;
* a sweep that returns frame `k` adds one `writePage` of the page frame `k`
  cached if the frame was dirty and none if it was clean;
* `readPage(F,p)`; modify; `unPinPage(F,p,true)`; `flushFile(F)` adds exactly one
  `writePage` of `p`;
* `allocPage(F)` giving `p`; `unPinPage(F,p,true)`; a `readPage(F,q)` after which
  `p` is no longer cached adds exactly one `writePage` of `p`;
* `readPage(F,p)`; `unPinPage(F,p,false)`; `flushFile(F)`; `readPage(F,p)`, for a
  page that is not cached beforehand or is cached in a clean frame (dirty flag
  clear, image equal to the stored one), adds no `writePage` of `p` and returns
  the same page image.
Each scenario is a run in which every call returns normally. -/
theorem C8_dirty_page_written_once (seatRef : Bool) (s : BufMgr) (w : s.WF) :
    (∀ file s1 k p, s.flushFile file = (.ok (), s1) → s.caches k file.filename p →
      s1.writeCount file.filename p
        = s.writeCount file.filename p + (if (s.desc k).dirty = true then 1 else 0)) ∧
    (∀ k s2 n p, s.allocBuf = some (.ok k, s2) → s.caches k n p →
      s2.writeCount n p = s.writeCount n p + (if (s.desc k).dirty = true then 1 else 0)) ∧
    (∀ file p k s1 records s3 s4, s.readPage seatRef file p = some (.ok k, s1) →
      (s1.modifyPage k records).unPinPage file p true = (.ok (), s3) →
      s3.flushFile file = (.ok (), s4) →
      s4.writeCount file.filename p = s.writeCount file.filename p + 1) ∧
    (∀ file p k s1 s2 q k2 s3, s.allocPage seatRef file = some (.ok (p, k), s1) →
      s1.unPinPage file p true = (.ok (), s2) →
      s2.readPage seatRef file q = some (.ok k2, s3) →
      s3.hashTable.lookup file p = none →
      s3.writeCount file.filename p = s.writeCount file.filename p + 1) ∧
    (∀ file p k s1 s2 s3 k2 s4,
      (∀ i, s.caches i file.filename p →
        (s.desc i).dirty = false ∧ s.disk.find file.filename p = some (s.page i)) →
      s.readPage seatRef file p = some (.ok k, s1) →
      s1.unPinPage file p false = (.ok (), s2) →
      s2.flushFile file = (.ok (), s3) →
      s3.readPage seatRef file p = some (.ok k2, s4) →
      s4.writeCount file.filename p = s.writeCount file.filename p ∧
      s4.page k2 = s1.page k) := by
  refine ⟨?_, ?_, ?_, ?_, ?_⟩
  · -- flushFile
    intro file s1 k p hf hc
    obtain ⟨_, _, hdirty, hclean⟩ := flushFile_ok_facts w hf
    cases hd : (s.desc k).dirty with
    | true => simpa using hdirty k p hc hd
    | false => simpa using (hclean k p hc hd).1
  · -- eviction
    intro k s2 n p ha hc
    rcases allocBuf_writeCount w ha n p with ⟨hcnt, k1, hk1, _, _, hd⟩ | ⟨hcnt, _, hclean⟩
    · cases hk1
      rw [hcnt, hd]; rfl
    · rw [hcnt, hclean k rfl hc]; rfl
  · -- read, modify, unpin dirty, flush
    intro file p k s1 records s3 s4 h1 h2 h3
    obtain ⟨hk1, hc1, hl1, _, hcnt1⟩ := readPage_ok_facts w h1
    have w1 := readPage_wf w h1
    have wm := w1.modifyPage k records
    have hlm : (s1.modifyPage k records).hashTable.lookup file p = some k := hl1
    obtain ⟨hdisk, _, _, _, _, hv, hfl, hpn, hd, _⟩ := unPinPage_ok h2 hlm hk1
    have w3 : s3.WF := by
      have := unPinPage_wf wm file p true
      rwa [h2] at this
    have hc3 : s3.caches k file.filename p := by
      unfold BufMgr.caches at hc1 ⊢
      rw [hv, hpn, hfl]
      exact hc1
    obtain ⟨_, _, hdirty, _⟩ := flushFile_ok_facts w3 h3
    rw [hdirty k p hc3 (by rw [hd]; rfl)]
    have h3m : s3.writeCount file.filename p = s1.writeCount file.filename p :=
      writeCount_of_log (by rw [hdisk]; rfl) _ _
    rw [h3m, hcnt1]
  · -- alloc, unpin dirty, read that evicts
    intro file p k s1 s2 q k2 s3 h1 h2 h3 hgone
    obtain ⟨hk1, hc1, hl1, _, _, hcnt1⟩ := allocPage_ok_facts w h1
    have w1 := allocPage_wf w h1
    obtain ⟨hdisk, _, _, _, _, hv, hfl, hpn, hd, _⟩ := unPinPage_ok h2 hl1 hk1
    have w2 : s2.WF := by
      have := unPinPage_wf w1 file p true
      rwa [h2] at this
    have hc2 : s2.caches k file.filename p := by
      unfold BufMgr.caches at hc1 ⊢
      rw [hv, hpn, hfl]
      exact hc1
    rw [readPage_evict_count w2 hc2 (by rw [hd]; rfl) h3 hgone]
    have h21 : s2.writeCount file.filename p = s1.writeCount file.filename p :=
      writeCount_of_log (by rw [hdisk]) _ _
    rw [h21, hcnt1]
  · -- read, unpin clean, flush, read again
    intro file p k s1 s2 s3 k2 s4 hcl h1 h2 h3 h4
    obtain ⟨hk1, hc1, hl1, _, hcnt1⟩ := readPage_ok_facts w h1
    obtain ⟨hd1, hfind1⟩ := readPage_clean_facts w hcl h1
    have w1 := readPage_wf w h1
    obtain ⟨hdisk, _, _, _, _, hv, hfl, hpn, hd, _⟩ := unPinPage_ok h2 hl1 hk1
    have w2 : s2.WF := by
      have := unPinPage_wf w1 file p false
      rwa [h2] at this
    have hc2 : s2.caches k file.filename p := by
      unfold BufMgr.caches at hc1 ⊢
      rw [hv, hpn, hfl]
      exact hc1
    have hd2 : (s2.desc k).dirty = false := by
      rw [hd]; simpa using hd1
    obtain ⟨w3, hnone, _, hclean⟩ := flushFile_ok_facts w2 h3
    obtain ⟨hcnt3, hfind3⟩ := hclean k p hc2 hd2
    obtain ⟨_, _, _, _, hcnt4⟩ := readPage_ok_facts w3 h4
    obtain ⟨_, _, hfind4, s5, ha, hfind45⟩ := readPage_miss_facts w3 (hnone p) h4
    have hfind5 : s5.disk.find file.filename p = s3.disk.find file.filename p := by
      rcases allocBuf_writeCount w3 ha file.filename p with ⟨_, k1, _, _, hc, _⟩ | ⟨_, hf, _⟩
      · exact absurd hc (not_caches_of_lookup_none w3 (hnone p) k1)
      · exact hf
    have h21 : s2.writeCount file.filename p = s1.writeCount file.filename p :=
      writeCount_of_log (by rw [hdisk]) _ _
    constructor
    · rw [hcnt4, hcnt3, h21, hcnt1]
    · have : some (s4.page k2) = some (s1.page k) := by
        rw [← hfind4, hfind45, hfind5, hfind3, hdisk, hfind1]
      exact Option.some.inj this

/-- Witness for C8 on a pool of one frame over `exDisk`: page 1 read, modified,
unpinned dirty and flushed is written once; the page `allocPage` hands out (page
5), unpinned dirty and evicted by `readPage(1)`, is written once; page 1 read,
unpinned clean, flushed and read again is not written and has the same image. -/
theorem C8_witness :
    (BufMgr.new 1 exDisk).WF ∧
    (∃ s1 s3 s4, (BufMgr.new 1 exDisk).readPage true exFile 1 = some (.ok 0, s1) ∧
      (s1.modifyPage 0 ["x"]).unPinPage exFile 1 true = (.ok (), s3) ∧
      s3.flushFile exFile = (.ok (), s4) ∧
      s4.writeCount exFile.filename 1 = (BufMgr.new 1 exDisk).writeCount exFile.filename 1 + 1) ∧
    (∃ s1 s2 s3, (BufMgr.new 1 exDisk).allocPage true exFile = some (.ok (5, 0), s1) ∧
      s1.unPinPage exFile 5 true = (.ok (), s2) ∧
      s2.readPage true exFile 1 = some (.ok 0, s3) ∧
      s3.hashTable.lookup exFile 5 = none ∧
      s3.writeCount exFile.filename 5 = (BufMgr.new 1 exDisk).writeCount exFile.filename 5 + 1) ∧
    (∃ s1 s2 s3 s4,
      (∀ i, (BufMgr.new 1 exDisk).caches i exFile.filename 1 →
        ((BufMgr.new 1 exDisk).desc i).dirty = false ∧
        (BufMgr.new 1 exDisk).disk.find exFile.filename 1
          = some ((BufMgr.new 1 exDisk).page i)) ∧
      (BufMgr.new 1 exDisk).readPage true exFile 1 = some (.ok 0, s1) ∧
      s1.unPinPage exFile 1 false = (.ok (), s2) ∧
      s2.flushFile exFile = (.ok (), s3) ∧
      s3.readPage true exFile 1 = some (.ok 0, s4) ∧
      s4.writeCount exFile.filename 1 = (BufMgr.new 1 exDisk).writeCount exFile.filename 1 ∧
      s4.page 0 = s1.page 0) :=
  ⟨new_wf 1 exDisk (by norm_num),
   ⟨_, _, _, rfl, rfl, rfl,
     (C8_dirty_page_written_once true (BufMgr.new 1 exDisk) (new_wf 1 exDisk (by norm_num))).2.2.1
       exFile 1 0 _ ["x"] _ _ rfl rfl rfl⟩,
   ⟨_, _, _, rfl, rfl, rfl, rfl,
     (C8_dirty_page_written_once true (BufMgr.new 1 exDisk)
       (new_wf 1 exDisk (by norm_num))).2.2.2.1 exFile 5 0 _ _ 1 0 _ rfl rfl rfl rfl⟩,
   ⟨_, _, _, _, fun i hc => absurd hc (not_caches_of_lookup_none
       (new_wf 1 exDisk (by norm_num)) (f := exFile) rfl i), rfl, rfl, rfl, rfl,
     (C8_dirty_page_written_once true (BufMgr.new 1 exDisk)
       (new_wf 1 exDisk (by norm_num))).2.2.2.2 exFile 1 0 _ _ _ 0 _
       (fun i hc => absurd hc (not_caches_of_lookup_none
         (new_wf 1 exDisk (by norm_num)) (f := exFile) rfl i)) rfl rfl rfl rfl⟩⟩

/-! ## Failures that cannot happen in well-formed states -/

/-- A sweep in a well-formed state fails, if at all, with `BufferExceeded`. -/
theorem allocBuf_error {s : BufMgr} {e : Exn} {s2 : BufMgr} (w : s.WF)
    (h : s.allocBuf = some (.error e, s2)) : e = Exn.BufferExceeded := by
  obtain ⟨sm, _, hcases⟩ := allocBuf_post w h
  rcases hcases with ⟨hr, _⟩ | ⟨k, _, _, hr, _⟩ | ⟨k, f, _, _, _, _, hr, _⟩
  · cases hr; rfl
  · cases hr
  · cases hr

/-- A `readPage` in a well-formed state fails, if at all, with `BufferExceeded`
from the sweep or with the `InvalidPage` of the file. -/
theorem readPage_error {seatRef : Bool} {s : BufMgr} {file : File} {pageNo : PageId} {e : Exn}
    {s1 : BufMgr} (w : s.WF) (h : s.readPage seatRef file pageNo = some (.error e, s1)) :
    e = Exn.BufferExceeded ∨ e = Exn.InvalidPage pageNo file.filename := by
  unfold BufMgr.readPage at h
  cases hl : s.hashTable.lookup file pageNo with
  | some k => simp [hl] at h
  | none =>
    simp only [hl] at h
    cases ha : s.allocBuf with
    | none => simp [ha] at h
    | some x =>
      obtain ⟨ra, s2⟩ := x
      simp only [ha] at h
      cases ra with
      | error e2 =>
        simp only [Option.some.injEq, Prod.mk.injEq, Except.error.injEq] at h
        left
        rw [← h.1]
        exact allocBuf_error w ha
      | ok k =>
        simp only at h
        right
        unfold File.readPage at h
        cases hf : s2.disk.find file.filename pageNo with
        | none =>
          simp only [hf, Option.some.injEq, Prod.mk.injEq, Except.error.injEq] at h
          exact h.1.symm
        | some g => simp [hf] at h

theorem unPinPage_error {s : BufMgr} {file : File} {pageNo : PageId} {d : Bool} {e : Exn}
    (h : (s.unPinPage file pageNo d).1 = .error e) :
    ∃ k, e = Exn.PageNotPinned file.filename pageNo k := by
  unfold BufMgr.unPinPage at h
  cases hl : s.hashTable.lookup file pageNo with
  | none => simp [hl] at h
  | some k =>
    simp only [hl] at h
    cases d <;> simp only [Bool.false_eq_true, if_false, if_true] at h <;> split at h <;>
      first | exact ⟨k, (Except.error.inj h).symm⟩ | cases h

theorem deletePage_error {file : File} {pageNo : PageId} {d : Disk} {e : Exn}
    (h : (file.deletePage pageNo d).1 = .error e) : e = Exn.InvalidPage pageNo file.filename := by
  unfold File.deletePage at h
  cases hf : d.find file.filename pageNo with
  | none =>
    simp only [hf, Except.error.injEq] at h
    exact h.symm
  | some g => simp [hf] at h

theorem disposePage_error {s : BufMgr} {file : File} {pageNo : PageId} {e : Exn}
    (h : (s.disposePage file pageNo).1 = .error e) :
    e = Exn.InvalidPage pageNo file.filename := by
  unfold BufMgr.disposePage at h
  simp only at h
  split at h
  · cases h
  · exact deletePage_error h

/-- C11: in every reachable state `readPage`, `unPinPage` and `disposePage`
never fail with `HashNotFound`: the not-found signal of the hash index (from
`lookup`, and from the `remove` inside the sweep that `readPage` runs on a miss)
does not reach the caller.  `readPage` fails only with `BufferExceeded` or the
file's `InvalidPage`, `unPinPage` only with `PageNotPinned`, `disposePage` only
with the file's `InvalidPage`; and `readPage` does return. -/
theorem C11_hashNotFound_never_escapes (seatRef : Bool) (s : BufMgr)
    (h : Reachable seatRef s) (file : File) (pageNo : PageId) :
    (∃ r s1, s.readPage seatRef file pageNo = some (r, s1) ∧
      ∀ e, r = .error e → (e = Exn.BufferExceeded ∨ e = Exn.InvalidPage pageNo file.filename) ∧
        ∀ n q, e ≠ Exn.HashNotFound n q) ∧
    (∀ d e, (s.unPinPage file pageNo d).1 = .error e →
      (∃ k, e = Exn.PageNotPinned file.filename pageNo k) ∧ ∀ n q, e ≠ Exn.HashNotFound n q) ∧
    (∀ e, (s.disposePage file pageNo).1 = .error e →
      e = Exn.InvalidPage pageNo file.filename ∧ ∀ n q, e ≠ Exn.HashNotFound n q) := by
  have w := h.well_formed
  refine ⟨?_, ?_, ?_⟩
  · have hsome := readPage_isSome seatRef s file pageNo
    cases hr : s.readPage seatRef file pageNo with
    | none => rw [hr] at hsome; exact Bool.noConfusion hsome
    | some x =>
      obtain ⟨r, s1⟩ := x
      refine ⟨r, s1, rfl, ?_⟩
      intro e he
      subst he
      have := readPage_error w hr
      refine ⟨this, ?_⟩
      intro n q hq
      rcases this with h1 | h1 <;> rw [h1] at hq <;> cases hq
  · intro d e he
    obtain ⟨k, hk⟩ := unPinPage_error he
    refine ⟨⟨k, hk⟩, ?_⟩
    intro n q hq
    rw [hk] at hq
    cases hq
  · intro e he
    have := disposePage_error he
    refine ⟨this, ?_⟩
    intro n q hq
    rw [this] at hq
    cases hq

/-- Witness for C11: the reachable pool `exTwoFrames` and page 4 of `r.tbl`. -/
theorem C11_witness :
    Reachable true exTwoFrames ∧
    ((∃ r s1, exTwoFrames.readPage true exFile 4 = some (r, s1) ∧
      ∀ e, r = .error e → (e = Exn.BufferExceeded ∨ e = Exn.InvalidPage 4 exFile.filename) ∧
        ∀ n q, e ≠ Exn.HashNotFound n q) ∧
    (∀ d e, (exTwoFrames.unPinPage exFile 4 d).1 = .error e →
      (∃ k, e = Exn.PageNotPinned exFile.filename 4 k) ∧ ∀ n q, e ≠ Exn.HashNotFound n q) ∧
    (∀ e, (exTwoFrames.disposePage exFile 4).1 = .error e →
      e = Exn.InvalidPage 4 exFile.filename ∧ ∀ n q, e ≠ Exn.HashNotFound n q)) :=
  ⟨exTwoFrames_reachable true,
    C11_hashNotFound_never_escapes true exTwoFrames (exTwoFrames_reachable true) exFile 4⟩

/-- C12: in every reachable state `flushFile` never fails with `BadBuffer`: a
frame that is owned by a file with the flushed file's filename (file pointer
not null, filename equal) is valid, so line 177 of `flushFile` is never
taken. -/
theorem C12_flushFile_never_badBuffer (seatRef : Bool) (s : BufMgr) (h : Reachable seatRef s)
    (file : File) :
    (∀ k d v r, (s.flushFile file).1 ≠ .error (Exn.BadBuffer k d v r)) ∧
    (∀ i, s.ownedBy i file.filename → (s.desc i).valid = true) := by
  have w := h.well_formed
  refine ⟨?_, fun i hi => w.valid_of_ownedBy hi⟩
  intro k d v r he
  obtain ⟨_, _, _, _, h5, _, _⟩ :=
    flushFileLoop_spec file (List.range s.numBufs) s w (List.nodup_range _)
  obtain ⟨j, _, _, _, hje⟩ := h5 _ he
  cases hje

/-- Witness for C12: the reachable pool `exOneRead`, whose frame 0 is owned by
`r.tbl`. -/
theorem C12_witness :
    Reachable true (exOneRead true) ∧
    ((∀ k d v r, ((exOneRead true).flushFile exFile).1 ≠ .error (Exn.BadBuffer k d v r)) ∧
     (∀ i, (exOneRead true).ownedBy i exFile.filename → ((exOneRead true).desc i).valid = true)) :=
  ⟨exOneRead_reachable true,
    C12_flushFile_never_badBuffer true (exOneRead true) (exOneRead_reachable true) exFile⟩

/-! ## Disposing a cached page; flushing a file no frame belongs to -/

theorem deletePage_fst_of_isSome (f : File) (p : PageId) (d : Disk)
    (h : (d.find f.filename p).isSome = true) : (f.deletePage p d).1 = .ok () := by
  unfold File.deletePage
  cases hf : d.find f.filename p with
  | none => rw [hf] at h; exact Bool.noConfusion h
  | some g => rfl

/-- The state and result of `disposePage` for a page cached in a frame that is
not the sentinel `numBufs + 1`. -/
theorem disposePage_cached {s : BufMgr} {file : File} {p : PageId} {k : FrameId}
    (hl : s.hashTable.lookup file p = some k) (hne : k ≠ (s.numBufs + 1) % 2 ^ 32) :
    s.disposePage file p =
      ((file.deletePage p s.disk).1,
       { s with
         bufDescTable := s.bufDescTable.set k (s.desc k).Clear
         hashTable := s.hashTable.eraseP (fun b => b.matches file p)
         disk := (file.deletePage p s.disk).2 }) := by
  unfold BufMgr.disposePage
  simp only [hl, if_neg hne, remove_eq_some_of_lookup hl]

theorem flushFileLoop_none_owned (file : File) : ∀ (l : List Nat) (s : BufMgr),
    (∀ i ∈ l, ¬ s.ownedBy i file.filename) → BufMgr.flushFileLoop file l s = (.ok (), s) := by
  intro l
  induction l with
  | nil => intro s _; rfl
  | cons i rest ih =>
    intro s h
    unfold BufMgr.flushFileLoop
    rw [flushFrame_skip (h i (List.mem_cons_self _ _))]
    exact ih s (fun j hj => h j (List.mem_cons_of_mem _ hj))

/-- After a `flushFile` that returned normally no frame is owned by a file with
the flushed filename. -/
theorem flushFile_none_owned {s : BufMgr} {file : File} {s1 : BufMgr} (w : s.WF)
    (h : s.flushFile file = (.ok (), s1)) (i : FrameId) : ¬ s1.ownedBy i file.filename := by
  have hf2 : BufMgr.flushFileLoop file (List.range s.numBufs) s = (.ok (), s1) := h
  obtain ⟨h1, _, _, h4, _, _, _⟩ :=
    flushFileLoop_spec file (List.range s.numBufs) s w (List.nodup_range _)
  rw [hf2] at h1 h4
  intro ho
  have hlt : i < s.numBufs := by
    have := ownedBy_lt ho
    rw [h1.2.2] at this
    exact this
  exact h4 rfl i (List.mem_range.mpr hlt) ho

/-- C13: in a reachable pool of fewer than `2^32 - 1` frames (so that the
sentinel `numBufs + 1` of `disposePage` does not wrap to a frame number), when
`allocPage(F)` returns page number `p`, a following `disposePage(F, p)` returns
normally, leaves no hash-index entry for `(F, p)` and no valid frame caching
`(F, p)`, and asks the file to delete page `p` (the last entry of the file log
is that `deletePage`). -/
theorem C13_alloc_then_dispose (seatRef : Bool) (s : BufMgr) (h : Reachable seatRef s)
    (file : File) (p : PageId) (k : FrameId) (s1 : BufMgr)
    (ha : s.allocPage seatRef file = some (.ok (p, k), s1))
    (hN : s1.numBufs + 1 < 2 ^ 32) :
    (s1.disposePage file p).1 = .ok () ∧
    (s1.disposePage file p).2.hashTable.lookup file p = none ∧
    (∀ b ∈ (s1.disposePage file p).2.hashTable, b.matches file p = false) ∧
    (∀ i, ¬ (s1.disposePage file p).2.caches i file.filename p) ∧
    (s1.disposePage file p).2.disk.log = s1.disk.log ++ [IOEvent.delete file.filename p] := by
  have w := h.well_formed
  have w1 : s1.WF := allocPage_wf w ha
  obtain ⟨hk, hc, hl, _, _, _⟩ := allocPage_ok_facts w ha
  have hne : k ≠ (s1.numBufs + 1) % 2 ^ 32 := by
    rw [Nat.mod_eq_of_lt hN]
    intro he
    rw [he] at hk
    exact absurd hk (Nat.not_lt.mpr (Nat.le_succ _))
  have w2 : (s1.disposePage file p).2.WF := disposePage_wf w1 file p
  have hnone : (s1.disposePage file p).2.hashTable.lookup file p = none := by
    rw [disposePage_cached hl hne]
    exact lookup_none_of_forall (fun b hb => not_key_of_mem_erase w1.hash_nodup hb)
  refine ⟨?_, hnone, ?_, not_caches_of_lookup_none w2 hnone, ?_⟩
  · rw [disposePage_cached hl hne]
    exact deletePage_fst_of_isSome file p s1.disk (w1.on_disk k hk file.filename p hc)
  · intro b hb
    cases hm : b.matches file p with
    | false => rfl
    | true => exact absurd ((hashBucket.matches_iff b file p).mp hm) (lookup_eq_none hnone b hb)
  · rw [disposePage_cached hl hne]
    exact deletePage_log file p s1.disk

/-- Witness for C13: a fresh page of `r.tbl` in the pool `exOneRead true`. -/
theorem C13_witness :
    Reachable true (exOneRead true) ∧
    (exOneRead true).allocPage true exFile = some (.ok (5, 1), exAllocated) ∧
    exAllocated.numBufs + 1 < 2 ^ 32 ∧
    ((exAllocated.disposePage exFile 5).1 = .ok () ∧
    (exAllocated.disposePage exFile 5).2.hashTable.lookup exFile 5 = none ∧
    (∀ b ∈ (exAllocated.disposePage exFile 5).2.hashTable, b.matches exFile 5 = false) ∧
    (∀ i, ¬ (exAllocated.disposePage exFile 5).2.caches i exFile.filename 5) ∧
    (exAllocated.disposePage exFile 5).2.disk.log
      = exAllocated.disk.log ++ [IOEvent.delete exFile.filename 5]) :=
  ⟨exOneRead_reachable true, rfl, by decide,
    C13_alloc_then_dispose true (exOneRead true) (exOneRead_reachable true) exFile 5 1
      exAllocated rfl (by decide)⟩

/-- C14: `flushFile` is idempotent.  In any pool state `t` in which no frame is
owned by a file with `F`'s filename, `flushFile(F)` returns normally and leaves
every part of the state, the file log included, as it was, so nothing is
written.  Consequently, in a reachable state `s`, after a `flushFile(F)` that
returned normally a second `flushFile(F)` returns normally, changes nothing and
performs no `writePage`. -/
theorem C14_flushFile_idempotent (seatRef : Bool) (s : BufMgr) (h : Reachable seatRef s)
    (file : File) :
    (∀ t : BufMgr, (∀ i, ¬ t.ownedBy i file.filename) → t.flushFile file = (.ok (), t)) ∧
    (∀ s1, s.flushFile file = (.ok (), s1) →
      s1.flushFile file = (.ok (), s1) ∧
      (s1.flushFile file).2.disk.log = s1.disk.log ∧
      ∀ n q, (s1.flushFile file).2.writeCount n q = s1.writeCount n q) := by
  have key : ∀ t : BufMgr, (∀ i, ¬ t.ownedBy i file.filename) →
      t.flushFile file = (.ok (), t) :=
    fun t ht => flushFileLoop_none_owned file _ t (fun i _ => ht i)
  refine ⟨key, ?_⟩
  intro s1 h1
  have h2 := key s1 (flushFile_none_owned h.well_formed h1)
  rw [h2]
  exact ⟨rfl, rfl, fun _ _ => rfl⟩

/-- Witness for C14: the pool `exDirty`, whose dirty page 1 of `r.tbl` the
first flush writes. -/
theorem C14_witness :
    Reachable true (exDirty true) ∧
    ((∀ t : BufMgr, (∀ i, ¬ t.ownedBy i exFile.filename) → t.flushFile exFile = (.ok (), t)) ∧
    (∀ s1, (exDirty true).flushFile exFile = (.ok (), s1) →
      s1.flushFile exFile = (.ok (), s1) ∧
      (s1.flushFile exFile).2.disk.log = s1.disk.log ∧
      ∀ n q, (s1.flushFile exFile).2.writeCount n q = s1.writeCount n q)) :=
  ⟨exDirty_reachable true,
    C14_flushFile_idempotent true (exDirty true) (exDirty_reachable true) exFile⟩

/-! ## The scenario "fill and evict" -/

theorem find_with_log (d : Disk) (l : List IOEvent) (fn : String) (p : PageId) :
    Disk.find { stored := d.stored, log := l } fn p = d.find fn p := rfl

/-- C15: on a fresh pool of 3 frames (clock hand initially 2) over a disk on
which file `F` has the pages 10 to 13, the calls read(F,10), unpin(F,10,false),
read(F,11), unpin(F,11,false), read(F,12), unpin(F,12,false), read(F,13) all
return normally, and afterwards page 10 is the one page that has been evicted
(no hash entry and no frame for it), frame 0 caches page 13 and holds its
stored image, and pages 11 and 12 remain in frames 1 and 2.  This holds for
both values of the reference bit that seating a page may leave. -/
theorem C15_fill_and_evict (seatRef : Bool) (disk : Disk) (F : File)
    (h : ∀ p ∈ [10, 11, 12, 13], (disk.find F.filename p).isSome = true) :
    (BufMgr.new 3 disk).numBufs = 3 ∧ (BufMgr.new 3 disk).clockHand = 2 ∧
    ∃ s7, (BufMgr.new 3 disk).run seatRef (fillAndEvict F) = some s7 ∧
      s7.hashTable.lookup F 10 = none ∧ (∀ i, ¬ s7.caches i F.filename 10) ∧
      s7.caches 0 F.filename 13 ∧ s7.caches 1 F.filename 11 ∧ s7.caches 2 F.filename 12 ∧
      s7.hashTable.lookup F 13 = some 0 ∧ s7.hashTable.lookup F 11 = some 1 ∧
      s7.hashTable.lookup F 12 = some 2 ∧
      some (s7.page 0) = disk.find F.filename 13 := by
  obtain ⟨g10, h10⟩ := Option.isSome_iff_exists.mp (h 10 (by decide))
  obtain ⟨g11, h11⟩ := Option.isSome_iff_exists.mp (h 11 (by decide))
  obtain ⟨g12, h12⟩ := Option.isSome_iff_exists.mp (h 12 (by decide))
  obtain ⟨g13, h13⟩ := Option.isSome_iff_exists.mp (h 13 (by decide))
  refine ⟨rfl, rfl, ?_⟩
  cases seatRef <;>
  simp [fillAndEvict, BufMgr.run, BufMgr.call, BufMgr.new, BufMgr.readPage, BufMgr.unPinPage,
    BufMgr.allocBuf, BufMgr.allocBufLoop, BufMgr.advanceClock, BufMgr.evict, BufMgr.desc,
    BufMgr.page, BufMgr.caches,
    BufMgr.numBufs, BufHashTbl.lookup, BufHashTbl.insert, BufHashTbl.remove, hashBucket.matches,
    BufDesc.init, BufDesc.Set, BufDesc.Clear, File.readPage, find_with_log, h10, h11, h12, h13,
    List.range, List.range.loop] <;>
  rintro (_ | _ | _ | i) <;> simp

/-- Witness for C15: the file `r.tbl` on the disk `exDiskS1`. -/
theorem C15_witness :
    (∀ p ∈ [10, 11, 12, 13], (exDiskS1.find exFile.filename p).isSome = true) ∧
    ∃ s7, (BufMgr.new 3 exDiskS1).run true (fillAndEvict exFile) = some s7 ∧
      s7.hashTable.lookup exFile 10 = none ∧ s7.caches 0 exFile.filename 13 :=
  ⟨by decide,
    have h := (C15_fill_and_evict true exDiskS1 exFile (by decide)).2.2
    h.elim (fun s7 h7 => ⟨s7, h7.1, h7.2.1, h7.2.2.2.1⟩)⟩

/-! ## The result schema -/

/-- A loop that pushes one element per index. -/
theorem foldl_push {ι α : Type} (f : ι → α) : ∀ (l : List ι) (init : List α),
    l.foldl (fun acc i => acc ++ [f i]) init = init ++ l.map f := by
  intro l
  induction l with
  | nil => intro init; simp
  | cons i rest ih => intro init; simp [ih]

/-- A loop that pushes one element per index unless `c` holds (`continue`). -/
theorem foldl_push_unless {ι α : Type} (c : ι → Bool) (f : ι → α) :
    ∀ (l : List ι) (init : List α),
    l.foldl (fun acc i => if c i = true then acc else acc ++ [f i]) init
      = init ++ (l.filter (fun i => !c i)).map f := by
  intro l
  induction l with
  | nil => intro init; simp
  | cons i rest ih =>
    intro init
    cases hc : c i <;> simp [ih, hc]

theorem map_getD_range {α : Type} (l : List α) (d : α) :
    (List.range l.length).map (fun i => l.getD i d) = l := by
  apply List.ext_getElem
  · simp
  · intro n h1 h2
    simp [List.getD_eq_getElem?_getD, List.getElem?_eq_getElem h2]

theorem Attribute.eta (a : Attribute) :
    ({ attrName := a.attrName, attrType := a.attrType, maxSize := a.maxSize,
       isNotNull := a.isNotNull, isUnique := a.isUnique } : Attribute) = a := rfl

/-- The attribute list `createResultTableSchema` builds. -/
theorem createResultTableSchema_attrs (L R : TableSchema) :
    (JoinOperator.createResultTableSchema L R).attrs
      = L.attrs ++ R.attrs.filter (fun a => !L.hasAttr a.attrName) := by
  unfold JoinOperator.createResultTableSchema
  simp only [TableSchema.getAttrCount, TableSchema.getAttrName, TableSchema.getAttrType,
    TableSchema.getAttrMaxSize, TableSchema.isAttrNotNull, TableSchema.isAttrUnique,
    Attribute.eta]
  rw [foldl_push (fun i => L.attrs.getD i Attribute.outOfRange), List.nil_append,
    map_getD_range,
    foldl_push_unless (fun i => L.hasAttr (R.attrs.getD i Attribute.outOfRange).attrName)
      (fun i => R.attrs.getD i Attribute.outOfRange)]
  congr 1
  have := List.filter_map (f := fun i => R.attrs.getD i Attribute.outOfRange)
    (p := fun a => !L.hasAttr a.attrName) (l := List.range R.attrs.length)
  rw [map_getD_range] at this
  rw [this]
  rfl

/-- C20: for all schemas `L` and `R`, `createResultTableSchema(L, R)` is the
temporary schema named "TEMP_TABLE" whose attributes are those of `L` in order
followed, in order, by the attributes of `R` whose name is the name of no
attribute of `L`, every attribute unchanged (name, type, max size, not-null
and unique flags).  For the driver's schemas `r(a CHAR(8) NOT NULL UNIQUE,
b INT)` and `s(b INT UNIQUE NOT NULL, c VARCHAR(8))` the result is `(a, b, c)`
where `b` is the attribute of `r` (INT, not unique, nullable). -/
theorem C20_createResultTableSchema (L R : TableSchema) :
    JoinOperator.createResultTableSchema L R
      = { tableName := "TEMP_TABLE"
          attrs := L.attrs ++ R.attrs.filter (fun a => !L.hasAttr a.attrName)
          isTemp := true } ∧
    (∀ a, a ∈ (JoinOperator.createResultTableSchema L R).attrs ↔
      a ∈ L.attrs ∨ (a ∈ R.attrs ∧ ∀ b ∈ L.attrs, b.attrName ≠ a.attrName)) ∧
    JoinOperator.createResultTableSchema exLeftSchema exRightSchema
      = { tableName := "TEMP_TABLE"
          attrs := [{ attrName := "a", attrType := DataType.CHAR, maxSize := 8,
                      isNotNull := true, isUnique := true },
                    { attrName := "b", attrType := DataType.INT, maxSize := 0,
                      isNotNull := false, isUnique := false },
                    { attrName := "c", attrType := DataType.VARCHAR, maxSize := 8,
                      isNotNull := false, isUnique := false }]
          isTemp := true } := by
  have h1 : JoinOperator.createResultTableSchema L R
      = { tableName := "TEMP_TABLE"
          attrs := L.attrs ++ R.attrs.filter (fun a => !L.hasAttr a.attrName)
          isTemp := true } := by
    have ha := createResultTableSchema_attrs L R
    have hn : (JoinOperator.createResultTableSchema L R).tableName = "TEMP_TABLE" := rfl
    have ht : (JoinOperator.createResultTableSchema L R).isTemp = true := rfl
    cases hx : JoinOperator.createResultTableSchema L R with
    | mk n a t =>
      rw [hx] at ha hn ht
      simp only at ha hn ht
      rw [ha, hn, ht]
  refine ⟨h1, ?_, by decide⟩
  intro a
  rw [h1]
  simp only [List.mem_append, List.mem_filter, TableSchema.hasAttr, Bool.not_eq_true',
    List.any_eq_false, decide_eq_true_eq]

/-! ## `split` returns the maximal delimiter-free runs -/

theorem take_length_takeWhile {α : Type} (p : α → Bool) (l : List α) :
    l.take (l.takeWhile p).length = l.takeWhile p := by
  induction l with
  | nil => rfl
  | cons a rest ih =>
    cases h : p a <;> simp [List.takeWhile, h, ih]

theorem drop_length_takeWhile {α : Type} (p : α → Bool) (l : List α) :
    l.drop (l.takeWhile p).length = l.dropWhile p := by
  induction l with
  | nil => rfl
  | cons a rest ih =>
    cases h : p a <;> simp [List.takeWhile, List.dropWhile, h, ih]

theorem takeWhile_eq_self_of_dropWhile_nil {α : Type} (p : α → Bool) (l : List α)
    (h : l.dropWhile p = []) : l.takeWhile p = l := by
  have := List.takeWhile_append_dropWhile p l
  rw [h, List.append_nil] at this
  exact this

/-- What `firstIdx` finds, in terms of the run of characters before it. -/
theorem firstIdx_eq (p : Char → Bool) : ∀ (l : List Char) (i : Nat),
    firstIdx p l i =
      match l.dropWhile (fun c => !p c) with
      | [] => none
      | _ :: _ => some (i + (l.takeWhile (fun c => !p c)).length) := by
  intro l
  induction l with
  | nil => intro i; rfl
  | cons a rest ih =>
    intro i
    unfold firstIdx
    cases h : p a
    · simp only [Bool.false_eq_true, if_false, List.dropWhile, List.takeWhile, h, Bool.not_false,
        List.length_cons]
      rw [ih (i + 1)]
      cases rest.dropWhile (fun c => !p c) with
      | nil => rfl
      | cons b bs => simp only [Option.some.injEq]; omega
    · simp [List.dropWhile, List.takeWhile, h]

theorem tokensUpTo_nil (isDelim : Char → Bool) (n : Nat) : tokensUpTo isDelim n [] = [] := by
  cases n <;> rfl

theorem tokensUpTo_succ (isDelim : Char → Bool) (n : Nat) (l : List Char) :
    tokensUpTo isDelim (n + 1) l =
      match l.dropWhile isDelim with
      | [] => []
      | c :: cs =>
        (c :: cs).takeWhile (fun x => !isDelim x)
          :: tokensUpTo isDelim n ((c :: cs).dropWhile (fun x => !isDelim x)) := rfl

/-- The loop of `split`, started at the positions computed from `x`, appends
the runs of the rest of the string. -/
theorem splitLoop_eq (str delimiters : String) : ∀ (fuel : Nat) (x : Option Nat)
    (acc : List String),
    splitLoop str delimiters fuel (find_first_not_of str delimiters x)
        (find_first_of str delimiters (find_first_not_of str delimiters x)) acc
      = acc ++ (match x with
                | none => []
                | some i =>
                  (tokensUpTo (fun c => delimiters.data.contains c) fuel (str.data.drop i)).map
                    String.mk) := by
  intro fuel
  induction fuel with
  | zero =>
    intro x acc
    cases x <;> simp [splitLoop, tokensUpTo]
  | succ fuel ih =>
    intro x acc
    cases x with
    | none => simp [splitLoop, find_first_not_of]
    | some i =>
      have hnn : (fun c => !!delimiters.data.contains c) = fun c => delimiters.data.contains c := by
        funext c; simp
      have h1 : find_first_not_of str delimiters (some i)
          = match (str.data.drop i).dropWhile (fun c => delimiters.data.contains c) with
            | [] => none
            | _ :: _ => some (i + ((str.data.drop i).takeWhile
                (fun c => delimiters.data.contains c)).length) := by
        unfold find_first_not_of
        simp only
        rw [firstIdx_eq, hnn]
      cases hr : (str.data.drop i).dropWhile (fun c => delimiters.data.contains c) with
      | nil =>
        rw [hr] at h1
        simp only at h1
        rw [h1]
        dsimp only
        rw [tokensUpTo_succ, hr]
        simp only [splitLoop, List.map_nil, List.append_nil]
      | cons c cs =>
        rw [hr] at h1
        simp only at h1
        rw [h1]
        obtain ⟨a, ha⟩ : ∃ a, a = i + ((str.data.drop i).takeWhile
            (fun c => delimiters.data.contains c)).length := ⟨_, rfl⟩
        rw [← ha]
        have hda : str.data.drop a = c :: cs := by
          rw [ha, ← List.drop_drop, drop_length_takeWhile, hr]
        have h2 : find_first_of str delimiters (some a)
            = match (c :: cs).dropWhile (fun x => !delimiters.data.contains x) with
              | [] => none
              | _ :: _ => some (a + ((c :: cs).takeWhile
                  (fun x => !delimiters.data.contains x)).length) := by
          unfold find_first_of
          simp only
          rw [firstIdx_eq, hda]
        dsimp only
        rw [tokensUpTo_succ, hr]
        unfold splitLoop
        simp only
        rw [ih]
        cases hq : (c :: cs).dropWhile (fun x => !delimiters.data.contains x) with
        | nil =>
          rw [hq] at h2
          simp only at h2
          rw [h2]
          simp only [Option.map_none', substr, hda, tokensUpTo_nil, List.map_cons, List.map_nil,
            List.append_nil]
          rw [takeWhile_eq_self_of_dropWhile_nil _ _ hq]
        | cons e es =>
          rw [hq] at h2
          simp only at h2
          rw [h2]
          simp only [Option.map_some', substr, hda, Nat.add_sub_cancel_left, List.map_cons]
          rw [take_length_takeWhile, ← List.drop_drop, hda, drop_length_takeWhile, hq]
          simp only [List.append_assoc, List.singleton_append]

/-- The function `split` returns the maximal non-empty delimiter-free
substrings: the fuel of the model's loop never runs out before the loop of the
code would stop. -/
theorem split_eq_tokens (str delimiters : String) : split str delimiters = tokens str delimiters := by
  unfold split tokens
  simp only
  rw [splitLoop_eq]
  simp

/-! ## The buffer map of the joins -/

theorem BufferMap.holds_nil (keyOf : String → String) : BufferMap.Holds [] keyOf [] := by
  intro k
  rfl

theorem BufferMap.Holds.count_pos {m : BufferMap} {keyOf : String → String} {ls : List String}
    (h : BufferMap.Holds m keyOf ls) (k : String) :
    BufferMap.count m k > 0 ↔ ls.filter (fun l => decide (keyOf l = k)) ≠ [] := by
  have hk := h k
  unfold BufferMap.count
  cases hf : m.find? (fun e => decide (e.1 = k)) with
  | none =>
    rw [hf] at hk
    by_cases hl : ls.filter (fun l => decide (keyOf l = k)) = []
    · simp [hl]
    · rw [if_neg hl] at hk; cases hk
  | some e =>
    rw [hf] at hk
    by_cases hl : ls.filter (fun l => decide (keyOf l = k)) = []
    · rw [if_pos hl] at hk; cases hk
    · simp [hl]

theorem BufferMap.Holds.get_eq {m : BufferMap} {keyOf : String → String} {ls : List String}
    (h : BufferMap.Holds m keyOf ls) (k : String) :
    BufferMap.get m k = ls.filter (fun l => decide (keyOf l = k)) := by
  have hk := h k
  unfold BufferMap.get
  cases hf : m.find? (fun e => decide (e.1 = k)) with
  | none =>
    rw [hf] at hk
    by_cases hl : ls.filter (fun l => decide (keyOf l = k)) = []
    · simp [hl]
    · rw [if_neg hl] at hk; cases hk
  | some e =>
    rw [hf] at hk
    by_cases hl : ls.filter (fun l => decide (keyOf l = k)) = []
    · rw [if_pos hl] at hk; cases hk
    · rw [if_neg hl] at hk
      simp only [Option.map_some', Option.some.injEq] at hk
      exact hk

/-- Adding a record under its key keeps the map in step with the records. -/
theorem BufferMap.Holds.add {m : BufferMap} {keyOf : String → String} {ls : List String}
    (h : BufferMap.Holds m keyOf ls) (record : String) :
    BufferMap.Holds (BufferMap.add m (keyOf record) record) keyOf (ls ++ [record]) := by
  intro k
  have hk := h k
  have hcnt := h.count_pos (keyOf record)
  rw [List.filter_append]
  unfold BufferMap.add
  by_cases hpos : BufferMap.count m (keyOf record) > 0
  · rw [if_pos hpos]
    have hne := hcnt.mp hpos
    unfold BufferMap.push_back
    rw [List.find?_map]
    have hfun : ((fun e : String × List String => decide (e.1 = k)) ∘
        fun e => if e.1 = keyOf record then (e.1, e.2 ++ [record]) else e)
        = fun e => decide (e.1 = k) := by
      funext e
      by_cases he : e.1 = keyOf record <;> simp [he]
    rw [hfun]
    by_cases hkr : keyOf record = k
    · subst hkr
      rw [if_neg hne] at hk
      cases hf : m.find? (fun e => decide (e.1 = keyOf record)) with
      | none => rw [hf] at hk; cases hk
      | some e =>
        rw [hf] at hk
        simp only [Option.map_some', Option.some.injEq] at hk
        have he : e.1 = keyOf record := by
          have := List.find?_some hf
          simpa using this
        simp [he, hk]
    · have hfr : List.filter (fun l => decide (keyOf l = k)) [record] = [] := by
        simp [hkr]
      rw [hfr, List.append_nil]
      cases hf : m.find? (fun e => decide (e.1 = k)) with
      | none => rw [hf] at hk; simpa using hk
      | some e =>
        rw [hf] at hk
        have he : e.1 = k := by
          have := List.find?_some hf
          simpa using this
        have hne2 : ¬ e.1 = keyOf record := fun h2 => hkr (h2.symm.trans he)
        simpa [hne2] using hk
  · rw [if_neg hpos]
    have hnil : ls.filter (fun l => decide (keyOf l = keyOf record)) = [] := by
      by_contra hc
      exact hpos (hcnt.mpr hc)
    unfold BufferMap.insert
    rw [List.find?_append]
    by_cases hkr : keyOf record = k
    · subst hkr
      rw [if_pos hnil] at hk
      cases hf : m.find? (fun e => decide (e.1 = keyOf record)) with
      | none => simp [hnil]
      | some e => rw [hf] at hk; cases hk
    · have hfr : List.filter (fun l => decide (keyOf l = k)) [record] = [] := by
        simp [hkr]
      rw [hfr, List.append_nil]
      cases hf : m.find? (fun e => decide (e.1 = k)) with
      | none =>
        rw [hf] at hk
        simpa [hkr] using hk
      | some e =>
        rw [hf] at hk
        simpa using hk

/-! ## The one-pass join on raw records -/

theorem insertedRecords_append (a b : List ResultCall) :
    insertedRecords (a ++ b) = insertedRecords a ++ insertedRecords b := by
  unfold insertedRecords
  rw [List.filterMap_append]

theorem insertedRecords_map (rs : List String) :
    insertedRecords (rs.map ResultCall.insertRecord) = rs := by
  unfold insertedRecords
  induction rs with
  | nil => rfl
  | cons r rest ih => simp only [List.map_cons, List.filterMap_cons, ih]

theorem allocPageCount_append (a b : List ResultCall) :
    allocPageCount (a ++ b) = allocPageCount a + allocPageCount b := by
  unfold allocPageCount
  rw [List.countP_append]

theorem allocPageCount_map (rs : List String) :
    allocPageCount (rs.map ResultCall.insertRecord) = 0 := by
  unfold allocPageCount
  induction rs with
  | nil => rfl
  | cons r rest ih =>
    rw [List.map_cons, List.countP_cons, ih]
    simp

/-- The loop that inserts one record per stored left record. -/
theorem foldl_insert (f : String → String) : ∀ (toks : List String) (st : JoinState),
    toks.foldl (fun st token =>
      { st with
        calls := st.calls ++ [ResultCall.insertRecord (f token)]
        numResultTuples := st.numResultTuples + 1 }) st
    = { st with
        calls := st.calls ++ (toks.map f).map ResultCall.insertRecord
        numResultTuples := st.numResultTuples + toks.length } := by
  intro toks
  induction toks with
  | nil => intro st; simp
  | cons t rest ih =>
    intro st
    rw [List.foldl_cons, ih]
    simp only [List.map_cons, List.length_cons, List.append_assoc, List.singleton_append]
    congr 1
    omega

/-- The probe of one right record against a map that holds the left records
`ls`. -/
theorem probe_eq (idsLeft idsRight : List Nat) (ls : List String) (st : JoinState)
    (h : BufferMap.Holds st.bufferMap (recordKey idsLeft) ls) (r : String) :
    JoinState.probe idsRight st r
      = { st with
          calls := st.calls ++ (probeOutput idsLeft idsRight ls [r]).map ResultCall.insertRecord
          numResultTuples := st.numResultTuples + (probeOutput idsLeft idsRight ls [r]).length } := by
  have hout : probeOutput idsLeft idsRight ls [r]
      = (ls.filter (fun l => decide (recordKey idsLeft l = recordKey idsRight r))).map
          (fun l => joinedRecord idsRight l r) := by
    simp [probeOutput]
  rw [hout]
  unfold JoinState.probe
  simp only
  have hc := h.count_pos (joinKey (split r "\t") idsRight)
  have hg := h.get_eq (joinKey (split r "\t") idsRight)
  by_cases hpos : BufferMap.count st.bufferMap (joinKey (split r "\t") idsRight) > 0
  · rw [if_pos hpos, hg, List.length_map]
    exact foldl_insert (fun token => joinedRecord idsRight token r) _ st
  · rw [if_neg hpos]
    have hnil : ls.filter (fun l => decide (recordKey idsLeft l = recordKey idsRight r))
        = [] := by
      by_contra hne
      exact hpos (hc.mpr hne)
    rw [hnil]
    simp only [List.map_nil, List.append_nil, List.length_nil, Nat.add_zero]

theorem probeOutput_snoc (idsLeft idsRight : List Nat) (ls rs : List String) (r : String) :
    probeOutput idsLeft idsRight ls (rs ++ [r])
      = probeOutput idsLeft idsRight ls rs ++ probeOutput idsLeft idsRight ls [r] := by
  simp [probeOutput, List.flatMap_append]

theorem probeOutput_cons (idsLeft idsRight : List Nat) (ls rs : List String) (r : String) :
    probeOutput idsLeft idsRight ls (r :: rs)
      = probeOutput idsLeft idsRight ls [r] ++ probeOutput idsLeft idsRight ls rs := by
  simp [probeOutput, List.flatMap_cons]

/-- The build stage of the one-pass join over the records `ls`. -/
theorem opj_build (idsLeft : List Nat) : ∀ (ls done : List String) (st : JoinState),
    BufferMap.Holds st.bufferMap (recordKey idsLeft) done →
    BufferMap.Holds (ls.foldl (OnePassJoinOperator.buildRecord idsLeft) st).bufferMap
      (recordKey idsLeft) (done ++ ls) ∧
    (ls.foldl (OnePassJoinOperator.buildRecord idsLeft) st).calls = st.calls ∧
    (ls.foldl (OnePassJoinOperator.buildRecord idsLeft) st).numResultTuples
      = st.numResultTuples ∧
    (ls.foldl (OnePassJoinOperator.buildRecord idsLeft) st).numIOs = st.numIOs + ls.length ∧
    (ls.foldl (OnePassJoinOperator.buildRecord idsLeft) st).numUsedBufPages
      = st.numUsedBufPages + ls.length := by
  intro ls
  induction ls with
  | nil => intro done st h; simpa using h
  | cons l rest ih =>
    intro done st h
    rw [List.foldl_cons]
    have h1 : BufferMap.Holds (OnePassJoinOperator.buildRecord idsLeft st l).bufferMap
        (recordKey idsLeft) (done ++ [l]) := h.add l
    obtain ⟨a, b, c, d, e⟩ := ih (done ++ [l]) _ h1
    refine ⟨?_, ?_, ?_, ?_, ?_⟩
    · simpa using a
    · rw [b]; rfl
    · rw [c]; rfl
    · rw [d]; simp only [OnePassJoinOperator.buildRecord, List.length_cons]; omega
    · rw [e]; simp only [OnePassJoinOperator.buildRecord, List.length_cons]; omega

/-- The probe stage of the one-pass join over the right records `rs`. -/
theorem opj_probe (idsLeft idsRight : List Nat) (ls : List String) :
    ∀ (rs : List String) (st : JoinState),
    BufferMap.Holds st.bufferMap (recordKey idsLeft) ls →
    (rs.foldl (OnePassJoinOperator.probeRecord idsRight) st).bufferMap = st.bufferMap ∧
    insertedRecords (rs.foldl (OnePassJoinOperator.probeRecord idsRight) st).calls
      = insertedRecords st.calls ++ probeOutput idsLeft idsRight ls rs ∧
    (rs.foldl (OnePassJoinOperator.probeRecord idsRight) st).numResultTuples
      = st.numResultTuples + (probeOutput idsLeft idsRight ls rs).length ∧
    (rs.foldl (OnePassJoinOperator.probeRecord idsRight) st).numIOs = st.numIOs + rs.length ∧
    (rs.foldl (OnePassJoinOperator.probeRecord idsRight) st).numUsedBufPages
      = st.numUsedBufPages + rs.length ∧
    allocPageCount (rs.foldl (OnePassJoinOperator.probeRecord idsRight) st).calls
      = allocPageCount st.calls + rs.length := by
  intro rs
  induction rs with
  | nil => intro st _; simp [probeOutput]
  | cons r rest ih =>
    intro st h
    rw [List.foldl_cons]
    have hstep : OnePassJoinOperator.probeRecord idsRight st r
        = { st with
            calls := st.calls ++ [ResultCall.allocPage]
              ++ (probeOutput idsLeft idsRight ls [r]).map ResultCall.insertRecord
              ++ [ResultCall.unPinPage true, ResultCall.flushFile]
            numResultTuples := st.numResultTuples + (probeOutput idsLeft idsRight ls [r]).length
            numIOs := st.numIOs + 1
            numUsedBufPages := st.numUsedBufPages + 1 } := by
      unfold OnePassJoinOperator.probeRecord
      simp only
      rw [probe_eq idsLeft idsRight ls { st with calls := st.calls ++ [ResultCall.allocPage] } h r]
    have h1 : BufferMap.Holds (OnePassJoinOperator.probeRecord idsRight st r).bufferMap
        (recordKey idsLeft) ls := by
      rw [hstep]; exact h
    have e1 : (OnePassJoinOperator.probeRecord idsRight st r).bufferMap = st.bufferMap := by
      rw [hstep]
    have e2 : (OnePassJoinOperator.probeRecord idsRight st r).calls
        = st.calls ++ [ResultCall.allocPage]
          ++ (probeOutput idsLeft idsRight ls [r]).map ResultCall.insertRecord
          ++ [ResultCall.unPinPage true, ResultCall.flushFile] := by
      rw [hstep]
    have e3 : (OnePassJoinOperator.probeRecord idsRight st r).numResultTuples
        = st.numResultTuples + (probeOutput idsLeft idsRight ls [r]).length := by
      rw [hstep]
    have e4 : (OnePassJoinOperator.probeRecord idsRight st r).numIOs = st.numIOs + 1 := by
      rw [hstep]
    have e5 : (OnePassJoinOperator.probeRecord idsRight st r).numUsedBufPages
        = st.numUsedBufPages + 1 := by
      rw [hstep]
    have hc := probeOutput_cons idsLeft idsRight ls rest r
    have hi1 : insertedRecords [ResultCall.allocPage] = [] := rfl
    have hi2 : insertedRecords [ResultCall.unPinPage true, ResultCall.flushFile] = [] := rfl
    have ha1 : allocPageCount [ResultCall.allocPage] = 1 := rfl
    have ha2 : allocPageCount [ResultCall.unPinPage true, ResultCall.flushFile] = 0 := rfl
    obtain ⟨a, b, c, d, e, f⟩ := ih _ h1
    refine ⟨a.trans e1, ?_, ?_, ?_, ?_, ?_⟩
    · rw [b, e2, hc]
      simp only [insertedRecords_append, insertedRecords_map, hi1, hi2, List.append_nil,
        List.append_assoc, List.nil_append]
    · rw [c, e3, hc, List.length_append]; omega
    · rw [d, e4, List.length_cons]; omega
    · rw [e, e5, List.length_cons]; omega
    · rw [f, e2]
      simp only [allocPageCount_append, allocPageCount_map, ha1, ha2, List.length_cons]
      omega

/-! ## `split` on the record of a well-formed row -/

theorem composeTuple_data : ∀ (vs : List String) (n : String),
    (composeTuple n vs).data = n.data ++ vs.flatMap (fun v => '\t' :: v.data) := by
  intro vs
  induction vs with
  | nil => intro n; simp [composeTuple]
  | cons v rest ih =>
    intro n
    have h := ih (n ++ "\t" ++ v)
    unfold composeTuple at h ⊢
    rw [List.foldl_cons, h]
    simp only [String.data_append, List.flatMap_cons, List.append_assoc]
    rfl

theorem isField_iff (s : String) :
    isField s = true ↔ s.data ≠ [] ∧ ∀ c ∈ s.data, "\t".data.contains c = false := by
  unfold isField
  have ht : "\t".data = ['\t'] := rfl
  rw [ht]
  cases hs : s.data with
  | nil => simp
  | cons c cs =>
    simp only [List.isEmpty_cons, Bool.not_false, Bool.true_and, Bool.not_eq_true',
      ne_eq, reduceCtorEq, not_false_eq_true, true_and]
    constructor
    · intro h x hx
      simp only [List.contains_eq_any_beq, List.any_eq_false, beq_iff_eq] at h ⊢
      intro y hy
      simp only [List.mem_singleton] at hy
      subst hy
      intro hxy
      exact h x hx hxy.symm
    · intro h
      simp only [List.contains_eq_any_beq, List.any_eq_false, beq_iff_eq] at h ⊢
      intro x hx hxy
      exact h x hx '\t' (List.mem_singleton.mpr rfl) hxy.symm

theorem takeWhile_append_all {α : Type} (p : α → Bool) : ∀ (t rest : List α),
    (∀ c ∈ t, p c = true) → (t ++ rest).takeWhile p = t ++ rest.takeWhile p := by
  intro t
  induction t with
  | nil => intro rest _; rfl
  | cons a as ih =>
    intro rest h
    have ha := h a (List.mem_cons_self _ _)
    simp only [List.cons_append, List.takeWhile_cons, ha, if_true]
    rw [ih rest (fun c hc => h c (List.mem_cons_of_mem _ hc))]

theorem dropWhile_append_all {α : Type} (p : α → Bool) : ∀ (t rest : List α),
    (∀ c ∈ t, p c = true) → (t ++ rest).dropWhile p = rest.dropWhile p := by
  intro t
  induction t with
  | nil => intro rest _; rfl
  | cons a as ih =>
    intro rest h
    have ha := h a (List.mem_cons_self _ _)
    simp only [List.cons_append, List.dropWhile_cons, ha, if_true]
    rw [ih rest (fun c hc => h c (List.mem_cons_of_mem _ hc))]

/-- A non-empty run without delimiter, followed by nothing or by a delimiter,
is the first token. -/
theorem tokensUpTo_field (isDelim : Char → Bool) (n : Nat) (t rest : List Char) (hne : t ≠ [])
    (ht : ∀ c ∈ t, isDelim c = false)
    (hrest : rest = [] ∨ ∃ d ds, rest = d :: ds ∧ isDelim d = true) :
    tokensUpTo isDelim (n + 1) (t ++ rest) = t :: tokensUpTo isDelim n rest := by
  cases t with
  | nil => exact absurd rfl hne
  | cons c cs =>
    have hc := ht c (List.mem_cons_self _ _)
    have hall : ∀ x ∈ c :: cs, (fun x => !isDelim x) x = true := by
      intro x hx
      simp [ht x hx]
    have hd : (c :: cs ++ rest).dropWhile isDelim = c :: (cs ++ rest) := by
      simp [List.dropWhile_cons, hc]
    rw [tokensUpTo_succ, hd]
    simp only
    have e1 : (c :: (cs ++ rest)).takeWhile (fun x => !isDelim x)
        = (c :: cs) ++ rest.takeWhile (fun x => !isDelim x) :=
      takeWhile_append_all (fun x => !isDelim x) (c :: cs) rest hall
    have e2 : (c :: (cs ++ rest)).dropWhile (fun x => !isDelim x)
        = rest.dropWhile (fun x => !isDelim x) :=
      dropWhile_append_all (fun x => !isDelim x) (c :: cs) rest hall
    rw [e1, e2]
    rcases hrest with h0 | ⟨d, ds, h1, h2⟩
    · subst h0
      simp
    · subst h1
      simp [List.takeWhile_cons, List.dropWhile_cons, h2]

theorem tokensUpTo_delim (isDelim : Char → Bool) (n : Nat) (d : Char) (x : List Char)
    (hd : isDelim d = true) : tokensUpTo isDelim n (d :: x) = tokensUpTo isDelim n x := by
  cases n with
  | zero => rfl
  | succ m =>
    rw [tokensUpTo_succ, tokensUpTo_succ]
    simp [List.dropWhile_cons, hd]

/-- The tokens of a sequence of fields, each preceded by a tab. -/
theorem tokensUpTo_values : ∀ (vs : List String) (n : Nat),
    (∀ v ∈ vs, isField v = true) → vs.length ≤ n →
    tokensUpTo (fun c => "\t".data.contains c) n (vs.flatMap (fun v => '\t' :: v.data))
      = vs.map String.data := by
  intro vs
  induction vs with
  | nil => intro n _ _; simp [tokensUpTo_nil]
  | cons v rest ih =>
    intro n h hn
    cases n with
    | zero => simp at hn
    | succ m =>
      have hv := (isField_iff v).mp (h v (List.mem_cons_self _ _))
      rw [List.flatMap_cons, List.cons_append,
        tokensUpTo_delim _ _ _ _ (by rfl : (fun c => "\t".data.contains c) '\t' = true),
        tokensUpTo_field _ m v.data _ hv.1 hv.2, List.map_cons,
        ih m (fun w hw => h w (List.mem_cons_of_mem _ hw)) (by simpa using hn)]
      cases rest with
      | nil => left; rfl
      | cons w ws => right; exact ⟨'\t', _, rfl, rfl⟩

theorem length_le_flatMap_values (vs : List String) :
    vs.length ≤ (vs.flatMap (fun v => '\t' :: v.data)).length := by
  induction vs with
  | nil => simp
  | cons v rest ih =>
    simp only [List.flatMap_cons, List.length_cons, List.length_append, List.cons_append]
    omega

/-- The tokens of the record of a row whose name and values are fields: the
name and the values. -/
theorem split_row (row : Row) (hn : isField row.tableName = true)
    (hv : ∀ v ∈ row.values, isField v = true) :
    split row.record "\t" = row.tableName :: row.values := by
  rw [split_eq_tokens]
  unfold tokens Row.record
  have hlen : (composeTuple row.tableName row.values).length
      = (composeTuple row.tableName row.values).data.length := rfl
  rw [hlen, composeTuple_data]
  have hname := (isField_iff row.tableName).mp hn
  rw [tokensUpTo_field _ _ row.tableName.data _ hname.1 hname.2,
    tokensUpTo_values row.values _ hv]
  · simp only [List.map_cons, List.map_map]
    congr 1
    exact List.map_id _
  · rw [List.length_append]
    have := length_le_flatMap_values row.values
    omega
  · cases row.values with
    | nil => left; rfl
    | cons w ws => right; exact ⟨'\t', _, rfl, rfl⟩

/-! ## Keys and joined tuples of well-formed rows -/

theorem foldl_append_join : ∀ (l : List String) (init : String),
    l.foldl (fun r s => r ++ s) init = init ++ String.join l := by
  intro l
  induction l with
  | nil => intro init; simp [String.join]
  | cons a rest ih =>
    intro init
    have h1 := ih (init ++ a)
    have h2 := ih ("" ++ a)
    unfold String.join at h1 h2 ⊢
    rw [List.foldl_cons, List.foldl_cons, h1, h2]
    simp only [String.empty_append, String.append_assoc]

theorem join_cons (a : String) (l : List String) : String.join (a :: l) = a ++ String.join l := by
  have := foldl_append_join l ("" ++ a)
  unfold String.join at this ⊢
  rw [List.foldl_cons, this, String.empty_append]

/-- A loop that appends `f x` for every `x`. -/
theorem foldl_append_map {ι : Type} (f : ι → String) : ∀ (l : List ι) (init : String),
    l.foldl (fun acc x => acc ++ f x) init = init ++ String.join (l.map f) := by
  intro l
  induction l with
  | nil => intro init; simp [String.join]
  | cons a rest ih =>
    intro init
    rw [List.foldl_cons, ih, List.map_cons, join_cons, String.append_assoc]

/-- A loop that appends `f x` for every `x` unless `c x` holds. -/
theorem foldl_append_unless {ι : Type} (c : ι → Bool) (f : ι → String) :
    ∀ (l : List ι) (init : String),
    l.foldl (fun acc x => if c x = true then acc else acc ++ f x) init
      = init ++ String.join ((l.filter (fun x => !c x)).map f) := by
  intro l
  induction l with
  | nil => intro init; simp [String.join]
  | cons a rest ih =>
    intro init
    rw [List.foldl_cons, ih]
    cases hc : c a
    · simp only [Bool.false_eq_true, if_false, List.filter_cons, hc, Bool.not_false, if_true,
        List.map_cons, join_cons, String.append_assoc]
    · simp only [if_true, List.filter_cons, hc, Bool.not_true, Bool.false_eq_true, if_false]

/-- The key the joins compute from the tokens of a row. -/
theorem joinKey_row (n : String) (vs : List String) (ids : List Nat) :
    joinKey (n :: vs) ids = String.join (ids.map (fun i => vs.getD i "")) := by
  unfold joinKey
  rw [foldl_append_map (fun id => (n :: vs).getD (id + 1) ""), String.empty_append]
  congr 1

theorem enumFrom_filter_shift (c : Nat → Bool) : ∀ (vs : List String) (k : Nat),
    ((List.enumFrom (k + 1) vs).filter (fun e => !c (e.1 - 1))).map Prod.snd
      = ((List.enumFrom k vs).filter (fun e => !c e.1)).map Prod.snd := by
  intro vs
  induction vs with
  | nil => intro k; rfl
  | cons v rest ih =>
    intro k
    simp only [List.enumFrom_cons, List.filter_cons, Nat.add_sub_cancel]
    cases hc : c k <;> simp [ih (k + 1)]

/-- The joined tuple the joins build from the tokens of two rows. -/
theorem joinedTuple_rows (ids : List Nat) (l r : Row)
    (hl : split l.record "\t" = l.tableName :: l.values)
    (hr : split r.record "\t" = r.tableName :: r.values) :
    joinedTuple ids l.record r.record
      = tabTerminated l.values ++ tabTerminated (nonJoinValues ids r.values) := by
  unfold joinedTuple
  simp only [hl, hr, List.drop_succ_cons, List.drop_zero, List.enum, List.enumFrom_cons]
  have h1 : l.values.foldl (fun jt tok => jt ++ tok ++ "\t") ""
      = tabTerminated l.values := by
    have hfun : (fun (jt tok : String) => jt ++ tok ++ "\t")
        = fun jt tok => jt ++ (tok ++ "\t") := by
      funext jt tok
      rw [String.append_assoc]
    rw [hfun, foldl_append_map (fun v : String => v ++ "\t"), String.empty_append]
    rfl
  rw [h1]
  have h2 := foldl_append_unless (fun e : Nat × String => ids.contains (e.1 - 1))
    (fun e => e.2 ++ "\t") (List.enumFrom (0 + 1) r.values) (tabTerminated l.values)
  have h3 : (fun (acc : String) (x : Nat × String) =>
      if ids.contains (x.1 - 1) = true then acc else acc ++ x.2 ++ "\t")
      = fun acc x => if ids.contains (x.1 - 1) = true then acc else acc ++ (x.2 ++ "\t") := by
    funext acc x
    rw [String.append_assoc]
  rw [h3, h2]
  congr 1
  unfold tabTerminated nonJoinValues
  have hs := enumFrom_filter_shift (fun i => ids.contains i) r.values 0
  have hm : ∀ X : List (Nat × String),
      List.map (fun e : Nat × String => e.2 ++ "\t") X
        = List.map (fun v => v ++ "\t") (List.map Prod.snd X) := by
    intro X
    rw [List.map_map]
    rfl
  rw [hm, hs]
  rfl

/-- On the records of well-formed rows the probe output is the expected
join. -/
theorem probeOutput_rows (idsLeft idsRight : List Nat) (leftRows rightRows : List Row)
    (hl : ∀ row ∈ leftRows, split row.record "\t" = row.tableName :: row.values)
    (hr : ∀ row ∈ rightRows, split row.record "\t" = row.tableName :: row.values) :
    probeOutput idsLeft idsRight (leftRows.map Row.record) (rightRows.map Row.record)
      = expectedJoin idsLeft idsRight leftRows rightRows := by
  unfold probeOutput expectedJoin
  rw [List.flatMap_map]
  apply List.flatMap_congr
  intro r hrm
  rw [List.filter_map, List.map_map]
  have hkr : recordKey idsRight r.record = r.joinKey idsRight := by
    unfold recordKey Row.joinKey
    rw [hr r hrm, joinKey_row]
  have hf : List.filter ((fun l => decide (recordKey idsLeft l = recordKey idsRight r.record))
        ∘ Row.record) leftRows
      = List.filter (fun l => decide (l.joinKey idsLeft = r.joinKey idsRight)) leftRows := by
    apply List.filter_congr
    intro l hlm
    simp only [Function.comp]
    have hkl : recordKey idsLeft l.record = l.joinKey idsLeft := by
      unfold recordKey Row.joinKey
      rw [hl l hlm, joinKey_row]
    rw [hkl, hkr]
  rw [hf]
  apply List.map_congr_left
  intro l hlm
  have hlm2 := (List.mem_filter.mp hlm).1
  simp only [Function.comp, joinedRecord, Row.joined]
  rw [joinedTuple_rows idsRight l r (hl l hlm2) (hr r hrm), String.append_assoc]

/-! ## The one-pass join -/

theorem foldl_push_if {ι α : Type} (c : ι → Prop) [DecidablePred c] (f : ι → α) :
    ∀ (l : List ι) (init : List α),
    l.foldl (fun acc i => if c i then acc ++ [f i] else acc) init
      = init ++ (l.filter (fun i => decide (c i))).map f := by
  intro l
  induction l with
  | nil => intro init; simp
  | cons i rest ih =>
    intro init
    by_cases hc : c i <;> simp [ih, hc]

theorem foldl_append_flatMap {ι α : Type} (g : ι → List α) : ∀ (l : List ι) (init : List α),
    l.foldl (fun acc i => acc ++ g i) init = init ++ l.flatMap g := by
  intro l
  induction l with
  | nil => intro init; simp
  | cons i rest ih => intro init; simp [ih]

/-- The positions the two nested loops push. -/
theorem joinAttrPairs_eq (L R : TableSchema) :
    joinAttrPairs L R
      = (List.range L.attrs.length).flatMap (fun i =>
          ((List.range R.attrs.length).filter
            (fun j => decide (L.getAttrName i = R.getAttrName j))).map
              (fun j => (L.getAttrName i, i, j))) := by
  unfold joinAttrPairs
  simp only [TableSchema.getAttrCount]
  have hin : ∀ (i : Nat) (acc : List (String × Nat × Nat)),
      (List.range R.attrs.length).foldl (fun acc j =>
        if L.getAttrName i = R.getAttrName j then acc ++ [(L.getAttrName i, i, j)] else acc) acc
      = acc ++ ((List.range R.attrs.length).filter
          (fun j => decide (L.getAttrName i = R.getAttrName j))).map
            (fun j => (L.getAttrName i, i, j)) :=
    fun i acc => foldl_push_if (fun j => L.getAttrName i = R.getAttrName j)
      (fun j => (L.getAttrName i, i, j)) _ acc
  simp only [hin]
  rw [foldl_append_flatMap, List.nil_append]

theorem joinAttrsID_zip (L R : TableSchema) :
    (joinAttrsIDLeft L R).zip (joinAttrsIDRight L R) = equalNamePositions L R := by
  unfold joinAttrsIDLeft joinAttrsIDRight equalNamePositions
  rw [List.zip_map', joinAttrPairs_eq, List.map_flatMap]
  apply List.flatMap_congr
  intro i _
  rw [List.map_map]
  rfl

/-- What `OnePassJoinOperator::execute` does on an operator that is not yet
complete, in terms of the raw records. -/
theorem opj_execute (op : JoinOperator) (hc : op.isComplete = false)
    (leftPages rightPages : List (List String)) :
    (OnePassJoinOperator.execute op leftPages rightPages).1 = true ∧
    (OnePassJoinOperator.execute op leftPages rightPages).2.1.isComplete = true ∧
    insertedRecords (OnePassJoinOperator.execute op leftPages rightPages).2.2
      = probeOutput (joinAttrsIDLeft op.leftTableSchema op.rightTableSchema)
          (joinAttrsIDRight op.leftTableSchema op.rightTableSchema)
          leftPages.flatten rightPages.flatten ∧
    (OnePassJoinOperator.execute op leftPages rightPages).2.1.numResultTuples
      = (probeOutput (joinAttrsIDLeft op.leftTableSchema op.rightTableSchema)
          (joinAttrsIDRight op.leftTableSchema op.rightTableSchema)
          leftPages.flatten rightPages.flatten).length ∧
    (OnePassJoinOperator.execute op leftPages rightPages).2.1.numIOs
      = leftPages.flatten.length + rightPages.flatten.length ∧
    (OnePassJoinOperator.execute op leftPages rightPages).2.1.numUsedBufPages
      = leftPages.flatten.length + rightPages.flatten.length ∧
    allocPageCount (OnePassJoinOperator.execute op leftPages rightPages).2.2
      = rightPages.flatten.length := by
  unfold OnePassJoinOperator.execute
  simp only [hc, Bool.false_eq_true, if_false]
  rw [← List.foldl_flatten, ← List.foldl_flatten]
  obtain ⟨b1, b2, b3, b4, b5⟩ := opj_build (joinAttrsIDLeft op.leftTableSchema op.rightTableSchema)
    leftPages.flatten [] JoinState.init (BufferMap.holds_nil _)
  rw [List.nil_append] at b1
  obtain ⟨p1, p2, p3, p4, p5, p6⟩ :=
    opj_probe (joinAttrsIDLeft op.leftTableSchema op.rightTableSchema)
      (joinAttrsIDRight op.leftTableSchema op.rightTableSchema) leftPages.flatten
      rightPages.flatten _ b1
  rw [b2] at p2 p6
  rw [b3] at p3
  rw [b4] at p4
  rw [b5] at p5
  refine ⟨trivial, trivial, ?_, ?_, ?_, ?_, ?_⟩
  · rw [p2]; rfl
  · rw [p3]; simp [JoinState.init]
  · rw [p4]; simp [JoinState.init]
  · rw [p5]; simp [JoinState.init]
  · rw [p6]; simp [JoinState.init, allocPageCount]

theorem wellFormed_split {t : TableSchema} {row : Row} (h : row.wellFormed t = true) :
    split row.record "\t" = row.tableName :: row.values := by
  unfold Row.wellFormed at h
  simp only [Bool.and_eq_true, List.all_eq_true, decide_eq_true_eq] at h
  exact split_row row h.1.1 h.2

theorem expectedJoin_eq_product (idsLeft idsRight : List Nat) (leftRows rightRows : List Row) :
    expectedJoin idsLeft idsRight leftRows rightRows
      = ((rightRows.product leftRows).filter
          (fun p => decide (p.2.joinKey idsLeft = p.1.joinKey idsRight))).map
          (fun p => Row.joined idsRight p.2 p.1) := by
  unfold expectedJoin List.product
  rw [List.filter_flatMap, List.map_flatMap]
  apply List.flatMap_congr
  intro r _
  rw [List.filter_map, List.map_map]
  rfl

/-- The one-pass join in a run without an exception, for all schemas and all
left and right rows that are well formed for them, stored in any way on the
pages of the two files: it returns `true` and inserts exactly one result record
for every pair `(l, r)` whose concatenated join-attribute values are equal, in
the order: right records in file order, and for each of them the matching left
records in file order.  `numResultTuples` is the number of such pairs, and the
join positions are the pairs of positions of equally named attributes. -/
theorem opj_join_rows (L R : TableSchema) (leftRows rightRows : List Row)
    (hl : ∀ row ∈ leftRows, row.wellFormed L = true)
    (hr : ∀ row ∈ rightRows, row.wellFormed R = true)
    (leftPages rightPages : List (List String))
    (hlp : leftPages.flatten = leftRows.map Row.record)
    (hrp : rightPages.flatten = rightRows.map Row.record) :
    (OnePassJoinOperator.execute (JoinOperator.new L R) leftPages rightPages).1 = true ∧
    insertedRecords (OnePassJoinOperator.execute (JoinOperator.new L R) leftPages rightPages).2.2
      = expectedJoin (joinAttrsIDLeft L R) (joinAttrsIDRight L R) leftRows rightRows ∧
    expectedJoin (joinAttrsIDLeft L R) (joinAttrsIDRight L R) leftRows rightRows
      = ((rightRows.product leftRows).filter
          (fun p => decide (p.2.joinKey (joinAttrsIDLeft L R)
            = p.1.joinKey (joinAttrsIDRight L R)))).map
          (fun p => Row.joined (joinAttrsIDRight L R) p.2 p.1) ∧
    (OnePassJoinOperator.execute (JoinOperator.new L R) leftPages rightPages).2.1.numResultTuples
      = ((rightRows.product leftRows).filter
          (fun p => decide (p.2.joinKey (joinAttrsIDLeft L R)
            = p.1.joinKey (joinAttrsIDRight L R)))).length ∧
    (joinAttrsIDLeft L R).zip (joinAttrsIDRight L R) = equalNamePositions L R := by
  obtain ⟨e1, _, e3, e4, _, _, _⟩ :=
    opj_execute (JoinOperator.new L R) rfl leftPages rightPages
  have hrows : probeOutput (joinAttrsIDLeft L R) (joinAttrsIDRight L R)
        leftPages.flatten rightPages.flatten
      = expectedJoin (joinAttrsIDLeft L R) (joinAttrsIDRight L R) leftRows rightRows := by
    rw [hlp, hrp]
    exact probeOutput_rows _ _ leftRows rightRows (fun row h => wellFormed_split (hl row h))
      (fun row h => wellFormed_split (hr row h))
  have hprod := expectedJoin_eq_product (joinAttrsIDLeft L R) (joinAttrsIDRight L R)
    leftRows rightRows
  refine ⟨e1, ?_, hprod, ?_, joinAttrsID_zip L R⟩
  · rw [e3]; exact hrows
  · rw [e4]
    have hnew : (JoinOperator.new L R).leftTableSchema = L
        ∧ (JoinOperator.new L R).rightTableSchema = R := ⟨rfl, rfl⟩
    rw [hnew.1, hnew.2, hrows, hprod, List.length_map]

/-! ## Complete blocks -/

theorem block_take_snoc (P : List String) (l : String) (b : Nat)
    (h : blockSize * b + blockSize ≤ P.length) :
    ((P ++ [l]).drop (blockSize * b)).take blockSize = (P.drop (blockSize * b)).take blockSize := by
  rw [List.drop_append_of_le_length (by omega)]
  rw [List.take_append_of_le_length]
  rw [List.length_drop]
  omega

theorem completeBlocks_snoc_incomplete (P : List String) (l : String)
    (h : (P.length + 1) % blockSize ≠ 0) :
    completeBlocks (P ++ [l]) = completeBlocks P := by
  unfold completeBlocks
  have hb : blockSize = 50 := rfl
  have hq : (P ++ [l]).length / blockSize = P.length / blockSize := by
    rw [List.length_append, List.length_singleton]
    rw [hb] at h ⊢
    omega
  rw [hq]
  apply List.map_congr_left
  intro b hbm
  apply block_take_snoc
  have := List.mem_range.mp hbm
  rw [hb] at this ⊢
  omega

theorem completeBlocks_snoc_complete (P : List String) (l : String)
    (h : (P.length + 1) % blockSize = 0) :
    completeBlocks (P ++ [l])
      = completeBlocks P ++ [P.drop (blockSize * (P.length / blockSize)) ++ [l]] := by
  unfold completeBlocks
  have hb : blockSize = 50 := rfl
  have hq : (P ++ [l]).length / blockSize = P.length / blockSize + 1 := by
    rw [List.length_append, List.length_singleton]
    rw [hb] at h ⊢
    omega
  rw [hq, List.range_succ, List.map_append, List.map_singleton]
  congr 1
  · apply List.map_congr_left
    intro b hbm
    apply block_take_snoc
    have := List.mem_range.mp hbm
    rw [hb] at this ⊢
    omega
  · congr 1
    have hle : blockSize * (P.length / blockSize) ≤ P.length := by
      rw [hb]; omega
    rw [List.drop_append_of_le_length hle]
    apply List.take_of_length_le
    rw [List.length_append, List.length_drop, List.length_singleton]
    rw [hb] at h ⊢
    omega

theorem block_drop_snoc_incomplete (P : List String) (l : String)
    (h : (P.length + 1) % blockSize ≠ 0) :
    (P ++ [l]).drop (blockSize * ((P ++ [l]).length / blockSize))
      = P.drop (blockSize * (P.length / blockSize)) ++ [l] := by
  have hb : blockSize = 50 := rfl
  have hq : (P ++ [l]).length / blockSize = P.length / blockSize := by
    rw [List.length_append, List.length_singleton]
    rw [hb] at h ⊢
    omega
  rw [hq]
  apply List.drop_append_of_le_length
  rw [hb]; omega

theorem block_drop_snoc_complete (P : List String) (l : String)
    (h : (P.length + 1) % blockSize = 0) :
    (P ++ [l]).drop (blockSize * ((P ++ [l]).length / blockSize)) = [] := by
  have hb : blockSize = 50 := rfl
  apply List.drop_of_length_le
  rw [List.length_append, List.length_singleton]
  rw [hb] at h ⊢
  omega

theorem blockOutput_snoc_incomplete (idsLeft idsRight : List Nat) (P rs : List String)
    (l : String) (h : (P.length + 1) % blockSize ≠ 0) :
    blockOutput idsLeft idsRight (P ++ [l]) rs = blockOutput idsLeft idsRight P rs := by
  unfold blockOutput
  rw [completeBlocks_snoc_incomplete P l h]

theorem blockOutput_snoc_complete (idsLeft idsRight : List Nat) (P rs : List String)
    (l : String) (h : (P.length + 1) % blockSize = 0) :
    blockOutput idsLeft idsRight (P ++ [l]) rs
      = blockOutput idsLeft idsRight P rs
        ++ probeOutput idsLeft idsRight (P.drop (blockSize * (P.length / blockSize)) ++ [l]) rs := by
  unfold blockOutput
  rw [completeBlocks_snoc_complete P l h, List.flatMap_append]
  simp

/-! ## The block nested-loop join on raw records -/

/-- A probe pass of the nested-loop join over the right records `rs` against a
map that holds the block `B`. -/
theorem nlj_probe (idsLeft idsRight : List Nat) (B : List String) :
    ∀ (rs : List String) (st : JoinState),
    BufferMap.Holds st.bufferMap (recordKey idsLeft) B →
    rs.foldl (NestedLoopJoinOperator.probeRecord idsRight) st
      = { st with
          calls := st.calls ++ (probeOutput idsLeft idsRight B rs).map ResultCall.insertRecord
          numResultTuples := st.numResultTuples + (probeOutput idsLeft idsRight B rs).length
          numIOs := st.numIOs + rs.length } := by
  intro rs
  induction rs with
  | nil => intro st _; simp [probeOutput]
  | cons r rest ih =>
    intro st h
    rw [List.foldl_cons]
    have hstep : NestedLoopJoinOperator.probeRecord idsRight st r
        = { st with
            calls := st.calls ++ (probeOutput idsLeft idsRight B [r]).map ResultCall.insertRecord
            numResultTuples := st.numResultTuples + (probeOutput idsLeft idsRight B [r]).length
            numIOs := st.numIOs + 1 } := by
      unfold NestedLoopJoinOperator.probeRecord
      simp only
      rw [probe_eq idsLeft idsRight B st h r]
    have h1 : BufferMap.Holds (NestedLoopJoinOperator.probeRecord idsRight st r).bufferMap
        (recordKey idsLeft) B := by
      rw [hstep]; exact h
    rw [ih _ h1, hstep, probeOutput_cons idsLeft idsRight B rest r]
    simp only [List.map_append, List.length_append, List.length_cons, List.append_assoc]
    congr 1 <;> omega

/-- One left record of the nested-loop join. -/
theorem nlj_record (idsLeft idsRight : List Nat) (rightPages : List (List String))
    (P : List String) (st : JoinState) (l : String)
    (h : NljInv idsLeft idsRight rightPages.flatten P st) :
    NljInv idsLeft idsRight rightPages.flatten (P ++ [l])
      (NestedLoopJoinOperator.leftRecord idsLeft idsRight rightPages st l) ∧
    allocPageCount (NestedLoopJoinOperator.leftRecord idsLeft idsRight rightPages st l).calls
      = allocPageCount st.calls := by
  have hb : blockSize = 50 := rfl
  have hadd : BufferMap.Holds
      (BufferMap.add st.bufferMap (joinKey (split l "\t") idsLeft) l) (recordKey idsLeft)
      (P.drop (blockSize * (P.length / blockSize)) ++ [l]) := h.holds.add l
  unfold NestedLoopJoinOperator.leftRecord
  simp only
  by_cases hm : (P.length + 1) % blockSize = 0
  · have hcond : ¬ ((decide ((st.blockUsedCount + 1) % blockSize = 0)
        && decide (st.blockUsedCount + 1 ≠ 0)) = false) := by
      rw [h.count]
      simp [hm]
    rw [if_neg hcond, ← List.foldl_flatten]
    rw [nlj_probe idsLeft idsRight (P.drop (blockSize * (P.length / blockSize)) ++ [l])
      rightPages.flatten _ hadd]
    have hout := blockOutput_snoc_complete idsLeft idsRight P rightPages.flatten l hm
    refine ⟨⟨?_, ?_, ?_, ?_, ?_⟩, ?_⟩
    · simp only [List.length_append, List.length_singleton]
      rw [h.count]
    · rw [block_drop_snoc_complete P l hm]
      exact BufferMap.holds_nil _
    · simp only [insertedRecords_append, insertedRecords_map]
      rw [h.inserted, hout]
    · simp only
      rw [h.tuples, hout, List.length_append]
    · simp only [List.length_append, List.length_singleton]
      rw [h.ios]
      have hq : (P.length + 1) / blockSize = P.length / blockSize + 1 := by
        rw [hb] at hm ⊢
        omega
      rw [hq, Nat.succ_mul]
      omega
    · simp only [allocPageCount_append, allocPageCount_map, Nat.add_zero]
  · have hcond : (decide ((st.blockUsedCount + 1) % blockSize = 0)
        && decide (st.blockUsedCount + 1 ≠ 0)) = false := by
      rw [h.count]
      simp [hm]
    rw [if_pos hcond]
    have hout := blockOutput_snoc_incomplete idsLeft idsRight P rightPages.flatten l hm
    refine ⟨⟨?_, ?_, ?_, ?_, ?_⟩, rfl⟩
    · simp only [List.length_append, List.length_singleton]
      rw [h.count]
    · rw [block_drop_snoc_incomplete P l hm]
      exact hadd
    · rw [hout]; exact h.inserted
    · rw [hout]; exact h.tuples
    · simp only [List.length_append, List.length_singleton]
      rw [h.ios]
      have hq : (P.length + 1) / blockSize = P.length / blockSize := by
        rw [hb] at hm ⊢
        omega
      rw [hq]

/-- The records of one left page. -/
theorem nlj_records (idsLeft idsRight : List Nat) (rightPages : List (List String)) :
    ∀ (ls P : List String) (st : JoinState),
    NljInv idsLeft idsRight rightPages.flatten P st →
    NljInv idsLeft idsRight rightPages.flatten (P ++ ls)
      (ls.foldl (NestedLoopJoinOperator.leftRecord idsLeft idsRight rightPages) st) ∧
    allocPageCount
        (ls.foldl (NestedLoopJoinOperator.leftRecord idsLeft idsRight rightPages) st).calls
      = allocPageCount st.calls := by
  intro ls
  induction ls with
  | nil => intro P st h; simpa using h
  | cons l rest ih =>
    intro P st h
    rw [List.foldl_cons]
    obtain ⟨h1, a1⟩ := nlj_record idsLeft idsRight rightPages P st l h
    obtain ⟨h2, a2⟩ := ih (P ++ [l]) _ h1
    refine ⟨?_, a2.trans a1⟩
    simpa using h2

/-- One left page: a result page is allocated, the records are read, and the
result page is released and flushed. -/
theorem nlj_page (idsLeft idsRight : List Nat) (rightPages : List (List String))
    (page P : List String) (st : JoinState)
    (h : NljInv idsLeft idsRight rightPages.flatten P st) :
    NljInv idsLeft idsRight rightPages.flatten (P ++ page)
      (NestedLoopJoinOperator.leftPage idsLeft idsRight rightPages st page) ∧
    allocPageCount (NestedLoopJoinOperator.leftPage idsLeft idsRight rightPages st page).calls
      = allocPageCount st.calls + 1 := by
  have h0 : NljInv idsLeft idsRight rightPages.flatten P
      { st with calls := st.calls ++ [ResultCall.allocPage] } := by
    refine ⟨h.count, h.holds, ?_, h.tuples, h.ios⟩
    rw [← h.inserted]
    simp only [insertedRecords_append]
    have : insertedRecords [ResultCall.allocPage] = [] := rfl
    rw [this, List.append_nil]
  obtain ⟨h1, a1⟩ := nlj_records idsLeft idsRight rightPages page P _ h0
  unfold NestedLoopJoinOperator.leftPage
  simp only
  refine ⟨⟨h1.count, h1.holds, ?_, h1.tuples, h1.ios⟩, ?_⟩
  · rw [← h1.inserted]
    simp only [insertedRecords_append]
    have : insertedRecords [ResultCall.unPinPage true, ResultCall.flushFile] = [] := rfl
    rw [this, List.append_nil]
  · simp only [allocPageCount_append]
    rw [a1]
    simp only [allocPageCount_append]
    have e1 : allocPageCount [ResultCall.allocPage] = 1 := rfl
    have e2 : allocPageCount [ResultCall.unPinPage true, ResultCall.flushFile] = 0 := rfl
    rw [e1, e2]

theorem nlj_pages (idsLeft idsRight : List Nat) (rightPages : List (List String)) :
    ∀ (pages : List (List String)) (P : List String) (st : JoinState),
    NljInv idsLeft idsRight rightPages.flatten P st →
    NljInv idsLeft idsRight rightPages.flatten (P ++ pages.flatten)
      (pages.foldl (NestedLoopJoinOperator.leftPage idsLeft idsRight rightPages) st) ∧
    allocPageCount
        (pages.foldl (NestedLoopJoinOperator.leftPage idsLeft idsRight rightPages) st).calls
      = allocPageCount st.calls + pages.length := by
  intro pages
  induction pages with
  | nil => intro P st h; simpa using h
  | cons page rest ih =>
    intro P st h
    rw [List.foldl_cons]
    obtain ⟨h1, a1⟩ := nlj_page idsLeft idsRight rightPages page P st h
    obtain ⟨h2, a2⟩ := ih (P ++ page) _ h1
    refine ⟨?_, ?_⟩
    · simpa using h2
    · rw [a2, a1, List.length_cons]; omega

/-- What `NestedLoopJoinOperator::execute` does on an operator that is not yet
complete, in terms of the raw records. -/
theorem nlj_execute (op : JoinOperator) (hc : op.isComplete = false)
    (leftPages rightPages : List (List String)) :
    (NestedLoopJoinOperator.execute op leftPages rightPages).1 = true ∧
    (NestedLoopJoinOperator.execute op leftPages rightPages).2.1.isComplete = true ∧
    insertedRecords (NestedLoopJoinOperator.execute op leftPages rightPages).2.2
      = blockOutput (joinAttrsIDLeft op.leftTableSchema op.rightTableSchema)
          (joinAttrsIDRight op.leftTableSchema op.rightTableSchema)
          leftPages.flatten rightPages.flatten ∧
    (NestedLoopJoinOperator.execute op leftPages rightPages).2.1.numResultTuples
      = (blockOutput (joinAttrsIDLeft op.leftTableSchema op.rightTableSchema)
          (joinAttrsIDRight op.leftTableSchema op.rightTableSchema)
          leftPages.flatten rightPages.flatten).length ∧
    (NestedLoopJoinOperator.execute op leftPages rightPages).2.1.numIOs
      = (leftPages.flatten.length / blockSize) * (1 + rightPages.flatten.length) ∧
    (NestedLoopJoinOperator.execute op leftPages rightPages).2.1.numUsedBufPages
      = blockSize + 1 ∧
    allocPageCount (NestedLoopJoinOperator.execute op leftPages rightPages).2.2
      = leftPages.length := by
  unfold NestedLoopJoinOperator.execute
  simp only [hc, Bool.false_eq_true, if_false]
  have h0 : NljInv (joinAttrsIDLeft op.leftTableSchema op.rightTableSchema)
      (joinAttrsIDRight op.leftTableSchema op.rightTableSchema) rightPages.flatten []
      JoinState.init :=
    ⟨rfl, BufferMap.holds_nil _, rfl, rfl, by simp [JoinState.init]⟩
  obtain ⟨h1, a1⟩ := nlj_pages _ _ rightPages leftPages [] JoinState.init h0
  rw [List.nil_append] at h1
  refine ⟨trivial, trivial, h1.inserted, h1.tuples, h1.ios, trivial, ?_⟩
  rw [a1]
  simp [JoinState.init, allocPageCount]

/-! ## The blocks cover the first `50 * (n / 50)` records -/

theorem blocks_flatten (ls : List String) : ∀ q : Nat,
    ((List.range q).map (fun b => (ls.drop (blockSize * b)).take blockSize)).flatten
      = ls.take (blockSize * q) := by
  intro q
  induction q with
  | zero => simp
  | succ q ih =>
    rw [List.range_succ, List.map_append, List.flatten_append, ih, Nat.mul_succ, List.take_add]
    simp

theorem completeBlocks_flatten (ls : List String) :
    (completeBlocks ls).flatten = ls.take (blockSize * (ls.length / blockSize)) :=
  blocks_flatten ls _

theorem completeBlocks_take (ls : List String) :
    completeBlocks (ls.take (blockSize * (ls.length / blockSize))) = completeBlocks ls := by
  have hb : blockSize = 50 := rfl
  unfold completeBlocks
  have hlen : (ls.take (blockSize * (ls.length / blockSize))).length
      = blockSize * (ls.length / blockSize) := by
    rw [List.length_take]
    rw [hb]
    omega
  have hq : blockSize * (ls.length / blockSize) / blockSize = ls.length / blockSize := by
    rw [hb]
    omega
  rw [hlen, hq]
  apply List.map_congr_left
  intro b hbm
  have hlt := List.mem_range.mp hbm
  rw [List.drop_take, List.take_take]
  congr 1
  rw [hb] at hlt ⊢
  omega

theorem probeOutput_mem {idsLeft idsRight : List Nat} {ls rs : List String} {out : String}
    (h : out ∈ probeOutput idsLeft idsRight ls rs) :
    ∃ l ∈ ls, ∃ r ∈ rs, recordKey idsLeft l = recordKey idsRight r ∧
      out = joinedRecord idsRight l r := by
  unfold probeOutput at h
  obtain ⟨r, hr, hm⟩ := List.mem_flatMap.mp h
  obtain ⟨l, hl, rfl⟩ := List.mem_map.mp hm
  obtain ⟨hl1, hl2⟩ := List.mem_filter.mp hl
  exact ⟨l, hl1, r, hr, by simpa using hl2, rfl⟩

theorem probeOutput_append_left (idsLeft idsRight : List Nat) (a b : List String) (r : String) :
    probeOutput idsLeft idsRight (a ++ b) [r]
      = probeOutput idsLeft idsRight a [r] ++ probeOutput idsLeft idsRight b [r] := by
  simp [probeOutput, List.filter_append]

theorem probeOutput_eq_flatMap (idsLeft idsRight : List Nat) (ls rs : List String) :
    probeOutput idsLeft idsRight ls rs
      = rs.flatMap (fun r => probeOutput idsLeft idsRight ls [r]) := by
  simp [probeOutput]

/-- Probing block by block gives the records of the probe against all the
blocks at once, in another order. -/
theorem blocks_perm (idsLeft idsRight : List Nat) (rs : List String) :
    ∀ blocks : List (List String),
    (blocks.flatMap (fun blk => probeOutput idsLeft idsRight blk rs)).Perm
      (probeOutput idsLeft idsRight blocks.flatten rs) := by
  intro blocks
  induction blocks with
  | nil =>
    have : probeOutput idsLeft idsRight ([] : List (List String)).flatten rs = [] := by
      simp [probeOutput]
    rw [this]
    exact List.Perm.refl _
  | cons blk rest ih =>
    rw [List.flatMap_cons, List.flatten_cons]
    have h1 : probeOutput idsLeft idsRight (blk ++ rest.flatten) rs
        = rs.flatMap (fun r => probeOutput idsLeft idsRight blk [r]
            ++ probeOutput idsLeft idsRight rest.flatten [r]) := by
      rw [probeOutput_eq_flatMap]
      apply List.flatMap_congr
      intro r _
      exact probeOutput_append_left idsLeft idsRight blk rest.flatten r
    rw [h1]
    refine List.Perm.trans ?_ (List.flatMap_append_perm rs _ _)
    rw [← probeOutput_eq_flatMap, ← probeOutput_eq_flatMap]
    exact List.Perm.append_left _ ih

theorem onePerPage_flatten (tuples : List String) : (onePerPage tuples).flatten = tuples := by
  unfold onePerPage
  induction tuples with
  | nil => rfl
  | cons t rest ih => simp [ih]

/-- C19: for all inputs, with `n` left records, the block nested-loop join
returns `true` and inserts result records only for the first
`50 * (n / 50)` left records in file order: the inserted records are the probe
outputs of the complete blocks, they are the same as for the input cut after
the last complete block, and each of them joins a left record among the first
`50 * (n / 50)` with a right record of equal key.  When `n < 50` nothing is
inserted and `numResultTuples = 0`, whatever the right records are. -/
theorem C19_incomplete_block_not_probed (L R : TableSchema)
    (leftPages rightPages : List (List String)) :
    (NestedLoopJoinOperator.execute (JoinOperator.new L R) leftPages rightPages).1 = true ∧
    insertedRecords
        (NestedLoopJoinOperator.execute (JoinOperator.new L R) leftPages rightPages).2.2
      = blockOutput (joinAttrsIDLeft L R) (joinAttrsIDRight L R)
          (leftPages.flatten.take (blockSize * (leftPages.flatten.length / blockSize)))
          rightPages.flatten ∧
    (NestedLoopJoinOperator.execute (JoinOperator.new L R) leftPages rightPages).2.1.numResultTuples
      = (insertedRecords
          (NestedLoopJoinOperator.execute (JoinOperator.new L R) leftPages rightPages).2.2).length ∧
    (∀ out ∈ insertedRecords
        (NestedLoopJoinOperator.execute (JoinOperator.new L R) leftPages rightPages).2.2,
      ∃ l ∈ leftPages.flatten.take (blockSize * (leftPages.flatten.length / blockSize)),
      ∃ r ∈ rightPages.flatten,
        recordKey (joinAttrsIDLeft L R) l = recordKey (joinAttrsIDRight L R) r ∧
        out = joinedRecord (joinAttrsIDRight L R) l r) ∧
    (leftPages.flatten.length < 50 →
      insertedRecords
          (NestedLoopJoinOperator.execute (JoinOperator.new L R) leftPages rightPages).2.2 = [] ∧
      (NestedLoopJoinOperator.execute (JoinOperator.new L R) leftPages rightPages).2.1.numResultTuples
        = 0) := by
  obtain ⟨e1, _, e3, e4, _, _, _⟩ := nlj_execute (JoinOperator.new L R) rfl leftPages rightPages
  have hnew : (JoinOperator.new L R).leftTableSchema = L
      ∧ (JoinOperator.new L R).rightTableSchema = R := ⟨rfl, rfl⟩
  rw [hnew.1, hnew.2] at e3 e4
  have htake : blockOutput (joinAttrsIDLeft L R) (joinAttrsIDRight L R)
        (leftPages.flatten.take (blockSize * (leftPages.flatten.length / blockSize)))
        rightPages.flatten
      = blockOutput (joinAttrsIDLeft L R) (joinAttrsIDRight L R) leftPages.flatten
          rightPages.flatten := by
    unfold blockOutput
    rw [completeBlocks_take]
  refine ⟨e1, ?_, ?_, ?_, ?_⟩
  · rw [e3, htake]
  · rw [e3, e4]
  · intro out hout
    rw [e3] at hout
    unfold blockOutput at hout
    obtain ⟨blk, hblk, hm⟩ := List.mem_flatMap.mp hout
    obtain ⟨l, hl, r, hr, hk, ho⟩ := probeOutput_mem hm
    refine ⟨l, ?_, r, hr, hk, ho⟩
    rw [← completeBlocks_flatten]
    exact List.mem_flatten.mpr ⟨blk, hblk, hl⟩
  · intro hn
    have hzero : blockOutput (joinAttrsIDLeft L R) (joinAttrsIDRight L R) leftPages.flatten
        rightPages.flatten = [] := by
      unfold blockOutput completeBlocks
      have hb : blockSize = 50 := rfl
      have hq : leftPages.flatten.length / blockSize = 0 := by
        rw [hb]; omega
      rw [hq]
      rfl
    rw [e3, e4, hzero]
    exact ⟨rfl, rfl⟩

/-- Witness for C19: three rows of `r` and two rows of `s` that match; the
one-pass join inserts three records, the block nested-loop join none. -/
theorem C19_witness :
    (onePerPage (exLeftRows.map Row.record)).flatten.length < 50 ∧
    insertedRecords (OnePassJoinOperator.execute (JoinOperator.new exLeftSchema exRightSchema)
        (onePerPage (exLeftRows.map Row.record)) (onePerPage (exRightRows.map Row.record))).2.2
      = ["result\t'r0'\t0\t's0'\t", "result\t'r100'\t0\t's0'\t", "result\t'r1'\t1\t's1'\t"] ∧
    (insertedRecords
        (NestedLoopJoinOperator.execute (JoinOperator.new exLeftSchema exRightSchema)
          (onePerPage (exLeftRows.map Row.record))
          (onePerPage (exRightRows.map Row.record))).2.2 = [] ∧
     (NestedLoopJoinOperator.execute (JoinOperator.new exLeftSchema exRightSchema)
          (onePerPage (exLeftRows.map Row.record))
          (onePerPage (exRightRows.map Row.record))).2.1.numResultTuples = 0) :=
  ⟨by decide, by decide,
    (C19_incomplete_block_not_probed exLeftSchema exRightSchema
      (onePerPage (exLeftRows.map Row.record)) (onePerPage (exRightRows.map Row.record))).2.2.2.2
      (by decide)⟩

theorem digitChar_mem (m : Nat) (h : m < 10) : Nat.digitChar m ∈ "0123456789".data := by
  interval_cases m <;> decide

theorem toDigitsCore_digits : ∀ (fuel n : Nat) (ds : List Char),
    (∀ c ∈ ds, c ∈ "0123456789".data) →
    ∀ c ∈ Nat.toDigitsCore 10 fuel n ds, c ∈ "0123456789".data := by
  intro fuel
  induction fuel with
  | zero => intro n ds h; simpa [Nat.toDigitsCore] using h
  | succ fuel ih =>
    intro n ds h
    have hd : ∀ c ∈ Nat.digitChar (n % 10) :: ds, c ∈ "0123456789".data := by
      intro c hc
      rcases List.mem_cons.mp hc with rfl | hc
      · exact digitChar_mem _ (Nat.mod_lt _ (by decide))
      · exact h c hc
    unfold Nat.toDigitsCore
    simp only
    split
    · exact hd
    · exact ih _ _ hd

theorem toDigitsCore_ne_nil : ∀ (fuel n : Nat) (ds : List Char), ds ≠ [] →
    Nat.toDigitsCore 10 fuel n ds ≠ [] := by
  intro fuel
  induction fuel with
  | zero => intro n ds h; simpa [Nat.toDigitsCore] using h
  | succ fuel ih =>
    intro n ds _
    unfold Nat.toDigitsCore
    simp only
    split
    · exact List.cons_ne_nil _ _
    · exact ih _ _ (List.cons_ne_nil _ _)

/-- The characters of the decimal numeral of a number are digits. -/
theorem toString_digits (n : Nat) : ∀ c ∈ (toString n).data, c ∈ "0123456789".data := by
  have h : (toString n).data = Nat.toDigits 10 n := rfl
  rw [h]
  exact toDigitsCore_digits _ _ [] (fun c hc => absurd hc (List.not_mem_nil c))

theorem toString_ne_nil (n : Nat) : (toString n).data ≠ [] := by
  have h : (toString n).data = Nat.toDigits 10 n := rfl
  rw [h]
  unfold Nat.toDigits Nat.toDigitsCore
  simp only
  split
  · exact List.cons_ne_nil _ _
  · exact toDigitsCore_ne_nil _ _ _ (List.cons_ne_nil _ _)

/-- Two numbers below 100 with the same decimal numeral are equal. -/
theorem toString_inj_lt (a b : Nat) (ha : a < 100) (hb : b < 100)
    (h : (toString a : String) = toString b) : a = b := by
  have key : ∀ j ∈ List.range 100, decimalValue (toString j) = j := by decide
  have h1 := key a (List.mem_range.mpr ha)
  have h2 := key b (List.mem_range.mpr hb)
  rw [h] at h1
  rw [← h1, h2]

/-! ## The tuples of the driver -/

theorem stripLit_append : ∀ (lit rest : List Char), stripLit lit (lit ++ rest) = some rest := by
  intro lit
  induction lit with
  | nil => intro rest; cases rest <;> rfl
  | cons l lit ih =>
    intro rest
    simp only [List.cons_append, stripLit, if_true]
    exact ih rest

theorem stripSpace_space (cs : List Char) : stripSpace (' ' :: cs) = some cs := rfl

/-- The match of a statement of the shape `INSERT INTO name VALUES (values);`. -/
theorem matchInsert_shape (name vals : List Char) (hn : name ≠ [])
    (hnw : ∀ c ∈ name, isWordChar c = true) (hv : vals ≠ [])
    (hvv : ∀ c ∈ vals, isValueChar c = true) :
    matchInsert (String.mk ("INSERT".data ++ ' ' :: ("INTO".data ++ ' ' :: (name ++ ' ' ::
      ("VALUES".data ++ ' ' :: ("(".data ++ (vals ++ ");".data)))))))
      = some (String.mk name, String.mk vals) := by
  have h1 : (name ++ ' ' :: ("VALUES".data ++ ' ' :: ("(".data ++ (vals ++ ");".data)))).takeWhile
      isWordChar = name := by
    rw [takeWhile_append_all isWordChar name _ hnw]
    simp [List.takeWhile_cons, show isWordChar ' ' = false from rfl]
  have h2 : (name ++ ' ' :: ("VALUES".data ++ ' ' :: ("(".data ++ (vals ++ ");".data)))).dropWhile
      isWordChar = ' ' :: ("VALUES".data ++ ' ' :: ("(".data ++ (vals ++ ");".data))) := by
    rw [dropWhile_append_all isWordChar name _ hnw]
    simp [List.dropWhile_cons, show isWordChar ' ' = false from rfl]
  have h3 : (vals ++ ");".data).takeWhile isValueChar = vals := by
    rw [takeWhile_append_all isValueChar vals _ hvv]
    simp [show ");".data = [')', ';'] from rfl, List.takeWhile_cons,
      show isValueChar ')' = false from rfl]
  have h4 : (vals ++ ");".data).dropWhile isValueChar = ");".data := by
    rw [dropWhile_append_all isValueChar vals _ hvv]
    simp [show ");".data = [')', ';'] from rfl, List.dropWhile_cons,
      show isValueChar ')' = false from rfl]
  have hne1 : name.isEmpty = false := by
    cases name with
    | nil => exact absurd rfl hn
    | cons _ _ => rfl
  have hne2 : vals.isEmpty = false := by
    cases vals with
    | nil => exact absurd rfl hv
    | cons _ _ => rfl
  unfold matchInsert
  simp only [stripLit_append, stripSpace_space, h1, h2, h3, h4, hne1, hne2, and_self, if_true]

theorem splitCommaSpace_cons2 (c d : Char) (rest cur : List Char) :
    splitCommaSpace (c :: d :: rest) cur
      = if c = ',' ∧ d = ' ' then String.mk cur :: splitCommaSpace rest []
        else splitCommaSpace (d :: rest) (cur ++ [c]) := rfl

/-- A part without comma before an occurrence of `", "` is the next element. -/
theorem splitCommaSpace_part : ∀ (a b cur : List Char), ',' ∉ a →
    splitCommaSpace (a ++ ',' :: ' ' :: b) cur
      = String.mk (cur ++ a) :: splitCommaSpace b [] := by
  intro a
  induction a with
  | nil =>
    intro b cur _
    rw [List.nil_append, splitCommaSpace_cons2, if_pos ⟨rfl, rfl⟩, List.append_nil]
  | cons x rest ih =>
    intro b cur h
    have hx : x ≠ ',' := fun e => h (e ▸ List.mem_cons_self _ _)
    have hrest : ',' ∉ rest := fun e => h (List.mem_cons_of_mem _ e)
    have hstep : splitCommaSpace (x :: rest ++ ',' :: ' ' :: b) cur
        = splitCommaSpace (rest ++ ',' :: ' ' :: b) (cur ++ [x]) := by
      cases rest with
      | nil =>
        rw [List.cons_append, List.nil_append, splitCommaSpace_cons2,
          if_neg (fun e => hx e.1)]
      | cons y ys =>
        rw [List.cons_append, List.cons_append, splitCommaSpace_cons2,
          if_neg (fun e => hx e.1)]
    rw [hstep, ih b (cur ++ [x]) hrest, List.append_assoc, List.singleton_append]

/-- A string without comma is the last element. -/
theorem splitCommaSpace_last : ∀ (b cur : List Char), ',' ∉ b →
    splitCommaSpace b cur = [String.mk (cur ++ b)] := by
  intro b
  induction b with
  | nil => intro cur _; simp [splitCommaSpace]
  | cons x rest ih =>
    intro cur h
    have hx : x ≠ ',' := fun e => h (e ▸ List.mem_cons_self _ _)
    have hrest : ',' ∉ rest := fun e => h (List.mem_cons_of_mem _ e)
    cases rest with
    | nil => simp [splitCommaSpace]
    | cons y ys =>
      rw [splitCommaSpace_cons2, if_neg (fun e => hx e.1), ih (cur ++ [x]) hrest,
        List.append_assoc, List.singleton_append]

theorem digits_facts : ∀ c ∈ "0123456789".data,
    isValueChar c = true ∧ c ≠ ',' ∧ c ≠ '\t' := by decide

/-- The tuple built from `INSERT INTO name VALUES (a, b);` when `a` and `b`
are made of characters of the value class other than the comma. -/
theorem createTuple_two (name a b : List Char) (hn : name ≠ [])
    (hnw : ∀ c ∈ name, isWordChar c = true) (ha0 : a ≠ [])
    (ha : ∀ c ∈ a, isValueChar c = true ∧ c ≠ ',')
    (hb : ∀ c ∈ b, isValueChar c = true ∧ c ≠ ',') :
    createTupleFromSQLStatement (String.mk ("INSERT".data ++ ' ' :: ("INTO".data ++ ' ' ::
      (name ++ ' ' :: ("VALUES".data ++ ' ' :: ("(".data ++ ((a ++ ',' :: ' ' :: b)
        ++ ");".data)))))))
      = composeTuple (String.mk name) [String.mk a, String.mk b] := by
  have hvals : ∀ c ∈ a ++ ',' :: ' ' :: b, isValueChar c = true := by
    intro c hc
    rcases List.mem_append.mp hc with h | h
    · exact (ha c h).1
    · rcases List.mem_cons.mp h with rfl | h
      · rfl
      · rcases List.mem_cons.mp h with rfl | h
        · rfl
        · exact (hb c h).1
  have hne : a ++ ',' :: ' ' :: b ≠ [] := by
    cases a with
    | nil => exact absurd rfl ha0
    | cons _ _ => exact List.cons_ne_nil _ _
  unfold createTupleFromSQLStatement
  rw [matchInsert_shape name _ hn hnw hne hvals]
  simp only
  rw [splitCommaSpace_part a b [] (fun h => (ha _ h).2 rfl),
    splitCommaSpace_last b [] (fun h => (hb _ h).2 rfl)]
  rfl

/-- The tuple of row `i` of the driver's table `r`: the quotes of the
statement stay in the first value. -/
theorem driverLeftTuple_eq (i : Nat) :
    createTupleFromSQLStatement (driverLeftSQL i)
      = Row.record { tableName := "r",
                     values := ["'r" ++ toString i ++ "'", toString (i % 100)] } := by
  have hsql : driverLeftSQL i
      = String.mk ("INSERT".data ++ ' ' :: ("INTO".data ++ ' ' ::
          ("r".data ++ ' ' :: ("VALUES".data ++ ' ' :: ("(".data ++
            ((("'r" ++ toString i ++ "'").data ++ ',' :: ' ' :: (toString (i % 100)).data)
              ++ ");".data)))))) := by
    apply String.ext
    simp only [driverLeftSQL, String.data_append, List.append_assoc]
    rfl
  rw [hsql, createTuple_two "r".data _ _ (by decide) (by decide)]
  · rfl
  · simp only [String.data_append]
    exact fun h => by simp at h
  · intro c hc
    simp only [String.data_append, List.mem_append] at hc
    rcases hc with (hc | hc) | hc
    · have : ∀ c ∈ "'r".data, isValueChar c = true ∧ c ≠ ',' := by decide
      exact this c hc
    · have := digits_facts c (toString_digits i c hc)
      exact ⟨this.1, this.2.1⟩
    · have : ∀ c ∈ "'".data, isValueChar c = true ∧ c ≠ ',' := by decide
      exact this c hc
  · intro c hc
    have := digits_facts c (toString_digits (i % 100) c hc)
    exact ⟨this.1, this.2.1⟩

/-- The tuple of row `i` of the driver's table `s`. -/
theorem driverRightTuple_eq (i : Nat) :
    createTupleFromSQLStatement (driverRightSQL i)
      = Row.record { tableName := "s",
                     values := [toString i, "'s" ++ toString i ++ "'"] } := by
  have hsql : driverRightSQL i
      = String.mk ("INSERT".data ++ ' ' :: ("INTO".data ++ ' ' ::
          ("s".data ++ ' ' :: ("VALUES".data ++ ' ' :: ("(".data ++
            (((toString i).data ++ ',' :: ' ' :: ("'s" ++ toString i ++ "'").data)
              ++ ");".data)))))) := by
    apply String.ext
    simp only [driverRightSQL, String.data_append, List.append_assoc]
    simp
  rw [hsql, createTuple_two "s".data _ _ (by decide) (by decide)]
  · rfl
  · exact toString_ne_nil i
  · intro c hc
    have := digits_facts c (toString_digits i c hc)
    exact ⟨this.1, this.2.1⟩
  · intro c hc
    simp only [String.data_append, List.mem_append] at hc
    rcases hc with (hc | hc) | hc
    · have : ∀ c ∈ "'s".data, isValueChar c = true ∧ c ≠ ',' := by decide
      exact this c hc
    · have := digits_facts c (toString_digits i c hc)
      exact ⟨this.1, this.2.1⟩
    · have : ∀ c ∈ "'".data, isValueChar c = true ∧ c ≠ ',' := by decide
      exact this c hc

theorem driverLeftTuples_eq : driverLeftTuples = driverLeftRows.map Row.record := by
  unfold driverLeftTuples driverLeftRows
  rw [List.map_map]
  apply List.map_congr_left
  intro i _
  exact driverLeftTuple_eq i

theorem driverRightTuples_eq : driverRightTuples = driverRightRows.map Row.record := by
  unfold driverRightTuples driverRightRows
  rw [List.map_map]
  apply List.map_congr_left
  intro i _
  exact driverRightTuple_eq i

/-! ## The one-pass join on the driver's tables -/

theorem probeOutput_single_length (idsLeft idsRight : List Nat) (l : String) :
    ∀ rs : List String,
    (probeOutput idsLeft idsRight [l] rs).length
      = rs.countP (fun r => decide (recordKey idsLeft l = recordKey idsRight r)) := by
  intro rs
  induction rs with
  | nil => simp [probeOutput]
  | cons r rest ih =>
    rw [probeOutput_cons, List.length_append, ih, List.countP_cons, Nat.add_comm]
    congr 1
    by_cases h : recordKey idsLeft l = recordKey idsRight r <;> simp [probeOutput, h]

/-- The number of records a probe inserts, counted left record by left
record. -/
theorem probeOutput_length (idsLeft idsRight : List Nat) (ls rs : List String) :
    (probeOutput idsLeft idsRight ls rs).length
      = (ls.map (fun l =>
          rs.countP (fun r => decide (recordKey idsLeft l = recordKey idsRight r)))).sum := by
  have hperm := blocks_perm idsLeft idsRight rs (onePerPage ls)
  rw [onePerPage_flatten] at hperm
  rw [← hperm.length_eq]
  unfold onePerPage
  rw [List.flatMap_map, List.length_flatMap]
  congr 1
  apply List.map_congr_left
  intro l _
  exact probeOutput_single_length idsLeft idsRight l rs

theorem sum_map_one {α : Type} (f : α → Nat) : ∀ l : List α, (∀ x ∈ l, f x = 1) →
    (l.map f).sum = l.length := by
  intro l
  induction l with
  | nil => intro _; rfl
  | cons a rest ih =>
    intro h
    rw [List.map_cons, List.sum_cons, h a (List.mem_cons_self _ _),
      ih (fun x hx => h x (List.mem_cons_of_mem _ hx)), List.length_cons]
    omega

theorem isField_toString (n : Nat) : isField (toString n) = true := by
  rw [isField_iff]
  refine ⟨toString_ne_nil n, ?_⟩
  intro c hc
  have h := (digits_facts c (toString_digits n c hc)).2.2
  have ht : "\t".data = ['\t'] := rfl
  rw [ht]
  simp only [List.contains_eq_any_beq, List.any_eq_false, beq_iff_eq, List.mem_singleton]
  intro y hy
  subst hy
  exact h

theorem isField_quoted (q : String) (hq : ∀ c ∈ q.data, c ≠ '\t') (hne : q.data ≠ []) (n : Nat) :
    isField (q ++ toString n ++ "'") = true := by
  rw [isField_iff]
  have ht : "\t".data = ['\t'] := rfl
  refine ⟨?_, ?_⟩
  · simp only [String.data_append]
    intro h
    simp only [List.append_eq_nil] at h
    exact hne h.1.1
  · intro c hc
    rw [ht]
    simp only [List.contains_eq_any_beq, List.any_eq_false, beq_iff_eq, List.mem_singleton]
    intro y hy
    subst hy
    simp only [String.data_append, List.mem_append] at hc
    rcases hc with (hc | hc) | hc
    · exact hq c hc
    · exact (digits_facts c (toString_digits n c hc)).2.2
    · have : ∀ c ∈ "'".data, c ≠ '\t' := by decide
      exact this c hc

theorem driverLeft_split (row : Row) (h : row ∈ driverLeftRows) :
    split row.record "\t" = row.tableName :: row.values := by
  unfold driverLeftRows at h
  obtain ⟨i, _, rfl⟩ := List.mem_map.mp h
  apply split_row
  · show isField "r" = true
    decide
  · intro v hv
    simp only [List.mem_cons, List.mem_singleton, List.not_mem_nil, or_false] at hv
    rcases hv with rfl | rfl
    · exact isField_quoted "'r" (by decide) (by decide) i
    · exact isField_toString _

theorem driverRight_split (row : Row) (h : row ∈ driverRightRows) :
    split row.record "\t" = row.tableName :: row.values := by
  unfold driverRightRows at h
  obtain ⟨i, _, rfl⟩ := List.mem_map.mp h
  apply split_row
  · show isField "s" = true
    decide
  · intro v hv
    simp only [List.mem_cons, List.mem_singleton, List.not_mem_nil, or_false] at hv
    rcases hv with rfl | rfl
    · exact isField_toString _
    · exact isField_quoted "'s" (by decide) (by decide) i

theorem join_single (x : String) : String.join [x] = x := by
  rw [join_cons]
  exact String.append_empty x

theorem driver_ids :
    joinAttrsIDLeft exLeftSchema exRightSchema = [1] ∧
    joinAttrsIDRight exLeftSchema exRightSchema = [0] := by decide

/-- The records the one-pass join inserts on the driver's tables. -/
theorem driver_inserted :
    insertedRecords (OnePassJoinOperator.execute (JoinOperator.new exLeftSchema exRightSchema)
        (onePerPage driverLeftTuples) (onePerPage driverRightTuples)).2.2
      = expectedJoin [1] [0] driverLeftRows driverRightRows := by
  obtain ⟨_, _, e3, _⟩ := opj_execute (JoinOperator.new exLeftSchema exRightSchema) rfl
    (onePerPage driverLeftTuples) (onePerPage driverRightTuples)
  have hnew : (JoinOperator.new exLeftSchema exRightSchema).leftTableSchema = exLeftSchema
      ∧ (JoinOperator.new exLeftSchema exRightSchema).rightTableSchema = exRightSchema :=
    ⟨rfl, rfl⟩
  rw [e3, hnew.1, hnew.2, driver_ids.1, driver_ids.2, onePerPage_flatten, onePerPage_flatten,
    driverLeftTuples_eq, driverRightTuples_eq]
  exact probeOutput_rows [1] [0] driverLeftRows driverRightRows driverLeft_split
    driverRight_split

/-! ## The result of the one-pass join on the driver's tables -/

theorem leftRow_split (i : Nat) :
    split (Row.record { tableName := "r",
                        values := ["'r" ++ toString i ++ "'", toString (i % 100)] }) "\t"
      = ["r", "'r" ++ toString i ++ "'", toString (i % 100)] := by
  apply split_row
  · show isField "r" = true
    decide
  · intro v hv
    simp only [List.mem_cons, List.mem_singleton, List.not_mem_nil, or_false] at hv
    rcases hv with rfl | rfl
    · exact isField_quoted "'r" (by decide) (by decide) i
    · exact isField_toString _

theorem rightRow_split (j : Nat) :
    split (Row.record { tableName := "s",
                        values := [toString j, "'s" ++ toString j ++ "'"] }) "\t"
      = ["s", toString j, "'s" ++ toString j ++ "'"] := by
  apply split_row
  · show isField "s" = true
    decide
  · intro v hv
    simp only [List.mem_cons, List.mem_singleton, List.not_mem_nil, or_false] at hv
    rcases hv with rfl | rfl
    · exact isField_toString _
    · exact isField_quoted "'s" (by decide) (by decide) j

theorem driverLeft_key (i : Nat) :
    recordKey [1] (createTupleFromSQLStatement (driverLeftSQL i)) = toString (i % 100) := by
  rw [driverLeftTuple_eq]
  unfold recordKey
  rw [leftRow_split, joinKey_row]
  exact join_single _

theorem driverRight_key (j : Nat) :
    recordKey [0] (createTupleFromSQLStatement (driverRightSQL j)) = toString j := by
  rw [driverRightTuple_eq]
  unfold recordKey
  rw [rightRow_split, joinKey_row]
  exact join_single _

/-- Every left tuple of the driver has exactly one right tuple with its key. -/
theorem driver_matches (i : Nat) :
    driverRightTuples.countP (fun r => decide
      (recordKey [1] (createTupleFromSQLStatement (driverLeftSQL i)) = recordKey [0] r)) = 1 := by
  unfold driverRightTuples
  rw [List.countP_map, driverLeft_key]
  have hm : i % 100 < 100 := Nat.mod_lt _ (by decide)
  have hcongr : List.countP ((fun r => decide ((toString (i % 100) : String) = recordKey [0] r))
        ∘ fun j => createTupleFromSQLStatement (driverRightSQL j)) (List.range 100)
      = List.countP (fun j => j == i % 100) (List.range 100) := by
    apply List.countP_congr
    intro j hj
    have hj2 := List.mem_range.mp hj
    simp only [Function.comp, driverRight_key, decide_eq_true_eq, beq_iff_eq]
    constructor
    · intro h
      exact (toString_inj_lt _ _ hm hj2 h).symm
    · intro h
      rw [h]
  rw [hcongr]
  exact List.count_eq_one_of_mem (List.nodup_range 100) (List.mem_range.mpr hm)

theorem driver_count :
    (probeOutput [1] [0] driverLeftTuples driverRightTuples).length = 500 := by
  rw [probeOutput_length, sum_map_one]
  · simp [driverLeftTuples]
  · intro l hl
    unfold driverLeftTuples at hl
    obtain ⟨i, _, rfl⟩ := List.mem_map.mp hl
    exact driver_matches i

theorem driver_joined (i : Nat) :
    Row.joined [0]
        { tableName := "r", values := ["'r" ++ toString i ++ "'", toString (i % 100)] }
        { tableName := "s",
          values := [toString (i % 100), "'s" ++ toString (i % 100) ++ "'"] }
      = "result\t" ++ ("'r" ++ toString i ++ "'") ++ "\t" ++ toString (i % 100) ++ "\t"
          ++ ("'s" ++ toString (i % 100) ++ "'") ++ "\t" := by
  have hn : nonJoinValues [0] [toString (i % 100), "'s" ++ toString (i % 100) ++ "'"]
      = ["'s" ++ toString (i % 100) ++ "'"] := rfl
  have hj : String.join [] = "" := rfl
  unfold Row.joined
  rw [hn]
  simp only [tabTerminated, List.map_cons, List.map_nil, join_cons, hj, String.append_empty,
    String.append_assoc]

/-- The record of left row `i` is among the expected records. -/
theorem driver_mem (i : Nat) (hi : i < 500) :
    "result\t" ++ ("'r" ++ toString i ++ "'") ++ "\t" ++ toString (i % 100) ++ "\t"
        ++ ("'s" ++ toString (i % 100) ++ "'") ++ "\t"
      ∈ expectedJoin [1] [0] driverLeftRows driverRightRows := by
  unfold expectedJoin
  rw [List.mem_flatMap]
  refine ⟨{ tableName := "s",
            values := [toString (i % 100), "'s" ++ toString (i % 100) ++ "'"] }, ?_, ?_⟩
  · unfold driverRightRows
    exact List.mem_map.mpr ⟨i % 100, List.mem_range.mpr (Nat.mod_lt _ (by decide)), rfl⟩
  · rw [List.mem_map]
    refine ⟨{ tableName := "r",
              values := ["'r" ++ toString i ++ "'", toString (i % 100)] }, ?_,
            driver_joined i⟩
    rw [List.mem_filter]
    refine ⟨?_, ?_⟩
    · unfold driverLeftRows
      exact List.mem_map.mpr ⟨i, List.mem_range.mpr hi, rfl⟩
    · simp only [decide_eq_true_eq]
      rfl

/-- Every expected record has the quote of the first left value right after
`"result\t"`. -/
theorem driver_eighth_char (out : String)
    (h : out ∈ expectedJoin [1] [0] driverLeftRows driverRightRows) :
    out.data.getD 7 'x' = Char.ofNat 39 := by
  unfold expectedJoin at h
  obtain ⟨r, _, hm⟩ := List.mem_flatMap.mp h
  obtain ⟨l, hl, rfl⟩ := List.mem_map.mp hm
  have hl2 := (List.mem_filter.mp hl).1
  unfold driverLeftRows at hl2
  obtain ⟨i, _, rfl⟩ := List.mem_map.mp hl2
  unfold Row.joined
  simp only [tabTerminated, List.map_cons, join_cons, String.data_append]
  rfl

/-- Counterexample for C17 as stated: the record `"result\tr0\t0\ts0"` the
claim expects for left row 0 is not among the records the one-pass join inserts
on the driver's tables; the record inserted for that row keeps the quotes of
the SQL values and ends with a tab. -/
theorem C17_counterexample :
    "result\tr0\t0\ts0" ∉
      insertedRecords (OnePassJoinOperator.execute (JoinOperator.new exLeftSchema exRightSchema)
        (onePerPage driverLeftTuples) (onePerPage driverRightTuples)).2.2 ∧
    "result\t'r0'\t0\t's0'\t" ∈
      insertedRecords (OnePassJoinOperator.execute (JoinOperator.new exLeftSchema exRightSchema)
        (onePerPage driverLeftTuples) (onePerPage driverRightTuples)).2.2 := by
  rw [driver_inserted]
  refine ⟨?_, ?_⟩
  · intro h
    have h8 := driver_eighth_char _ h
    exact absurd h8 (by decide)
  · have h := driver_mem 0 (by decide)
    have e : "result\t" ++ ("'r" ++ toString 0 ++ "'") ++ "\t" ++ toString (0 % 100) ++ "\t"
        ++ ("'s" ++ toString (0 % 100) ++ "'") ++ "\t" = "result\t'r0'\t0\t's0'\t" := by decide
    rw [e] at h
    exact h

/-- C17 (amended): on the driver's tables (500 rows of `r` built from
`INSERT INTO r VALUES ('r{i}', {i mod 100});`, 100 rows of `s` built from
`INSERT INTO s VALUES ({i}, 's{i}');`, schemas `r(a, b)` and `s(b, c)`, one tuple
per page) the one-pass join inserts exactly 500 records and reports
`numResultTuples = 500`, and for each left row `i` in `0..499` the output
includes the record `"result\t'r{i}'\t{i%100}\t's{i%100}'\t"`: the values keep
the quotes of the SQL statement and every value is followed by a tab. -/
theorem C17_driver_one_pass_join :
    (OnePassJoinOperator.execute (JoinOperator.new exLeftSchema exRightSchema)
        (onePerPage driverLeftTuples) (onePerPage driverRightTuples)).2.1.numResultTuples = 500 ∧
    (insertedRecords (OnePassJoinOperator.execute (JoinOperator.new exLeftSchema exRightSchema)
        (onePerPage driverLeftTuples) (onePerPage driverRightTuples)).2.2).length = 500 ∧
    ∀ i, i < 500 →
      "result\t'r" ++ toString i ++ "'\t" ++ toString (i % 100) ++ "\t's"
          ++ toString (i % 100) ++ "'\t" ∈
        insertedRecords (OnePassJoinOperator.execute
          (JoinOperator.new exLeftSchema exRightSchema)
          (onePerPage driverLeftTuples) (onePerPage driverRightTuples)).2.2 := by
  obtain ⟨_, _, e3, e4, _⟩ := opj_execute (JoinOperator.new exLeftSchema exRightSchema) rfl
    (onePerPage driverLeftTuples) (onePerPage driverRightTuples)
  have hnew : (JoinOperator.new exLeftSchema exRightSchema).leftTableSchema = exLeftSchema
      ∧ (JoinOperator.new exLeftSchema exRightSchema).rightTableSchema = exRightSchema :=
    ⟨rfl, rfl⟩
  rw [hnew.1, hnew.2, driver_ids.1, driver_ids.2, onePerPage_flatten, onePerPage_flatten]
    at e3 e4
  refine ⟨?_, ?_, ?_⟩
  · rw [e4]; exact driver_count
  · rw [e3]; exact driver_count
  · intro i hi
    rw [driver_inserted]
    have h := driver_mem i hi
    have e1 : ("result\t'r" : String) = "result\t" ++ "'r" := by decide
    have e2 : ("'\t" : String) = "'" ++ "\t" := by decide
    have e3 : ("\t's" : String) = "\t" ++ "'s" := by decide
    rw [e1, e2, e3]
    simp only [String.append_assoc] at h ⊢
    exact h

/-- Witness for C17: left row 123. -/
theorem C17_witness :
    123 < 500 ∧
    "result\t'r" ++ toString 123 ++ "'\t" ++ toString (123 % 100) ++ "\t's"
        ++ toString (123 % 100) ++ "'\t" ∈
      insertedRecords (OnePassJoinOperator.execute
        (JoinOperator.new exLeftSchema exRightSchema)
        (onePerPage driverLeftTuples) (onePerPage driverRightTuples)).2.2 :=
  ⟨by decide, C17_driver_one_pass_join.2.2 123 (by decide)⟩

/-! ## The fuel of `split` is enough -/

theorem dropWhile_head_false {α : Type} (p : α → Bool) : ∀ (l : List α) (c : α) (cs : List α),
    l.dropWhile p = c :: cs → p c = false := by
  intro l
  induction l with
  | nil => intro c cs h; cases h
  | cons a rest ih =>
    intro c cs h
    rw [List.dropWhile_cons] at h
    cases hp : p a
    · simp only [hp, Bool.false_eq_true, if_false, List.cons.injEq] at h
      rw [← h.1]
      exact hp
    · simp only [hp, if_true] at h
      exact ih c cs h

theorem length_dropWhile_le_self {α : Type} (p : α → Bool) (l : List α) :
    (l.dropWhile p).length ≤ l.length := by
  induction l with
  | nil => simp
  | cons a rest ih =>
    rw [List.dropWhile_cons]
    split
    · exact Nat.le_trans ih (Nat.le_succ _)
    · exact Nat.le_refl _

/-- More fuel than the string is long does not change the runs found. -/
theorem tokensUpTo_stable (isDelim : Char → Bool) : ∀ (n m : Nat) (l : List Char),
    l.length < n → l.length < m → tokensUpTo isDelim n l = tokensUpTo isDelim m l := by
  intro n
  induction n with
  | zero => intro m l h _; exact absurd h (Nat.not_lt_zero _)
  | succ n ih =>
    intro m l hn hm
    cases m with
    | zero => exact absurd hm (Nat.not_lt_zero _)
    | succ m =>
      rw [tokensUpTo_succ, tokensUpTo_succ]
      cases hd : l.dropWhile isDelim with
      | nil => rfl
      | cons c cs =>
        simp only
        have hc : isDelim c = false := dropWhile_head_false isDelim l c cs hd
        have h1 : (c :: cs).length ≤ l.length := by
          rw [← hd]
          exact length_dropWhile_le_self isDelim l
        have h2 : ((c :: cs).dropWhile (fun x => !isDelim x)).length ≤ cs.length := by
          rw [List.dropWhile_cons]
          simp only [hc, Bool.not_false, if_true]
          exact length_dropWhile_le_self _ cs
        have h3 : ((c :: cs).dropWhile (fun x => !isDelim x)).length < n := by
          rw [List.length_cons] at h1
          omega
        have h4 : ((c :: cs).dropWhile (fun x => !isDelim x)).length < m := by
          rw [List.length_cons] at h1
          omega
        rw [ih m _ h3 h4]

/-- With any fuel above the length of the string the loop of `split` returns
what `split` returns: the loop of the code has stopped by then. -/
theorem splitLoop_enough_fuel (str delimiters : String) (fuel : Nat)
    (h : str.length < fuel) :
    splitLoop str delimiters fuel (find_first_not_of str delimiters (some 0))
        (find_first_of str delimiters (find_first_not_of str delimiters (some 0))) []
      = split str delimiters := by
  rw [split_eq_tokens, splitLoop_eq]
  unfold tokens
  simp only [List.nil_append, List.drop_zero]
  rw [tokensUpTo_stable _ fuel (str.length + 1) str.data h (Nat.lt_succ_self _)]

/-! ## Counters of the block nested-loop join -/

theorem completeBlocks_length (ls : List String) :
    (completeBlocks ls).length = ls.length / blockSize := by
  unfold completeBlocks
  simp

theorem onePerPage_length (tuples : List String) : (onePerPage tuples).length = tuples.length := by
  unfold onePerPage
  simp

/-- Counterexample for C21 as stated: on the driver's tables (500 left records,
one per page, hence 10 blocks of 50) the block nested-loop join calls
`allocPage` 500 times, not 10 times. -/
theorem C21_counterexample :
    allocPageCount (NestedLoopJoinOperator.execute (JoinOperator.new exLeftSchema exRightSchema)
        (onePerPage driverLeftTuples) (onePerPage driverRightTuples)).2.2 = 500 ∧
    (completeBlocks (onePerPage driverLeftTuples).flatten).length = 10 ∧
    (onePerPage driverLeftTuples).flatten.length / 50 = 10 := by
  obtain ⟨_, _, _, _, _, _, e7⟩ := nlj_execute (JoinOperator.new exLeftSchema exRightSchema) rfl
    (onePerPage driverLeftTuples) (onePerPage driverRightTuples)
  refine ⟨?_, ?_, ?_⟩
  · rw [e7, onePerPage_length]
    simp [driverLeftTuples]
  · rw [completeBlocks_length, onePerPage_flatten]
    simp [driverLeftTuples, blockSize]
  · rw [onePerPage_flatten]
    simp [driverLeftTuples]

/-- C22: for all inputs with `n` left records and `m` right records, after the
block nested-loop join has run, `numIOs = (n / 50) * (1 + m)`: one increment
per block boundary and one per right record in each of the `n / 50` probe
passes. -/
theorem C22_nested_loop_numIOs (L R : TableSchema) (leftPages rightPages : List (List String)) :
    (NestedLoopJoinOperator.execute (JoinOperator.new L R) leftPages rightPages).1 = true ∧
    (NestedLoopJoinOperator.execute (JoinOperator.new L R) leftPages rightPages).2.1.numIOs
      = (leftPages.flatten.length / 50) * (1 + rightPages.flatten.length) := by
  obtain ⟨e1, _, _, _, e5, _, _⟩ := nlj_execute (JoinOperator.new L R) rfl leftPages rightPages
  exact ⟨e1, e5⟩

/-! ## What a failing `unPinPage` and a `disposePage` leave behind -/

theorem set_getD_self {α : Type} (l : List α) (i : Nat) (d : α) (h : i < l.length) :
    l.set i (l.getD i d) = l := by
  apply List.ext_getElem
  · simp
  · intro n h1 h2
    by_cases hn : i = n
    · subst hn
      simp [List.getD_eq_getElem?_getD, List.getElem?_eq_getElem h]
    · simp [List.getElem_set_ne hn]

/-- The result of `unPinPage` on a cached page whose frame is not pinned. -/
theorem unPinPage_unpinned {s : BufMgr} {file : File} {p : PageId} {k : FrameId} (d : Bool)
    (hl : s.hashTable.lookup file p = some k) (hp : (s.desc k).pinCnt = 0) :
    s.unPinPage file p d
      = (.error (Exn.PageNotPinned file.filename p k),
         { s with bufDescTable :=
             s.bufDescTable.set k (if d = true then { s.desc k with dirty := true }
                                   else s.desc k) }) := by
  unfold BufMgr.unPinPage
  cases d <;> simp [hl, hp]

/-- C29: `unPinPage` is not state-preserving when it fails.  In a reachable
state, for a page cached in a frame `k` with `pinCnt = 0`,
`unPinPage(F, p, true)` fails with `PageNotPinned` and leaves the dirty flag of
the frame set, every other part of the state unchanged, so that a page that was
clean is written back by a later `flushFile(F)`, which would not have written
it otherwise; `unPinPage(F, p, false)` fails and leaves the state unchanged. -/
theorem C29_unPinPage_failure_sets_dirty (seatRef : Bool) (s : BufMgr) (h : Reachable seatRef s)
    (file : File) (p : PageId) (k : FrameId) (hc : s.caches k file.filename p)
    (hp : (s.desc k).pinCnt = 0) :
    (s.unPinPage file p true).1 = .error (Exn.PageNotPinned file.filename p k) ∧
    ((s.unPinPage file p true).2.desc k) = { s.desc k with dirty := true } ∧
    (∀ j, j ≠ k → (s.unPinPage file p true).2.desc j = s.desc j) ∧
    (s.unPinPage file p true).2.bufPool = s.bufPool ∧
    (s.unPinPage file p true).2.hashTable = s.hashTable ∧
    (s.unPinPage file p true).2.clockHand = s.clockHand ∧
    (s.unPinPage file p true).2.disk = s.disk ∧
    s.unPinPage file p false = (.error (Exn.PageNotPinned file.filename p k), s) ∧
    ((s.desc k).dirty = false →
      (∀ s2, (s.unPinPage file p true).2.flushFile file = (.ok (), s2) →
        s2.writeCount file.filename p = s.writeCount file.filename p + 1) ∧
      (∀ s3, s.flushFile file = (.ok (), s3) →
        s3.writeCount file.filename p = s.writeCount file.filename p)) := by
  have w := h.well_formed
  have hk := caches_lt hc
  have hl := w.lookup_of_caches hk hc
  have e1 := unPinPage_unpinned true hl hp
  have e2 := unPinPage_unpinned false hl hp
  simp only [if_true] at e1
  simp only [Bool.false_eq_true, if_false] at e2
  have hself : s.bufDescTable.set k (s.desc k) = s.bufDescTable := set_getD_self _ _ _ hk
  rw [hself] at e2
  have hd : ∀ j, (s.unPinPage file p true).2.desc j
      = if k = j ∧ k < s.numBufs then { s.desc k with dirty := true } else s.desc j := by
    rw [e1]
    exact desc_of_set rfl
  refine ⟨by rw [e1], ?_, ?_, by rw [e1], by rw [e1], by rw [e1], by rw [e1], e2, ?_⟩
  · rw [hd k, if_pos ⟨rfl, hk⟩]
  · intro j hj
    rw [hd j, if_neg (fun hh => hj hh.1.symm)]
  · intro hclean
    refine ⟨?_, ?_⟩
    · intro s2 hf
      have w1 : (s.unPinPage file p true).2.WF := unPinPage_wf w file p true
      have hc1 : (s.unPinPage file p true).2.caches k file.filename p := by
        obtain ⟨hv, hpn, g, hg, hfn⟩ := hc
        have hdk : (s.unPinPage file p true).2.desc k = { s.desc k with dirty := true } := by
          rw [hd k, if_pos ⟨rfl, hk⟩]
        refine ⟨?_, ?_, g, ?_, hfn⟩
        · rw [hdk]; exact hv
        · rw [hdk]; exact hpn
        · rw [hdk]; exact hg
      have hdirty : ((s.unPinPage file p true).2.desc k).dirty = true := by
        rw [hd k, if_pos ⟨rfl, hk⟩]
      have hcount := (flushFile_ok_facts w1 hf).2.2.1 k p hc1 hdirty
      rw [hcount]
      have : (s.unPinPage file p true).2.writeCount file.filename p
          = s.writeCount file.filename p := by
        rw [e1]; rfl
      rw [this]
    · intro s3 hf
      exact ((flushFile_ok_facts w hf).2.2.2 k p hc hclean).1

/-- Witness for C29: the pool `exTwoFrames`, whose frame 0 caches page 3 of
`r.tbl`, clean and not pinned. -/
theorem C29_witness :
    Reachable true exTwoFrames ∧ exTwoFrames.caches 0 exFile.filename 3 ∧
    (exTwoFrames.desc 0).pinCnt = 0 ∧
    (exTwoFrames.unPinPage exFile 3 true).1 = .error (Exn.PageNotPinned exFile.filename 3 0) ∧
    ((exTwoFrames.unPinPage exFile 3 true).2.desc 0) = { exTwoFrames.desc 0 with dirty := true } :=
  ⟨exTwoFrames_reachable true, ⟨rfl, rfl, exFile, rfl, rfl⟩, rfl,
    (C29_unPinPage_failure_sets_dirty true exTwoFrames (exTwoFrames_reachable true) exFile 3 0
      ⟨rfl, rfl, exFile, rfl, rfl⟩ rfl).1,
    (C29_unPinPage_failure_sets_dirty true exTwoFrames (exTwoFrames_reachable true) exFile 3 0
      ⟨rfl, rfl, exFile, rfl, rfl⟩ rfl).2.1⟩

/-! ## `disposePage` of a cached page; `flushFile` stopped by a pinned frame -/

/-- C30: `disposePage(F, p)` on a cached page ignores the pin count and the
dirty flag.  In a reachable pool of fewer than `2^32 - 1` frames (so that the
sentinel `numBufs + 1` is not a frame number), for a frame `k` caching
`(F, p)`, whatever its pin count and dirty flag, the call returns normally (no
`PagePinned`), the only file operation is the `deletePage` of `p` (no
`writePage`), frame `k` is reset to the empty state, the other frames and the
pool images are unchanged, and the hash entry is gone; a later
`unPinPage(F, p, d)` returns normally and changes nothing. -/
theorem C30_disposePage_ignores_pin_and_dirty (seatRef : Bool) (s : BufMgr)
    (h : Reachable seatRef s) (hN : s.numBufs + 1 < 2 ^ 32)
    (file : File) (p : PageId) (k : FrameId) (hc : s.caches k file.filename p) :
    (s.disposePage file p).1 = .ok () ∧
    (s.disposePage file p).2.disk.log = s.disk.log ++ [IOEvent.delete file.filename p] ∧
    (∀ n q, (s.disposePage file p).2.writeCount n q = s.writeCount n q) ∧
    (s.disposePage file p).2.desc k = (s.desc k).Clear ∧
    ((s.disposePage file p).2.desc k).valid = false ∧
    ((s.disposePage file p).2.desc k).pinCnt = 0 ∧
    (∀ j, j ≠ k → (s.disposePage file p).2.desc j = s.desc j) ∧
    (s.disposePage file p).2.bufPool = s.bufPool ∧
    (s.disposePage file p).2.hashTable.lookup file p = none ∧
    (∀ d, (s.disposePage file p).2.unPinPage file p d = (.ok (), (s.disposePage file p).2)) := by
  have w := h.well_formed
  have hk := caches_lt hc
  have hl := w.lookup_of_caches hk hc
  have hne : k ≠ (s.numBufs + 1) % 2 ^ 32 := by
    rw [Nat.mod_eq_of_lt hN]
    intro he
    rw [he] at hk
    exact absurd hk (Nat.not_lt.mpr (Nat.le_succ _))
  have e := disposePage_cached hl hne
  have hnone : (s.disposePage file p).2.hashTable.lookup file p = none := by
    rw [e]
    exact lookup_none_of_forall (fun b hb => not_key_of_mem_erase w.hash_nodup hb)
  have hd : ∀ j, (s.disposePage file p).2.desc j
      = if k = j ∧ k < s.numBufs then (s.desc k).Clear else s.desc j := by
    rw [e]
    exact desc_of_set rfl
  have hlog : (s.disposePage file p).2.disk.log
      = s.disk.log ++ [IOEvent.delete file.filename p] := by
    rw [e]
    exact deletePage_log file p s.disk
  refine ⟨?_, hlog, ?_, ?_, ?_, ?_, ?_, by rw [e], hnone, ?_⟩
  · rw [e]
    exact deletePage_fst_of_isSome file p s.disk (w.on_disk k hk file.filename p hc)
  · intro n q
    unfold BufMgr.writeCount
    rw [hlog, List.countP_append]
    simp [IOEvent.isWriteOf]
  · rw [hd k, if_pos ⟨rfl, hk⟩]
  · rw [hd k, if_pos ⟨rfl, hk⟩]; rfl
  · rw [hd k, if_pos ⟨rfl, hk⟩]; rfl
  · intro j hj
    rw [hd j, if_neg (fun hh => hj hh.1.symm)]
  · intro d
    unfold BufMgr.unPinPage
    rw [hnone]

/-- Witness for C30: page 1 of `r.tbl` in the pool `exOneRead`, pinned once. -/
theorem C30_witness :
    Reachable true (exOneRead true) ∧ (exOneRead true).numBufs + 1 < 2 ^ 32 ∧
    (exOneRead true).caches 0 exFile.filename 1 ∧ ((exOneRead true).desc 0).pinCnt = 1 ∧
    ((exOneRead true).disposePage exFile 1).1 = .ok () ∧
    ((exOneRead true).disposePage exFile 1).2.disk.log
      = (exOneRead true).disk.log ++ [IOEvent.delete exFile.filename 1] :=
  ⟨exOneRead_reachable true, by decide, ⟨rfl, rfl, exFile, rfl, rfl⟩, rfl,
    (C30_disposePage_ignores_pin_and_dirty true (exOneRead true) (exOneRead_reachable true)
      (by decide) exFile 1 0 ⟨rfl, rfl, exFile, rfl, rfl⟩).1,
    (C30_disposePage_ignores_pin_and_dirty true (exOneRead true) (exOneRead_reachable true)
      (by decide) exFile 1 0 ⟨rfl, rfl, exFile, rfl, rfl⟩).2.1⟩

/-- A failing loop of `flushFile` splits into a part that returned normally and
the frame at which it threw. -/
theorem flushFileLoop_error_split (file : File) : ∀ (l : List Nat) (s : BufMgr) (e : Exn)
    (s1 : BufMgr), BufMgr.flushFileLoop file l s = (.error e, s1) →
    ∃ l1 j l2 sm, l = l1 ++ j :: l2 ∧ BufMgr.flushFileLoop file l1 s = (.ok (), sm) ∧
      sm.flushFrame file j = (.error e, s1) := by
  intro l
  induction l with
  | nil => intro s e s1 h; simp [BufMgr.flushFileLoop] at h
  | cons i rest ih =>
    intro s e s1 h
    unfold BufMgr.flushFileLoop at h
    cases hfr : s.flushFrame file i with
    | mk r t =>
      rw [hfr] at h
      cases r with
      | error e2 =>
        simp only [Prod.mk.injEq, Except.error.injEq] at h
        refine ⟨[], i, rest, s, rfl, rfl, ?_⟩
        rw [hfr, h.1, h.2]
      | ok u =>
        simp only at h
        obtain ⟨l1, j, l2, sm, hl, hok, herr⟩ := ih t e s1 h
        refine ⟨i :: l1, j, l2, sm, by rw [hl]; rfl, ?_, herr⟩
        unfold BufMgr.flushFileLoop
        rw [hfr]
        exact hok

/-- The frames of the file that a part of the loop has passed are cleared. -/
theorem flushFileLoop_cleared (file : File) : ∀ (l : List Nat) (s : BufMgr), s.WF → l.Nodup →
    (BufMgr.flushFileLoop file l s).1 = .ok () →
    ∀ i ∈ l, s.ownedBy i file.filename →
      (BufMgr.flushFileLoop file l s).2.desc i = (s.desc i).Clear := by
  intro l
  induction l with
  | nil => intro s _ _ _ i hi; simp at hi
  | cons a rest ih =>
    intro s w hnd hok i hi ho
    rw [List.nodup_cons] at hnd
    unfold BufMgr.flushFileLoop at hok ⊢
    rcases flushFrame_cases w file a with ⟨hno, he⟩ | ⟨_, _, he⟩ | ⟨g, hf, hfn, hp, he⟩
    · rw [he] at hok ⊢
      simp only at hok ⊢
      rcases List.mem_cons.mp hi with rfl | hi2
      · exact absurd ho hno
      · exact ih s w hnd.2 hok i hi2 ho
    · rw [he] at hok
      simp at hok
    · rw [he] at hok ⊢
      simp only at hok ⊢
      obtain ⟨t, ht⟩ : ∃ t : BufMgr, t = { s with
          disk := if (s.desc a).dirty = true then (g.writePage (s.page a) s.disk).2 else s.disk
          hashTable := s.hashTable.eraseP (fun b => b.matches file (s.desc a).pageNo)
          bufDescTable := s.bufDescTable.set a (s.desc a).Clear } := ⟨_, rfl⟩
      rw [← ht] at hok ⊢
      have wt : t.WF := by
        have := flushFrame_wf w file a
        rw [he, ← ht] at this
        exact this
      have hla : a < s.numBufs := ownedBy_lt ⟨g, hf, hfn⟩
      have hdt : ∀ j, t.desc j = if a = j ∧ a < s.numBufs then (s.desc a).Clear else s.desc j := by
        rw [ht]
        exact desc_of_set rfl
      rcases List.mem_cons.mp hi with rfl | hi2
      · have h3 := (flushFileLoop_spec file rest t wt hnd.2).2.2.1 i hnd.1
        rw [h3, hdt i, if_pos ⟨rfl, hla⟩]
      · have hia : a ≠ i := fun hh => hnd.1 (hh ▸ hi2)
        have hti : t.desc i = s.desc i := by
          rw [hdt i, if_neg (fun hh => hia hh.1)]
        have hot : t.ownedBy i file.filename := by
          obtain ⟨g2, hg2, hn2⟩ := ho
          exact ⟨g2, by rw [hti]; exact hg2, hn2⟩
        rw [ih t wt hnd.2 hok i hi2 hot, hti]

theorem range_split_lt {N : Nat} {l1 l2 : List Nat} {k : Nat}
    (h : List.range N = l1 ++ k :: l2) (i : Nat) : i ∈ l1 ↔ i < k := by
  have hp : (l1 ++ k :: l2).Pairwise (· < ·) := by
    rw [← h]
    exact List.pairwise_lt_range N
  rw [List.pairwise_append] at hp
  obtain ⟨_, hp2, hp3⟩ := hp
  constructor
  · intro hi
    exact hp3 i hi k (List.mem_cons_self _ _)
  · intro hi
    have hkN : k < N := by
      have : k ∈ List.range N := by rw [h]; simp
      exact List.mem_range.mp this
    have hiN : i ∈ List.range N := List.mem_range.mpr (Nat.lt_trans hi hkN)
    rw [h] at hiN
    rcases List.mem_append.mp hiN with h1 | h1
    · exact h1
    · rcases List.mem_cons.mp h1 with h2 | h2
      · omega
      · have := (List.pairwise_cons.mp hp2).1 i h2
        omega

/-- C28: `flushFile` is not atomic on failure.  In a reachable state, when
`flushFile(F)` fails with `PagePinned` at frame `k`, frame `k` is owned by a
file with `F`'s filename and pinned; every frame with a smaller index owned by
such a file was not pinned and has been written back if it was dirty (and not
written if it was clean), removed from the hash index and cleared; frame `k`,
every frame with a larger index and every frame of another file are unchanged,
as are the pool images and the clock hand. -/
theorem C28_flushFile_not_atomic (seatRef : Bool) (s : BufMgr) (h : Reachable seatRef s)
    (file : File) (n : String) (p : PageId) (k : FrameId) (s1 : BufMgr)
    (hf : s.flushFile file = (.error (Exn.PagePinned n p k), s1)) :
    k < s.numBufs ∧ s.ownedBy k file.filename ∧ 0 < (s.desc k).pinCnt ∧
    n = file.filename ∧ p = (s.desc k).pageNo ∧
    (∀ i, i < k → s.ownedBy i file.filename →
      (s.desc i).pinCnt = 0 ∧ s1.desc i = (s.desc i).Clear ∧
      s1.hashTable.lookup file (s.desc i).pageNo = none ∧
      ((s.desc i).dirty = true →
        s1.writeCount file.filename (s.desc i).pageNo
          = s.writeCount file.filename (s.desc i).pageNo + 1) ∧
      ((s.desc i).dirty = false →
        s1.writeCount file.filename (s.desc i).pageNo
          = s.writeCount file.filename (s.desc i).pageNo)) ∧
    (∀ i, k ≤ i → s1.desc i = s.desc i) ∧
    (∀ i, ¬ s.ownedBy i file.filename → s1.desc i = s.desc i) ∧
    s1.bufPool = s.bufPool ∧ s1.clockHand = s.clockHand := by
  have w := h.well_formed
  obtain ⟨l1, j, l2, sm, hl, hok, herr⟩ :=
    flushFileLoop_error_split file (List.range s.numBufs) s _ s1 hf
  have hnd : (l1 ++ j :: l2).Nodup := by
    rw [← hl]; exact List.nodup_range _
  have hnd1 : l1.Nodup := (List.nodup_append.mp hnd).1
  have hj1 : j ∉ l1 := by
    intro hj
    exact (List.nodup_append.mp hnd).2.2 hj (List.mem_cons_self _ _) 
  have wm : sm.WF := by
    have := flushFileLoop_wf file l1 w
    rw [hok] at this
    exact this
  obtain ⟨⟨sp1, sp2, sp3⟩, sp4, sp5, sp6, _, sp8, _⟩ := flushFileLoop_spec file l1 s w hnd1
  rw [hok] at sp1 sp2 sp3 sp4 sp5 sp6 sp8
  have hclr := flushFileLoop_cleared file l1 s w hnd1 (by rw [hok])
  rw [hok] at hclr
  have hwr := flushFileLoop_writes file l1 s w hnd1
  rw [hok] at hwr
  have hdj : sm.desc j = s.desc j := sp5 j hj1
  rcases flushFrame_cases wm file j with ⟨_, he⟩ | ⟨ho, hp, he⟩ | ⟨g, _, _, _, he⟩
  · rw [he] at herr; simp at herr
  · rw [he] at herr
    simp only [Prod.mk.injEq, Except.error.injEq, Exn.PagePinned.injEq] at herr
    obtain ⟨⟨hn, hpn, hjk⟩, hs⟩ := herr
    subst hs
    subst hjk
    have hos : s.ownedBy j file.filename := by
      obtain ⟨g, hg, hgn⟩ := ho
      exact ⟨g, by rw [← hdj]; exact hg, hgn⟩
    refine ⟨ownedBy_lt hos, hos, by rw [← hdj]; exact hp, hn.symm, by rw [← hpn, hdj], ?_, ?_,
      sp4, sp2, sp1⟩
    · intro i hi hoi
      have hil : i ∈ l1 := (range_split_lt hl i).mpr hi
      have hiN : i < s.numBufs := ownedBy_lt hoi
      have hvi := w.valid_of_ownedBy hoi
      have hci : s.caches i file.filename (s.desc i).pageNo := by
        obtain ⟨g, hg, hgn⟩ := hoi
        exact ⟨hvi, rfl, g, hg, hgn⟩
      have hpin : (s.desc i).pinCnt = 0 := by
        by_contra hne
        obtain ⟨e, he2⟩ := sp8 ⟨i, hil, hoi, Nat.pos_of_ne_zero hne⟩
        cases he2
      have hlk : sm.hashTable.lookup file (s.desc i).pageNo = none := by
        cases hlk : sm.hashTable.lookup file (s.desc i).pageNo with
        | none => rfl
        | some q =>
          exfalso
          obtain ⟨hq, hcq⟩ := wm.frame_lt_of_lookup hlk
          by_cases hql : q ∈ l1
          · exact sp6 rfl q hql ⟨hcq.2.2.choose, hcq.2.2.choose_spec⟩
          · have hqd : sm.desc q = s.desc q := sp5 q hql
            have hcs : s.caches q file.filename (s.desc i).pageNo := by
              obtain ⟨hv, hpq, g, hg, hgn⟩ := hcq
              exact ⟨by rw [← hqd]; exact hv, by rw [← hqd]; exact hpq, g,
                by rw [← hqd]; exact hg, hgn⟩
            have hqN : q < s.numBufs := by rw [← sp3]; exact hq
            have := w.caches_unique hiN hqN hci hcs
            exact hql (this ▸ hil)
      refine ⟨hpin, hclr i hil hoi, hlk, ?_, ?_⟩
      · intro hd
        exact (hwr file.filename (s.desc i).pageNo).2 rfl ⟨i, hil, hci, rfl, hd⟩
      · intro hd
        refine ((hwr file.filename (s.desc i).pageNo).1 ?_).1
        rintro ⟨q, hql, hcq, _, hdq⟩
        have hqN : q < s.numBufs := caches_lt hcq
        have := w.caches_unique hiN hqN hci hcq
        rw [← this, hd] at hdq
        exact Bool.noConfusion hdq
    · intro i hi
      apply sp5
      intro hil
      have := (range_split_lt hl i).mp hil
      exact absurd this (Nat.not_lt.mpr hi)
  · rw [he] at herr; simp at herr

theorem exDirtyPinned_reachable : Reachable true exDirtyPinned :=
  Reachable.readPage exFile 2 (.ok 1) exDirtyPinned (exDirty_reachable true) rfl

/-- Witness for C28: in the pool `exDirtyPinned` the flush of `r.tbl` writes
and clears frame 0 and then fails at frame 1, which is pinned. -/
theorem C28_witness :
    Reachable true exDirtyPinned ∧
    exDirtyPinned.flushFile exFile
      = (.error (Exn.PagePinned "r.tbl" 2 1), (exDirtyPinned.flushFile exFile).2) ∧
    exDirtyPinned.ownedBy 0 exFile.filename ∧ (exDirtyPinned.desc 0).dirty = true ∧
    (exDirtyPinned.flushFile exFile).2.desc 0 = (exDirtyPinned.desc 0).Clear ∧
    (exDirtyPinned.flushFile exFile).2.writeCount exFile.filename (exDirtyPinned.desc 0).pageNo
      = exDirtyPinned.writeCount exFile.filename (exDirtyPinned.desc 0).pageNo + 1 :=
  ⟨exDirtyPinned_reachable, rfl, ⟨exFile, rfl, rfl⟩, rfl,
    ((C28_flushFile_not_atomic true exDirtyPinned exDirtyPinned_reachable exFile
      "r.tbl" 2 1 _ rfl).2.2.2.2.2.1 0 (by decide) ⟨exFile, rfl, rfl⟩).2.1,
    ((C28_flushFile_not_atomic true exDirtyPinned exDirtyPinned_reachable exFile
      "r.tbl" 2 1 _ rfl).2.2.2.2.2.1 0 (by decide) ⟨exFile, rfl, rfl⟩).2.2.2.1 rfl⟩

/-! ## Counting the advances of the clock hand -/

/-- Forgetting the counter gives the sweep itself. -/
theorem allocBufCount_erase : ∀ (fuel : Nat) (s : BufMgr) (c a : Nat),
    (s.allocBufCount fuel c a).map (fun x => (x.1, x.2.1)) = s.allocBufLoop fuel c := by
  intro fuel
  induction fuel with
  | zero => intro s c a; rfl
  | succ n ih =>
    intro s c a
    unfold BufMgr.allocBufCount BufMgr.allocBufLoop
    by_cases h0 : c = s.numBufs
    · simp only [h0, if_true, Option.map_some']
    · simp only [h0, if_false]
      split
      · split
        · exact ih _ _ _
        · split
          · exact ih _ _ _
          · rfl
      · rfl

theorem evict_hand (s : BufMgr) : s.evict.2.clockHand = s.clockHand := by
  unfold BufMgr.evict
  simp only
  split
  · rfl
  · split
    · rfl
    · split <;> rfl

theorem evict_numBufs (s : BufMgr) : s.evict.2.numBufs = s.numBufs := by
  unfold BufMgr.evict
  simp only
  split
  · rfl
  · split
    · rfl
    · split
      · rfl
      · exact numBufs_set _ _ _

/-- The counter the sweep returns: it has grown by at most the number of valid
frames with the reference bit set plus the number of pinned frames still to
count; when it has grown the hand is a frame index. -/
theorem allocBufCount_bound : ∀ (fuel : Nat) (s : BufMgr) (c a : Nat) (r : Except Exn FrameId)
    (s1 : BufMgr) (a1 : Nat), c ≤ s.numBufs →
    s.allocBufCount fuel c a = some (r, s1, a1) →
    a ≤ a1 ∧
    a1 ≤ a + (s.bufDescTable.filter (fun d => d.valid && d.refbit)).length + (s.numBufs - c) ∧
    s1.numBufs = s.numBufs ∧
    (a1 = a → s1 = s ∧ r = .error Exn.BufferExceeded) ∧
    (a < a1 → s1.clockHand < s.numBufs) := by
  intro fuel
  induction fuel with
  | zero => intro s c a r s1 a1 _ h; simp [BufMgr.allocBufCount] at h
  | succ n ih =>
    intro s c a r s1 a1 hc h
    unfold BufMgr.allocBufCount at h
    by_cases h0 : c = s.numBufs
    · simp only [h0, if_true, Option.some.injEq, Prod.mk.injEq] at h
      obtain ⟨hr, hs, ha⟩ := h
      subst hs; subst ha
      exact ⟨Nat.le_refl _, by omega, rfl, fun _ => ⟨rfl, hr.symm⟩,
        fun hlt => absurd hlt (Nat.lt_irrefl _)⟩
    · rw [if_neg h0] at h
      have hN : 0 < s.numBufs := by omega
      have hhand := advanceClock_hand_lt s hN
      simp only at h
      by_cases hv : (s.advanceClock.desc s.advanceClock.clockHand).valid = true
      · rw [if_pos hv] at h
        by_cases hr : (s.advanceClock.desc s.advanceClock.clockHand).refbit = true
        · rw [if_pos hr] at h
          have hlen := clearRef_measure s.advanceClock _ hhand hv hr
          have hlen2 : ((s.bufDescTable.set s.advanceClock.clockHand
              { s.advanceClock.desc s.advanceClock.clockHand with refbit := false }).filter
              (fun d => d.valid && d.refbit)).length + 1
              = (s.bufDescTable.filter (fun d => d.valid && d.refbit)).length := hlen
          obtain ⟨b1, b2, b3, b4, b5⟩ := ih _ c (a + 1) r s1 a1
            (by rw [numBufs_set]; exact hc) h
          rw [numBufs_set] at b2 b3 b5
          have b2' : a1 ≤ a + 1 + ((s.bufDescTable.set s.advanceClock.clockHand
              { s.advanceClock.desc s.advanceClock.clockHand with refbit := false }).filter
              (fun d => d.valid && d.refbit)).length + (s.numBufs - c) := b2
          have b3' : s1.numBufs = s.numBufs := b3
          refine ⟨by omega, by omega, b3', fun he => by omega, fun _ => ?_⟩
          by_cases hx : a1 = a + 1
          · have := (b4 hx).1
            rw [this]
            exact hhand
          · exact b5 (by omega)
        · rw [if_neg hr] at h
          by_cases hp : (s.advanceClock.desc s.advanceClock.clockHand).pinCnt > 0
          · rw [if_pos hp] at h
            obtain ⟨b1, b2, b3, b4, b5⟩ := ih _ (c + 1) (a + 1) r s1 a1
              (by show c + 1 ≤ s.numBufs; omega) h
            have b2' : a1 ≤ a + 1 + (s.bufDescTable.filter (fun d => d.valid && d.refbit)).length
                + (s.numBufs - (c + 1)) := b2
            have b3' : s1.numBufs = s.numBufs := b3
            have b5' : a + 1 < a1 → s1.clockHand < s.numBufs := b5
            refine ⟨by omega, by omega, b3', fun he => by omega, fun _ => ?_⟩
            by_cases hx : a1 = a + 1
            · have := (b4 hx).1
              rw [this]
              exact hhand
            · exact b5' (by omega)
          · rw [if_neg hp] at h
            simp only [Option.some.injEq, Prod.mk.injEq] at h
            obtain ⟨_, hs, ha⟩ := h
            subst hs; subst ha
            refine ⟨by omega, by omega, ?_, fun he => by omega, fun _ => ?_⟩
            · rw [evict_numBufs]; rfl
            · rw [evict_hand]
              exact hhand
      · rw [if_neg hv] at h
        simp only [Option.some.injEq, Prod.mk.injEq] at h
        obtain ⟨_, hs, ha⟩ := h
        subst hs; subst ha
        exact ⟨by omega, by omega, rfl, fun he => by omega, fun _ => hhand⟩

/-! ## Termination of the clock sweep -/

/-- With the fuel of `allocBuf` the counting sweep returns. -/
theorem allocBufCount_isSome (s : BufMgr) :
    ∃ r s1 a, s.allocBufCount (2 * s.numBufs + 1) 0 0 = some (r, s1, a) ∧
      s.allocBuf = some (r, s1) := by
  have he := allocBufCount_erase (2 * s.numBufs + 1) s 0 0
  have hs := allocBuf_isSome s
  unfold BufMgr.allocBuf at hs
  cases hc : s.allocBufCount (2 * s.numBufs + 1) 0 0 with
  | none =>
    rw [hc] at he
    rw [← he] at hs
    cases hs
  | some x =>
    rw [hc] at he
    exact ⟨x.1, x.2.1, x.2.2, rfl, he.symm⟩

/-- Claim C27: the clock sweep `allocBuf` returns on every pool state and every
pool size: it advances the clock hand at most `2 * numBufs` times, the hand is
a frame index after every advance, a pool of no frames fails with
`BufferExceeded` before the hand moves, and in a well-formed pool the result is
a frame of the pool or `BufferExceeded`. -/
theorem C27_allocBuf_terminates (s : BufMgr) :
    ∃ r s1 a, s.allocBufCount (2 * s.numBufs + 1) 0 0 = some (r, s1, a) ∧
      s.allocBuf = some (r, s1) ∧
      a ≤ 2 * s.numBufs ∧
      (s.numBufs = 0 → a = 0 ∧ r = .error Exn.BufferExceeded ∧ s1 = s) ∧
      (0 < a → 0 < s.numBufs ∧ s1.clockHand < s.numBufs) ∧
      (∀ t : BufMgr, 0 < t.numBufs → t.advanceClock.clockHand < t.numBufs) ∧
      (s.WF → r = .error Exn.BufferExceeded ∨ ∃ k, k < s.numBufs ∧ r = .ok k) := by
  obtain ⟨r, s1, a, hc, ha⟩ := allocBufCount_isSome s
  obtain ⟨_, b2, _, b4, b5⟩ := allocBufCount_bound _ s 0 0 r s1 a (Nat.zero_le _) hc
  have hlen : (s.bufDescTable.filter (fun d => d.valid && d.refbit)).length ≤ s.numBufs :=
    List.length_filter_le _ _
  refine ⟨r, s1, a, hc, ha, by omega, ?_, ?_, advanceClock_hand_lt, ?_⟩
  · intro h0
    have ha0 : a = 0 := by omega
    exact ⟨ha0, (b4 ha0).2, (b4 ha0).1⟩
  · intro hpos
    refine ⟨?_, b5 hpos⟩
    by_contra hn
    have ha0 : a = 0 := by omega
    omega
  · intro w
    obtain ⟨sm, _, hcases⟩ := allocBuf_post w ha
    rcases hcases with ⟨hr, _⟩ | ⟨k, hk, _, hr, _⟩ | ⟨k, f, hk, _, _, _, hr, _⟩
    · exact Or.inl hr
    · exact Or.inr ⟨k, hk, hr⟩
    · exact Or.inr ⟨k, hk, hr⟩

/-- Witness for C27: in the two-frame pool `exTwoFrames` the sweep gives up
after three advances of the hand, within the bound of four. -/
theorem C27_witness :
    (exTwoFrames.allocBufCount 5 0 0).map (fun x => (x.1, x.2.2))
      = some (.error Exn.BufferExceeded, 3) ∧
    ∃ r s1 a, exTwoFrames.allocBufCount (2 * exTwoFrames.numBufs + 1) 0 0 = some (r, s1, a) ∧
      exTwoFrames.allocBuf = some (r, s1) ∧ a ≤ 2 * exTwoFrames.numBufs :=
  ⟨rfl, (C27_allocBuf_terminates exTwoFrames).imp fun _ h => h.imp fun _ h => h.imp fun _ h =>
    ⟨h.1, h.2.1, h.2.2.1⟩⟩

/-! ## The sweep over a pool in which every frame is pinned -/

theorem offset_exists (N h p : Nat) (hh : h < N) (hp : p < N) :
    ∃ k, k < N ∧ p = (h + k) % N := by
  by_cases hle : h ≤ p
  · refine ⟨p - h, by omega, ?_⟩
    have : h + (p - h) = p := by omega
    rw [this, Nat.mod_eq_of_lt hp]
  · refine ⟨p + N - h, by omega, ?_⟩
    have : h + (p + N - h) = p + N := by omega
    rw [this, Nat.add_mod_right, Nat.mod_eq_of_lt hp]

theorem refCount_zero (s : BufMgr)
    (h : ∀ p, p < s.numBufs → (s.desc p).refbit = true → False) : s.refCount = 0 := by
  unfold BufMgr.refCount
  rw [List.length_eq_zero, List.filter_eq_nil_iff]
  intro d hd hr
  obtain ⟨i, hi, he⟩ := List.getElem_of_mem hd
  apply h i hi
  unfold BufMgr.desc
  rw [List.getD_eq_getElem _ _ hi, he]
  exact hr

theorem refCount_clear (s : BufMgr) (i : Nat) (hi : i < s.numBufs)
    (hr : (s.desc i).refbit = true) :
    ((s.bufDescTable.set i { s.desc i with refbit := false }).filter
        (fun d => d.refbit)).length + 1 = s.refCount :=
  length_filter_set_lt (fun d => d.refbit) s.bufDescTable i _ (BufDesc.init i) hi hr rfl

theorem desc_set_table (t : BufMgr) (i : Nat) (d : BufDesc) (j : Nat) :
    ({ t with bufDescTable := t.bufDescTable.set i d } : BufMgr).desc j
      = if i = j ∧ i < t.numBufs then d else t.desc j :=
  desc_of_set rfl j

theorem advanceClock_hand_set (t : BufMgr) (i : Nat) (d : BufDesc) :
    ({ t with bufDescTable := t.bufDescTable.set i d } : BufMgr).advanceClock.clockHand
      = (t.clockHand + 1) % 2 ^ 32 % t.numBufs := by
  show (t.clockHand + 1) % 2 ^ 32
    % (BufMgr.numBufs { t with bufDescTable := t.bufDescTable.set i d }) = _
  rw [numBufs_set]

/-- The sweep over a pool whose frames are all valid and pinned: it fails after
one advance for each frame still to be counted and one for each reference bit
that is set. The frames with the bit set lie among the next `u` frames the
hand reaches. -/
theorem allocBufCount_pinned : ∀ (fuel : Nat) (s : BufMgr) (c a u : Nat)
    (r : Except Exn FrameId) (s1 : BufMgr) (a1 : Nat),
    s.numBufs < 2 ^ 32 →
    (∀ i, i < s.numBufs → (s.desc i).valid = true ∧ (s.desc i).pinCnt > 0) →
    u + c ≤ s.numBufs →
    (∀ p, p < s.numBufs → (s.desc p).refbit = true →
      ∃ j, j < u ∧ p = (s.advanceClock.clockHand + j) % s.numBufs) →
    s.allocBufCount fuel c a = some (r, s1, a1) →
    r = .error Exn.BufferExceeded ∧ a1 = a + (s.numBufs - c) + s.refCount := by
  intro fuel
  induction fuel with
  | zero => intro s c a u r s1 a1 _ _ _ _ h; cases h
  | succ n ih =>
    intro s c a u r s1 a1 h32 hall hu hinv h
    rw [BufMgr.allocBufCount] at h
    by_cases h0 : c = s.numBufs
    · rw [if_pos h0] at h
      simp only [Option.some.injEq, Prod.mk.injEq] at h
      obtain ⟨hr, _, ha⟩ := h
      have hz : s.refCount = 0 := by
        apply refCount_zero
        intro p hp hrp
        obtain ⟨j, hj, _⟩ := hinv p hp hrp
        omega
      refine ⟨hr.symm, ?_⟩
      rw [hz, ← ha, h0]
      omega
    · rw [if_neg h0] at h
      have hN : 0 < s.numBufs := by omega
      have hhand := advanceClock_hand_lt s hN
      have hvp : (s.advanceClock.desc s.advanceClock.clockHand).valid = true ∧
          (s.advanceClock.desc s.advanceClock.clockHand).pinCnt > 0 := hall _ hhand
      obtain ⟨hv, hp⟩ := hvp
      simp only at h
      rw [if_pos hv] at h
      have hstep : ∀ p j, p ≠ s.advanceClock.clockHand → j < u →
          p = (s.advanceClock.clockHand + j) % s.numBufs →
          ∃ j2, j2 < u - 1 ∧
            p = ((s.advanceClock.clockHand + 1) % 2 ^ 32 % s.numBufs + j2) % s.numBufs := by
        intro p j hne hj he
        cases j with
        | zero =>
          rw [Nat.add_zero, Nat.mod_eq_of_lt hhand] at he
          exact absurd he hne
        | succ j2 =>
          refine ⟨j2, by omega, ?_⟩
          rw [Nat.mod_eq_of_lt (Nat.lt_of_le_of_lt (Nat.succ_le_of_lt hhand) h32),
            Nat.mod_add_mod, he]
          exact congrArg (fun x => x % s.numBufs) (Nat.succ_add_eq_add_succ _ _).symm
      by_cases hr : (s.advanceClock.desc s.advanceClock.clockHand).refbit = true
      · rw [if_pos hr] at h
        obtain ⟨j0, hj0, _⟩ := hinv _ hhand hr
        obtain ⟨b1, b2⟩ := ih _ c (a + 1) (u - 1) r s1 a1
          (by rw [numBufs_set]; exact h32)
          (by
            intro i hi
            rw [desc_set_table]
            split
            · exact ⟨hv, hp⟩
            · exact hall i (by rw [numBufs_set] at hi; exact hi))
          (by rw [numBufs_set]; show u - 1 + c ≤ s.numBufs; omega)
          (by
            intro p hp2 hrp
            rw [numBufs_set] at hp2
            rw [desc_set_table] at hrp
            have hne : p ≠ s.advanceClock.clockHand := by
              intro he
              rw [if_pos ⟨he.symm, hhand⟩] at hrp
              cases hrp
            rw [if_neg (fun hc => hne hc.1.symm)] at hrp
            obtain ⟨j, hj, he⟩ := hinv p hp2 hrp
            obtain ⟨j2, hj2, he2⟩ := hstep p j hne hj he
            refine ⟨j2, hj2, ?_⟩
            rw [numBufs_set, advanceClock_hand_set]
            exact he2)
          h
        refine ⟨b1, ?_⟩
        have hc1 := refCount_clear s.advanceClock _ hhand hr
        have hc2 : ((s.bufDescTable.set s.advanceClock.clockHand
            { s.advanceClock.desc s.advanceClock.clockHand with refbit := false }).filter
            (fun d => d.refbit)).length + 1 = s.refCount := hc1
        rw [numBufs_set] at b2
        have b2' : a1 = a + 1 + (s.numBufs - c) + ((s.bufDescTable.set s.advanceClock.clockHand
            { s.advanceClock.desc s.advanceClock.clockHand with refbit := false }).filter
            (fun d => d.refbit)).length := b2
        omega
      · rw [if_neg hr, if_pos hp] at h
        obtain ⟨b1, b2⟩ := ih s.advanceClock (c + 1) (a + 1) (u - 1) r s1 a1 h32 hall
          (by show u - 1 + (c + 1) ≤ s.numBufs; omega)
          (by
            intro p hp2 hrp
            have hne : p ≠ s.advanceClock.clockHand := by
              intro he
              rw [he] at hrp
              exact hr hrp
            obtain ⟨j, hj, he⟩ := hinv p hp2 hrp
            exact hstep p j hne hj he)
          h
        refine ⟨b1, ?_⟩
        have b2' : a1 = a + 1 + (s.numBufs - (c + 1)) + s.refCount := b2
        omega

/-! ## C26: the sweep when every frame is pinned -/

theorem exOnePinned_reachable (seatRef : Bool) : Reachable seatRef exOnePinned := by
  cases seatRef
  · exact Reachable.readPage exFile 1 (.ok 0) exOnePinned
      (Reachable.readPage exFile 1 (.ok 0) _ (Reachable.new 1 exDisk (by decide)) rfl) rfl
  · exact Reachable.readPage exFile 1 (.ok 0) exOnePinned
      (Reachable.readPage exFile 1 (.ok 0) _ (Reachable.new 1 exDisk (by decide)) rfl) rfl

/-- Counterexample to C26 as stated: in the reachable one-frame pool
`exOnePinned` the only frame is pinned and has its reference bit set; the sweep
fails with `BufferExceeded` after two advances of the hand, not one. -/
theorem C26_counterexample :
    Reachable true exOnePinned ∧ Reachable false exOnePinned ∧
    exOnePinned.numBufs = 1 ∧
    (∀ i, i < exOnePinned.numBufs → (exOnePinned.desc i).pinCnt > 0) ∧
    (exOnePinned.allocBufCount (2 * exOnePinned.numBufs + 1) 0 0).map (fun x => (x.1, x.2.2))
      = some (.error Exn.BufferExceeded, 2) ∧
    exOnePinned.allocBuf.map (fun x => x.1) = some (.error Exn.BufferExceeded) :=
  ⟨exOnePinned_reachable true, exOnePinned_reachable false, rfl, by decide, rfl, rfl⟩

/-- Claim C26, amended: when every frame of a reachable pool of `N` frames is
pinned, the clock sweep `allocBuf` fails with `BufferExceeded` after advancing
the hand exactly `N + r` times, where `r` is the number of frames whose
reference bit is set; it is exactly `N` advances, one full sweep, precisely when
no reference bit is set. -/
theorem C26_all_pinned_sweep (seatRef : Bool) (s : BufMgr) (h : Reachable seatRef s)
    (hpin : ∀ i, i < s.numBufs → (s.desc i).pinCnt > 0) :
    ∃ s1, s.allocBufCount (2 * s.numBufs + 1) 0 0
        = some (.error Exn.BufferExceeded, s1, s.numBufs + s.refCount) ∧
      s.allocBuf = some (.error Exn.BufferExceeded, s1) ∧
      s.refCount ≤ s.numBufs ∧
      (s.numBufs + s.refCount = s.numBufs ↔ s.refCount = 0) := by
  have w := h.well_formed
  obtain ⟨r, s1, a, hc, ha⟩ := allocBufCount_isSome s
  have hall : ∀ i, i < s.numBufs → (s.desc i).valid = true ∧ (s.desc i).pinCnt > 0 := by
    intro i hi
    refine ⟨?_, hpin i hi⟩
    cases hv : (s.desc i).valid with
    | true => rfl
    | false =>
      have := (w.invalid_clear i hi hv).2
      have := hpin i hi
      omega
  have hinv : ∀ p, p < s.numBufs → (s.desc p).refbit = true →
      ∃ j, j < s.numBufs ∧ p = (s.advanceClock.clockHand + j) % s.numBufs := by
    intro p hp _
    exact offset_exists s.numBufs _ p (advanceClock_hand_lt s (by omega)) hp
  obtain ⟨hr, hcount⟩ := allocBufCount_pinned _ s 0 0 s.numBufs r s1 a w.size_lt hall
    (Nat.le_refl _) hinv hc
  subst hr
  have ha2 : a = s.numBufs + s.refCount := by omega
  subst ha2
  exact ⟨s1, hc, ha, List.length_filter_le _ _, by omega⟩

/-- Witness for C26: the one-frame pool `exOnePinned` is reachable and its
frame is pinned, so the sweep fails after `1 + 1` advances. -/
theorem C26_witness :
    Reachable true exOnePinned ∧
    (∀ i, i < exOnePinned.numBufs → (exOnePinned.desc i).pinCnt > 0) ∧
    exOnePinned.refCount = 1 ∧
    ∃ s1, exOnePinned.allocBufCount (2 * exOnePinned.numBufs + 1) 0 0
        = some (.error Exn.BufferExceeded, s1, exOnePinned.numBufs + exOnePinned.refCount) ∧
      exOnePinned.allocBuf = some (.error Exn.BufferExceeded, s1) ∧
      exOnePinned.refCount ≤ exOnePinned.numBufs ∧
      (exOnePinned.numBufs + exOnePinned.refCount = exOnePinned.numBufs ↔
        exOnePinned.refCount = 0) :=
  ⟨exOnePinned_reachable true, by decide, rfl,
    C26_all_pinned_sweep true exOnePinned (exOnePinned_reachable true) (by decide)⟩

/-! ## Stored images after a write-back -/

theorem find?_map_replace_self (l : List (String × Page)) (fn : String) (pg : Page)
    (h : (List.find? (fun e => decide (e.1 = fn ∧ e.2.page_number = pg.page_number)) l).isSome
      = true) :
    List.find? (fun e => decide (e.1 = fn ∧ e.2.page_number = pg.page_number))
      (l.map (fun e => if e.1 = fn ∧ e.2.page_number = pg.page_number then (e.1, pg) else e))
    = some (fn, pg) := by
  induction l with
  | nil => simp at h
  | cons x xs ih =>
    by_cases hx : x.1 = fn ∧ x.2.page_number = pg.page_number
    · simp only [List.map_cons, if_pos hx, List.find?_cons]
      simp only [hx.1, and_self, decide_True]
    · simp only [List.map_cons, if_neg hx, List.find?_cons]
      have hd : decide (x.1 = fn ∧ x.2.page_number = pg.page_number) = false := by
        simp only [decide_eq_false_iff_not]; exact hx
      rw [hd]
      apply ih
      simp only [List.find?_cons, hd] at h
      exact h

/-- The file stores the image it is asked to write when it has the page. -/
theorem writePage_find_self (f : File) (pg : Page) (d : Disk)
    (h : (d.find f.filename pg.page_number).isSome = true) :
    (f.writePage pg d).2.find f.filename pg.page_number = some pg := by
  unfold File.writePage
  cases hf : d.find f.filename pg.page_number with
  | none => rw [hf] at h; cases h
  | some q =>
    simp only [Disk.find]
    rw [find?_map_replace_self d.stored f.filename pg]
    · rfl
    · simpa [Disk.find] using h

theorem allocatePage_find_ne (f : File) (d : Disk) (fn : String) (p : PageId)
    (hne : ¬ (fn = f.filename ∧ p = d.freshPageNo f.filename)) :
    (f.allocatePage d).2.find fn p = d.find fn p := by
  unfold File.allocatePage Disk.find
  simp only [List.find?_append]
  have : List.find? (fun e : String × Page => decide (e.1 = fn ∧ e.2.page_number = p))
      [(f.filename, { page_number := d.freshPageNo f.filename, records := [] })] = none := by
    rw [List.find?_cons]
    have hd : decide (f.filename = fn ∧ d.freshPageNo f.filename = p) = false := by
      simp only [decide_eq_false_iff_not]
      exact fun h => hne ⟨h.1.symm, h.2.symm⟩
    simp only [hd, List.find?_nil]
  rw [this, Option.or_none]

theorem allocatePage_find_fresh (f : File) (d : Disk) :
    (f.allocatePage d).2.find f.filename (d.freshPageNo f.filename)
      = some { page_number := d.freshPageNo f.filename, records := [] } := by
  have hn := Disk.find_fresh d f.filename
  unfold Disk.find at hn
  rw [Option.map_eq_none'] at hn
  unfold File.allocatePage Disk.find
  simp only [List.find?_append, hn, Option.none_or, List.find?_cons, decide_True, and_self,
    Option.map_some']

/-! ## What a flush leaves on the disk -/

/-- A flush keeps the set of stored pages. -/
theorem flushFileLoop_find_isSome (file : File) : ∀ (l : List Nat) (s : BufMgr), s.WF →
    ∀ (fn : String) (q : PageId),
    ((BufMgr.flushFileLoop file l s).2.disk.find fn q).isSome = (s.disk.find fn q).isSome := by
  intro l
  induction l with
  | nil => intro s _ fn q; rfl
  | cons i rest ih =>
    intro s w fn q
    have w1 : (s.flushFrame file i).2.WF := flushFrame_wf w file i
    rcases flushFrame_cases w file i with ⟨_, he⟩ | ⟨_, _, he⟩ | ⟨g, hf, hfn, hp0, he⟩
    · rw [BufMgr.flushFileLoop, he]
      exact ih s w fn q
    · rw [BufMgr.flushFileLoop, he]
    · rw [he] at w1
      rw [BufMgr.flushFileLoop, he]
      simp only at w1 ⊢
      rw [ih _ w1 fn q]
      show (Disk.find (if (s.desc i).dirty = true then _ else s.disk) fn q).isSome = _
      split
      · rw [writePage_find_isSome]
      · rfl

/-- A flush that returns normally stores the image of every dirty frame of the
file. -/
theorem flushFileLoop_image (file : File) : ∀ (l : List Nat) (s : BufMgr), s.WF → l.Nodup →
    ∀ (k : FrameId) (p : PageId), k ∈ l → s.caches k file.filename p →
    (s.desc k).dirty = true → (BufMgr.flushFileLoop file l s).1 = .ok () →
    (BufMgr.flushFileLoop file l s).2.disk.find file.filename p = some (s.page k) := by
  intro l
  induction l with
  | nil => intro s _ _ k p hk; simp at hk
  | cons i rest ih =>
    intro s w hnd k p hk hc hd hok
    rw [List.nodup_cons] at hnd
    obtain ⟨hirest, hndrest⟩ := hnd
    have hownk : s.ownedBy k file.filename := by
      obtain ⟨_, _, g, hg, hgn⟩ := hc
      exact ⟨g, hg, hgn⟩
    rcases flushFrame_cases w file i with ⟨hown, he⟩ | ⟨hown, hpin, he⟩ | ⟨g, hf, hfn, hp0, he⟩
    · have hloop : BufMgr.flushFileLoop file (i :: rest) s = BufMgr.flushFileLoop file rest s := by
        rw [BufMgr.flushFileLoop, he]
      rw [hloop] at hok ⊢
      rcases List.mem_cons.1 hk with rfl | hk'
      · exact absurd hownk hown
      · exact ih s w hndrest k p hk' hc hd hok
    · have hloop : BufMgr.flushFileLoop file (i :: rest) s
          = (.error (Exn.PagePinned file.filename (s.desc i).pageNo i), s) := by
        rw [BufMgr.flushFileLoop, he]
      rw [hloop] at hok
      cases hok
    · have hown : s.ownedBy i file.filename := ⟨g, hf, hfn⟩
      have hlt := ownedBy_lt hown
      have hv := w.valid_of_ownedBy hown
      have w1 : (s.flushFrame file i).2.WF := flushFrame_wf w file i
      obtain ⟨s1, hs1⟩ : ∃ s1 : BufMgr, s1 =
          { s with
            disk := if (s.desc i).dirty = true then (g.writePage (s.page i) s.disk).2
                    else s.disk
            hashTable := s.hashTable.eraseP (fun b => b.matches file (s.desc i).pageNo)
            bufDescTable := s.bufDescTable.set i (s.desc i).Clear } := ⟨_, rfl⟩
      rw [← hs1] at he
      rw [he] at w1
      simp only at w1
      have hloop : BufMgr.flushFileLoop file (i :: rest) s
          = BufMgr.flushFileLoop file rest s1 := by
        rw [BufMgr.flushFileLoop, he]
      rw [hloop] at hok ⊢
      have hdt : s1.bufDescTable = s.bufDescTable.set i (s.desc i).Clear := by rw [hs1]
      have hdisk : s1.disk = if (s.desc i).dirty = true
          then (g.writePage (s.page i) s.disk).2 else s.disk := by rw [hs1]
      have hpool : s1.bufPool = s.bufPool := by rw [hs1]
      have hd1 : ∀ j, s1.desc j = if i = j ∧ i < s.numBufs then (s.desc i).Clear else s.desc j :=
        fun j => desc_of_set hdt j
      have hd1i : s1.desc i = (s.desc i).Clear := by
        rw [hd1 i, if_pos (And.intro rfl hlt)]
      have hd1j : ∀ j, j ≠ i → s1.desc j = s.desc j := fun j hj => by
        rw [hd1 j, if_neg (fun h => hj h.1.symm)]
      by_cases hki : k = i
      · subst hki
        have hnone : ¬ ∃ j ∈ rest, s1.caches j file.filename p ∧ file.filename = file.filename ∧
            (s1.desc j).dirty = true := by
          rintro ⟨j, hj, hcj, _, _⟩
          have hjk : j ≠ k := fun h => hirest (h ▸ hj)
          have hcjs : s.caches j file.filename p := by
            unfold BufMgr.caches at hcj ⊢
            rwa [hd1j j hjk] at hcj
          exact hjk (w.caches_unique (caches_lt hcjs) hlt hcjs hc)
        rw [((flushFileLoop_writes file rest s1 w1 hndrest file.filename p).1 hnone).2, hdisk,
          if_pos hd]
        have himg : (s.page k).page_number = p := (w.image_no k hlt hv).trans hc.2.1
        have hon : (s.disk.find g.filename (s.page k).page_number).isSome = true := by
          rw [himg, hfn]
          exact w.on_disk k hlt _ _ hc
        have := writePage_find_self g (s.page k) s.disk hon
        rw [himg, hfn] at this
        exact this
      · rcases List.mem_cons.1 hk with rfl | hk'
        · exact absurd rfl hki
        · have hc1 : s1.caches k file.filename p := by
            unfold BufMgr.caches at hc ⊢
            rwa [hd1j k hki]
          have := ih s1 w1 hndrest k p hk' hc1 (by rw [hd1j k hki]; exact hd) hok
          rw [this]
          exact congrArg some (page_of_eq hpool k)

/-! ## More on `allocPage` -/

theorem allocPage_ok_more {seatRef : Bool} {s : BufMgr} {file : File} {p : PageId}
    {k : FrameId} {s1 : BufMgr} (w : s.WF)
    (h : s.allocPage seatRef file = some (.ok (p, k), s1)) :
    p = s.disk.freshPageNo file.filename ∧
    s1.page k = { page_number := p, records := [] } ∧
    s1.numBufs = s.numBufs ∧
    (∀ i, i ≠ k → s1.desc i = { s.desc i with refbit := (s1.desc i).refbit }) ∧
    (∀ fn q, (s1.disk.find fn q).isSome
      = (decide (fn = file.filename ∧ q = p) || (s.disk.find fn q).isSome)) ∧
    (∀ fn q, ¬ (fn = file.filename ∧ q = p) →
      (∀ i, s.caches i fn q → (s.desc i).dirty = false) →
      s1.disk.find fn q = s.disk.find fn q) := by
  unfold BufMgr.allocPage at h
  simp only at h
  have w0 : ({ s with disk := (file.allocatePage s.disk).2 } : BufMgr).WF := by
    apply BufMgr.WF.disk_change w
    · rfl
    · rfl
    · rfl
    intro j hj fn q hc
    exact allocatePage_find_of_isSome file s.disk fn q (w.on_disk j hj fn q hc)
  cases ha : ({ s with disk := (file.allocatePage s.disk).2 } : BufMgr).allocBuf with
  | none => simp [ha] at h
  | some x =>
    obtain ⟨ra, s2⟩ := x
    simp only [ha] at h
    cases ra with
    | error e => simp at h
    | ok k2 =>
      simp only [Option.some.injEq, Prod.mk.injEq, Except.ok.injEq] at h
      obtain ⟨⟨hp, hk⟩, hs1⟩ := h
      subst hk
      obtain ⟨hlt, _, hn2⟩ := allocBuf_ok w0 ha
      have w2 : s2.WF := allocBuf_wf w0 ha
      have hpf : p = s.disk.freshPageNo file.filename := hp.symm
      have hdisk : s1.disk = s2.disk := by rw [← hs1]
      refine ⟨hpf, ?_, ?_, ?_, ?_, ?_⟩
      · rw [← hs1, page_of_set (s := s2) rfl k2, if_pos ⟨rfl, by rw [w2.pool_len]; exact hlt⟩,
          ← hp]
        rfl
      · rw [← hs1, numBufs_of_set (s := s2) rfl]
        exact hn2
      · intro i hi
        have h1 : s1.desc i = s2.desc i := by
          rw [← hs1, desc_of_set rfl i, if_neg (fun hc => hi hc.1.symm)]
        rw [h1]
        exact allocBuf_other w0 ha i (fun k1 hk1 => by cases hk1; exact fun hc => hi hc.symm)
      · intro fn q
        rw [hdisk, allocBuf_find_isSome w0 ha fn q]
        show ((file.allocatePage s.disk).2.find fn q).isSome = _
        by_cases hkey : fn = file.filename ∧ q = p
        · rw [hkey.1, hkey.2, hpf, allocatePage_find_fresh]
          simp
        · rw [allocatePage_find_ne _ _ _ _ (fun hc => hkey ⟨hc.1, hc.2.trans hpf.symm⟩)]
          simp [hkey]
      · intro fn q hkey hclean
        rw [hdisk]
        rcases allocBuf_writeCount w0 ha fn q with ⟨_, k1, _, hk1, hc, hd⟩ | ⟨_, hfind, _⟩
        · have := hclean k1 hc
          rw [show (s.desc k1).dirty = true from hd] at this
          cases this
        · rw [hfind]
          exact allocatePage_find_ne _ _ _ _ (fun hc => hkey ⟨hc.1, hc.2.trans hpf.symm⟩)

theorem unPinPage_ok_of_pinned {s : BufMgr} {file : File} {p : PageId} {k : FrameId}
    (d : Bool) (hl : s.hashTable.lookup file p = some k) (hp : (s.desc k).pinCnt ≠ 0) :
    (s.unPinPage file p d).1 = .ok () := by
  unfold BufMgr.unPinPage
  rw [hl]
  cases d
  · simp only [Bool.false_eq_true, if_false, if_neg hp]
  · simp only [if_true, if_neg hp]

/-! ## One `insertTuple` -/

/-- An `insertTuple` whose `allocPage` returns page `p` in frame `k`, in a
reachable pool in which no frame of the file is pinned: it returns the id of the
first slot of page `p`; the file gains page `p`, stored with the one record, by
one `writePage`; no frame of the file is left, and frame `k` is free. -/
theorem insertTuple_ok {seatRef : Bool} {s : BufMgr} (recId0 : RecordId) (t : String)
    {file : File} {p : PageId} {k : FrameId} {s1 : BufMgr} (h : Reachable seatRef s)
    (hpin : ∀ i, i < s.numBufs → s.ownedBy i file.filename → (s.desc i).pinCnt = 0)
    (ha : s.allocPage seatRef file = some (.ok (p, k), s1)) :
    ∃ s4, HeapFileManager.insertTuple seatRef recId0 t file s
        = some ((.ok { page_number := p, slot_number := 1 }, []), s4) ∧
      Reachable seatRef s4 ∧ s4.numBufs = s.numBufs ∧
      (∀ i, ¬ s4.ownedBy i file.filename) ∧
      k < s.numBufs ∧ (s4.desc k).valid = false ∧
      s.disk.find file.filename p = none ∧
      s4.disk.find file.filename p = some { page_number := p, records := [t] } ∧
      s4.writeCount file.filename p = s.writeCount file.filename p + 1 ∧
      (∀ fn q, (s4.disk.find fn q).isSome
        = (decide (fn = file.filename ∧ q = p) || (s.disk.find fn q).isSome)) ∧
      (∀ fn q, ¬ (fn = file.filename ∧ q = p) →
        (∀ i, s.caches i fn q → (s.desc i).dirty = false) →
        s4.disk.find fn q = s.disk.find fn q) := by
  have w := h.well_formed
  have r1 : Reachable seatRef s1 := Reachable.allocPage file _ s1 h ha
  have w1 := r1.well_formed
  obtain ⟨hk1, hc1, hl1, hd1, hp1, hw1⟩ := allocPage_ok_facts w ha
  obtain ⟨hpf, hpg1, hn1, hoth1, hsome1, hfind1⟩ := allocPage_ok_more w ha
  -- the record is written through the page pointer
  have hrec : ((s1.page k).insertRecord t).2.records = [t] := by
    unfold Page.insertRecord
    rw [hpg1]
    rfl
  have hrid : ((s1.page k).insertRecord t).1 = { page_number := p, slot_number := 1 } := by
    unfold Page.insertRecord
    rw [hpg1]
    rfl
  obtain ⟨s2, hs2⟩ : ∃ s2, s2 = s1.modifyPage k ((s1.page k).insertRecord t).2.records :=
    ⟨_, rfl⟩
  have r2 : Reachable seatRef s2 := by rw [hs2]; exact Reachable.modifyPage k _ r1
  have w2 := r2.well_formed
  have hdesc2 : ∀ j, s2.desc j = s1.desc j := fun j => by rw [hs2]; rfl
  have hht2 : s2.hashTable = s1.hashTable := by rw [hs2]; rfl
  have hdisk2 : s2.disk = s1.disk := by rw [hs2]; rfl
  have hn2 : s2.numBufs = s1.numBufs := by rw [hs2]; rfl
  have hpg2 : s2.page k = { page_number := p, records := [t] } := by
    rw [hs2, hrec]
    unfold BufMgr.modifyPage
    rw [page_of_set (s := s1) rfl k, if_pos ⟨rfl, by rw [w1.pool_len]; exact hk1⟩, hpg1]
  -- the unpin
  have hl2 : s2.hashTable.lookup file p = some k := by rw [hht2]; exact hl1
  have hu1 : (s2.unPinPage file p true).1 = .ok () :=
    unPinPage_ok_of_pinned true hl2 (by rw [hdesc2, hp1]; decide)
  obtain ⟨s3, hs3⟩ : ∃ s3, s3 = (s2.unPinPage file p true).2 := ⟨_, rfl⟩
  have hun : s2.unPinPage file p true = (.ok (), s3) := by
    rw [hs3]
    exact Prod.ext hu1 rfl
  have r3 : Reachable seatRef s3 := by rw [hs3]; exact Reachable.unPinPage file p true r2
  have w3 := r3.well_formed
  obtain ⟨hdisk3, hht3, hpool3, hn3, hoth3, hv3, hf3, hpn3, hdirty3, hpc3⟩ :=
    unPinPage_ok hun hl2 (by rw [hn2]; exact hk1)
  have hc3 : s3.caches k file.filename p := by
    unfold BufMgr.caches at hc1 ⊢
    rw [hv3, hf3, hpn3, hdesc2]
    exact hc1
  have hd3 : (s3.desc k).dirty = true := by rw [hdirty3]; rfl
  have hp3 : (s3.desc k).pinCnt = 0 := by
    rw [hdesc2, hp1] at hpc3
    omega
  have hks : k < s.numBufs := by rw [← hn1]; exact hk1
  have hk3 : k < s3.numBufs := by rw [hn3, hn2]; exact hk1
  have hdesc3 : ∀ j, j ≠ k → s3.desc j = { s.desc j with refbit := (s1.desc j).refbit } := by
    intro j hj
    rw [hoth3 j hj, hdesc2, hoth1 j hj]
  -- the flush
  obtain ⟨_, _, _, _, herr, _, _⟩ :=
    flushFileLoop_spec file (List.range s3.numBufs) s3 w3 (List.nodup_range _)
  have hfl1 : (s3.flushFile file).1 = .ok () := by
    cases hx : (s3.flushFile file).1 with
    | ok u => rfl
    | error e =>
      exfalso
      obtain ⟨i, hi, ho, hpi, _⟩ := herr e hx
      by_cases hik : i = k
      · rw [hik, hp3] at hpi
        exact Nat.lt_irrefl _ hpi
      · have hlt : i < s.numBufs := by
          have := List.mem_range.mp hi
          rw [hn3, hn2, hn1] at this
          exact this
        have ho2 : s.ownedBy i file.filename := by
          unfold BufMgr.ownedBy at ho ⊢
          rw [hdesc3 i hik] at ho
          exact ho
        have := hpin i hlt ho2
        rw [hdesc3 i hik] at hpi
        have hpi2 : 0 < (s.desc i).pinCnt := hpi
        omega
  obtain ⟨s4, hs4⟩ : ∃ s4, s4 = (s3.flushFile file).2 := ⟨_, rfl⟩
  have hfl : s3.flushFile file = (.ok (), s4) := by
    rw [hs4]
    exact Prod.ext hfl1 rfl
  have r4 : Reachable seatRef s4 := by rw [hs4]; exact Reachable.flushFile file r3
  have hfl2 : BufMgr.flushFileLoop file (List.range s3.numBufs) s3 = (.ok (), s4) := hfl
  obtain ⟨_, _, hwc, _⟩ := flushFile_ok_facts w3 hfl
  obtain ⟨⟨_, _, hn4⟩, _, _, _, _, _, _⟩ :=
    flushFileLoop_spec file (List.range s3.numBufs) s3 w3 (List.nodup_range _)
  rw [hfl2] at hn4
  have hcl := flushFileLoop_cleared file (List.range s3.numBufs) s3 w3 (List.nodup_range _)
    (by rw [hfl2]) k (List.mem_range.mpr hk3)
    (by obtain ⟨_, _, g, hg, hgn⟩ := hc3; exact ⟨g, hg, hgn⟩)
  rw [hfl2] at hcl
  have himg := flushFileLoop_image file (List.range s3.numBufs) s3 w3 (List.nodup_range _) k p
    (List.mem_range.mpr hk3) hc3 hd3 (by rw [hfl2])
  rw [hfl2] at himg
  have hsome4 := flushFileLoop_find_isSome file (List.range s3.numBufs) s3 w3
  rw [hfl2] at hsome4
  have hwr := flushFileLoop_writes file (List.range s3.numBufs) s3 w3 (List.nodup_range _)
  rw [hfl2] at hwr
  refine ⟨s4, ?_, r4, ?_, flushFile_none_owned w3 hfl, hks, ?_, ?_, ?_, ?_, ?_, ?_⟩
  · unfold HeapFileManager.insertTuple
    rw [ha]
    simp only
    rw [← hs2, hun]
    simp only
    rw [hfl, hrid]
  · exact hn4.trans (hn3.trans (hn2.trans hn1))
  · rw [show s4.desc k = (s3.desc k).Clear from hcl]
    rfl
  · rw [hpf]
    exact Disk.find_fresh _ _
  · rw [show s4.disk.find file.filename p = some (s3.page k) from himg,
      page_of_eq hpool3 k, hpg2]
  · rw [hwc k p hc3 hd3]
    have : s3.writeCount file.filename p = s1.writeCount file.filename p :=
      writeCount_of_log (by rw [hdisk3, hdisk2]) _ _
    rw [this, hw1]
  · intro fn q
    rw [show (s4.disk.find fn q).isSome = (s3.disk.find fn q).isSome from hsome4 fn q,
      hdisk3, hdisk2]
    exact hsome1 fn q
  · intro fn q hkey hclean
    have hnone : ¬ ∃ j ∈ List.range s3.numBufs, s3.caches j fn q ∧ fn = file.filename ∧
        (s3.desc j).dirty = true := by
      rintro ⟨j, _, hcj, hfn, hdj⟩
      by_cases hjk : j = k
      · rw [hjk] at hcj
        apply hkey
        refine ⟨hfn, ?_⟩
        exact hcj.2.1.symm.trans hc3.2.1
      · have hcs : s.caches j fn q := by
          unfold BufMgr.caches at hcj ⊢
          rw [hdesc3 j hjk] at hcj
          exact hcj
        have := hclean j hcs
        rw [hdesc3 j hjk] at hdj
        have hdj2 : (s.desc j).dirty = true := hdj
        rw [hdj2] at this
        cases this
    have := ((hwr fn q).1 hnone).2
    rw [show s4.disk.find fn q = s3.disk.find fn q from this, hdisk3, hdisk2]
    exact hfind1 fn q hkey hclean

/-! ## The sweep finds a free frame -/

theorem writePage_not_exceeded (f : File) (pg : Page) (d : Disk) :
    (f.writePage pg d).1 ≠ .error Exn.BufferExceeded := by
  unfold File.writePage
  split
  · intro h; cases h
  · intro h; cases h

theorem evict_not_exceeded (s : BufMgr) : s.evict.1 ≠ .error Exn.BufferExceeded := by
  unfold BufMgr.evict
  simp only
  cases hf : (s.desc s.clockHand).file with
  | none => intro h; cases h
  | some tempFile =>
    simp only
    cases hw : (if (s.desc s.clockHand).dirty = true
        then tempFile.writePage (s.page (s.desc s.clockHand).frameNo) s.disk
        else (.ok (), s.disk)) with
    | mk r0 disk1 =>
      cases r0 with
      | error e =>
        simp only
        intro h
        have he : e = Exn.BufferExceeded := Except.error.inj h
        by_cases hd : (s.desc s.clockHand).dirty = true
        · rw [if_pos hd] at hw
          apply writePage_not_exceeded tempFile (s.page (s.desc s.clockHand).frameNo) s.disk
          rw [hw, he]
        · rw [if_neg hd] at hw
          cases hw
      | ok u =>
        simp only
        cases s.hashTable.remove tempFile (s.desc s.clockHand).pageNo with
        | none => intro h; cases h
        | some ht => intro h; cases h

/-- When a frame of the pool is free the sweep does not give up: the pinned
frames it counts on its way to the free frame are fewer than the frames of the
pool. `d` is the number of advances after the next one that bring the hand to
the free frame `q`. -/
theorem allocBufLoop_invalid : ∀ (fuel : Nat) (s : BufMgr) (c d : Nat) (q : FrameId)
    (r : Except Exn FrameId) (s1 : BufMgr),
    s.numBufs < 2 ^ 32 → q < s.numBufs → (s.desc q).valid = false →
    q = (s.advanceClock.clockHand + d) % s.numBufs → c + d < s.numBufs →
    s.allocBufLoop fuel c = some (r, s1) → r ≠ .error Exn.BufferExceeded := by
  intro fuel
  induction fuel with
  | zero => intro s c d q r s1 _ _ _ _ _ h; cases h
  | succ n ih =>
    intro s c d q r s1 h32 hq hqv hpos hcd h
    rw [BufMgr.allocBufLoop] at h
    have h0 : ¬ c = s.numBufs := by omega
    rw [if_neg h0] at h
    have hN : 0 < s.numBufs := by omega
    have hhand := advanceClock_hand_lt s hN
    simp only at h
    by_cases hv : (s.advanceClock.desc s.advanceClock.clockHand).valid = true
    · rw [if_pos hv] at h
      have hne : q ≠ s.advanceClock.clockHand := by
        intro he
        rw [← he] at hv
        have hv2 : (s.desc q).valid = true := hv
        rw [hqv] at hv2
        cases hv2
      obtain ⟨d2, hd2⟩ : ∃ d2, d = d2 + 1 := by
        cases d with
        | zero =>
          exfalso
          rw [Nat.add_zero, Nat.mod_eq_of_lt hhand] at hpos
          exact hne hpos
        | succ d2 => exact ⟨d2, rfl⟩
      have hnext : q = ((s.advanceClock.clockHand + 1) % 2 ^ 32 % s.numBufs + d2) % s.numBufs := by
        rw [Nat.mod_eq_of_lt (Nat.lt_of_le_of_lt (Nat.succ_le_of_lt hhand) h32),
          Nat.mod_add_mod, hpos, hd2]
        exact congrArg (fun x => x % s.numBufs) (Nat.succ_add_eq_add_succ _ _).symm
      by_cases hr : (s.advanceClock.desc s.advanceClock.clockHand).refbit = true
      · rw [if_pos hr] at h
        refine ih _ c d2 q r s1 (by rw [numBufs_set]; exact h32)
          (by rw [numBufs_set]; exact hq) ?_ ?_
          (by rw [numBufs_set]; show c + d2 < s.numBufs; omega) h
        · rw [desc_set_table, if_neg (fun hc => hne hc.1.symm)]
          exact hqv
        · rw [numBufs_set, advanceClock_hand_set]
          exact hnext
      · rw [if_neg hr] at h
        by_cases hp : (s.advanceClock.desc s.advanceClock.clockHand).pinCnt > 0
        · rw [if_pos hp] at h
          exact ih s.advanceClock (c + 1) d2 q r s1 h32 hq hqv hnext
            (by show c + 1 + d2 < s.numBufs; omega) h
        · rw [if_neg hp] at h
          have h1 : s.advanceClock.evict.1 = r := congrArg (fun x => x.1) (Option.some.inj h)
          rw [← h1]
          exact evict_not_exceeded _
    · rw [if_neg hv] at h
      simp only [Option.some.injEq, Prod.mk.injEq] at h
      rw [← h.1]
      intro hc
      cases hc

/-- In a well-formed pool with a free frame `allocPage` returns a page. -/
theorem allocPage_ok_of_invalid (seatRef : Bool) {s : BufMgr} (w : s.WF) (file : File)
    {q : FrameId} (hq : q < s.numBufs) (hqv : (s.desc q).valid = false) :
    ∃ p k s1, s.allocPage seatRef file = some (.ok (p, k), s1) := by
  have hsome := allocPage_isSome seatRef s file
  cases hx : s.allocPage seatRef file with
  | none => rw [hx] at hsome; cases hsome
  | some x =>
    obtain ⟨r, s1⟩ := x
    cases r with
    | ok pk => exact ⟨pk.1, pk.2, s1, rfl⟩
    | error e =>
      exfalso
      have w0 : ({ s with disk := (file.allocatePage s.disk).2 } : BufMgr).WF := by
        apply BufMgr.WF.disk_change w
        · rfl
        · rfl
        · rfl
        intro j hj fn q hc
        exact allocatePage_find_of_isSome file s.disk fn q (w.on_disk j hj fn q hc)
      unfold BufMgr.allocPage at hx
      simp only at hx
      cases ha : ({ s with disk := (file.allocatePage s.disk).2 } : BufMgr).allocBuf with
      | none => simp [ha] at hx
      | some y =>
        obtain ⟨ra, s2⟩ := y
        simp only [ha] at hx
        cases ra with
        | ok k2 => simp at hx
        | error e2 =>
          simp only [Option.some.injEq, Prod.mk.injEq, Except.error.injEq] at hx
          obtain ⟨d, hd, hdq⟩ := offset_exists s.numBufs s.advanceClock.clockHand q
            (advanceClock_hand_lt s (Nat.lt_of_le_of_lt (Nat.zero_le _) hq)) hq
          have hne := allocBufLoop_invalid _ { s with disk := (file.allocatePage s.disk).2 } 0 d q
            (.error e2) s2 w.size_lt hq hqv hdq (by show 0 + d < s.numBufs; omega) ha
          apply hne
          rw [allocBuf_error w0 ha]

/-! ## Successive inserts -/

theorem forall2_left {α β : Type} {R : α → β → Prop} {l1 : List α} {l2 : List β}
    (h : List.Forall₂ R l1 l2) : ∀ x ∈ l1, ∃ y, R x y := by
  induction h with
  | nil => intro x hx; simp at hx
  | cons hr _ ih =>
    intro x hx
    rcases List.mem_cons.1 hx with rfl | hx'
    · exact ⟨_, hr⟩
    · exact ih x hx'

theorem not_caches_of_not_ownedBy {s : BufMgr} {fn : String}
    (h : ∀ i, ¬ s.ownedBy i fn) (i : FrameId) (q : PageId) : ¬ s.caches i fn q := by
  rintro ⟨_, _, g, hg, hgn⟩
  exact h i ⟨g, hg, hgn⟩

/-- Successive inserts into a file, from a reachable pool in which no frame of
the file is pinned and the first `allocPage` finds a frame: every insert
returns, each tuple gets a page of its own that the file did not have, stored
with that one tuple, and the file gains these pages and no others. -/
theorem insertTuples_ok (seatRef : Bool) (recId0 : RecordId) (file : File) :
    ∀ (ts : List String) (s : BufMgr), Reachable seatRef s →
    (∀ i, i < s.numBufs → s.ownedBy i file.filename → (s.desc i).pinCnt = 0) →
    (ts ≠ [] → ∃ p k s1, s.allocPage seatRef file = some (.ok (p, k), s1)) →
    ∃ rids sk, HeapFileManager.insertTuples seatRef recId0 file ts s = some (.ok rids, sk) ∧
      List.Forall₂ (fun rid t => s.disk.find file.filename rid.page_number = none ∧
        sk.disk.find file.filename rid.page_number
          = some { page_number := rid.page_number, records := [t] }) rids ts ∧
      (rids.map (fun rid => rid.page_number)).Nodup ∧
      (∀ fn q, (sk.disk.find fn q).isSome
        = (decide (fn = file.filename ∧ q ∈ rids.map (fun rid => rid.page_number))
            || (s.disk.find fn q).isSome)) ∧
      (∀ q, q ∉ rids.map (fun rid => rid.page_number) →
        (∀ i, s.caches i file.filename q → (s.desc i).dirty = false) →
        sk.disk.find file.filename q = s.disk.find file.filename q) ∧
      (ts ≠ [] → ∀ i, ¬ sk.ownedBy i file.filename) := by
  intro ts
  induction ts with
  | nil =>
    intro s _ _ _
    refine ⟨[], s, rfl, List.Forall₂.nil, List.nodup_nil, ?_, fun _ _ _ => rfl,
      fun h => absurd rfl h⟩
    intro fn q
    simp
  | cons t rest ih =>
    intro s h hpin hfirst
    obtain ⟨p, k, s1, ha⟩ := hfirst (List.cons_ne_nil _ _)
    obtain ⟨s4, hins, r4, hn4, hown4, hk, hkv, hnew, himg, _, hsome, hfind⟩ :=
      insertTuple_ok recId0 t h hpin ha
    obtain ⟨rids, sk, hrest, hall, hnd, hsomek, hfindk, hownk⟩ := ih s4 r4
      (fun i _ ho => absurd ho (hown4 i))
      (fun _ => allocPage_ok_of_invalid seatRef r4.well_formed file (by rw [hn4]; exact hk) hkv)
    have hclean4 : ∀ q i, s4.caches i file.filename q → (s4.desc i).dirty = false :=
      fun q i hc => absurd hc (not_caches_of_not_ownedBy hown4 i q)
    have hpnot : p ∉ rids.map (fun rid => rid.page_number) := by
      intro hp
      obtain ⟨rid, hrid, he⟩ := List.mem_map.1 hp
      obtain ⟨_, hnone, _⟩ := forall2_left hall rid hrid
      rw [he, himg] at hnone
      cases hnone
    refine ⟨{ page_number := p, slot_number := 1 } :: rids, sk, ?_, ?_, ?_, ?_, ?_, ?_⟩
    · rw [HeapFileManager.insertTuples, hins]
      simp only
      rw [hrest]
    · refine List.Forall₂.cons ⟨hnew, ?_⟩ ?_
      · show sk.disk.find file.filename p = _
        rw [hfindk p hpnot (hclean4 p), himg]
      · refine hall.imp ?_
        rintro rid t2 ⟨h1, h2⟩
        refine ⟨?_, h2⟩
        have := hsome file.filename rid.page_number
        rw [h1] at this
        cases hx : s.disk.find file.filename rid.page_number with
        | none => rfl
        | some pg =>
          rw [hx] at this
          simp at this
    · rw [List.map_cons, List.nodup_cons]
      exact ⟨hpnot, hnd⟩
    · intro fn q
      rw [hsomek fn q, hsome fn q, List.map_cons]
      by_cases hf : fn = file.filename
      · by_cases hq : q = p
        · simp [hf, hq]
        · by_cases hm : q ∈ rids.map (fun rid => rid.page_number)
          · simp [hf, hm]
          · simp [hf, hq, hm]
      · simp [hf]
    · intro q hq hclean
      rw [List.map_cons, List.mem_cons, not_or] at hq
      rw [hfindk q hq.2 (hclean4 q)]
      exact hfind file.filename q (fun hc => hq.1 hc.2) hclean
    · intro _
      cases rest with
      | nil =>
        have hsk : sk = s4 := by
          have : some (Except.ok rids, sk) = some (Except.ok ([] : List RecordId), s4) :=
            hrest.symm.trans rfl
          exact (Prod.mk.inj (Option.some.inj this)).2
        rw [hsk]
        exact hown4
      | cons t2 rest2 => exact hownk (List.cons_ne_nil _ _)

/-! ## C23 and C24: `insertTuple` -/

theorem allocPage_error_exceeded {seatRef : Bool} {s : BufMgr} {file : File} {e : Exn}
    {s1 : BufMgr} (w : s.WF) (h : s.allocPage seatRef file = some (.error e, s1)) :
    e = Exn.BufferExceeded := by
  have w0 : ({ s with disk := (file.allocatePage s.disk).2 } : BufMgr).WF := by
    apply BufMgr.WF.disk_change w
    · rfl
    · rfl
    · rfl
    intro j hj fn q hc
    exact allocatePage_find_of_isSome file s.disk fn q (w.on_disk j hj fn q hc)
  unfold BufMgr.allocPage at h
  simp only at h
  cases ha : ({ s with disk := (file.allocatePage s.disk).2 } : BufMgr).allocBuf with
  | none => simp [ha] at h
  | some y =>
    obtain ⟨ra, s2⟩ := y
    simp only [ha] at h
    cases ra with
    | ok k2 => simp at h
    | error e2 =>
      simp only [Option.some.injEq, Prod.mk.injEq, Except.error.injEq] at h
      rw [← h.1]
      exact allocBuf_error w0 ha

/-- After an `allocPage` that returned page `p` in frame `k`, `insertTuple`
writes the record into the empty new page, unpins it, which cannot fail, and
the outcome is that of the flush. -/
theorem insertTuple_eq_flush {seatRef : Bool} {s : BufMgr} (recId0 : RecordId) (t : String)
    {file : File} {p : PageId} {k : FrameId} {s1 : BufMgr} (h : Reachable seatRef s)
    (ha : s.allocPage seatRef file = some (.ok (p, k), s1)) :
    ((s1.modifyPage k [t]).unPinPage file p true).1 = .ok () ∧
    (∀ s4, ((s1.modifyPage k [t]).unPinPage file p true).2.flushFile file = (.ok (), s4) →
      HeapFileManager.insertTuple seatRef recId0 t file s
        = some ((.ok { page_number := p, slot_number := 1 }, []), s4)) ∧
    (∀ e s4, ((s1.modifyPage k [t]).unPinPage file p true).2.flushFile file = (.error e, s4) →
      HeapFileManager.insertTuple seatRef recId0 t file s
        = some (HeapFileManager.handle { page_number := p, slot_number := 1 } e, s4)) := by
  have w := h.well_formed
  obtain ⟨hk1, hc1, hl1, hd1, hp1, hw1⟩ := allocPage_ok_facts w ha
  obtain ⟨hpf, hpg1, _⟩ := allocPage_ok_more w ha
  have hrec : ((s1.page k).insertRecord t).2.records = [t] := by
    unfold Page.insertRecord
    rw [hpg1]
    rfl
  have hrid : ((s1.page k).insertRecord t).1 = { page_number := p, slot_number := 1 } := by
    unfold Page.insertRecord
    rw [hpg1]
    rfl
  have hu1 : ((s1.modifyPage k [t]).unPinPage file p true).1 = .ok () :=
    unPinPage_ok_of_pinned true (k := k) hl1
      (by show (s1.desc k).pinCnt ≠ 0; rw [hp1]; decide)
  obtain ⟨s3, hs3⟩ : ∃ s3, s3 = ((s1.modifyPage k [t]).unPinPage file p true).2 := ⟨_, rfl⟩
  have hun : (s1.modifyPage k [t]).unPinPage file p true = (.ok (), s3) := by
    rw [hs3]
    exact Prod.ext hu1 rfl
  rw [← hs3]
  refine ⟨hu1, ?_, ?_⟩
  · intro s4 hfl
    unfold HeapFileManager.insertTuple
    rw [ha]
    simp only
    rw [hrec, hrid, hun]
    simp only
    rw [hfl]
  · intro e s4 hfl
    unfold HeapFileManager.insertTuple
    rw [ha]
    simp only
    rw [hrec, hrid, hun]
    simp only
    rw [hfl]

/-- Claim C23: in a reachable pool in which no frame owned by file `F` is
pinned and `allocPage(F)` obtains a frame, `insertTuple(t, F)` returns the id
of a record on a page `p` that `F` did not have; afterwards `F` stores page `p`
with exactly the one record `t`, page `p` has been written once, the stored
pages are those from before and `p`, and no frame caches a page of `F`. So the
inserts of the tuples `t :: rest` one after the other all return, and give each
tuple a new page of its own that holds just that tuple. -/
theorem C23_insertTuple_one_page_per_tuple (seatRef : Bool) (s : BufMgr)
    (h : Reachable seatRef s) (recId0 : RecordId) (file : File)
    (hpin : ∀ i, i < s.numBufs → s.ownedBy i file.filename → (s.desc i).pinCnt = 0)
    (t : String) (rest : List String) (p : PageId) (k : FrameId) (s1 : BufMgr)
    (ha : s.allocPage seatRef file = some (.ok (p, k), s1)) :
    (∃ rid s4, HeapFileManager.insertTuple seatRef recId0 t file s = some ((.ok rid, []), s4) ∧
      rid.page_number = p ∧
      s.disk.find file.filename p = none ∧
      s4.disk.find file.filename p = some { page_number := p, records := [t] } ∧
      s4.writeCount file.filename p = s.writeCount file.filename p + 1 ∧
      (∀ fn q, (s4.disk.find fn q).isSome
        = (decide (fn = file.filename ∧ q = p) || (s.disk.find fn q).isSome)) ∧
      (∀ i q, ¬ s4.caches i file.filename q)) ∧
    (∃ rids sk, HeapFileManager.insertTuples seatRef recId0 file (t :: rest) s
        = some (.ok rids, sk) ∧
      List.Forall₂ (fun rid t => s.disk.find file.filename rid.page_number = none ∧
        sk.disk.find file.filename rid.page_number
          = some { page_number := rid.page_number, records := [t] }) rids (t :: rest) ∧
      (rids.map (fun rid => rid.page_number)).Nodup ∧
      (∀ fn q, (sk.disk.find fn q).isSome
        = (decide (fn = file.filename ∧ q ∈ rids.map (fun rid => rid.page_number))
            || (s.disk.find fn q).isSome)) ∧
      (∀ i q, ¬ sk.caches i file.filename q)) := by
  obtain ⟨s4, hins, _, _, hown4, _, _, hnew, himg, hwc, hsome, _⟩ :=
    insertTuple_ok recId0 t h hpin ha
  obtain ⟨rids, sk, hrun, hall, hnd, hsomek, _, hownk⟩ :=
    insertTuples_ok seatRef recId0 file (t :: rest) s h hpin (fun _ => ⟨p, k, s1, ha⟩)
  exact ⟨⟨_, s4, hins, rfl, hnew, himg, hwc, hsome, not_caches_of_not_ownedBy hown4⟩,
    ⟨rids, sk, hrun, hall, hnd, hsomek,
      not_caches_of_not_ownedBy (hownk (List.cons_ne_nil _ _))⟩⟩

theorem exOneRead_no_s_frame (i : FrameId) (ho : (exOneRead true).ownedBy i exFileS.filename) :
    ((exOneRead true).desc i).pinCnt = 0 := by
  obtain ⟨g, hg, hgn⟩ := ho
  match i, hg with
  | 0, hg =>
    have : g = exFile := (Option.some.inj hg).symm
    rw [this] at hgn
    exact absurd hgn (by decide)
  | 1, hg => cases hg
  | n + 2, hg => cases hg

/-- Witness for C23: two inserts into `s.tbl` in the pool `exOneRead true`,
whose pinned frame belongs to `r.tbl`, give the pages 1 and 2 of `s.tbl`. -/
theorem C23_witness :
    Reachable true (exOneRead true) ∧
    (HeapFileManager.insertTuples true { page_number := 0, slot_number := 0 } exFileS
        ["x", "y"] (exOneRead true)).map (fun x => x.1)
      = some (.ok [{ page_number := 1, slot_number := 1 },
                   { page_number := 2, slot_number := 1 }]) ∧
    ∃ rids sk, HeapFileManager.insertTuples true { page_number := 0, slot_number := 0 } exFileS
        ("x" :: ["y"]) (exOneRead true) = some (.ok rids, sk) ∧
      List.Forall₂ (fun rid t =>
        (exOneRead true).disk.find exFileS.filename rid.page_number = none ∧
        sk.disk.find exFileS.filename rid.page_number
          = some { page_number := rid.page_number, records := [t] }) rids ("x" :: ["y"]) ∧
      (rids.map (fun rid => rid.page_number)).Nodup ∧
      (∀ fn q, (sk.disk.find fn q).isSome
        = (decide (fn = exFileS.filename ∧ q ∈ rids.map (fun rid => rid.page_number))
            || ((exOneRead true).disk.find fn q).isSome)) ∧
      (∀ i q, ¬ sk.caches i exFileS.filename q) :=
  ⟨exOneRead_reachable true, rfl,
    (C23_insertTuple_one_page_per_tuple true (exOneRead true) (exOneRead_reachable true)
      { page_number := 0, slot_number := 0 } exFileS (fun i _ ho => exOneRead_no_s_frame i ho)
      "x" ["y"] 1 1 _ rfl).2⟩

/-- Counterexample to C24 as stated: in the reachable pool `exOneRead true`,
where frame 0 holds page 1 of `r.tbl` pinned, `insertTuple` into `r.tbl`
allocates page 5, inserts the record and unpins, and the flush then fails with
`PagePinned` at frame 0. The error is caught, yet the id returned is that of the
inserted record, page 5 slot 1, whatever the default-constructed id is. -/
theorem C24_counterexample :
    Reachable true (exOneRead true) ∧
    (exOneRead true).allocPage true exFile = some (.ok (5, 1), exAllocated) ∧
    ((exAllocated.modifyPage 1 ["t"]).unPinPage exFile 5 true).1 = .ok () ∧
    (((exAllocated.modifyPage 1 ["t"]).unPinPage exFile 5 true).2.flushFile exFile).1
      = .error (Exn.PagePinned "r.tbl" 1 0) ∧
    (∀ recId0, (HeapFileManager.insertTuple true recId0 "t" exFile (exOneRead true)).map
        (fun x => x.1)
      = some (.ok { page_number := 5, slot_number := 1 }, ["throws page pinned exception"])) ∧
    ({ page_number := 5, slot_number := 1 } : RecordId) ≠ { page_number := 0, slot_number := 0 } :=
  ⟨exOneRead_reachable true, rfl, rfl, rfl, fun _ => rfl, by decide⟩

/-- Claim C24, amended: in a reachable pool `insertTuple` always returns
normally. When `allocPage` fails, which it does with `BufferExceeded` only, the
id returned is the default-constructed one. When `allocPage` returns page `p`,
the unpin cannot fail, the only error left is the `PagePinned` of the flush, and
whether the flush fails or not the id returned is that of the record inserted,
slot 1 of page `p`, not the default-constructed one. -/
theorem C24_insertTuple_caught_errors (seatRef : Bool) (s : BufMgr) (h : Reachable seatRef s)
    (recId0 : RecordId) (t : String) (file : File) :
    ∃ rid out s2, HeapFileManager.insertTuple seatRef recId0 t file s
        = some ((.ok rid, out), s2) ∧
      (∀ e s1, s.allocPage seatRef file = some (.error e, s1) →
        e = Exn.BufferExceeded ∧ rid = recId0 ∧ out = ["throws buffer exceeded exception"] ∧
        s2 = s1) ∧
      (∀ p k s1, s.allocPage seatRef file = some (.ok (p, k), s1) →
        rid = { page_number := p, slot_number := 1 } ∧
        ((s1.modifyPage k [t]).unPinPage file p true).1 = .ok () ∧
        s2 = (((s1.modifyPage k [t]).unPinPage file p true).2.flushFile file).2 ∧
        (((((s1.modifyPage k [t]).unPinPage file p true).2.flushFile file).1 = .ok () ∧
            out = []) ∨
         (∃ q j, (((s1.modifyPage k [t]).unPinPage file p true).2.flushFile file).1
              = .error (Exn.PagePinned file.filename q j) ∧
            out = ["throws page pinned exception"]))) := by
  have w := h.well_formed
  have hsome := allocPage_isSome seatRef s file
  cases hx : s.allocPage seatRef file with
  | none => rw [hx] at hsome; cases hsome
  | some x =>
    obtain ⟨r, s1⟩ := x
    cases r with
    | error e =>
      have he := allocPage_error_exceeded w hx
      subst he
      refine ⟨recId0, ["throws buffer exceeded exception"], s1, ?_, ?_, ?_⟩
      · unfold HeapFileManager.insertTuple
        rw [hx]
        rfl
      · intro e2 s12 h2
        have := Option.some.inj h2
        have h3 := (Prod.mk.inj this).1
        have h4 := (Prod.mk.inj this).2
        exact ⟨(Except.error.inj h3).symm, rfl, rfl, h4⟩
      · intro p k s12 h2
        cases (Prod.mk.inj (Option.some.inj h2)).1
    | ok pk =>
      obtain ⟨p, k⟩ := pk
      obtain ⟨hu1, hcok, hcerr⟩ := insertTuple_eq_flush recId0 t h hx
      have r1 : Reachable seatRef s1 := Reachable.allocPage file _ s1 h hx
      have r3 : Reachable seatRef ((s1.modifyPage k [t]).unPinPage file p true).2 :=
        Reachable.unPinPage file p true (Reachable.modifyPage k [t] r1)
      obtain ⟨_, _, _, _, herr, _, _⟩ := flushFileLoop_spec file
        (List.range ((s1.modifyPage k [t]).unPinPage file p true).2.numBufs)
        ((s1.modifyPage k [t]).unPinPage file p true).2 r3.well_formed (List.nodup_range _)
      have herr2 : ∀ e, (((s1.modifyPage k [t]).unPinPage file p true).2.flushFile file).1
          = .error e → ∃ q j, e = Exn.PagePinned file.filename q j := by
        intro e he
        obtain ⟨i, _, _, _, hei⟩ := herr e he
        exact ⟨_, i, hei⟩
      cases hfl : ((s1.modifyPage k [t]).unPinPage file p true).2.flushFile file with
      | mk rf s4 =>
        rw [hfl] at herr2
        cases rf with
        | ok u =>
          refine ⟨{ page_number := p, slot_number := 1 }, [], s4, hcok s4 hfl, ?_, ?_⟩
          · intro e s12 h2
            cases (Prod.mk.inj (Option.some.inj h2)).1
          · intro p2 k2 s12 h2
            have h3 := Prod.mk.inj (Option.some.inj h2)
            have h4 := Prod.mk.inj (Except.ok.inj h3.1)
            obtain ⟨hp, hk⟩ := h4
            have hs := h3.2
            subst hp; subst hk; subst hs
            rw [hfl]
            exact ⟨rfl, hu1, rfl, Or.inl ⟨rfl, rfl⟩⟩
        | error e =>
          obtain ⟨q, j, he⟩ := herr2 e rfl
          subst he
          refine ⟨{ page_number := p, slot_number := 1 }, ["throws page pinned exception"], s4,
            hcerr _ s4 hfl, ?_, ?_⟩
          · intro e s12 h2
            cases (Prod.mk.inj (Option.some.inj h2)).1
          · intro p2 k2 s12 h2
            have h3 := Prod.mk.inj (Option.some.inj h2)
            have h4 := Prod.mk.inj (Except.ok.inj h3.1)
            obtain ⟨hp, hk⟩ := h4
            have hs := h3.2
            subst hp; subst hk; subst hs
            rw [hfl]
            exact ⟨rfl, hu1, rfl, Or.inr ⟨q, j, rfl, rfl⟩⟩

/-- Witness for C24: in the pool `exOneRead true` the insert into `r.tbl`
returns normally with the id of the inserted record. -/
theorem C24_witness :
    Reachable true (exOneRead true) ∧
    ∃ rid out s2, HeapFileManager.insertTuple true { page_number := 0, slot_number := 0 } "t"
        exFile (exOneRead true) = some ((.ok rid, out), s2) ∧
      rid = { page_number := 5, slot_number := 1 } :=
  ⟨exOneRead_reachable true,
    (C24_insertTuple_caught_errors true (exOneRead true) (exOneRead_reachable true)
      { page_number := 0, slot_number := 0 } "t" exFile).imp fun _ hr => hr.imp fun _ ho =>
        ho.imp fun _ hs => ⟨hs.1, (hs.2.2 5 1 exAllocated rfl).1⟩⟩

/-! ## The matcher decides the regular expressions -/

theorem Regex.nullable_of_matches {r : Regex} {s : List Char} (h : Regex.Matches r s) :
    s = [] → r.nullable = true := by
  induction h with
  | eps => intro _; rfl
  | cls p c hp => intro he; cases he
  | seq _ _ ih1 ih2 =>
    intro he
    obtain ⟨hu, hv⟩ := List.append_eq_nil.1 he
    simp only [Regex.nullable, ih1 hu, ih2 hv, Bool.and_self]
  | altL _ ih =>
    intro he
    simp only [Regex.nullable, ih he, Bool.true_or]
  | altR _ ih =>
    intro he
    simp only [Regex.nullable, ih he, Bool.or_true]
  | starNil => intro _; rfl
  | starCons _ _ _ _ => intro _; rfl

theorem Regex.matches_nil_of_nullable : ∀ (r : Regex), r.nullable = true → Regex.Matches r []
  | .none, h => by cases h
  | .eps, _ => Regex.Matches.eps
  | .cls _, h => by cases h
  | .seq r1 r2, h => by
    simp only [Regex.nullable, Bool.and_eq_true] at h
    exact Regex.Matches.seq (Regex.matches_nil_of_nullable r1 h.1)
      (Regex.matches_nil_of_nullable r2 h.2)
  | .alt r1 r2, h => by
    simp only [Regex.nullable, Bool.or_eq_true] at h
    rcases h with h | h
    · exact Regex.Matches.altL (Regex.matches_nil_of_nullable r1 h)
    · exact Regex.Matches.altR (Regex.matches_nil_of_nullable r2 h)
  | .star _, _ => Regex.Matches.starNil

theorem Regex.nullable_iff (r : Regex) : r.nullable = true ↔ Regex.Matches r [] :=
  ⟨Regex.matches_nil_of_nullable r, fun h => Regex.nullable_of_matches h rfl⟩

theorem Regex.matches_of_deriv : ∀ (r : Regex) (c : Char) (s : List Char),
    Regex.Matches (r.deriv c) s → Regex.Matches r (c :: s)
  | .none, c, s, h => by cases h
  | .eps, c, s, h => by cases h
  | .cls p, c, s, h => by
    by_cases hp : p c = true
    · simp only [Regex.deriv, if_pos hp] at h
      cases h
      exact Regex.Matches.cls p c hp
    · simp only [Regex.deriv, if_neg hp] at h
      cases h
  | .seq r1 r2, c, s, h => by
    by_cases hn : r1.nullable = true
    · simp only [Regex.deriv, if_pos hn] at h
      cases h with
      | altL h1 =>
        cases h1 with
        | seq hu hv => exact Regex.Matches.seq (Regex.matches_of_deriv r1 c _ hu) hv
      | altR h2 =>
        exact Regex.Matches.seq (Regex.matches_nil_of_nullable r1 hn)
          (Regex.matches_of_deriv r2 c s h2)
    · simp only [Regex.deriv, if_neg hn] at h
      cases h with
      | seq hu hv => exact Regex.Matches.seq (Regex.matches_of_deriv r1 c _ hu) hv
  | .alt r1 r2, c, s, h => by
    simp only [Regex.deriv] at h
    cases h with
    | altL h1 => exact Regex.Matches.altL (Regex.matches_of_deriv r1 c s h1)
    | altR h2 => exact Regex.Matches.altR (Regex.matches_of_deriv r2 c s h2)
  | .star r, c, s, h => by
    simp only [Regex.deriv] at h
    cases h with
    | seq hu hv => exact Regex.Matches.starCons (Regex.matches_of_deriv r c _ hu) hv

theorem Regex.deriv_of_matches {r : Regex} {t : List Char} (h : Regex.Matches r t) :
    ∀ (c : Char) (s : List Char), t = c :: s → Regex.Matches (r.deriv c) s := by
  induction h with
  | eps => intro c s he; cases he
  | cls p c1 hp =>
    intro c s he
    cases he
    simp only [Regex.deriv, if_pos hp]
    exact Regex.Matches.eps
  | @seq r1 r2 u v h1 h2 ih1 ih2 =>
    intro c s he
    cases u with
    | nil =>
      have hn : r1.nullable = true := Regex.nullable_of_matches h1 rfl
      simp only [Regex.deriv, if_pos hn]
      exact Regex.Matches.altR (ih2 c s he)
    | cons c1 u1 =>
      cases he
      have hd := Regex.Matches.seq (ih1 c u1 rfl) h2
      by_cases hn : r1.nullable = true
      · simp only [Regex.deriv, if_pos hn]
        exact Regex.Matches.altL hd
      · simp only [Regex.deriv, if_neg hn]
        exact hd
  | altL _ ih =>
    intro c s he
    simp only [Regex.deriv]
    exact Regex.Matches.altL (ih c s he)
  | altR _ ih =>
    intro c s he
    simp only [Regex.deriv]
    exact Regex.Matches.altR (ih c s he)
  | starNil => intro c s he; cases he
  | @starCons r u v h1 h2 ih1 ih2 =>
    intro c s he
    cases u with
    | nil => exact ih2 c s he
    | cons c1 u1 =>
      cases he
      simp only [Regex.deriv]
      exact Regex.Matches.seq (ih1 c u1 rfl) h2

/-- The matcher decides whether the expression matches the whole string. -/
theorem Regex.matchesAll_iff : ∀ (s : List Char) (r : Regex),
    r.matchesAll s = true ↔ Regex.Matches r s
  | [], r => Regex.nullable_iff r
  | c :: cs, r => by
    rw [Regex.matchesAll, Regex.matchesAll_iff cs (r.deriv c)]
    exact ⟨Regex.matches_of_deriv r c cs, fun h => Regex.deriv_of_matches h c cs rfl⟩

theorem Regex.matches_any : ∀ (u : List Char),
    Regex.Matches (.star (.cls (fun _ => true))) u
  | [] => Regex.Matches.starNil
  | c :: cs => Regex.Matches.starCons (u := [c]) (Regex.Matches.cls _ c rfl)
      (Regex.matches_any cs)

/-- The search succeeds exactly when some part of the string matches. -/
theorem regex_search_iff (s : String) (r : Regex) :
    regex_search s r = true ↔ ∃ u v w, s.data = u ++ v ++ w ∧ Regex.Matches r v := by
  unfold regex_search
  rw [Regex.matchesAll_iff]
  generalize s.data = l
  constructor
  · intro h
    cases h with
    | @seq _ _ u vw hu hvw =>
      cases hvw with
      | @seq _ _ v w hv hw => exact ⟨u, v, w, (List.append_assoc u v w).symm, hv⟩
  · rintro ⟨u, v, w, he, hv⟩
    rw [he, List.append_assoc]
    exact Regex.Matches.seq (Regex.matches_any u) (Regex.Matches.seq hv (Regex.matches_any w))

/-! ## C25: what `fromSQLStatement` rejects -/

theorem stoi_error {str : String} {e : SqlExn} (h : stoi str = .error e) (q : String) :
    e ≠ SqlExn.SqlInvalid q := by
  unfold stoi at h
  split at h
  · cases h; intro hc; cases hc
  · split at h
    · cases h
    · cases h; intro hc; cases hc

theorem substrAt_error {str : String} {pos n : Nat} {e : SqlExn}
    (h : substrAt str pos n = .error e) (q : String) : e ≠ SqlExn.SqlInvalid q := by
  unfold substrAt at h
  split at h
  · cases h; intro hc; cases hc
  · cases h

theorem typeOf_error {token : String} {e : SqlExn}
    (h : TableSchema.typeOf token = .error e) (q : String) :
    e ≠ SqlExn.SqlInvalid q := by
  unfold TableSchema.typeOf at h
  split at h
  · split at h
    · cases h
    · split at h
      · split at h
        · rename_i e2 he
          cases h
          exact stoi_error he q
        · cases h
      · split at h
        · split at h
          · rename_i e2 he
            cases h
            exact stoi_error he q
          · cases h
        · cases h; intro hc; cases hc
  · cases h; intro hc; cases hc

theorem attributeOf_error {declaration : String} {e : SqlExn}
    (h : TableSchema.attributeOf declaration = .error e) (q : String) :
    e ≠ SqlExn.SqlInvalid q := by
  unfold TableSchema.attributeOf at h
  split at h
  · cases h; intro hc; cases hc
  · cases h; intro hc; cases hc
  · split at h
    · rename_i e2 he
      cases h
      exact typeOf_error he q
    · cases h

theorem attributesOf_error : ∀ (l : List String) (e : SqlExn),
    TableSchema.attributesOf l = .error e → ∀ q, e ≠ SqlExn.SqlInvalid q := by
  intro l
  induction l with
  | nil => intro e h; cases h
  | cons d rest ih =>
    intro e h q
    unfold TableSchema.attributesOf at h
    split at h
    · rename_i e2 he
      cases h
      exact attributeOf_error he q
    · split at h
      · rename_i e2 he
        cases h
        exact ih e he q
      · cases h

theorem extract_error {sql : String} {e : SqlExn} (h : (TableSchema.extract sql).2 = .error e)
    (q : String) : e ≠ SqlExn.SqlInvalid q := by
  unfold TableSchema.extract at h
  split at h
  · cases h
  · exact substrAt_error h q

/-- Claim C25 against the code: `fromSQLStatement` fails with `SqlInvalid` of
its input exactly when no part of the input matches the statement pattern, and
with no other `SqlInvalid`; so an input that merely contains a statement passes
the check. A statement with text before it and a column declaration with two
types return a schema; a statement with text behind it and a column declaration
without a type pass the check as well and then reach the read of the variable
`attrType` before anything was assigned to it. None of the four fails with
`SqlInvalid`. -/
theorem C25_fromSQLStatement_sqlInvalid (sql : String) :
    (TableSchema.fromSQLStatement sql = .error (SqlExn.SqlInvalid sql) ↔
      ¬ ∃ u v w, sql.data = u ++ v ++ w ∧ Regex.Matches TableSchema.pattern v) ∧
    (∀ q, TableSchema.fromSQLStatement sql = .error (SqlExn.SqlInvalid q) → q = sql) ∧
    TableSchema.fromSQLStatement "x CREATE TABLE r (a INT);"
      = .ok { tableName := "r", isTemp := false,
              attrs := [{ attrName := "a", attrType := DataType.INT, maxSize := 0,
                          isNotNull := false, isUnique := false }] } ∧
    TableSchema.fromSQLStatement "CREATE TABLE r (a INT CHAR(3));"
      = .ok { tableName := "r", isTemp := false,
              attrs := [{ attrName := "a", attrType := DataType.INT, maxSize := 0,
                          isNotNull := false, isUnique := false }] } ∧
    TableSchema.fromSQLStatement "CREATE TABLE r (a INT);x" = .error SqlExn.Undefined ∧
    TableSchema.fromSQLStatement "CREATE TABLE r (a UNIQUE);" = .error SqlExn.Undefined := by
  have main : (TableSchema.fromSQLStatement sql = .error (SqlExn.SqlInvalid sql) ↔
        ¬ ∃ u v w, sql.data = u ++ v ++ w ∧ Regex.Matches TableSchema.pattern v) ∧
      (∀ q, TableSchema.fromSQLStatement sql = .error (SqlExn.SqlInvalid q) → q = sql) := by
    have hiff := regex_search_iff sql TableSchema.pattern
    have hrest : regex_search sql TableSchema.pattern = true →
        ∀ q, TableSchema.fromSQLStatement sql ≠ .error (SqlExn.SqlInvalid q) := by
      intro hs q h
      unfold TableSchema.fromSQLStatement at h
      rw [if_neg (by rw [hs]; exact Bool.noConfusion)] at h
      split at h
      · rename_i e he
        exact extract_error he q (Except.error.inj h)
      · split at h
        · rename_i e he
          exact attributesOf_error _ e he q (Except.error.inj h)
        · cases h
    have hfail : regex_search sql TableSchema.pattern = false →
        TableSchema.fromSQLStatement sql = .error (SqlExn.SqlInvalid sql) := by
      intro hs
      unfold TableSchema.fromSQLStatement
      rw [if_pos hs]
    cases hs : regex_search sql TableSchema.pattern with
    | false =>
      refine ⟨⟨fun _ hex => ?_, fun _ => hfail hs⟩, ?_⟩
      · rw [← hiff, hs] at hex
        cases hex
      · intro q hq
        rw [hfail hs] at hq
        exact (SqlExn.SqlInvalid.inj (Except.error.inj hq)).symm
    | true =>
      refine ⟨⟨fun h => absurd h (hrest hs sql), fun hno => absurd (hiff.1 hs) hno⟩, ?_⟩
      intro q hq
      exact absurd hq (hrest hs q)
  exact ⟨main.1, main.2, rfl, rfl, rfl, rfl⟩

/-! ## `split` and the fields between the tabs -/

/-- The pieces between the separators: the run before the first separator, and
the pieces of what follows it. -/
theorem splitOnP_eq (p : Char → Bool) : ∀ l : List Char,
    l.splitOnP p = l.takeWhile (fun c => !p c)
      :: (if l.dropWhile (fun c => !p c) = [] then []
          else (l.dropWhile (fun c => !p c)).tail.splitOnP p) := by
  intro l
  induction l with
  | nil => simp [List.splitOnP_nil]
  | cons x xs ih =>
    rw [List.splitOnP_cons]
    by_cases hx : p x = true
    · simp [hx]
    · have hx2 : p x = false := by simpa using hx
      rw [if_neg hx, ih]
      simp [hx2, List.modifyHead]

theorem tokensUpTo_mem (isDelim : Char → Bool) : ∀ (n : Nat) (l t : List Char),
    t ∈ tokensUpTo isDelim n l → t ≠ [] ∧ ∀ c ∈ t, isDelim c = false := by
  intro n
  induction n with
  | zero => intro l t h; simp [tokensUpTo] at h
  | succ n ih =>
    intro l t h
    rw [tokensUpTo_succ] at h
    cases hd : l.dropWhile isDelim with
    | nil => rw [hd] at h; simp at h
    | cons c cs =>
      rw [hd] at h
      simp only [List.mem_cons] at h
      rcases h with h | h
      · have hc : isDelim c = false := by
          have := dropWhile_head_false isDelim l c cs hd
          simpa using this
        subst h
        refine ⟨?_, ?_⟩
        · simp [List.takeWhile_cons, hc]
        · intro d hdm
          have := List.mem_takeWhile_imp hdm
          simpa using this
      · exact ih _ t h

/-- The runs `tokensUpTo` finds are the pieces between the delimiters that are
not empty. -/
theorem tokensUpTo_eq_splitOnP (p : Char → Bool) : ∀ (n : Nat) (l : List Char),
    l.length < n → tokensUpTo p n l = (l.splitOnP p).filter (fun t => !t.isEmpty) := by
  intro n
  induction n with
  | zero => intro l h; omega
  | succ n ih =>
    intro l h
    cases l with
    | nil => simp [tokensUpTo_succ, List.splitOnP_nil]
    | cons x xs =>
      have hxs : xs.length < n := by simpa using h
      by_cases hx : p x = true
      · rw [tokensUpTo_delim p (n + 1) x xs hx,
          tokensUpTo_stable p (n + 1) n xs (Nat.lt_succ_of_lt hxs) hxs, ih xs hxs,
          List.splitOnP_cons, if_pos hx]
        simp
      · have hx2 : p x = false := by simpa using hx
        rw [splitOnP_eq, tokensUpTo_succ]
        have hdw : (x :: xs).dropWhile p = x :: xs := by simp [List.dropWhile_cons, hx2]
        rw [hdw]
        simp only
        have htw : ((x :: xs).takeWhile (fun c => !p c)).isEmpty = false := by
          simp [List.takeWhile_cons, hx2]
        rw [List.filter_cons, htw]
        simp only [Bool.not_false, if_true]
        congr 1
        cases hd : (x :: xs).dropWhile (fun c => !p c) with
        | nil =>
          rw [if_pos rfl]
          cases n <;> rfl
        | cons d rest =>
          rw [if_neg (List.cons_ne_nil _ _)]
          have hpd : p d = true := by
            have := dropWhile_head_false (fun c => !p c) (x :: xs) d rest hd
            simpa using this
          have hlen : rest.length < n := by
            have h1 := length_dropWhile_le_self (fun c => !p c) (x :: xs)
            rw [hd] at h1
            simp only [List.length_cons] at h1 h
            omega
          rw [tokensUpTo_delim p n d rest hpd, List.tail_cons]
          cases n with
          | zero => omega
          | succ m =>
            exact ih rest hlen

theorem tab_delim : (fun c : Char => "\t".data.contains c) = (fun c => c == '\t') := by
  funext c
  show (['\t'] : List Char).contains c = (c == '\t')
  simp
  rfl

/-- The tokens `split` returns are the pieces of the string between the tabs
that are not empty, in order. -/
theorem split_splitOn (s : String) :
    (split s "\t").map String.data = (s.data.splitOn '\t').filter (fun t => !t.isEmpty) := by
  rw [split_eq_tokens]
  unfold tokens
  rw [List.map_map]
  have hid : (String.data ∘ String.mk) = id := rfl
  rw [hid, List.map_id,
    tokensUpTo_eq_splitOnP _ (s.length + 1) s.data (Nat.lt_succ_self s.data.length), tab_delim]
  rfl

theorem map_data_injective {a b : List String} (h : a.map String.data = b.map String.data) :
    a = b :=
  List.map_injective_iff.mpr (fun _ _ h => String.ext h) h

theorem intercalate_cons_flatMap (t : Char) : ∀ (ls : List (List Char)) (l0 : List Char),
    [t].intercalate (l0 :: ls) = l0 ++ ls.flatMap (fun l => t :: l) := by
  intro ls
  induction ls with
  | nil => intro l0; simp [List.intercalate]
  | cons x rest ih =>
    intro l0
    have := ih x
    simp only [List.intercalate, List.intersperse_cons₂, List.flatten_cons] at this ⊢
    rw [this]
    simp

/-- The tokens of a composed tuple whose values may be empty: the empty values
leave no token. -/
theorem split_composeTuple (n : String) (vs : List String) (hn : isField n = true)
    (hv : ∀ v ∈ vs, '\t' ∉ v.data) :
    split (composeTuple n vs) "\t" = n :: vs.filter (fun v => !v.data.isEmpty) := by
  apply map_data_injective
  rw [split_splitOn, composeTuple_data]
  have hflat : vs.flatMap (fun v => '\t' :: v.data)
      = (vs.map String.data).flatMap (fun l => '\t' :: l) := by
    rw [List.flatMap_map]
  rw [hflat, ← intercalate_cons_flatMap, List.splitOn_intercalate]
  · have hne : n.data.isEmpty = false := by
      have := ((isField_iff n).mp hn).1
      cases hd : n.data with
      | nil => exact absurd hd this
      | cons _ _ => rfl
    rw [List.filter_cons, hne]
    simp only [Bool.not_false, if_true, List.map_cons, List.filter_map]
    rfl
  · intro l hl
    rcases List.mem_cons.mp hl with rfl | hl
    · have := ((isField_iff n).mp hn).2
      intro hc
      have h2 := this '\t' hc
      simp at h2
    · obtain ⟨v, hvm, rfl⟩ := List.mem_map.mp hl
      exact hv v hvm
  · exact List.cons_ne_nil _ _

/-! ## C32: what `split` returns -/

theorem intercalate_go_eq (sep : String) : ∀ (vs : List String) (acc : String),
    String.intercalate.go acc sep vs = vs.foldl (fun tuple v => tuple ++ sep ++ v) acc := by
  intro vs
  induction vs with
  | nil => intro acc; rfl
  | cons v rest ih =>
    intro acc
    rw [String.intercalate.go, ih, List.foldl_cons]

theorem intercalate_tab_cons (f : String) (rest : List String) :
    "\t".intercalate (f :: rest) = composeTuple f rest := by
  unfold String.intercalate composeTuple
  exact intercalate_go_eq "\t" rest f

theorem isField_no_tab {v : String} (h : isField v = true) : '\t' ∉ v.data := by
  intro hc
  have := ((isField_iff v).mp h).2 '\t' hc
  simp at this

theorem isField_not_empty {v : String} (h : isField v = true) : (!v.data.isEmpty) = true := by
  have := ((isField_iff v).mp h).1
  cases hd : v.data with
  | nil => exact absurd hd this
  | cons _ _ => rfl

/-- Claim C32: for every string `s`, `split(s, "\t")` returns, in order, the
pieces of `s` between its tabs that are not empty, which are the maximal
non-empty tab-free substrings: no token is empty, none contains a tab, and
`split("")` is empty. So `split` undoes the joining of non-empty tab-free tokens
with single tabs, but drops an empty field: `split("r\t\tx") = ["r", "x"]`, and
the tokens of a record are its table name and its non-empty values. For a
record whose value at position `p` is empty, token `p + 1`, when there is one,
is a later, non-empty value and not the value at position `p`. -/
theorem C32_split_maximal_tab_free (s : String) :
    (split s "\t").map String.data = (s.data.splitOn '\t').filter (fun t => !t.isEmpty) ∧
    (∀ t ∈ split s "\t", t ≠ "" ∧ '\t' ∉ t.data) ∧
    split "" "\t" = [] ∧
    (∀ fs : List String, (∀ f ∈ fs, isField f = true) → split ("\t".intercalate fs) "\t" = fs) ∧
    split "r\t\tx" "\t" = ["r", "x"] ∧
    (∀ (n : String) (vs : List String), isField n = true → (∀ v ∈ vs, '\t' ∉ v.data) →
      split (composeTuple n vs) "\t" = n :: vs.filter (fun v => !v.data.isEmpty) ∧
      ∀ p, p < (vs.filter (fun v => !v.data.isEmpty)).length → vs.getD p "" = "" →
        (split (composeTuple n vs) "\t").getD (p + 1) "" ≠ vs.getD p "") ∧
    (exEmptyRow.record = "r\t\tx" ∧ exEmptyRow.values.getD 0 "" = "" ∧
      (split exEmptyRow.record "\t").getD (0 + 1) "" = "x") := by
  refine ⟨split_splitOn s, ?_, by decide, ?_, by decide, ?_, by decide⟩
  · intro t ht
    rw [split_eq_tokens] at ht
    unfold tokens at ht
    obtain ⟨l, hl, rfl⟩ := List.mem_map.mp ht
    obtain ⟨hne, hfree⟩ := tokensUpTo_mem _ _ _ _ hl
    refine ⟨?_, ?_⟩
    · intro he
      exact hne (congrArg String.data he)
    · intro hc
      have := hfree '\t' hc
      simp at this
  · intro fs hfs
    cases fs with
    | nil => decide
    | cons f rest =>
      rw [intercalate_tab_cons]
      exact split_row { tableName := f, values := rest } (hfs f (List.mem_cons_self _ _))
        (fun v hv => hfs v (List.mem_cons_of_mem _ hv))
  · intro n vs hn hv
    have hs := split_composeTuple n vs hn hv
    refine ⟨hs, ?_⟩
    intro p hp he
    rw [hs, he, List.getD_cons_succ, List.getD_eq_getElem _ _ hp]
    intro hc
    have hm := List.getElem_mem hp
    rw [hc] at hm
    have := (List.mem_filter.mp hm).2
    simp at this

/-- Witness for C32: the tokens of a composed tuple with an empty first value,
and of three fields joined with tabs. -/
theorem C32_witness :
    split (composeTuple "r" ["", "x"]) "\t" = ["r", "x"] ∧
    split ("\t".intercalate ["r", "a", "b"]) "\t" = ["r", "a", "b"] ∧
    (split (composeTuple "r" ["", "x"]) "\t").getD (0 + 1) "" ≠ ["", "x"].getD 0 "" :=
  ⟨((C32_split_maximal_tab_free "").2.2.2.2.2.1 "r" ["", "x"] (by decide)
      (by decide)).1,
   (C32_split_maximal_tab_free "").2.2.2.1 ["r", "a", "b"] (by decide),
   ((C32_split_maximal_tab_free "").2.2.2.2.2.1 "r" ["", "x"] (by decide)
      (by decide)).2 0 (by decide) rfl⟩

/-! ## The right positions the joins skip and the attributes the result schema drops -/

theorem getAttrName_lt (t : TableSchema) (i : Nat) (h : i < t.attrs.length) :
    t.getAttrName i = (t.attrs.get ⟨i, h⟩).attrName := by
  unfold TableSchema.getAttrName
  rw [List.getD_eq_getElem _ _ h]
  rfl

/-- A right position is a join position exactly when the left schema has an
attribute of the name at that position. -/
theorem contains_joinAttrsIDRight (L R : TableSchema) (j : Nat) (hj : j < R.attrs.length) :
    (joinAttrsIDRight L R).contains j = L.hasAttr (R.getAttrName j) := by
  rw [Bool.eq_iff_iff]
  unfold joinAttrsIDRight TableSchema.hasAttr
  rw [joinAttrPairs_eq]
  have hc : ∀ l : List Nat, l.contains j = true ↔ j ∈ l := fun l => by simp
  rw [hc]
  simp only [List.mem_map, List.mem_flatMap, List.mem_range,
    List.mem_filter, decide_eq_true_eq, List.any_eq_true]
  constructor
  · rintro ⟨e, ⟨i, hi, j2, ⟨_, hn⟩, rfl⟩, he⟩
    simp only at he
    subst he
    refine ⟨L.attrs.get ⟨i, hi⟩, List.get_mem _ _ _, ?_⟩
    rw [← getAttrName_lt L i hi]
    exact hn
  · rintro ⟨a, ha, hn⟩
    obtain ⟨i, hi, rfl⟩ := List.getElem_of_mem ha
    refine ⟨(L.getAttrName i, i, j), ⟨i, hi, j, ⟨hj, ?_⟩, rfl⟩, rfl⟩
    rw [getAttrName_lt L i hi]
    exact hn

theorem filter_enumFrom_eq_zip {α β : Type} (c : Nat → Bool) (q : α → Bool) :
    ∀ (xs : List α) (ys : List β) (k : Nat), xs.length = ys.length →
    (∀ j (h : j < xs.length), c (k + j) = q (xs.get ⟨j, h⟩)) →
    ((ys.enumFrom k).filter (fun e => c e.1)).map Prod.snd
      = ((xs.zip ys).filter (fun e => q e.1)).map Prod.snd := by
  intro xs
  induction xs with
  | nil =>
    intro ys k hlen _
    cases ys with
    | nil => rfl
    | cons _ _ => cases hlen
  | cons x rest ih =>
    intro ys k hlen hc
    cases ys with
    | nil => cases hlen
    | cons y ys =>
      have h0 : c k = q x := hc 0 (Nat.zero_lt_succ _)
      have hrest := ih ys (k + 1) (by simpa using hlen) (fun j h => by
        have := hc (j + 1) (Nat.succ_lt_succ h)
        rw [show k + 1 + j = k + (j + 1) by omega]
        exact this)
      simp only [List.enumFrom_cons, List.zip_cons_cons, List.filter_cons, h0]
      cases q x
      · simpa using hrest
      · simpa using hrest

theorem filter_eq_zip_fst {α β : Type} (q : α → Bool) :
    ∀ (xs : List α) (ys : List β), xs.length = ys.length →
    xs.filter q = ((xs.zip ys).filter (fun e => q e.1)).map Prod.fst := by
  intro xs
  induction xs with
  | nil => intro ys _; rfl
  | cons x rest ih =>
    intro ys hlen
    cases ys with
    | nil => cases hlen
    | cons y ys =>
      have hrest := ih ys (by simpa using hlen)
      simp only [List.zip_cons_cons, List.filter_cons]
      cases q x
      · simpa using hrest
      · simpa using hrest

theorem zip_map_fst_snd {α β : Type} : ∀ (l : List (α × β)),
    (l.map Prod.fst).zip (l.map Prod.snd) = l := by
  intro l
  induction l with
  | nil => rfl
  | cons x rest ih => simp [ih]

/-- The right values the joins keep are the values of the attributes of `R`
whose name is not in `L`. -/
theorem nonJoinValues_eq (L R : TableSchema) (values : List String)
    (h : values.length = R.attrs.length) :
    nonJoinValues (joinAttrsIDRight L R) values
      = ((R.attrs.zip values).filter (fun e => !L.hasAttr e.1.attrName)).map Prod.snd := by
  unfold nonJoinValues List.enum
  apply filter_enumFrom_eq_zip (fun j => !(joinAttrsIDRight L R).contains j)
    (fun a => !L.hasAttr a.attrName) R.attrs values 0 h.symm
  intro j hj
  rw [Nat.zero_add, contains_joinAttrsIDRight L R j hj, getAttrName_lt R j hj]

theorem tabTerminated_append (a b : List String) :
    tabTerminated (a ++ b) = tabTerminated a ++ tabTerminated b := by
  unfold tabTerminated
  induction a with
  | nil => simp [String.join]
  | cons x rest ih =>
    simp only [List.cons_append, List.map_cons, join_cons, ih, String.append_assoc]

theorem tabTerminated_cons (v : String) (vs : List String) :
    tabTerminated (v :: vs) = composeTuple v (vs ++ [""]) := by
  apply String.ext
  rw [composeTuple_data]
  unfold tabTerminated
  induction vs generalizing v with
  | nil => simp [String.join, join_cons]
  | cons w rest ih =>
    have := ih w
    simp only [List.map_cons, join_cons, String.data_append] at this ⊢
    rw [this]
    simp

/-- The tokens of a sequence of fields, each followed by a tab. -/
theorem split_tabTerminated (vs : List String) (h : ∀ v ∈ vs, isField v = true) :
    split (tabTerminated vs) "\t" = vs := by
  cases vs with
  | nil => decide
  | cons v rest =>
    rw [tabTerminated_cons, split_composeTuple v (rest ++ [""]) (h v (List.mem_cons_self _ _))]
    · rw [List.filter_append]
      have : (rest.filter (fun v => !v.data.isEmpty)) = rest := by
        rw [List.filter_eq_self]
        intro w hw
        exact isField_not_empty (h w (List.mem_cons_of_mem _ hw))
      rw [this]
      simp
    · intro w hw
      rcases List.mem_append.mp hw with hw | hw
      · exact isField_no_tab (h w (List.mem_cons_of_mem _ hw))
      · simp only [List.mem_singleton] at hw
        subst hw
        simp

/-! ## C33: the layout of the joined tuple -/

theorem wellFormed_facts {t : TableSchema} {row : Row} (h : row.wellFormed t = true) :
    isField row.tableName = true ∧ row.values.length = t.attrs.length ∧
      ∀ v ∈ row.values, isField v = true := by
  unfold Row.wellFormed at h
  simp only [Bool.and_eq_true, List.all_eq_true, decide_eq_true_eq] at h
  exact ⟨h.1.1, h.1.2, h.2⟩

theorem resultValues_fields {L R : TableSchema} {l r : Row} (hl : l.wellFormed L = true)
    (hr : r.wellFormed R = true) : ∀ v ∈ resultValues L R l r, isField v = true := by
  intro v hv
  unfold resultValues at hv
  rcases List.mem_append.mp hv with hv | hv
  · exact (wellFormed_facts hl).2.2 v hv
  · obtain ⟨e, he, rfl⟩ := List.mem_map.mp hv
    exact (wellFormed_facts hr).2.2 e.2 (List.of_mem_zip (List.mem_filter.mp he).1).2

/-- The joined tuple of two well-formed rows: the values of the result
attributes, each followed by a tab. -/
theorem joinedTuple_resultValues {L R : TableSchema} {l r : Row} (hl : l.wellFormed L = true)
    (hr : r.wellFormed R = true) :
    joinedTuple (joinAttrsIDRight L R) l.record r.record = tabTerminated (resultValues L R l r) := by
  rw [joinedTuple_rows _ l r (wellFormed_split hl) (wellFormed_split hr),
    nonJoinValues_eq L R r.values (wellFormed_facts hr).2.1, ← tabTerminated_append]
  rfl

/-- Claim C33: the joined tuple agrees with the result schema. For all schemas
`L` and `R` and rows `l`, `r` well formed for them, the joined tuple the joins
build is the sequence of tab-terminated fields `resultValues L R l r`; it has as
many fields as `createResultTableSchema(L, R)` has attributes, and pairing the
result attributes with the fields pairs every attribute of `L` with its value
in `l` and every attribute of `R` whose name is not in `L` with its value in
`r`. Every record the one-pass join and the block nested-loop join insert is
`result\t` followed by such a joined tuple. -/
theorem C33_joined_tuple_layout (L R : TableSchema) (leftRows rightRows : List Row)
    (hl : ∀ row ∈ leftRows, row.wellFormed L = true)
    (hr : ∀ row ∈ rightRows, row.wellFormed R = true)
    (leftPages rightPages : List (List String))
    (hlp : leftPages.flatten = leftRows.map Row.record)
    (hrp : rightPages.flatten = rightRows.map Row.record) :
    (∀ l ∈ leftRows, ∀ r ∈ rightRows,
      joinedTuple (joinAttrsIDRight L R) l.record r.record
        = tabTerminated (resultValues L R l r) ∧
      split (joinedTuple (joinAttrsIDRight L R) l.record r.record) "\t"
        = resultValues L R l r ∧
      (resultValues L R l r).length = (JoinOperator.createResultTableSchema L R).getAttrCount ∧
      (JoinOperator.createResultTableSchema L R).attrs.zip (resultValues L R l r)
        = L.attrs.zip l.values
          ++ (R.attrs.zip r.values).filter (fun e => !L.hasAttr e.1.attrName)) ∧
    (∀ out ∈ insertedRecords
        (OnePassJoinOperator.execute (JoinOperator.new L R) leftPages rightPages).2.2,
      ∃ l ∈ leftRows, ∃ r ∈ rightRows,
        out = "result\t" ++ joinedTuple (joinAttrsIDRight L R) l.record r.record) ∧
    (∀ out ∈ insertedRecords
        (NestedLoopJoinOperator.execute (JoinOperator.new L R) leftPages rightPages).2.2,
      ∃ l ∈ leftRows, ∃ r ∈ rightRows,
        out = "result\t" ++ joinedTuple (joinAttrsIDRight L R) l.record r.record) := by
  have hnew : (JoinOperator.new L R).leftTableSchema = L
      ∧ (JoinOperator.new L R).rightTableSchema = R := ⟨rfl, rfl⟩
  have hrec : ∀ (ls : List String), (∀ x ∈ ls, x ∈ leftRows.map Row.record) →
      ∀ out ∈ probeOutput (joinAttrsIDLeft L R) (joinAttrsIDRight L R) ls rightPages.flatten,
      ∃ l ∈ leftRows, ∃ r ∈ rightRows,
        out = "result\t" ++ joinedTuple (joinAttrsIDRight L R) l.record r.record := by
    intro ls hls out hout
    obtain ⟨x, hx, y, hy, _, ho⟩ := probeOutput_mem hout
    obtain ⟨l, hlm, rfl⟩ := List.mem_map.mp (hls x hx)
    rw [hrp] at hy
    obtain ⟨r, hrm, rfl⟩ := List.mem_map.mp hy
    exact ⟨l, hlm, r, hrm, ho⟩
  refine ⟨?_, ?_, ?_⟩
  · intro l hlm r hrm
    have wl := hl l hlm
    have wr := hr r hrm
    have hjt := joinedTuple_resultValues wl wr
    refine ⟨hjt, ?_, ?_, ?_⟩
    · rw [hjt]
      exact split_tabTerminated _ (resultValues_fields wl wr)
    · unfold TableSchema.getAttrCount resultValues
      rw [createResultTableSchema_attrs, List.length_append, List.length_append,
        (wellFormed_facts wl).2.1,
        filter_eq_zip_fst (fun a => !L.hasAttr a.attrName) R.attrs r.values
          (wellFormed_facts wr).2.1.symm,
        List.length_map, List.length_map]
    · unfold resultValues
      rw [createResultTableSchema_attrs,
        filter_eq_zip_fst (fun a => !L.hasAttr a.attrName) R.attrs r.values
          (wellFormed_facts wr).2.1.symm,
        List.zip_append (wellFormed_facts wl).2.1.symm, zip_map_fst_snd]
  · intro out hout
    obtain ⟨_, _, e3, _⟩ := opj_execute (JoinOperator.new L R) rfl leftPages rightPages
    rw [e3, hnew.1, hnew.2] at hout
    exact hrec leftPages.flatten (fun x hx => by rw [← hlp]; exact hx) out hout
  · intro out hout
    obtain ⟨_, _, e3, _⟩ := nlj_execute (JoinOperator.new L R) rfl leftPages rightPages
    rw [e3, hnew.1, hnew.2] at hout
    unfold blockOutput at hout
    obtain ⟨blk, hblk, hm⟩ := List.mem_flatMap.mp hout
    refine hrec blk (fun x hx => ?_) out hm
    rw [← hlp]
    have : x ∈ (completeBlocks leftPages.flatten).flatten := List.mem_flatten.mpr ⟨blk, hblk, hx⟩
    rw [completeBlocks_flatten] at this
    exact List.mem_of_mem_take this

/-- Witness for C33: rows of the driver's tables `r(a, b)` and `s(b, c)`; the
joined tuple of the first rows has the fields `'r0'`, `0`, `'s0'` for the
result attributes `a`, `b`, `c`. -/
theorem C33_witness :
    (∀ row ∈ exLeftRows, row.wellFormed exLeftSchema = true) ∧
    (∀ row ∈ exRightRows, row.wellFormed exRightSchema = true) ∧
    resultValues exLeftSchema exRightSchema { tableName := "r", values := ["'r0'", "0"] }
        { tableName := "s", values := ["0", "'s0'"] } = ["'r0'", "0", "'s0'"] ∧
    (JoinOperator.createResultTableSchema exLeftSchema exRightSchema).getAttrCount = 3 ∧
    joinedTuple (joinAttrsIDRight exLeftSchema exRightSchema)
        (Row.record { tableName := "r", values := ["'r0'", "0"] })
        (Row.record { tableName := "s", values := ["0", "'s0'"] })
      = tabTerminated (resultValues exLeftSchema exRightSchema
          { tableName := "r", values := ["'r0'", "0"] }
          { tableName := "s", values := ["0", "'s0'"] }) :=
  ⟨by decide, by decide, by decide, by decide,
    ((C33_joined_tuple_layout exLeftSchema exRightSchema exLeftRows exRightRows (by decide)
      (by decide) (onePerPage (exLeftRows.map Row.record))
      (onePerPage (exRightRows.map Row.record)) (onePerPage_flatten _) (onePerPage_flatten _)).1
      { tableName := "r", values := ["'r0'", "0"] } (by decide)
      { tableName := "s", values := ["0", "'s0'"] } (by decide)).1⟩

/-! ## C31: the join key -/

/-- The key the joins compute for the record of a well-formed row: the values
at the join positions, one behind the other. -/
theorem recordKey_row {t : TableSchema} {row : Row} (h : row.wellFormed t = true)
    (ids : List Nat) : recordKey ids row.record = row.joinKey ids := by
  unfold recordKey Row.joinKey
  rw [wellFormed_split h, joinKey_row]

theorem joinedRecord_row {L R : TableSchema} {l r : Row} (hl : l.wellFormed L = true)
    (hr : r.wellFormed R = true) (ids : List Nat) :
    joinedRecord ids l.record r.record = Row.joined ids l r := by
  unfold joinedRecord Row.joined
  rw [joinedTuple_rows ids l r (wellFormed_split hl) (wellFormed_split hr), String.append_assoc]

theorem single_join_position {L R : TableSchema} {i j : Nat}
    (h : equalNamePositions L R = [(i, j)]) :
    joinAttrsIDLeft L R = [i] ∧ joinAttrsIDRight L R = [j] := by
  have hz := joinAttrsID_zip L R
  rw [h] at hz
  unfold joinAttrsIDLeft joinAttrsIDRight at hz ⊢
  cases hp : joinAttrPairs L R with
  | nil => rw [hp] at hz; cases hz
  | cons e rest =>
    rw [hp] at hz
    cases rest with
    | nil =>
      simp only [List.map_cons, List.map_nil, List.zip_cons_cons, List.zip_nil_right,
        List.cons.injEq, Prod.mk.injEq, and_true] at hz
      simp only [List.map_cons, List.map_nil, hz.1, hz.2, and_self]
    | cons e2 rest2 =>
      simp only [List.map_cons, List.zip_cons_cons, List.cons.injEq] at hz
      cases hz.2

theorem row_joinKey_single (row : Row) (i : Nat) : row.joinKey [i] = row.values.getD i "" := by
  unfold Row.joinKey
  rw [List.map_cons, List.map_nil, join_single]

theorem completeBlocks_exact (block : List String) (h : block.length = 50) :
    completeBlocks block = [block] := by
  unfold completeBlocks
  have hb : blockSize = 50 := rfl
  rw [hb, h]
  have hr : List.range (50 / 50) = [0] := by decide
  rw [hr]
  simp only [List.map_cons, List.map_nil, Nat.mul_zero, List.drop_zero]
  rw [List.take_of_length_le (by omega)]

/-- Claim C31: the key the joins compare is the concatenation, without
separator, of the values at the join positions, so with two join attributes it
is not injective. For the tables `l(a, b)` and `q(a, b)` the rows with the
values `("1", "23")` and `("12", "3")` differ on both shared attributes, yet the
one-pass join inserts the record `result\t1\t23\t` for them, and so does the
block nested-loop join for every block of 50 left records that holds the left
row. With exactly one pair of equally named attributes, at the positions `i`
and `j`, the one-pass join inserts exactly the records of the pairs whose
values at `i` and `j` are equal, and every record the block nested-loop join
inserts belongs to such a pair. -/
theorem C31_join_key_not_injective (L R : TableSchema) (leftRows rightRows : List Row)
    (hl : ∀ row ∈ leftRows, row.wellFormed L = true)
    (hr : ∀ row ∈ rightRows, row.wellFormed R = true)
    (leftPages rightPages : List (List String))
    (hlp : leftPages.flatten = leftRows.map Row.record)
    (hrp : rightPages.flatten = rightRows.map Row.record) :
    (∀ l ∈ leftRows, recordKey (joinAttrsIDLeft L R) l.record
      = String.join ((joinAttrsIDLeft L R).map (fun i => l.values.getD i ""))) ∧
    (∀ r ∈ rightRows, recordKey (joinAttrsIDRight L R) r.record
      = String.join ((joinAttrsIDRight L R).map (fun j => r.values.getD j ""))) ∧
    insertedRecords (OnePassJoinOperator.execute (JoinOperator.new L R) leftPages rightPages).2.2
      = ((rightRows.product leftRows).filter
          (fun p => decide (p.2.joinKey (joinAttrsIDLeft L R)
            = p.1.joinKey (joinAttrsIDRight L R)))).map
          (fun p => Row.joined (joinAttrsIDRight L R) p.2 p.1) ∧
    (∀ i j, equalNamePositions L R = [(i, j)] →
      insertedRecords
          (OnePassJoinOperator.execute (JoinOperator.new L R) leftPages rightPages).2.2
        = ((rightRows.product leftRows).filter
            (fun p => decide (p.2.values.getD i "" = p.1.values.getD j ""))).map
            (fun p => Row.joined [j] p.2 p.1) ∧
      ∀ out ∈ insertedRecords
          (NestedLoopJoinOperator.execute (JoinOperator.new L R) leftPages rightPages).2.2,
        ∃ l ∈ leftRows, ∃ r ∈ rightRows,
          l.values.getD i "" = r.values.getD j "" ∧ out = Row.joined [j] l r) ∧
    (exKeyLeftRow.wellFormed exKeyLeftSchema = true ∧
      exKeyRightRow.wellFormed exKeyRightSchema = true ∧
      equalNamePositions exKeyLeftSchema exKeyRightSchema = [(0, 0), (1, 1)] ∧
      exKeyLeftRow.values.getD 0 "" ≠ exKeyRightRow.values.getD 0 "" ∧
      exKeyLeftRow.values.getD 1 "" ≠ exKeyRightRow.values.getD 1 "" ∧
      insertedRecords
          (OnePassJoinOperator.execute (JoinOperator.new exKeyLeftSchema exKeyRightSchema)
            [[exKeyLeftRow.record]] [[exKeyRightRow.record]]).2.2
        = ["result\t1\t23\t"] ∧
      ∀ block : List String, block.length = 50 → exKeyLeftRow.record ∈ block →
        "result\t1\t23\t" ∈ insertedRecords
          (NestedLoopJoinOperator.execute (JoinOperator.new exKeyLeftSchema exKeyRightSchema)
            [block] [[exKeyRightRow.record]]).2.2) := by
  have hnew : (JoinOperator.new L R).leftTableSchema = L
      ∧ (JoinOperator.new L R).rightTableSchema = R := ⟨rfl, rfl⟩
  obtain ⟨_, _, e3, _⟩ := opj_execute (JoinOperator.new L R) rfl leftPages rightPages
  have hrows : probeOutput (joinAttrsIDLeft L R) (joinAttrsIDRight L R)
        leftPages.flatten rightPages.flatten
      = expectedJoin (joinAttrsIDLeft L R) (joinAttrsIDRight L R) leftRows rightRows := by
    rw [hlp, hrp]
    exact probeOutput_rows _ _ leftRows rightRows (fun row h => wellFormed_split (hl row h))
      (fun row h => wellFormed_split (hr row h))
  have hopj : insertedRecords
        (OnePassJoinOperator.execute (JoinOperator.new L R) leftPages rightPages).2.2
      = ((rightRows.product leftRows).filter
          (fun p => decide (p.2.joinKey (joinAttrsIDLeft L R)
            = p.1.joinKey (joinAttrsIDRight L R)))).map
          (fun p => Row.joined (joinAttrsIDRight L R) p.2 p.1) := by
    rw [e3, hnew.1, hnew.2, hrows]
    exact expectedJoin_eq_product _ _ leftRows rightRows
  refine ⟨fun l hlm => recordKey_row (hl l hlm) _, fun r hrm => recordKey_row (hr r hrm) _,
    hopj, ?_, ?_⟩
  · intro i j hij
    obtain ⟨hi, hj⟩ := single_join_position hij
    refine ⟨?_, ?_⟩
    · rw [hopj, hi, hj]
      simp only [row_joinKey_single]
    · intro out hout
      obtain ⟨_, _, n3, _⟩ := nlj_execute (JoinOperator.new L R) rfl leftPages rightPages
      rw [n3, hnew.1, hnew.2] at hout
      unfold blockOutput at hout
      obtain ⟨blk, hblk, hm⟩ := List.mem_flatMap.mp hout
      obtain ⟨x, hx, y, hy, hk, ho⟩ := probeOutput_mem hm
      have hxl : x ∈ leftRows.map Row.record := by
        rw [← hlp]
        have : x ∈ (completeBlocks leftPages.flatten).flatten :=
          List.mem_flatten.mpr ⟨blk, hblk, hx⟩
        rw [completeBlocks_flatten] at this
        exact List.mem_of_mem_take this
      obtain ⟨l, hlm, rfl⟩ := List.mem_map.mp hxl
      rw [hrp] at hy
      obtain ⟨r, hrm, rfl⟩ := List.mem_map.mp hy
      rw [recordKey_row (hl l hlm), recordKey_row (hr r hrm), hi, hj, row_joinKey_single,
        row_joinKey_single] at hk
      rw [joinedRecord_row (hl l hlm) (hr r hrm), hj] at ho
      exact ⟨l, hlm, r, hrm, hk, ho⟩
  · refine ⟨by decide, by decide, by decide, by decide, by decide, by decide, ?_⟩
    intro block hb hmem
    obtain ⟨_, _, n3, _⟩ := nlj_execute (JoinOperator.new exKeyLeftSchema exKeyRightSchema) rfl
      [block] [[exKeyRightRow.record]]
    rw [n3]
    have hflat : ([block] : List (List String)).flatten = block := by simp
    have hflat2 : ([[exKeyRightRow.record]] : List (List String)).flatten
        = [exKeyRightRow.record] := rfl
    rw [hflat, hflat2]
    unfold blockOutput
    rw [completeBlocks_exact block hb]
    simp only [List.flatMap_cons, List.flatMap_nil, List.append_nil]
    unfold probeOutput
    simp only [List.flatMap_cons, List.flatMap_nil, List.append_nil]
    refine List.mem_map.mpr ⟨exKeyLeftRow.record, List.mem_filter.mpr ⟨hmem, ?_⟩, ?_⟩
    · decide
    · decide

/-- Witness for C31: the driver's tables `r(a, b)` and `s(b, c)` share the one
attribute `b`, at the positions 1 and 0. -/
theorem C31_witness :
    (∀ row ∈ exLeftRows, row.wellFormed exLeftSchema = true) ∧
    (∀ row ∈ exRightRows, row.wellFormed exRightSchema = true) ∧
    equalNamePositions exLeftSchema exRightSchema = [(1, 0)] ∧
    insertedRecords
        (OnePassJoinOperator.execute (JoinOperator.new exLeftSchema exRightSchema)
          (onePerPage (exLeftRows.map Row.record)) (onePerPage (exRightRows.map Row.record))).2.2
      = ((exRightRows.product exLeftRows).filter
          (fun p => decide (p.2.values.getD 1 "" = p.1.values.getD 0 ""))).map
          (fun p => Row.joined [0] p.2 p.1) :=
  ⟨by decide, by decide, by decide,
    ((C31_join_key_not_injective exLeftSchema exRightSchema exLeftRows exRightRows (by decide)
      (by decide) (onePerPage (exLeftRows.map Row.record))
      (onePerPage (exRightRows.map Row.record)) (onePerPage_flatten _)
      (onePerPage_flatten _)).2.2.2.1 1 0 (by decide)).1⟩

/-! ## The joins on a pool and the calls they make -/

/-- A loop on the pool that ends without an exception has done to the variables
of `execute` what the loop without the pool does, when its body does. -/
theorem foldOn_ok {α : Type} (f : JoinRun → α → JoinStep) (g : JoinState → α → JoinState)
    (hf : ∀ x a y, f x a = some (.ok y) → y.st = g x.st a) :
    ∀ (l : List α) (x y : JoinRun), JoinRun.foldOn f x l = some (.ok y) →
      y.st = l.foldl g x.st := by
  intro l
  induction l with
  | nil =>
    intro x y h
    have : x = y := Except.ok.inj (Option.some.inj h)
    rw [← this]
    rfl
  | cons a rest ih =>
    intro x y h
    rw [JoinRun.foldOn] at h
    cases hfa : f x a with
    | none => rw [hfa] at h; cases h
    | some r =>
      cases r with
      | error e => rw [hfa] at h; cases h
      | ok z =>
        rw [hfa] at h
        rw [List.foldl_cons, ← hf x a z hfa]
        exact ih z y h

theorem insertRecord_ok {fits : Page → String → Bool} {k : FrameId} {x y : JoinRun}
    {record : String} (h : x.insertRecord fits k record = some (.ok y)) :
    y.st = { x.st with calls := x.st.calls ++ [ResultCall.insertRecord record] } ∧
    y.pool = x.pool.modifyPage k ((x.pool.page k).insertRecord record).2.records := by
  unfold JoinRun.insertRecord at h
  split at h
  · have := Except.ok.inj (Option.some.inj h)
    rw [← this]
    exact ⟨rfl, rfl⟩
  · cases h

theorem probe_ok {fits : Page → String → Bool} {ids : List Nat} {k : FrameId} {x y : JoinRun}
    {record : String} (h : x.probe fits ids k record = some (.ok y)) :
    y.st = JoinState.probe ids x.st record := by
  unfold JoinRun.probe at h
  unfold JoinState.probe
  simp only at h ⊢
  split at h
  · rename_i hc
    rw [if_pos hc]
    refine foldOn_ok _ _ ?_ _ x y h
    intro x1 token y1 h1
    cases hi : x1.insertRecord fits k ("result\t" ++ joinedTuple ids token record) with
    | none => rw [hi] at h1; cases h1
    | some r =>
      cases r with
      | error e => rw [hi] at h1; cases h1
      | ok z =>
        rw [hi] at h1
        have := Except.ok.inj (Option.some.inj h1)
        rw [← this]
        show { z.st with numResultTuples := z.st.numResultTuples + 1 } = _
        rw [(insertRecord_ok hi).1]
  · rename_i hc
    rw [if_neg hc]
    have : x = y := Except.ok.inj (Option.some.inj h)
    rw [this]

theorem allocPage_run_ok {seatRef : Bool} {file : File} {x y : JoinRun} {p : PageId}
    {k : FrameId} (h : x.allocPage seatRef file = some (.ok (y, p, k))) :
    y.st = { x.st with calls := x.st.calls ++ [ResultCall.allocPage] } ∧
    x.pool.allocPage seatRef file = some (.ok (p, k), y.pool) := by
  unfold JoinRun.allocPage at h
  cases ha : x.pool.allocPage seatRef file with
  | none => rw [ha] at h; cases h
  | some r =>
    obtain ⟨r1, s1⟩ := r
    cases r1 with
    | error e => rw [ha] at h; cases h
    | ok pk =>
      obtain ⟨p1, k1⟩ := pk
      rw [ha] at h
      have := Except.ok.inj (Option.some.inj h)
      have h1 := (Prod.mk.inj this).1
      have h2 := (Prod.mk.inj (Prod.mk.inj this).2)
      rw [← h1, ← h2.1, ← h2.2]
      exact ⟨rfl, rfl⟩

theorem unPinPage_run_ok {file : File} {p : PageId} {x y : JoinRun}
    (h : x.unPinPage file p = some (.ok y)) :
    y.st = { x.st with calls := x.st.calls ++ [ResultCall.unPinPage true] } ∧
    x.pool.unPinPage file p true = (.ok (), y.pool) := by
  unfold JoinRun.unPinPage at h
  cases hu : x.pool.unPinPage file p true with
  | mk r s1 =>
    cases r with
    | error e => rw [hu] at h; cases h
    | ok u =>
      rw [hu] at h
      have := Except.ok.inj (Option.some.inj h)
      rw [← this]
      exact ⟨rfl, rfl⟩

theorem flushFile_run_ok {file : File} {x y : JoinRun}
    (h : x.flushFile file = some (.ok y)) :
    y.st = { x.st with calls := x.st.calls ++ [ResultCall.flushFile] } ∧
    x.pool.flushFile file = (.ok (), y.pool) := by
  unfold JoinRun.flushFile at h
  cases hu : x.pool.flushFile file with
  | mk r s1 =>
    cases r with
    | error e => rw [hu] at h; cases h
    | ok u =>
      rw [hu] at h
      have := Except.ok.inj (Option.some.inj h)
      rw [← this]
      exact ⟨rfl, rfl⟩

theorem opj_probeRecordOn_ok {seatRef : Bool} {fits : Page → String → Bool} {file : File}
    {ids : List Nat} {x y : JoinRun} {record : String}
    (h : OnePassJoinOperator.probeRecordOn seatRef fits file ids x record = some (.ok y)) :
    y.st = OnePassJoinOperator.probeRecord ids x.st record := by
  unfold OnePassJoinOperator.probeRecordOn at h
  cases ha : x.allocPage seatRef file with
  | none => rw [ha] at h; cases h
  | some r =>
    cases r with
    | error e => rw [ha] at h; cases h
    | ok t =>
      obtain ⟨x1, p, k⟩ := t
      rw [ha] at h
      simp only at h
      cases hp : x1.probe fits ids k record with
      | none => rw [hp] at h; cases h
      | some r =>
        cases r with
        | error e => rw [hp] at h; cases h
        | ok x2 =>
          rw [hp] at h
          simp only at h
          cases hu : x2.unPinPage file p with
          | none => rw [hu] at h; cases h
          | some r =>
            cases r with
            | error e => rw [hu] at h; cases h
            | ok x3 =>
              rw [hu] at h
              simp only at h
              cases hfl : x3.flushFile file with
              | none => rw [hfl] at h; cases h
              | some r =>
                cases r with
                | error e => rw [hfl] at h; cases h
                | ok x4 =>
                  rw [hfl] at h
                  have := Except.ok.inj (Option.some.inj h)
                  rw [← this]
                  have e1 := (allocPage_run_ok ha).1
                  have e2 := probe_ok hp
                  have e3 := (unPinPage_run_ok hu).1
                  have e4 := (flushFile_run_ok hfl).1
                  unfold OnePassJoinOperator.probeRecord
                  show { x4.st with numIOs := x4.st.numIOs + 1,
                                    numUsedBufPages := x4.st.numUsedBufPages + 1 } = _
                  rw [e4, e3, e2, e1]
                  simp

theorem nlj_probeRecordOn_ok {fits : Page → String → Bool} {ids : List Nat} {k : FrameId}
    {x y : JoinRun} {record : String}
    (h : NestedLoopJoinOperator.probeRecordOn fits ids k x record = some (.ok y)) :
    y.st = NestedLoopJoinOperator.probeRecord ids x.st record := by
  unfold NestedLoopJoinOperator.probeRecordOn at h
  cases hp : x.probe fits ids k record with
  | none => rw [hp] at h; cases h
  | some r =>
    cases r with
    | error e => rw [hp] at h; cases h
    | ok x2 =>
      rw [hp] at h
      have := Except.ok.inj (Option.some.inj h)
      rw [← this]
      unfold NestedLoopJoinOperator.probeRecord
      show { x2.st with numIOs := x2.st.numIOs + 1 } = _
      rw [probe_ok hp]

theorem nlj_leftRecordOn_ok {fits : Page → String → Bool} {idsLeft idsRight : List Nat}
    {rightPages : List (List String)} {k : FrameId} {x y : JoinRun} {leftRecord : String}
    (h : NestedLoopJoinOperator.leftRecordOn fits idsLeft idsRight rightPages k x leftRecord
      = some (.ok y)) :
    y.st = NestedLoopJoinOperator.leftRecord idsLeft idsRight rightPages x.st leftRecord := by
  unfold NestedLoopJoinOperator.leftRecordOn at h
  unfold NestedLoopJoinOperator.leftRecord
  simp only at h ⊢
  split at h
  · rename_i hc
    rw [if_pos hc]
    have := Except.ok.inj (Option.some.inj h)
    rw [← this]
  · rename_i hc
    rw [if_neg hc]
    split at h
    · cases h
    · cases h
    · rename_i x2 hx2
      have := Except.ok.inj (Option.some.inj h)
      rw [← this]
      show { x2.st with bufferMap := [] } = _
      have e := foldOn_ok _ (fun st rightPage =>
          rightPage.foldl (NestedLoopJoinOperator.probeRecord idsRight) st)
        (fun x1 pg y1 h1 => foldOn_ok _ (NestedLoopJoinOperator.probeRecord idsRight)
          (fun _ _ _ h2 => nlj_probeRecordOn_ok h2) pg x1 y1 h1) _ _ _ hx2
      rw [e]

theorem nlj_leftPageOn_ok {seatRef : Bool} {fits : Page → String → Bool} {file : File}
    {idsLeft idsRight : List Nat} {rightPages : List (List String)} {x y : JoinRun}
    {leftPage : List String}
    (h : NestedLoopJoinOperator.leftPageOn seatRef fits file idsLeft idsRight rightPages x
      leftPage = some (.ok y)) :
    y.st = NestedLoopJoinOperator.leftPage idsLeft idsRight rightPages x.st leftPage := by
  unfold NestedLoopJoinOperator.leftPageOn at h
  cases ha : x.allocPage seatRef file with
  | none => rw [ha] at h; cases h
  | some r =>
    cases r with
    | error e => rw [ha] at h; cases h
    | ok t =>
      obtain ⟨x1, p, k⟩ := t
      rw [ha] at h
      simp only at h
      cases hp : JoinRun.foldOn (NestedLoopJoinOperator.leftRecordOn fits idsLeft idsRight
          rightPages k) x1 leftPage with
      | none => rw [hp] at h; cases h
      | some r =>
        cases r with
        | error e => rw [hp] at h; cases h
        | ok x2 =>
          rw [hp] at h
          simp only at h
          cases hu : x2.unPinPage file p with
          | none => rw [hu] at h; cases h
          | some r =>
            cases r with
            | error e => rw [hu] at h; cases h
            | ok x3 =>
              rw [hu] at h
              simp only at h
              have e1 := (allocPage_run_ok ha).1
              have e2 := foldOn_ok _ (NestedLoopJoinOperator.leftRecord idsLeft idsRight
                rightPages) (fun _ _ _ h2 => nlj_leftRecordOn_ok h2) _ _ _ hp
              have e3 := (unPinPage_run_ok hu).1
              have e4 := (flushFile_run_ok h).1
              unfold NestedLoopJoinOperator.leftPage
              rw [e4, e3, e2, e1]
              simp

/-- The one-pass join on a pool, when it returns: it returns what
`OnePassJoinOperator.execute` gives, the value, the operator and the calls. -/
theorem opj_executeOn_ok {seatRef : Bool} {fits : Page → String → Bool} {file : File}
    {op : JoinOperator} {leftPages rightPages : List (List String)} {pool : BufMgr}
    {b : Bool} {op1 : JoinOperator} {calls : List ResultCall} {pool1 : BufMgr}
    (h : OnePassJoinOperator.executeOn seatRef fits file op leftPages rightPages pool
      = some (.ok b, op1, calls, pool1)) :
    (b, op1, calls) = OnePassJoinOperator.execute op leftPages rightPages := by
  unfold OnePassJoinOperator.executeOn at h
  unfold OnePassJoinOperator.execute
  split at h
  · rename_i hc
    rw [if_pos hc]
    have := Option.some.inj h
    have h1 := Except.ok.inj (Prod.mk.inj this).1
    have h2 := (Prod.mk.inj (Prod.mk.inj this).2).1
    have h3 := (Prod.mk.inj (Prod.mk.inj (Prod.mk.inj this).2).2).1
    rw [← h1, ← h2, ← h3]
  · rename_i hc
    rw [if_neg hc]
    simp only at h ⊢
    split at h
    · cases h
    · have := Option.some.inj h
      cases (Prod.mk.inj this).1
    · rename_i x hx
      have e := foldOn_ok _ (fun st page =>
          page.foldl (OnePassJoinOperator.probeRecord
            (joinAttrsIDRight op.leftTableSchema op.rightTableSchema)) st)
        (fun x1 pg y1 h1 => foldOn_ok _ (OnePassJoinOperator.probeRecord
            (joinAttrsIDRight op.leftTableSchema op.rightTableSchema))
          (fun _ _ _ h2 => opj_probeRecordOn_ok h2) pg x1 y1 h1) _ _ _ hx
      have e2 : x.st = List.foldl (fun st page =>
          page.foldl (OnePassJoinOperator.probeRecord
            (joinAttrsIDRight op.leftTableSchema op.rightTableSchema)) st)
          (List.foldl (fun st page => List.foldl (OnePassJoinOperator.buildRecord
            (joinAttrsIDLeft op.leftTableSchema op.rightTableSchema)) st page)
            JoinState.init leftPages) rightPages := e
      have := Option.some.inj h
      have h1 := Except.ok.inj (Prod.mk.inj this).1
      have h2 := (Prod.mk.inj (Prod.mk.inj this).2).1
      have h3 := (Prod.mk.inj (Prod.mk.inj (Prod.mk.inj this).2).2).1
      rw [← h1, ← h2, ← h3, e2]

/-- The block nested-loop join on a pool, when it returns: it returns what
`NestedLoopJoinOperator.execute` gives, the value, the operator and the calls. -/
theorem nlj_executeOn_ok {seatRef : Bool} {fits : Page → String → Bool} {file : File}
    {op : JoinOperator} {leftPages rightPages : List (List String)} {pool : BufMgr}
    {b : Bool} {op1 : JoinOperator} {calls : List ResultCall} {pool1 : BufMgr}
    (h : NestedLoopJoinOperator.executeOn seatRef fits file op leftPages rightPages pool
      = some (.ok b, op1, calls, pool1)) :
    (b, op1, calls) = NestedLoopJoinOperator.execute op leftPages rightPages := by
  unfold NestedLoopJoinOperator.executeOn at h
  unfold NestedLoopJoinOperator.execute
  split at h
  · rename_i hc
    rw [if_pos hc]
    have := Option.some.inj h
    have h1 := Except.ok.inj (Prod.mk.inj this).1
    have h2 := (Prod.mk.inj (Prod.mk.inj this).2).1
    have h3 := (Prod.mk.inj (Prod.mk.inj (Prod.mk.inj this).2).2).1
    rw [← h1, ← h2, ← h3]
  · rename_i hc
    rw [if_neg hc]
    simp only at h ⊢
    split at h
    · cases h
    · have := Option.some.inj h
      cases (Prod.mk.inj this).1
    · rename_i x hx
      have e := foldOn_ok _ (NestedLoopJoinOperator.leftPage
          (joinAttrsIDLeft op.leftTableSchema op.rightTableSchema)
          (joinAttrsIDRight op.leftTableSchema op.rightTableSchema) rightPages)
        (fun _ _ _ h2 => nlj_leftPageOn_ok h2) _ _ _ hx
      have e2 : x.st = List.foldl (NestedLoopJoinOperator.leftPage
          (joinAttrsIDLeft op.leftTableSchema op.rightTableSchema)
          (joinAttrsIDRight op.leftTableSchema op.rightTableSchema) rightPages)
          JoinState.init leftPages := e
      have := Option.some.inj h
      have h1 := Except.ok.inj (Prod.mk.inj this).1
      have h2 := (Prod.mk.inj (Prod.mk.inj this).2).1
      have h3 := (Prod.mk.inj (Prod.mk.inj (Prod.mk.inj this).2).2).1
      rw [← h1, ← h2, ← h3, e2]

/-! ## When a join on a pool returns -/

/-- A loop on the pool whose body keeps `P` and does not throw under `P` runs
to its end and keeps `P`. -/
theorem foldOn_inv {α : Type} (f : JoinRun → α → JoinStep) (P : JoinRun → Prop)
    (hf : ∀ x a, P x → ∃ y, f x a = some (.ok y) ∧ P y) :
    ∀ (l : List α) (x : JoinRun), P x → ∃ y, JoinRun.foldOn f x l = some (.ok y) ∧ P y := by
  intro l
  induction l with
  | nil => intro x hx; exact ⟨x, rfl, hx⟩
  | cons a rest ih =>
    intro x hx
    obtain ⟨z, hz, hpz⟩ := hf x a hx
    obtain ⟨y, hy, hpy⟩ := ih z hpz
    refine ⟨y, ?_, hpy⟩
    rw [JoinRun.foldOn, hz]
    exact hy

/-- No loop on the pool is cut short by the fuel when its body is not. -/
theorem foldOn_isSome {α : Type} (f : JoinRun → α → JoinStep)
    (hf : ∀ x a, (f x a).isSome = true) :
    ∀ (l : List α) (x : JoinRun), (JoinRun.foldOn f x l).isSome = true := by
  intro l
  induction l with
  | nil => intro x; rfl
  | cons a rest ih =>
    intro x
    rw [JoinRun.foldOn]
    have := hf x a
    cases hfa : f x a with
    | none => rw [hfa] at this; cases this
    | some r =>
      cases r with
      | error e => rfl
      | ok z => exact ih z

/-- After an `allocPage` in a reachable pool without a pinned frame of the file
and any writes through the page pointer, the `unPinPage` of the new page and the
`flushFile` return, and the pool is as before the `allocPage`: reachable,
without a frame of the file, and with a free frame. -/
theorem cycle_ok {seatRef : Bool} {s s1 s2 : BufMgr} {file : File} {p : PageId} {k : FrameId}
    (h : Reachable seatRef s)
    (hpin : ∀ i, i < s.numBufs → s.ownedBy i file.filename → (s.desc i).pinCnt = 0)
    (ha : s.allocPage seatRef file = some (.ok (p, k), s1))
    (r2 : Reachable seatRef s2) (hdesc2 : ∀ j, s2.desc j = s1.desc j)
    (hht2 : s2.hashTable = s1.hashTable) (hn2 : s2.numBufs = s1.numBufs) :
    ∃ s3 s4, s2.unPinPage file p true = (.ok (), s3) ∧ s3.flushFile file = (.ok (), s4) ∧
      Reachable seatRef s4 ∧ (∀ i, ¬ s4.ownedBy i file.filename) ∧
      ∃ p1 k1 s5, s4.allocPage seatRef file = some (.ok (p1, k1), s5) := by
  have w := h.well_formed
  obtain ⟨hk1, hc1, hl1, _, hp1, _⟩ := allocPage_ok_facts w ha
  obtain ⟨_, _, hn1, hoth1, _, _⟩ := allocPage_ok_more w ha
  have hl2 : s2.hashTable.lookup file p = some k := by rw [hht2]; exact hl1
  have hu1 : (s2.unPinPage file p true).1 = .ok () :=
    unPinPage_ok_of_pinned true hl2 (by rw [hdesc2, hp1]; decide)
  obtain ⟨s3, hs3⟩ : ∃ s3, s3 = (s2.unPinPage file p true).2 := ⟨_, rfl⟩
  have hun : s2.unPinPage file p true = (.ok (), s3) := by
    rw [hs3]
    exact Prod.ext hu1 rfl
  have r3 : Reachable seatRef s3 := by rw [hs3]; exact Reachable.unPinPage file p true r2
  have w3 := r3.well_formed
  obtain ⟨_, _, _, hn3, hoth3, hv3, hf3, hpn3, _, hpc3⟩ :=
    unPinPage_ok hun hl2 (by rw [hn2]; exact hk1)
  have hc3 : s3.caches k file.filename p := by
    unfold BufMgr.caches at hc1 ⊢
    rw [hv3, hf3, hpn3, hdesc2]
    exact hc1
  have hp3 : (s3.desc k).pinCnt = 0 := by
    rw [hdesc2, hp1] at hpc3
    omega
  have hk3 : k < s3.numBufs := by rw [hn3, hn2]; exact hk1
  have hdesc3 : ∀ j, j ≠ k → s3.desc j = { s.desc j with refbit := (s1.desc j).refbit } := by
    intro j hj
    rw [hoth3 j hj, hdesc2, hoth1 j hj]
  obtain ⟨_, _, _, _, herr, _, _⟩ :=
    flushFileLoop_spec file (List.range s3.numBufs) s3 w3 (List.nodup_range _)
  have hfl1 : (s3.flushFile file).1 = .ok () := by
    cases hx : (s3.flushFile file).1 with
    | ok u => rfl
    | error e =>
      exfalso
      obtain ⟨i, hi, ho, hpi, _⟩ := herr e hx
      by_cases hik : i = k
      · rw [hik, hp3] at hpi
        exact Nat.lt_irrefl _ hpi
      · have hlt : i < s.numBufs := by
          have := List.mem_range.mp hi
          rw [hn3, hn2, hn1] at this
          exact this
        have ho2 : s.ownedBy i file.filename := by
          unfold BufMgr.ownedBy at ho ⊢
          rw [hdesc3 i hik] at ho
          exact ho
        have := hpin i hlt ho2
        rw [hdesc3 i hik] at hpi
        have hpi2 : 0 < (s.desc i).pinCnt := hpi
        omega
  obtain ⟨s4, hs4⟩ : ∃ s4, s4 = (s3.flushFile file).2 := ⟨_, rfl⟩
  have hfl : s3.flushFile file = (.ok (), s4) := by
    rw [hs4]
    exact Prod.ext hfl1 rfl
  have r4 : Reachable seatRef s4 := by rw [hs4]; exact Reachable.flushFile file r3
  have hfl2 : BufMgr.flushFileLoop file (List.range s3.numBufs) s3 = (.ok (), s4) := hfl
  obtain ⟨⟨_, _, hn4⟩, _, _, _, _, _, _⟩ :=
    flushFileLoop_spec file (List.range s3.numBufs) s3 w3 (List.nodup_range _)
  rw [hfl2] at hn4
  have hcl := flushFileLoop_cleared file (List.range s3.numBufs) s3 w3 (List.nodup_range _)
    (by rw [hfl2]) k (List.mem_range.mpr hk3)
    (by obtain ⟨_, _, g, hg, hgn⟩ := hc3; exact ⟨g, hg, hgn⟩)
  rw [hfl2] at hcl
  have hkv : (s4.desc k).valid = false := by
    rw [show s4.desc k = (s3.desc k).Clear from hcl]
    rfl
  have hk4 : k < s4.numBufs := by
    rw [show s4.numBufs = s3.numBufs from hn4]
    exact hk3
  exact ⟨s3, s4, hun, hfl, r4, flushFile_none_owned w3 hfl,
    allocPage_ok_of_invalid seatRef r4.well_formed file hk4 hkv⟩

theorem insertRecord_inv {seatRef : Bool} {fits : Page → String → Bool}
    (hfit : ∀ pg r, fits pg r = true) (s1 : BufMgr) (k : FrameId) (x : JoinRun)
    (record : String) (hx : SamePins seatRef s1 x) :
    ∃ y, x.insertRecord fits k record = some (.ok y) ∧ SamePins seatRef s1 y := by
  obtain ⟨r, hd, hh, hn⟩ := hx
  refine ⟨{ st := { x.st with calls := x.st.calls ++ [ResultCall.insertRecord record] }
            pool := x.pool.modifyPage k ((x.pool.page k).insertRecord record).2.records },
    ?_, Reachable.modifyPage k _ r, fun j => hd j, hh, hn⟩
  unfold JoinRun.insertRecord
  rw [if_pos (hfit _ _)]

theorem probe_inv {seatRef : Bool} {fits : Page → String → Bool}
    (hfit : ∀ pg r, fits pg r = true) (s1 : BufMgr) (ids : List Nat) (k : FrameId)
    (x : JoinRun) (record : String) (hx : SamePins seatRef s1 x) :
    ∃ y, x.probe fits ids k record = some (.ok y) ∧ SamePins seatRef s1 y := by
  unfold JoinRun.probe
  simp only
  split
  · refine foldOn_inv _ (SamePins seatRef s1) ?_ _ x hx
    intro x1 token h1
    obtain ⟨z, hz, hpz⟩ := insertRecord_inv hfit s1 k x1
      ("result\t" ++ joinedTuple ids token record) h1
    refine ⟨{ z with st := { z.st with numResultTuples := z.st.numResultTuples + 1 } }, ?_, hpz⟩
    rw [hz]
  · exact ⟨x, rfl, hx⟩

theorem allocPage_run_inv {seatRef : Bool} {file : File} {x : JoinRun}
    (hx : ReadyPool seatRef file x) :
    ∃ y p k, x.allocPage seatRef file = some (.ok (y, p, k)) ∧
      x.pool.allocPage seatRef file = some (.ok (p, k), y.pool) ∧
      SamePins seatRef y.pool y := by
  obtain ⟨r, _, p, k, s1, ha⟩ := hx
  refine ⟨{ st := { x.st with calls := x.st.calls ++ [ResultCall.allocPage] }, pool := s1 },
    p, k, ?_, ha, Reachable.allocPage file _ s1 r ha, fun _ => rfl, rfl, rfl⟩
  unfold JoinRun.allocPage
  rw [ha]

theorem release_run_inv {seatRef : Bool} {file : File} {x y x2 : JoinRun} {p : PageId}
    {k : FrameId} (hx : ReadyPool seatRef file x)
    (ha : x.pool.allocPage seatRef file = some (.ok (p, k), y.pool))
    (h2 : SamePins seatRef y.pool x2) :
    ∃ x3 x4, x2.unPinPage file p = some (.ok x3) ∧ x3.flushFile file = some (.ok x4) ∧
      ReadyPool seatRef file x4 := by
  obtain ⟨r, hpin, _⟩ := hx
  obtain ⟨r2, hd, hh, hn⟩ := h2
  obtain ⟨s3, s4, hun, hfl, r4, hno, hal⟩ := cycle_ok r hpin ha r2 hd hh hn
  refine ⟨{ st := { x2.st with calls := x2.st.calls ++ [ResultCall.unPinPage true] },
            pool := s3 },
    { st := { x2.st with calls := x2.st.calls ++ [ResultCall.unPinPage true]
                ++ [ResultCall.flushFile] }, pool := s4 }, ?_, ?_, r4,
    fun i _ ho => absurd ho (hno i), hal⟩
  · unfold JoinRun.unPinPage
    rw [hun]
  · unfold JoinRun.flushFile
    show (match s3.flushFile file with
      | (.error e, s1) => _
      | (.ok _, s1) => _) = _
    rw [hfl]

theorem opj_probeRecordOn_inv {seatRef : Bool} {fits : Page → String → Bool}
    (hfit : ∀ pg r, fits pg r = true) (file : File) (ids : List Nat) (x : JoinRun)
    (record : String) (hx : ReadyPool seatRef file x) :
    ∃ y, OnePassJoinOperator.probeRecordOn seatRef fits file ids x record = some (.ok y) ∧
      ReadyPool seatRef file y := by
  obtain ⟨x1, p, k, ha, hpa, h1⟩ := allocPage_run_inv hx
  obtain ⟨x2, hp, h2⟩ := probe_inv hfit x1.pool ids k x1 record h1
  obtain ⟨x3, x4, hu, hfl, h4⟩ := release_run_inv hx hpa h2
  refine ⟨{ x4 with st := { x4.st with numIOs := x4.st.numIOs + 1,
                                        numUsedBufPages := x4.st.numUsedBufPages + 1 } },
    ?_, h4⟩
  unfold OnePassJoinOperator.probeRecordOn
  rw [ha]
  simp only
  rw [hp]
  simp only
  rw [hu]
  simp only
  rw [hfl]

theorem nlj_probeRecordOn_inv {seatRef : Bool} {fits : Page → String → Bool}
    (hfit : ∀ pg r, fits pg r = true) (s1 : BufMgr) (ids : List Nat) (k : FrameId)
    (x : JoinRun) (record : String) (hx : SamePins seatRef s1 x) :
    ∃ y, NestedLoopJoinOperator.probeRecordOn fits ids k x record = some (.ok y) ∧
      SamePins seatRef s1 y := by
  obtain ⟨x2, hp, h2⟩ := probe_inv hfit s1 ids k x record hx
  refine ⟨{ x2 with st := { x2.st with numIOs := x2.st.numIOs + 1 } }, ?_, h2⟩
  unfold NestedLoopJoinOperator.probeRecordOn
  rw [hp]

theorem nlj_leftRecordOn_inv {seatRef : Bool} {fits : Page → String → Bool}
    (hfit : ∀ pg r, fits pg r = true) (s1 : BufMgr) (idsLeft idsRight : List Nat)
    (rightPages : List (List String)) (k : FrameId) (x : JoinRun) (leftRecord : String)
    (hx : SamePins seatRef s1 x) :
    ∃ y, NestedLoopJoinOperator.leftRecordOn fits idsLeft idsRight rightPages k x leftRecord
        = some (.ok y) ∧ SamePins seatRef s1 y := by
  unfold NestedLoopJoinOperator.leftRecordOn
  simp only
  split
  · exact ⟨_, rfl, hx⟩
  · obtain ⟨y, hy, hpy⟩ := foldOn_inv (fun x rightPage =>
        JoinRun.foldOn (NestedLoopJoinOperator.probeRecordOn fits idsRight k) x rightPage)
      (SamePins seatRef s1)
      (fun x1 pg h1 => foldOn_inv _ (SamePins seatRef s1)
        (fun x2 rec h2 => nlj_probeRecordOn_inv hfit s1 idsRight k x2 rec h2) pg x1 h1)
      rightPages
      { x with st := { bufferMap := BufferMap.add x.st.bufferMap
                          (joinKey (split leftRecord "\t") idsLeft) leftRecord
                       blockUsedCount := x.st.blockUsedCount + 1
                       numResultTuples := x.st.numResultTuples
                       numUsedBufPages := x.st.numUsedBufPages
                       numIOs := x.st.numIOs + 1
                       calls := x.st.calls } } hx
    refine ⟨{ y with st := { y.st with bufferMap := [] } }, ?_, hpy⟩
    rw [hy]

theorem nlj_leftPageOn_inv {seatRef : Bool} {fits : Page → String → Bool}
    (hfit : ∀ pg r, fits pg r = true) (file : File) (idsLeft idsRight : List Nat)
    (rightPages : List (List String)) (x : JoinRun) (leftPage : List String)
    (hx : ReadyPool seatRef file x) :
    ∃ y, NestedLoopJoinOperator.leftPageOn seatRef fits file idsLeft idsRight rightPages x
        leftPage = some (.ok y) ∧ ReadyPool seatRef file y := by
  obtain ⟨x1, p, k, ha, hpa, h1⟩ := allocPage_run_inv hx
  obtain ⟨x2, hp, h2⟩ := foldOn_inv _ (SamePins seatRef x1.pool)
    (fun x2 rec h2 => nlj_leftRecordOn_inv hfit x1.pool idsLeft idsRight rightPages k x2 rec h2)
    leftPage x1 h1
  obtain ⟨x3, x4, hu, hfl, h4⟩ := release_run_inv hx hpa h2
  refine ⟨x4, ?_, h4⟩
  unfold NestedLoopJoinOperator.leftPageOn
  rw [ha]
  simp only
  rw [hp]
  simp only
  rw [hu]
  simp only
  rw [hfl]

/-- The one-pass join returns `true` from a reachable pool in which no frame of
the result file is pinned and `allocPage` finds a frame, when every record fits
its result page. -/
theorem opj_executeOn_returns {seatRef : Bool} {fits : Page → String → Bool}
    (hfit : ∀ pg r, fits pg r = true) (file : File) (op : JoinOperator)
    (leftPages rightPages : List (List String)) (pool : BufMgr)
    (hr : Reachable seatRef pool)
    (hpin : ∀ i, i < pool.numBufs → pool.ownedBy i file.filename → (pool.desc i).pinCnt = 0)
    (ha : ∃ p k s1, pool.allocPage seatRef file = some (.ok (p, k), s1)) :
    ∃ op1 calls pool1, OnePassJoinOperator.executeOn seatRef fits file op leftPages rightPages
      pool = some (.ok true, op1, calls, pool1) := by
  unfold OnePassJoinOperator.executeOn
  split
  · exact ⟨_, _, _, rfl⟩
  · simp only
    obtain ⟨y, hy, _⟩ := foldOn_inv (fun x page => JoinRun.foldOn
        (OnePassJoinOperator.probeRecordOn seatRef fits file
          (joinAttrsIDRight op.leftTableSchema op.rightTableSchema)) x page)
      (ReadyPool seatRef file)
      (fun x1 pg h1 => foldOn_inv _ (ReadyPool seatRef file)
        (fun x2 rec h2 => opj_probeRecordOn_inv hfit file _ x2 rec h2) pg x1 h1)
      rightPages
      { st := leftPages.foldl (fun st page => page.foldl (OnePassJoinOperator.buildRecord
          (joinAttrsIDLeft op.leftTableSchema op.rightTableSchema)) st) JoinState.init
        pool := pool } ⟨hr, hpin, ha⟩
    rw [hy]
    exact ⟨_, _, _, rfl⟩

/-- The block nested-loop join returns `true` under the same conditions. -/
theorem nlj_executeOn_returns {seatRef : Bool} {fits : Page → String → Bool}
    (hfit : ∀ pg r, fits pg r = true) (file : File) (op : JoinOperator)
    (leftPages rightPages : List (List String)) (pool : BufMgr)
    (hr : Reachable seatRef pool)
    (hpin : ∀ i, i < pool.numBufs → pool.ownedBy i file.filename → (pool.desc i).pinCnt = 0)
    (ha : ∃ p k s1, pool.allocPage seatRef file = some (.ok (p, k), s1)) :
    ∃ op1 calls pool1, NestedLoopJoinOperator.executeOn seatRef fits file op leftPages
      rightPages pool = some (.ok true, op1, calls, pool1) := by
  unfold NestedLoopJoinOperator.executeOn
  split
  · exact ⟨_, _, _, rfl⟩
  · simp only
    obtain ⟨y, hy, _⟩ := foldOn_inv (NestedLoopJoinOperator.leftPageOn seatRef fits file
        (joinAttrsIDLeft op.leftTableSchema op.rightTableSchema)
        (joinAttrsIDRight op.leftTableSchema op.rightTableSchema) rightPages)
      (ReadyPool seatRef file)
      (fun x2 pg h2 => nlj_leftPageOn_inv hfit file _ _ rightPages x2 pg h2)
      leftPages { st := JoinState.init, pool := pool } ⟨hr, hpin, ha⟩
    rw [hy]
    exact ⟨_, _, _, rfl⟩

/-! ## The joins on a pool always end -/

theorem insertRecord_isSome (fits : Page → String → Bool) (k : FrameId) (x : JoinRun)
    (record : String) : (x.insertRecord fits k record).isSome = true := by
  unfold JoinRun.insertRecord
  split <;> rfl

theorem probe_isSome (fits : Page → String → Bool) (ids : List Nat) (k : FrameId)
    (x : JoinRun) (record : String) : (x.probe fits ids k record).isSome = true := by
  unfold JoinRun.probe
  simp only
  split
  · refine foldOn_isSome _ ?_ _ _
    intro x1 token
    have := insertRecord_isSome fits k x1 ("result\t" ++ joinedTuple ids token record)
    cases hi : x1.insertRecord fits k ("result\t" ++ joinedTuple ids token record) with
    | none => rw [hi] at this; cases this
    | some r => cases r <;> rfl
  · rfl

theorem allocPage_run_isSome (seatRef : Bool) (file : File) (x : JoinRun) :
    (x.allocPage seatRef file).isSome = true := by
  unfold JoinRun.allocPage
  have := allocPage_isSome seatRef x.pool file
  cases ha : x.pool.allocPage seatRef file with
  | none => rw [ha] at this; cases this
  | some r =>
    obtain ⟨r1, s1⟩ := r
    cases r1 with
    | error e => rfl
    | ok pk => rfl

theorem unPinPage_run_isSome (file : File) (p : PageId) (x : JoinRun) :
    (x.unPinPage file p).isSome = true := by
  unfold JoinRun.unPinPage
  cases hu : x.pool.unPinPage file p true with
  | mk r s1 => cases r <;> rfl

theorem flushFile_run_isSome (file : File) (x : JoinRun) :
    (x.flushFile file).isSome = true := by
  unfold JoinRun.flushFile
  cases hu : x.pool.flushFile file with
  | mk r s1 => cases r <;> rfl

theorem opj_probeRecordOn_isSome (seatRef : Bool) (fits : Page → String → Bool) (file : File)
    (ids : List Nat) (x : JoinRun) (record : String) :
    (OnePassJoinOperator.probeRecordOn seatRef fits file ids x record).isSome = true := by
  unfold OnePassJoinOperator.probeRecordOn
  have h1 := allocPage_run_isSome seatRef file x
  cases ha : x.allocPage seatRef file with
  | none => rw [ha] at h1; cases h1
  | some r =>
    cases r with
    | error e => rfl
    | ok t =>
      obtain ⟨x1, p, k⟩ := t
      simp only
      have h2 := probe_isSome fits ids k x1 record
      cases hp : x1.probe fits ids k record with
      | none => rw [hp] at h2; cases h2
      | some r =>
        cases r with
        | error e => rfl
        | ok x2 =>
          simp only
          have h3 := unPinPage_run_isSome file p x2
          cases hu : x2.unPinPage file p with
          | none => rw [hu] at h3; cases h3
          | some r =>
            cases r with
            | error e => rfl
            | ok x3 =>
              simp only
              have h4 := flushFile_run_isSome file x3
              cases hfl : x3.flushFile file with
              | none => rw [hfl] at h4; cases h4
              | some r => cases r <;> rfl

/-- The one-pass join on a pool ends: it returns or throws. -/
theorem opj_executeOn_isSome (seatRef : Bool) (fits : Page → String → Bool) (file : File)
    (op : JoinOperator) (leftPages rightPages : List (List String)) (pool : BufMgr) :
    (OnePassJoinOperator.executeOn seatRef fits file op leftPages rightPages pool).isSome
      = true := by
  unfold OnePassJoinOperator.executeOn
  split
  · rfl
  · simp only
    have h := foldOn_isSome (fun x page => JoinRun.foldOn
        (OnePassJoinOperator.probeRecordOn seatRef fits file
          (joinAttrsIDRight op.leftTableSchema op.rightTableSchema)) x page)
      (fun x1 pg => foldOn_isSome _
        (fun x2 rec => opj_probeRecordOn_isSome seatRef fits file _ x2 rec) pg x1)
      rightPages
      { st := leftPages.foldl (fun st page => page.foldl (OnePassJoinOperator.buildRecord
          (joinAttrsIDLeft op.leftTableSchema op.rightTableSchema)) st) JoinState.init
        pool := pool }
    split
    · rename_i hn
      rw [hn] at h
      cases h
    · rfl
    · rfl

theorem exResultPinned_reachable : Reachable true exResultPinned := by
  have h0 : Reachable true (BufMgr.new 2 exDisk) := Reachable.new 2 exDisk (by norm_num)
  have h1 := Reachable.allocPage exResultFile (.ok (1, 0)) _ h0 rfl
  have h2 := Reachable.allocPage exResultFile (.ok (2, 1)) _ h1 rfl
  exact Reachable.unPinPage exResultFile 1 false h2

theorem exOneRead_no_result_frame (i : FrameId)
    (ho : (exOneRead true).ownedBy i exResultFile.filename) :
    ((exOneRead true).desc i).pinCnt = 0 := by
  obtain ⟨g, hg, hgn⟩ := ho
  match i, hg with
  | 0, hg =>
    have : g = exFile := (Option.some.inj hg).symm
    rw [this] at hgn
    exact absurd hgn (by decide)
  | 1, hg => cases hg
  | n + 2, hg => cases hg

/-- Counterexample to C16 as stated: three rows of `r` and two rows of `s`, all
well formed, with three matching pairs. In the pool `exOnePinned`, whose one
frame is pinned, the first `allocPage` throws `BufferExceeded`: the join is
aborted and has inserted no record. In the pool `exResultPinned`, in which page
2 of the result file is still pinned, the first `flushFile` throws `PagePinned`
after it has written the new page: the join is aborted with the two records of
the first right row on page 3 of the result file, and the record of the third
pair is never inserted. -/
theorem C16_counterexample :
    (∀ row ∈ exLeftRows, row.wellFormed exLeftSchema = true) ∧
    (∀ row ∈ exRightRows, row.wellFormed exRightSchema = true) ∧
    expectedJoin (joinAttrsIDLeft exLeftSchema exRightSchema)
        (joinAttrsIDRight exLeftSchema exRightSchema) exLeftRows exRightRows
      = ["result\t'r0'\t0\t's0'\t", "result\t'r100'\t0\t's0'\t", "result\t'r1'\t1\t's1'\t"] ∧
    Reachable true exOnePinned ∧
    (OnePassJoinOperator.executeOn true anyFits exResultFile
        (JoinOperator.new exLeftSchema exRightSchema) (onePerPage (exLeftRows.map Row.record))
        (onePerPage (exRightRows.map Row.record)) exOnePinned).map
        (fun out => (out.1, out.2.1.isComplete, out.2.1.numResultTuples,
          insertedRecords out.2.2.1))
      = some (.error (JoinExn.pool Exn.BufferExceeded), false, 0, []) ∧
    Reachable true exResultPinned ∧
    (OnePassJoinOperator.executeOn true anyFits exResultFile
        (JoinOperator.new exLeftSchema exRightSchema) (onePerPage (exLeftRows.map Row.record))
        (onePerPage (exRightRows.map Row.record)) exResultPinned).map
        (fun out => (out.1, out.2.1.isComplete, out.2.1.numResultTuples,
          insertedRecords out.2.2.1, out.2.2.2.disk.find "result.tbl" 3))
      = some (.error (JoinExn.pool (Exn.PagePinned "result.tbl" 2 1)), false, 2,
          ["result\t'r0'\t0\t's0'\t", "result\t'r100'\t0\t's0'\t"],
          some { page_number := 3,
                 records := ["result\t'r0'\t0\t's0'\t", "result\t'r100'\t0\t's0'\t"] }) :=
  ⟨by decide, by decide, by decide, exOnePinned_reachable true, rfl, exResultPinned_reachable,
    rfl⟩

/-- Claim C16, amended: for all schemas, all left and right rows that are well
formed for them (a table-name token followed by one non-empty tab-free value
per attribute), stored in any way on the pages of the two files, and every
buffer pool, result file and page capacity, the one-pass join ends, and
whenever it returns (no `allocPage`, `insertRecord`, `unPinPage` or `flushFile`
on the result file throws) it returns `true` and has inserted exactly one result
record for every pair `(l, r)` whose concatenated join-attribute values are
equal, in the order: right records in file order, and for each of them the
matching left records in file order. Each result record is `"result\t"`
followed by every left value and then every right value at a non-join position,
each value followed by a tab; `numResultTuples` is the number of such pairs.
The join positions are the pairs of positions of equally named attributes. The
join does return from a reachable pool in which no frame of the result file is
pinned and `allocPage` finds a frame, when every record fits its result page. -/
theorem C16_one_pass_join (L R : TableSchema) (leftRows rightRows : List Row)
    (hl : ∀ row ∈ leftRows, row.wellFormed L = true)
    (hr : ∀ row ∈ rightRows, row.wellFormed R = true)
    (leftPages rightPages : List (List String))
    (hlp : leftPages.flatten = leftRows.map Row.record)
    (hrp : rightPages.flatten = rightRows.map Row.record)
    (seatRef : Bool) (fits : Page → String → Bool) (resultFile : File) (pool : BufMgr) :
    (OnePassJoinOperator.executeOn seatRef fits resultFile (JoinOperator.new L R) leftPages
        rightPages pool).isSome = true ∧
    (∀ b op1 calls pool1,
      OnePassJoinOperator.executeOn seatRef fits resultFile (JoinOperator.new L R) leftPages
          rightPages pool = some (.ok b, op1, calls, pool1) →
        b = true ∧ op1.isComplete = true ∧
        insertedRecords calls
          = expectedJoin (joinAttrsIDLeft L R) (joinAttrsIDRight L R) leftRows rightRows ∧
        op1.numResultTuples
          = ((rightRows.product leftRows).filter
              (fun p => decide (p.2.joinKey (joinAttrsIDLeft L R)
                = p.1.joinKey (joinAttrsIDRight L R)))).length) ∧
    expectedJoin (joinAttrsIDLeft L R) (joinAttrsIDRight L R) leftRows rightRows
      = ((rightRows.product leftRows).filter
          (fun p => decide (p.2.joinKey (joinAttrsIDLeft L R)
            = p.1.joinKey (joinAttrsIDRight L R)))).map
          (fun p => Row.joined (joinAttrsIDRight L R) p.2 p.1) ∧
    (joinAttrsIDLeft L R).zip (joinAttrsIDRight L R) = equalNamePositions L R ∧
    (Reachable seatRef pool →
      (∀ i, i < pool.numBufs → pool.ownedBy i resultFile.filename →
        (pool.desc i).pinCnt = 0) →
      (∃ p k s1, pool.allocPage seatRef resultFile = some (.ok (p, k), s1)) →
      (∀ pg r, fits pg r = true) →
      ∃ op1 calls pool1,
        OnePassJoinOperator.executeOn seatRef fits resultFile (JoinOperator.new L R) leftPages
          rightPages pool = some (.ok true, op1, calls, pool1)) := by
  obtain ⟨e1, e3, e5, e4, e6⟩ := opj_join_rows L R leftRows rightRows hl hr leftPages rightPages
    hlp hrp
  obtain ⟨_, e2, _⟩ := opj_execute (JoinOperator.new L R) rfl leftPages rightPages
  refine ⟨opj_executeOn_isSome _ _ _ _ _ _ _, ?_, e5, e6, ?_⟩
  · intro b op1 calls pool1 h
    have hk := opj_executeOn_ok h
    have h1 : b = (OnePassJoinOperator.execute (JoinOperator.new L R) leftPages rightPages).1 :=
      congrArg (fun t => t.1) hk
    have h2 : op1
        = (OnePassJoinOperator.execute (JoinOperator.new L R) leftPages rightPages).2.1 :=
      congrArg (fun t => t.2.1) hk
    have h3 : calls
        = (OnePassJoinOperator.execute (JoinOperator.new L R) leftPages rightPages).2.2 :=
      congrArg (fun t => t.2.2) hk
    rw [h1, h2, h3]
    exact ⟨e1, e2, e3, e4⟩
  · intro hreach hpin halloc hfit
    exact opj_executeOn_returns hfit resultFile _ leftPages rightPages pool hreach hpin halloc

/-- Witness for C16: three rows of `r` and two rows of `s`, one per page, joined
into `result.tbl` in the pool `exOneRead true`, whose pinned frame belongs to
`r.tbl` and whose other frame is free. -/
theorem C16_witness :
    (∀ row ∈ exLeftRows, row.wellFormed exLeftSchema = true) ∧
    (∀ row ∈ exRightRows, row.wellFormed exRightSchema = true) ∧
    (∃ op1 calls pool1,
      OnePassJoinOperator.executeOn true anyFits exResultFile
          (JoinOperator.new exLeftSchema exRightSchema) (onePerPage (exLeftRows.map Row.record))
          (onePerPage (exRightRows.map Row.record)) (exOneRead true)
        = some (.ok true, op1, calls, pool1) ∧
      insertedRecords calls
        = expectedJoin (joinAttrsIDLeft exLeftSchema exRightSchema)
            (joinAttrsIDRight exLeftSchema exRightSchema) exLeftRows exRightRows) ∧
    expectedJoin (joinAttrsIDLeft exLeftSchema exRightSchema)
          (joinAttrsIDRight exLeftSchema exRightSchema) exLeftRows exRightRows
      = ["result\t'r0'\t0\t's0'\t", "result\t'r100'\t0\t's0'\t", "result\t'r1'\t1\t's1'\t"] :=
  have hw := C16_one_pass_join exLeftSchema exRightSchema exLeftRows exRightRows (by decide)
    (by decide) (onePerPage (exLeftRows.map Row.record)) (onePerPage (exRightRows.map Row.record))
    (by decide) (by decide) true anyFits exResultFile (exOneRead true)
  ⟨by decide, by decide,
    (hw.2.2.2.2 (exOneRead_reachable true) (fun i _ ho => exOneRead_no_result_frame i ho)
      ⟨_, _, _, rfl⟩ (fun _ _ => rfl)).elim
      (fun op1 h1 => h1.elim (fun calls h2 => h2.elim (fun pool1 h3 =>
        ⟨op1, calls, pool1, h3, (hw.2.1 true op1 calls pool1 h3).2.2.1⟩))),
    by decide⟩

/-! ## C18: the two joins on a pool -/

set_option maxRecDepth 100000

/-- C21 (amended): in a run in which no call on the result file throws, the
block nested-loop join allocates one result page per page of the left file: for
all inputs the number of `allocPage` calls it makes for the result file is the
number of left pages, while the number of blocks of 50 left records it probes
is `n / 50` for `n` left records. This holds of the calls `execute` lists, and
of the calls of every run on a buffer pool that returns. -/
theorem C21_nested_loop_allocPage_count (L R : TableSchema)
    (leftPages rightPages : List (List String)) :
    allocPageCount
        (NestedLoopJoinOperator.execute (JoinOperator.new L R) leftPages rightPages).2.2
      = leftPages.length ∧
    (completeBlocks leftPages.flatten).length = leftPages.flatten.length / 50 ∧
    insertedRecords
        (NestedLoopJoinOperator.execute (JoinOperator.new L R) leftPages rightPages).2.2
      = (completeBlocks leftPages.flatten).flatMap (fun blk =>
          probeOutput (joinAttrsIDLeft L R) (joinAttrsIDRight L R) blk rightPages.flatten) ∧
    (∀ seatRef fits resultFile pool b op1 calls pool1,
      NestedLoopJoinOperator.executeOn seatRef fits resultFile (JoinOperator.new L R) leftPages
          rightPages pool = some (.ok b, op1, calls, pool1) →
        allocPageCount calls = leftPages.length ∧
        insertedRecords calls
          = (completeBlocks leftPages.flatten).flatMap (fun blk =>
              probeOutput (joinAttrsIDLeft L R) (joinAttrsIDRight L R) blk
                rightPages.flatten)) := by
  obtain ⟨_, _, e3, _, _, _, e7⟩ := nlj_execute (JoinOperator.new L R) rfl leftPages rightPages
  refine ⟨e7, completeBlocks_length _, e3, ?_⟩
  intro seatRef fits resultFile pool b op1 calls pool1 h
  have hk := nlj_executeOn_ok h
  have h3 : calls
      = (NestedLoopJoinOperator.execute (JoinOperator.new L R) leftPages rightPages).2.2 :=
    congrArg (fun t => t.2.2) hk
  rw [h3]
  exact ⟨e7, e3⟩

/-- Witness for C21: three rows of `r`, one per page, and two rows of `s`,
joined into `result.tbl` in the pool `exOneRead true`: the join returns after
three `allocPage` calls and without a block probed. -/
theorem C21_witness :
    ∃ op1 calls pool1,
      NestedLoopJoinOperator.executeOn true anyFits exResultFile
          (JoinOperator.new exLeftSchema exRightSchema) (onePerPage (exLeftRows.map Row.record))
          (onePerPage (exRightRows.map Row.record)) (exOneRead true)
        = some (.ok true, op1, calls, pool1) ∧
      allocPageCount calls = 3 ∧ insertedRecords calls = [] :=
  (nlj_executeOn_returns (fun _ _ => rfl) exResultFile
      (JoinOperator.new exLeftSchema exRightSchema) (onePerPage (exLeftRows.map Row.record))
      (onePerPage (exRightRows.map Row.record)) (exOneRead true) (exOneRead_reachable true)
      (fun i _ ho => exOneRead_no_result_frame i ho) ⟨_, _, _, rfl⟩).elim
    (fun op1 h1 => h1.elim (fun calls h2 => h2.elim (fun pool1 h3 =>
      ⟨op1, calls, pool1, h3,
        (C21_nested_loop_allocPage_count exLeftSchema exRightSchema
          (onePerPage (exLeftRows.map Row.record)) (onePerPage (exRightRows.map Row.record))).2.2.2
          true anyFits exResultFile (exOneRead true) true op1 calls pool1 h3⟩)))

end badgerdb
